import Mathlib

/-!
# Election core of the node (src/nano/node/election.cpp, node.cpp, voting.cpp,
request_aggregator.cpp)

Shallow embedding of the election state machine, of the node functions it
calls, of the votes cache and of the request aggregator.  The ledger
operations `process` and `rollback` are modelled from the specification, their
definitions marked `Modelled from the spec:`.  Conventions:

* `nano::uint128_t` (boost unchecked 128-bit unsigned) is `Nat`, every
  addition and multiplication reduced modulo `2 ^ 128`;
* `std::unordered_map` is an association list with the helper functions
  `map_find`, `map_emplace`, `map_assign`, `map_erase`; iteration order is the
  list order;
* `std::chrono::steady_clock::time_point` is an `Int` count of nanoseconds,
  and one call of an election operation reads a single clock value;
* `nano::tally_t` is declared outside the sources; it is modelled from the
  specification as a list of (weight, block) entries, greatest weight first,
  one entry for every voted block;
* `debug_assert` is a no-op (release build); dereferencing `begin ()` of an
  empty tally has no defined result and is `none`.
-/

namespace nano

/-! ## Basic types -/

abbrev account := Nat
abbrev block_hash := Nat
abbrev qualified_root := Nat

/-- Modulus of `nano::uint128_t` arithmetic, `2 ^ 128`. -/
def uint128_modulus : Nat := 340282366920938463463374607431768211456

/-- Nanoseconds in a millisecond and in a second (`std::chrono` casts). -/
def milliseconds (n : Int) : Int := n * 1000000
def seconds (n : Int) : Int := n * 1000000000

/-- The value `std::chrono::steady_clock::time_point::min ()`. -/
def time_point_min : Int := -9223372036854775808

/-- A block as far as the election reads it: its hash, its qualified root and
its work (two block objects with one hash may differ in work). -/
structure block where
  hash : block_hash
  qualified_root : qualified_root
  work : Nat
deriving DecidableEq, Repr

/-- The class `nano::vote_info` (election.hpp). -/
structure vote_info where
  time : Int
  sequence : Nat
  hash : block_hash
deriving DecidableEq, Repr

/-- The class `nano::election_vote_result` (election.hpp). -/
structure election_vote_result where
  replay : Bool
  processed : Bool
deriving DecidableEq, Repr

inductive election_behavior where
  | normal
  | optimistic
deriving DecidableEq, Repr

/-- The enum `nano::election::state_t` (election.hpp). -/
inductive state_t where
  | passive
  | active
  | broadcasting
  | confirmed
  | expired_confirmed
  | expired_unconfirmed
deriving DecidableEq, Repr

/-- The members of `nano::election_status_type` that election.cpp names. -/
inductive election_status_type where
  | ongoing
  | active_confirmed_quorum
  | stopped
deriving DecidableEq, Repr

/-- The record `nano::election_status` as election.cpp fills it. -/
structure election_status where
  winner : block
  tally : Nat
  election_end : Int
  election_duration : Int
  confirmation_request_count : Nat
  block_count : Nat
  voter_count : Nat
  type : election_status_type
deriving DecidableEq, Repr

/-- A vote kept by the local votes cache: its signer, sequence and hashes. -/
structure vote where
  account : account
  sequence : Nat
  blocks : List block_hash
deriving DecidableEq, Repr

/-- The class `nano::cached_votes` (voting.hpp): one hash and its votes. -/
structure cached_votes where
  hash : block_hash
  votes : List vote
deriving DecidableEq, Repr

/-- Modelled from the spec: an inactive-vote cache entry (active_transactions
is not part of the sources at hand); the election reads `voters` and
`arrival`. -/
structure inactive_cache_information where
  arrival : Int
  voters : List account
deriving DecidableEq, Repr

/-- Counters of `nano::stat::detail` that election.cpp increments. -/
inductive stat_detail where
  | vote_new
  | vote_cached
  | late_block
  | late_block_seconds
deriving DecidableEq, Repr

/-- Both clocks one operation reads: `steady_clock::now ()` and
`system_clock::now ()` (milliseconds since the epoch). -/
structure clock where
  steady : Int
  system : Int
deriving DecidableEq, Repr

/-! ## Association lists standing for `std::unordered_map` -/

/-- The call `m.find (k)`: the mapped value, `none` for `end ()`. -/
def map_find {β : Type} : List (Nat × β) → Nat → Option β
  | [], _ => none
  | p :: rest, k => if p.1 = k then some p.2 else map_find rest k

/-- The call `m.emplace (k, v)`: inserts only when the key is absent. -/
def map_emplace {β : Type} (m : List (Nat × β)) (k : Nat) (v : β) : List (Nat × β) :=
  match map_find m k with
  | some _ => m
  | none => m ++ [(k, v)]

/-- The assignment `m[k] = v`: overwrites the value or inserts the key. -/
def map_assign {β : Type} : List (Nat × β) → Nat → β → List (Nat × β)
  | [], k, v => [(k, v)]
  | p :: rest, k, v => if p.1 = k then (k, v) :: rest else p :: map_assign rest k v

/-- The call `m.erase (k)`. -/
def map_erase {β : Type} : List (Nat × β) → Nat → List (Nat × β)
  | [], _ => []
  | p :: rest, k => if p.1 = k then map_erase rest k else p :: map_erase rest k

/-! ## The node as the election sees it -/

/-- The parts of `nano::node` that election.cpp reads or writes.  The first
group is configuration and ledger data, the second is state shared with the
election, the third logs calls into components outside these sources.  The
last four fields serve `election::cleanup`: the hashes indexed by
`node.active.blocks`, the map `node.active.recently_dropped`, the hashes
notified to `observers.active_stopped`, and the blocks whose digests the
scheduled worker task clears from `network.publish_filter`. -/
structure node where
  is_test_network : Bool
  principal_weight_factor : Nat
  not_an_account : account
  online_stake : Nat
  online_weight_minimum : Nat
  online_weight_quorum : Nat
  weight : account → Nat
  enable_voting : Bool
  reps_voting : Nat
  votes_cache : List cached_votes
  election_winner_details : List block_hash
  inactive_votes_cache : List (block_hash × inactive_cache_information)
  recently_confirmed : List (qualified_root × block_hash)
  process_confirmed_log : List election_status
  forced : List block
  flooded : List block
  background_actions : List block
  stats : List (stat_detail × Int)
  active_blocks : List block_hash
  recently_dropped : List (qualified_root × Int)
  active_stopped : List block_hash
  publish_filter_cleared : List block

/-- The function `nano::node::delta` (node.cpp): the online stake is divided
by 100 first and the quotient multiplied by the configured quorum, in 128-bit
unsigned arithmetic. -/
def node.delta (n : node) : Nat :=
  ((n.online_stake / 100) * n.online_weight_quorum) % uint128_modulus

/-- The function `nano::node::minimum_principal_weight (online_stake)`. -/
def node.minimum_principal_weight (n : node) (online_stake : Nat) : Nat :=
  online_stake / n.principal_weight_factor

/-- The function `nano::votes_cache::find` (voting.cpp). -/
def votes_cache_find : List cached_votes → block_hash → List vote
  | [], _ => []
  | c :: rest, h => if c.hash = h then c.votes else votes_cache_find rest h

/-- The function `nano::votes_cache::remove` (voting.cpp). -/
def votes_cache_remove (cache : List cached_votes) (h : block_hash) : List cached_votes :=
  cache.filter (fun c => decide (c.hash ≠ h))

/-- Modelled from the spec: `active_transactions::find_inactive_votes_cache`
returns the cache entry of the hash, or an entry without voters. -/
def find_inactive_votes_cache (n : node) (h : block_hash) : inactive_cache_information :=
  match map_find n.inactive_votes_cache h with
  | some c => c
  | none => { arrival := 0, voters := [] }

/-- Modelled from the spec: `active_transactions::add_recently_confirmed`
pushes the pair onto `recently_confirmed`; the bound of the ring (dropping the
oldest entry) is left out, so the list records every insertion. -/
def add_recently_confirmed (n : node) (r : qualified_root) (h : block_hash) : node :=
  { n with recently_confirmed := n.recently_confirmed ++ [(r, h)] }

/-! ## The election -/

/-- Modelled from the spec: the type `nano::tally_t`, whose declaration is not
part of the sources.  The spec describes the tally as the summed weight of
every voted block, top and second being the two largest: the weights with
their blocks, greatest weight first, one entry for every voted block. -/
abbrev tally_t := List (Nat × block)

/-- The class `nano::election` (election.hpp). -/
structure election where
  behavior : election_behavior
  prioritized_m : Bool
  has_confirmation_action : Bool
  state_m : state_t
  state_start : Int
  last_block : Int
  last_req : Int
  election_start : Int
  last_votes : List (account × vote_info)
  blocks : List (block_hash × block)
  status : election_status
  confirmation_request_count : Nat
  last_tally : List (block_hash × Nat)
  height : Nat

def passive_duration_factor : Int := 5
def active_request_count_min : Nat := 2
def confirmed_duration_factor : Int := 5
/-- The member `late_blocks_delay{ 5 }` (seconds). -/
def late_blocks_delay : Int := 5

/-- The function `nano::election::base_latency`, in nanoseconds. -/
def election.base_latency (n : node) : Int :=
  if n.is_test_network then milliseconds 25 else milliseconds 1000

/-- The function `nano::election::valid_change`. -/
def valid_change (expected_a desired_a : state_t) : Bool :=
  match expected_a with
  | state_t.passive =>
    match desired_a with
    | state_t.active => true
    | state_t.confirmed => true
    | state_t.expired_unconfirmed => true
    | _ => false
  | state_t.active =>
    match desired_a with
    | state_t.broadcasting => true
    | state_t.confirmed => true
    | state_t.expired_unconfirmed => true
    | _ => false
  | state_t.broadcasting =>
    match desired_a with
    | state_t.confirmed => true
    | state_t.expired_unconfirmed => true
    | _ => false
  | state_t.confirmed =>
    match desired_a with
    | state_t.expired_confirmed => true
    | _ => false
  | state_t.expired_unconfirmed => false
  | state_t.expired_confirmed => false

/-- The function `nano::election::confirmed`. -/
def election.confirmed (e : election) : Bool :=
  decide (e.state_m = state_t.confirmed) || decide (e.state_m = state_t.expired_confirmed)

/-- The function `nano::election::failed`. -/
def election.failed (e : election) : Bool :=
  decide (e.state_m = state_t.expired_unconfirmed)

/-- The function `nano::election::optimistic`. -/
def election.optimistic (e : election) : Bool :=
  decide (e.behavior = election_behavior.optimistic)

/-- The function `nano::election::have_quorum`.  `none` stands for the empty
tally with enough tally sum, whose `begin ()` the source advances and
dereferences. -/
def have_quorum (n : node) (tally_a : tally_t) (tally_sum : Nat) : Option Bool :=
  if tally_sum ≥ n.online_weight_minimum then
    match tally_a with
    | [] => none
    | first :: rest =>
      let second : Nat := match rest with
        | [] => 0
        | i :: _ => i.1
      let delta_l := n.delta
      some (decide (first.1 > (second + delta_l) % uint128_modulus))
  else
    some false

/-- The statement `block_weights[hash] += weight` of `election::tally`: a
missing key starts from 0, the sum is a 128-bit unsigned sum. -/
def block_weights_add : List (block_hash × Nat) → block_hash → Nat → List (block_hash × Nat)
  | [], h, w => [(h, w % uint128_modulus)]
  | p :: rest, h, w =>
    if p.1 = h then (h, (p.2 + w) % uint128_modulus) :: rest
    else p :: block_weights_add rest h w

/-- Modelled from the spec: the call `result.emplace (weight, block)` on a
`nano::tally_t`, whose declaration is not part of the sources.  The entries
are ordered greatest weight first; following the spec's tally, which holds
the sum of every voted block, an entry is kept also when its weight is already
present, and goes after the entries of equal weight. -/
def tally_emplace (k : Nat) (b : block) : tally_t → tally_t
  | [] => [(k, b)]
  | p :: rest => if p.1 < k then (k, b) :: p :: rest else p :: tally_emplace k b rest

/-- The first loop of `election::tally`: the weight voted for each hash. -/
def block_weights (n : node) (last_votes : List (account × vote_info)) : List (block_hash × Nat) :=
  last_votes.foldl (fun bw v => block_weights_add bw v.2.hash (n.weight v.1)) []

/-- The second loop of `election::tally`: the weights of the hashes that are
blocks of the election, as a `tally_t`. -/
def tally_of (blocks : List (block_hash × block)) (bw : List (block_hash × Nat)) : tally_t :=
  bw.foldl (fun r item =>
    match map_find blocks item.1 with
    | some b => tally_emplace item.2 b r
    | none => r) []

/-- The function `nano::election::tally`; it also stores `last_tally`. -/
def election.tally (n : node) (e : election) : election × tally_t :=
  let bw := block_weights n e.last_votes
  ({ e with last_tally := bw }, tally_of e.blocks bw)

/-- The function `nano::election::remove_votes`. -/
def election.remove_votes (n : node) (e : election) (hash_a : block_hash) : election × node :=
  if n.enable_voting && decide (n.reps_voting > 0) then
    let list_generated_votes := votes_cache_find n.votes_cache hash_a
    let lv := list_generated_votes.foldl (fun m v => map_erase m v.account) e.last_votes
    ({ e with last_votes := lv }, { n with votes_cache := votes_cache_remove n.votes_cache hash_a })
  else
    (e, n)

/-- The function `nano::election::confirm_once`. -/
def election.confirm_once (n : node) (e : election) (type_a : election_status_type) (c : clock) :
    election × node :=
  let previous := e.state_m
  let e1 := { e with state_m := state_t.confirmed }
  if previous ≠ state_t.confirmed ∧ ¬ (e1.status.winner.hash ∈ n.election_winner_details) then
    let status_l : election_status :=
      { e1.status with
        election_end := c.system
        election_duration := Int.tdiv (c.steady - e1.election_start) 1000000
        confirmation_request_count := e1.confirmation_request_count
        block_count := e1.blocks.length
        voter_count := e1.last_votes.length
        type := type_a }
    let e2 := { e1 with status := status_l }
    let n1 := { n with election_winner_details := n.election_winner_details ++ [status_l.winner.hash] }
    let n2 := add_recently_confirmed n1 status_l.winner.qualified_root status_l.winner.hash
    let n3 := { n2 with process_confirmed_log := n2.process_confirmed_log ++ [status_l] }
    let n4 := if e2.has_confirmation_action then
        { n3 with background_actions := n3.background_actions ++ [status_l.winner] }
      else n3
    (e2, n4)
  else
    (e1, n)

/-- The sum `sum += i.first` over the tally in `confirm_if_quorum`. -/
def tally_sum (t : tally_t) : Nat :=
  t.foldl (fun s i => (s + i.1) % uint128_modulus) 0

/-- The winner switch inside `confirm_if_quorum` (the first `if` of the
function): with enough tallied weight and a tally winner other than the status
winner, the status winner is replaced, the votes generated for the previous
winner are removed and the block is forced into the block processor. -/
def election.switch_winner (n : node) (e : election) (block_l : block) (sum : Nat) :
    election × node :=
  let winner_hash_l := block_l.hash
  let status_winner_hash_l := e.status.winner.hash
  if sum ≥ n.online_weight_minimum ∧ winner_hash_l ≠ status_winner_hash_l then
    let e2 := { e with status := { e.status with winner := block_l } }
    let r := election.remove_votes n e2 status_winner_hash_l
    (r.1, { r.2 with forced := r.2.forced ++ [block_l] })
  else (e, n)

/-- The statement `status.tally = winner->first` of `confirm_if_quorum`. -/
def election.set_status_tally (e : election) (w : Nat) : election :=
  { e with status := { e.status with tally := w } }

/-- The function `nano::election::confirm_if_quorum`; `none` when the tally
is empty. -/
def election.confirm_if_quorum (n : node) (e : election) (c : clock) : Option (election × node) :=
  let te := election.tally n e
  match te.2 with
  | [] => none
  | winner :: rest =>
    let tally_l : tally_t := winner :: rest
    let e1 := election.set_status_tally te.1 winner.1
    let sum := tally_sum tally_l
    let en := election.switch_winner n e1 winner.2 sum
    match have_quorum en.2 tally_l sum with
    | some true =>
      some (election.confirm_once en.2 en.1 election_status_type.active_confirmed_quorum c)
    | _ => some en

/-- The cooldown chosen by `election::vote`, in seconds. -/
def vote_cooldown (weight online_stake : Nat) : Nat :=
  if weight < online_stake / 100 then 15
  else if weight < online_stake / 20 then 5
  else 1

/-- The call `node.stats.add (nano::stat::type::election, detail, ..., value)`:
the log of the node's statistics gets the counter and the amount. -/
def node.stats_add (n : node) (d : stat_detail) (value : Int) : node :=
  { n with stats := n.stats ++ [(d, value)] }

/-- The call `node.stats.inc (nano::stat::type::election, detail)`. -/
def node.stats_inc (n : node) (d : stat_detail) : node :=
  n.stats_add d 1

/-- The assignment `last_votes[rep] = { time, sequence, hash }`. -/
def election.set_last_vote (e : election) (rep : account) (info : vote_info) : election :=
  { e with last_votes := map_assign e.last_votes rep info }

/-- The decision part of `nano::election::vote`: the pair `(replay,
should_process)` computed before `last_votes` is written. -/
def election.vote_decision (n : node) (e : election) (rep : account) (sequence : Nat)
    (hash_a : block_hash) (c : clock) : Bool × Bool :=
  let online_stake := n.online_stake
  let weight := n.weight rep
  if n.is_test_network || decide (weight > n.minimum_principal_weight online_stake) then
    let cooldown := vote_cooldown weight online_stake
    match map_find e.last_votes rep with
    | none => (false, true)
    | some last_vote_l =>
      if last_vote_l.sequence < sequence ∨
          (last_vote_l.sequence = sequence ∧ last_vote_l.hash < hash_a) then
        if last_vote_l.time ≤ c.steady - seconds cooldown then (false, true) else (false, false)
      else (true, false)
  else (false, false)

/-- The function `nano::election::vote`. -/
def election.vote (n : node) (e : election) (rep : account) (sequence : Nat)
    (hash_a : block_hash) (c : clock) : Option (election × node × election_vote_result) :=
  let d := election.vote_decision n e rep sequence hash_a c
  let result : election_vote_result := { replay := d.1, processed := d.2 }
  if d.2 then
    let n1 := n.stats_inc stat_detail.vote_new
    let e1 := e.set_last_vote rep { time := c.steady, sequence := sequence, hash := hash_a }
    if !e1.confirmed then
      (election.confirm_if_quorum n1 e1 c).map (fun r => (r.1, r.2, result))
    else some (e1, n1, result)
  else some (e, n, result)

/-- The loop of `insert_inactive_votes_cache` over the cached voters. -/
def insert_cached_voters (hash_a : block_hash) :
    List account → List (account × vote_info) × List (stat_detail × Int) →
    List (account × vote_info) × List (stat_detail × Int)
  | [], acc => acc
  | rep :: rest, (lv, st) =>
    match map_find lv rep with
    | some _ => insert_cached_voters hash_a rest (lv, st)
    | none =>
      insert_cached_voters hash_a rest
        (lv ++ [(rep, { time := time_point_min, sequence := 0, hash := hash_a })],
          st ++ [(stat_detail.vote_cached, 1)])

/-- Replaces `last_votes` (the result of the `emplace` loop). -/
def election.set_last_votes (e : election) (lv : List (account × vote_info)) : election :=
  { e with last_votes := lv }

/-- Replaces the statistics log of the node. -/
def node.set_stats (n : node) (st : List (stat_detail × Int)) : node :=
  { n with stats := st }

/-- Replaces `blocks`. -/
def election.set_blocks (e : election) (bs : List (block_hash × block)) : election :=
  { e with blocks := bs }

/-- Replaces `last_tally`. -/
def election.set_last_tally (e : election) (lt : List (block_hash × Nat)) : election :=
  { e with last_tally := lt }

/-- The assignment `status.winner = block_a`. -/
def election.set_winner (e : election) (b : block) : election :=
  { e with status := { e.status with winner := b } }

/-- The call `node.network.flood_block (block_a, ...)`. -/
def node.flood_block (n : node) (b : block) : node :=
  { n with flooded := n.flooded ++ [b] }

/-- The function `nano::election::insert_inactive_votes_cache`. -/
def election.insert_inactive_votes_cache (n : node) (e : election) (hash_a : block_hash)
    (c : clock) : Option (election × node × Nat) :=
  let cache := find_inactive_votes_cache n hash_a
  let r := insert_cached_voters hash_a cache.voters (e.last_votes, n.stats)
  let e1 := e.set_last_votes r.1
  let n1 := n.set_stats r.2
  if !e1.confirmed && !cache.voters.isEmpty then
    let delay := Int.tdiv (c.steady - cache.arrival) 1000000000
    let n2 := if delay > late_blocks_delay then
        (n1.stats_inc stat_detail.late_block).stats_add stat_detail.late_block_seconds delay
      else n1
    (election.confirm_if_quorum n2 e1 c).map (fun r => (r.1, r.2, cache.voters.length))
  else some (e1, n1, cache.voters.length)

/-- The block `if (!result) { ... }` of `election::publish`: the block is
added (result `false`), or the stored block object of the same hash, and the
winner object if it has that hash, is replaced (result `true`). -/
def election.publish_insert (n : node) (e : election) (block_a : block) (c : clock) :
    Option (election × node × Bool) :=
  match map_find e.blocks block_a.hash with
  | none =>
    let e1 := e.set_blocks (e.blocks ++ [(block_a.hash, block_a)])
    match election.insert_inactive_votes_cache n e1 block_a.hash c with
    | none => none
    | some (e2, n2, count) =>
      if count = 0 then
        (election.confirm_if_quorum n2 e2 c).map (fun r => (r.1, r.2.flood_block block_a, false))
      else some (e2, n2.flood_block block_a, false)
  | some _ =>
    let e1 := e.set_blocks (map_assign e.blocks block_a.hash block_a)
    let e2 := if e1.status.winner.hash = block_a.hash then e1.set_winner block_a else e1
    some (e2, n, true)

/-- The function `nano::election::publish`; the result `true` means the
block was not added. -/
def election.publish (n : node) (e : election) (block_a : block) (c : clock) :
    Option (election × node × Bool) :=
  let result0 := e.confirmed
  let tooMany := !result0 && decide (e.blocks.length ≥ 10)
  let e0 := if tooMany then e.set_last_tally (map_emplace e.last_tally block_a.hash 0) else e
  let result1 :=
    if tooMany then
      if (map_find e.last_tally block_a.hash).getD 0 < n.online_stake / 10 then true else result0
    else result0
  if !result1 then election.publish_insert n e0 block_a c
  else some (e0, n, result1)

/-- The function `nano::election::state_change`; the result `false` means the
state was changed. -/
def election.state_change (e : election) (expected_a desired_a : state_t) (c : clock) :
    election × Bool :=
  if valid_change expected_a desired_a then
    if e.state_m = expected_a then
      ({ e with state_m := desired_a, state_start := c.steady }, false)
    else (e, true)
  else (e, true)

/-- What `confirmation_solicitor::add` and `confirmation_solicitor::broadcast`
return for this election in one tick (`true` is failure); the solicitor is an
external collaborator. -/
structure confirmation_solicitor where
  add : Bool
  broadcast : Bool
deriving DecidableEq, Repr

/-- The function `nano::election::send_confirm_req`; the request counter is
an `unsigned`. -/
def election.send_confirm_req (n : node) (e : election) (solicitor_a : confirmation_solicitor)
    (c : clock) : election :=
  if election.base_latency n * (if e.optimistic then 10 else 5) < c.steady - e.last_req then
    if !solicitor_a.add then
      { e with last_req := c.steady
               confirmation_request_count := (e.confirmation_request_count + 1) % 4294967296 }
    else e
  else e

/-- The function `nano::election::broadcast_block`. -/
def election.broadcast_block (n : node) (e : election) (solicitor_a : confirmation_solicitor)
    (c : clock) : election :=
  if election.base_latency n * 15 < c.steady - e.last_block then
    if !solicitor_a.broadcast then { e with last_block := c.steady } else e
  else e

/-- The function `nano::election::transition_active`. -/
def election.transition_active (e : election) (c : clock) : election :=
  (election.state_change e state_t.passive state_t.active c).1

/-- The `switch (state_m)` of `election::transition_time`: the step of the
current state, with the result flag it sets. -/
def election.transition_switch (n : node) (e : election) (solicitor_a : confirmation_solicitor)
    (c : clock) : election × Bool :=
  match e.state_m with
  | state_t.passive =>
    if election.base_latency n * passive_duration_factor < c.steady - e.state_start then
      ((election.state_change e state_t.passive state_t.active c).1, false)
    else (e, false)
  | state_t.active =>
    let e1 := election.send_confirm_req n e solicitor_a c
    if e1.confirmation_request_count > active_request_count_min then
      ((election.state_change e1 state_t.active state_t.broadcasting c).1, false)
    else (e1, false)
  | state_t.broadcasting =>
    (election.send_confirm_req n (election.broadcast_block n e solicitor_a c) solicitor_a c, false)
  | state_t.confirmed =>
    if election.base_latency n * confirmed_duration_factor < c.steady - e.state_start then
      ((election.state_change e state_t.confirmed state_t.expired_confirmed c).1, true)
    else (e, false)
  | state_t.expired_unconfirmed => (e, false)
  | state_t.expired_confirmed => (e, false)

/-- The assignment `status.type = type`. -/
def election.set_status_type (e : election) (t : election_status_type) : election :=
  { e with status := { e.status with type := t } }

/-- The function `nano::election::transition_time`; logging is left out. -/
def election.transition_time (n : node) (e : election) (solicitor_a : confirmation_solicitor)
    (c : clock) : election × Bool :=
  let r := election.transition_switch n e solicitor_a c
  let optimistic_expiration_time : Int := if n.is_test_network then 500 else 60 * 1000
  let expire_time := milliseconds (if r.1.optimistic then optimistic_expiration_time else 5 * 60 * 1000)
  if !r.1.confirmed && decide (expire_time < c.steady - r.1.election_start) then
    let e2 := (election.state_change r.1 r.1.state_m state_t.expired_unconfirmed c).1
    (e2.set_status_type election_status_type.stopped, true)
  else r

/-- The constructor `nano::election::election`. -/
def election.create (n : node) (block_a : block) (has_confirmation_action prioritized_a : Bool)
    (election_behavior_a : election_behavior) (height_a : Nat) (c : clock) : election :=
  { behavior := election_behavior_a
    prioritized_m := prioritized_a
    has_confirmation_action := has_confirmation_action
    state_m := state_t.passive
    state_start := c.steady
    last_block := c.steady
    last_req := 0
    election_start := c.steady
    last_votes := [(n.not_an_account, { time := c.steady, sequence := 0, hash := block_a.hash })]
    blocks := [(block_a.hash, block_a)]
    status :=
      { winner := block_a, tally := 0, election_end := c.system, election_duration := 0,
        confirmation_request_count := 0, block_count := 1, voter_count := 0,
        type := election_status_type.ongoing }
    confirmation_request_count := 0
    last_tally := []
    height := height_a }

/-- Modelled from the spec: `recently_dropped.add (root)` of the scheduler
records the root with the drop timestamp; the bound of the map is left out. -/
def recently_dropped_add (n : node) (r : qualified_root) (now : Int) : node :=
  { n with recently_dropped := n.recently_dropped ++ [(r, now)] }

/-- The body of the loop of `election::cleanup` for one hash of `blocks`: the
hash leaves `node.active.blocks` and the inactive-votes cache, and
`active_stopped` is notified for it if the election is unconfirmed or the
hash is not the winner's. -/
def cleanup_block (unconfirmed : Bool) (winner_hash : block_hash) (n : node) (hash : block_hash) :
    node :=
  let n1 := { n with
    active_blocks := n.active_blocks.filter (fun h => decide (h ≠ hash))
    inactive_votes_cache := map_erase n.inactive_votes_cache hash }
  if unconfirmed || decide (hash ≠ winner_hash) then
    { n1 with active_stopped := n1.active_stopped ++ [hash] }
  else n1

/-- The function `nano::election::cleanup`.  For an unconfirmed election the
map `blocks` is moved into the scheduled task; the moved-from map is taken to
be empty. -/
def election.cleanup (n : node) (e : election) (c : clock) : election × node :=
  let unconfirmed := !e.confirmed
  let winner_root := e.status.winner.qualified_root
  let winner_hash := e.status.winner.hash
  let n1 := e.blocks.foldl (fun m blk => cleanup_block unconfirmed winner_hash m blk.1) n
  if unconfirmed then
    let n2 := recently_dropped_add n1 winner_root c.steady
    (e.set_blocks [],
      { n2 with publish_filter_cleared := n2.publish_filter_cleared ++ e.blocks.map Prod.snd })
  else (e, n1)

/-! ## Sequences of election operations -/

/-- One call of a public operation of the election, with its arguments. -/
inductive election_op where
  | vote (rep : account) (sequence : Nat) (hash_a : block_hash)
  | publish (block_a : block)
  | insert_inactive_votes_cache (hash_a : block_hash)
  | confirm_if_quorum
  | confirm_once (type_a : election_status_type)
  | transition_time (solicitor_a : confirmation_solicitor)
  | transition_active
deriving DecidableEq, Repr

/-- The operation is a direct call of `confirm_if_quorum`. -/
def election_op.is_quorum_check : election_op → Bool
  | election_op.confirm_if_quorum => true
  | _ => false

/-- The effect of one operation, called at the given clock reading, on the
election and the node; results of the call are dropped. -/
def election.apply (s : election × node) (op : election_op) (c : clock) :
    Option (election × node) :=
  match op with
  | election_op.vote rep sequence hash_a =>
    (election.vote s.2 s.1 rep sequence hash_a c).map (fun r => (r.1, r.2.1))
  | election_op.publish block_a =>
    (election.publish s.2 s.1 block_a c).map (fun r => (r.1, r.2.1))
  | election_op.insert_inactive_votes_cache hash_a =>
    (election.insert_inactive_votes_cache s.2 s.1 hash_a c).map (fun r => (r.1, r.2.1))
  | election_op.confirm_if_quorum => election.confirm_if_quorum s.2 s.1 c
  | election_op.confirm_once type_a => some (election.confirm_once s.2 s.1 type_a c)
  | election_op.transition_time solicitor_a =>
    some ((election.transition_time s.2 s.1 solicitor_a c).1, s.2)
  | election_op.transition_active => some (election.transition_active s.1 c, s.2)

/-- A sequence of operations, each with the clock reading of its call. -/
def election.run : election × node → List (election_op × clock) → Option (election × node)
  | s, [] => some s
  | s, oc :: rest =>
    match election.apply s oc.1 oc.2 with
    | none => none
    | some s2 => election.run s2 rest

/-! ## Definitions that follow the words of the specification -/

/-- The transitions of the lifecycle as the specification lists them: passive
to active, active to broadcasting, active or broadcasting to confirmed,
confirmed to expired_confirmed, and any pre-confirmed state to
expired_unconfirmed. -/
def specified_transitions : List (state_t × state_t) :=
  [ (state_t.passive, state_t.active),
    (state_t.active, state_t.broadcasting),
    (state_t.active, state_t.confirmed),
    (state_t.broadcasting, state_t.confirmed),
    (state_t.confirmed, state_t.expired_confirmed),
    (state_t.passive, state_t.expired_unconfirmed),
    (state_t.active, state_t.expired_unconfirmed),
    (state_t.broadcasting, state_t.expired_unconfirmed) ]

/-- The quorum threshold in the words of the specification: the online stake
times the quorum percentage, divided by 100, in exact arithmetic. -/
def specified_quorum_threshold (n : node) : Nat :=
  n.online_stake * n.online_weight_quorum / 100

/-- The hard deadline of an election, in nanoseconds: 5 minutes for a normal
election, 60 seconds for an optimistic one, 500 ms for an optimistic one on
the test network. -/
def hard_deadline (n : node) (e : election) : Int :=
  match e.behavior with
  | election_behavior.normal => milliseconds (5 * 60 * 1000)
  | election_behavior.optimistic =>
    if n.is_test_network then milliseconds 500 else milliseconds (60 * 1000)

/-- The election is in one of the states passive, active, broadcasting. -/
def election.pre_confirmed (e : election) : Prop :=
  e.state_m = state_t.passive ∨ e.state_m = state_t.active ∨ e.state_m = state_t.broadcasting

/-- The capacity rule of `publish`: the election is not confirmed, and it
holds fewer than 10 blocks or the last tally of the block's hash (0 when the
hash has none) is at least a tenth of the online stake. -/
def election.publish_admits (n : node) (e : election) (b : block) : Prop :=
  e.confirmed = false ∧
    (e.blocks.length < 10 ∨ (map_find e.last_tally b.hash).getD 0 ≥ n.online_stake / 10)

/-- The election with the block added to `blocks`. -/
def election.with_block (e : election) (b : block) : election :=
  e.set_blocks (e.blocks ++ [(b.hash, b)])

/-- The election with the cached voters of the hash copied into
`last_votes`: the state in which `insert_inactive_votes_cache` checks the
quorum. -/
def election.with_cached_votes (n : node) (e : election) (h : block_hash) : election :=
  e.set_last_votes
    (insert_cached_voters h (find_inactive_votes_cache n h).voters (e.last_votes, n.stats)).1

/-- Two node records agree on the ledger weights and on the quorum
settings. -/
def node.same_ledger (n n1 : node) : Prop :=
  n1.weight = n.weight ∧ n1.online_stake = n.online_stake ∧
    n1.online_weight_minimum = n.online_weight_minimum ∧
    n1.online_weight_quorum = n.online_weight_quorum

/-- The value of a counter in the statistics log: the sum of the amounts
logged for it. -/
def stat_value (st : List (stat_detail × Int)) (d : stat_detail) : Int :=
  ((st.filter (fun p => decide (p.1 = d))).map Prod.snd).sum

/-- Every block of the election is stored under its own hash. -/
def election.blocks_keyed (e : election) : Prop :=
  ∀ p ∈ e.blocks, p.2.hash = p.1

/-- The largest weight of a list of weights (0 for the empty list). -/
def largest_weight (ws : List Nat) : Nat := ws.foldl max 0

/-- The next largest weight: the largest after one occurrence of the largest
is taken out (0 when nothing is left). -/
def next_largest_weight (ws : List Nat) : Nat := largest_weight (ws.erase (largest_weight ws))

/-- The weights of a tally, in its order. -/
def tally_weights (t : tally_t) : List Nat := t.map Prod.fst

/-- The ledger weights of the representatives whose entry in `last_votes`
names the hash. -/
def voted_weights (n : node) (last_votes : List (account × vote_info)) (h : block_hash) : List Nat :=
  (last_votes.filter (fun v => decide (v.2.hash = h))).map (fun v => n.weight v.1)

/-- The exact sum of the ledger weights of the representatives whose entry in
`last_votes` names the hash. -/
def voted_total (n : node) (last_votes : List (account × vote_info)) (h : block_hash) : Nat :=
  (voted_weights n last_votes h).sum

/-- The summed representative weight voted for a hash, as a 128-bit unsigned
integer. -/
def voted_sum (n : node) (last_votes : List (account × vote_info)) (h : block_hash) : Nat :=
  (voted_weights n last_votes h).sum % uint128_modulus

/-- The per-block sums of representative weight over `last_votes`, one for
each voted hash that is a block of the election. -/
def specified_block_sums (n : node) (e : election) : List Nat :=
  (((e.last_votes.map (fun v => v.2.hash)).dedup).filter
    (fun h => (map_find e.blocks h).isSome)).map (voted_sum n e.last_votes)

/-- The node votes with local representatives: the guard of
`election::remove_votes`. -/
def node.local_voting (n : node) : Prop :=
  n.enable_voting = true ∧ n.reps_voting > 0

/-- The local votes cache holds a generated vote of the account for the
hash. -/
def node.generated_vote (n : node) (h : block_hash) (rep : account) : Prop :=
  rep ∈ (votes_cache_find n.votes_cache h).map (fun v => v.account)

/-- The pair (sequence, hash) of a stored vote is lexicographically smaller
than the pair (S, H). -/
def vote_info.older (stored : vote_info) (sequence : Nat) (hash_a : block_hash) : Prop :=
  stored.sequence < sequence ∨ (stored.sequence = sequence ∧ stored.hash < hash_a)

/-- The pair (sequence, hash) of one stored vote is lexicographically smaller
than or equal to that of another. -/
def vote_info.lex_le (a b : vote_info) : Prop :=
  a.sequence < b.sequence ∨ (a.sequence = b.sequence ∧ a.hash ≤ b.hash)

/-- The condition under which the election accepts a vote: the representative
passes the principal-weight gate (always on the test network), and it has no
stored vote, or its stored vote is older and the cooldown has elapsed. -/
def election.accepts (n : node) (e : election) (rep : account) (sequence : Nat)
    (hash_a : block_hash) (c : clock) : Prop :=
  (n.is_test_network = true ∨ n.weight rep > n.minimum_principal_weight n.online_stake) ∧
    (map_find e.last_votes rep = none ∨
      ∃ stored, map_find e.last_votes rep = some stored ∧ stored.older sequence hash_a ∧
        stored.time ≤ c.steady - seconds (vote_cooldown (n.weight rep) n.online_stake))

/-- The acceptance condition in the words of the specification, without the
principal-weight gate. -/
def election.specified_accepts (n : node) (e : election) (rep : account) (sequence : Nat)
    (hash_a : block_hash) (c : clock) : Prop :=
  map_find e.last_votes rep = none ∨
    ∃ stored, map_find e.last_votes rep = some stored ∧ stored.older sequence hash_a ∧
      stored.time ≤ c.steady - seconds (vote_cooldown (n.weight rep) n.online_stake)

/-- Two election records are in the same state and have a status winner of
the same hash. -/
def election.same_phase (e e1 : election) : Prop :=
  e1.state_m = e.state_m ∧ e1.status.winner.hash = e.status.winner.hash

/-- Every stored vote of the first record is a stored vote of the second. -/
def election.keeps_votes (e e1 : election) : Prop :=
  ∀ k v, map_find e.last_votes k = some v → map_find e1.last_votes k = some v

/-- Two node records agree on everything the election shares with the node
and reads back: the winner details, `recently_confirmed`, the votes cache and
the voting settings (they may differ in the logs of outgoing calls). -/
def node.same_shared (n n1 : node) : Prop :=
  n1.election_winner_details = n.election_winner_details ∧
    n1.recently_confirmed = n.recently_confirmed ∧
    n1.votes_cache = n.votes_cache ∧
    n1.enable_voting = n.enable_voting ∧
    n1.reps_voting = n.reps_voting

/-- The common shape of `vote`, `publish` and `insert_inactive_votes_cache`:
the operation first edits the election without touching its state or the
shared node data (reaching `e1`, `n1`, with `P e1`), and then either stops or,
only if the election was not confirmed, calls `confirm_if_quorum` once. -/
def election.quorum_call_shape (c : clock) (P : election → Prop) (e : election) (n : node)
    (e2 : election) (n2 : node) : Prop :=
  ∃ e1 n1, P e1 ∧ e.same_phase e1 ∧ n.same_shared n1 ∧
    ((e2 = e1 ∧ n.same_shared n2) ∨
      (e.confirmed = false ∧
        ∃ q, election.confirm_if_quorum n1 e1 c = some q ∧ e2 = q.1 ∧ q.2.same_shared n2))

/-- How one operation may touch `recently_confirmed`: either it inserts
nothing and leaves the winner details alone (and then it can only have made
the election confirmed if the winner's hash was already in the winner
details), or it inserts the pair of the winner exactly once, records the
winner's hash in the winner details, and the election is in state confirmed. -/
def election.confirmation_step (e : election) (n : node) (e2 : election) (n2 : node) : Prop :=
  (n2.recently_confirmed = n.recently_confirmed ∧
      n2.election_winner_details = n.election_winner_details ∧
      (e2.confirmed = true → e.confirmed = true ∨
        e2.status.winner.hash ∈ n.election_winner_details)) ∨
    (n2.recently_confirmed =
        n.recently_confirmed ++ [(e2.status.winner.qualified_root, e2.status.winner.hash)] ∧
      n2.election_winner_details = n.election_winner_details ++ [e2.status.winner.hash] ∧
      e2.state_m = state_t.confirmed ∧
      e2.status.winner.hash ∉ n.election_winner_details ∧
      e.state_m ≠ state_t.confirmed)

/-- The election is confirmed and its winner's hash is in the winner
details: the situation after `confirm_once` has recorded the winner. -/
def election.winner_recorded (e : election) (n : node) : Prop :=
  e.confirmed = true ∧ e.status.winner.hash ∈ n.election_winner_details

/-- A node with the given online stake, minimum and quorum and nothing else
(no weights, no caches), used for concrete evaluations. -/
def sample_node (is_test : Bool) (online_stake minimum quorum : Nat) (weight : account → Nat) : node :=
  { is_test_network := is_test
    principal_weight_factor := 1000
    not_an_account := 0
    online_stake := online_stake
    online_weight_minimum := minimum
    online_weight_quorum := quorum
    weight := weight
    enable_voting := false
    reps_voting := 0
    votes_cache := []
    election_winner_details := []
    inactive_votes_cache := []
    recently_confirmed := []
    process_confirmed_log := []
    forced := []
    flooded := []
    background_actions := []
    stats := []
    active_blocks := []
    recently_dropped := []
    active_stopped := []
    publish_filter_cleared := [] }

/-- An election in the given state with the given blocks, votes and winner;
every timer is 0 and nothing has been requested yet. -/
def sample_election (state : state_t) (blocks : List (block_hash × block))
    (last_votes : List (account × vote_info)) (winner : block) : election :=
  { behavior := election_behavior.normal
    prioritized_m := false
    has_confirmation_action := false
    state_m := state
    state_start := 0
    last_block := 0
    last_req := 0
    election_start := 0
    last_votes := last_votes
    blocks := blocks
    status :=
      { winner := winner, tally := 0, election_end := 0, election_duration := 0,
        confirmation_request_count := 0, block_count := 1, voter_count := 0,
        type := election_status_type.ongoing }
    confirmation_request_count := 0
    last_tally := []
    height := 1 }

/-- Two representatives: account 1 holds `2 ^ 127`, account 2 holds
`2 ^ 127 - 1`, every other account holds nothing. -/
def split_weights (a : account) : Nat :=
  if a = 1 then 170141183460469231731687303715884105728
  else if a = 2 then 170141183460469231731687303715884105727
  else 0

/-- An election over the fork of blocks 1 and 2 in which account 1 voted for
block 1 and account 2 for block 2. -/
def split_election : election :=
  sample_election state_t.passive [(1, ⟨1, 9, 0⟩), (2, ⟨2, 9, 0⟩)]
    [(1, ⟨0, 1, 1⟩), (2, ⟨0, 1, 2⟩)] ⟨1, 9, 0⟩

/-- A test-network node that votes with one local representative, account 2,
whose generated vote for block 2 is in the votes cache. -/
def voting_node : node :=
  { sample_node true 1000 0 100 split_weights with
    enable_voting := true
    reps_voting := 1
    votes_cache := [⟨2, [⟨2, 5, [2]⟩]⟩] }

/-- An election over the fork of blocks 1 and 2 whose winner is block 2 and in
which only account 2 has voted, with sequence 5 for block 2. -/
def fork_election : election :=
  sample_election state_t.passive [(2, ⟨2, 9, 0⟩), (1, ⟨1, 9, 0⟩)] [(2, ⟨0, 5, 2⟩)] ⟨2, 9, 0⟩

/-- A test-network node whose winner details already hold the hash 7. -/
def winner_known_node : node :=
  { sample_node true 1000 0 50 (fun _ => 0) with election_winner_details := [7] }

/-- An unconfirmed election that holds ten blocks, with hashes 1 to 10, in
which account 1 has voted for the hash 11 of a block it does not hold yet; the
last tally has recorded the weight 50 of that vote. -/
def crowded_election : election :=
  { sample_election state_t.passive
      [(1, ⟨1, 9, 0⟩), (2, ⟨2, 9, 0⟩), (3, ⟨3, 9, 0⟩), (4, ⟨4, 9, 0⟩), (5, ⟨5, 9, 0⟩),
        (6, ⟨6, 9, 0⟩), (7, ⟨7, 9, 0⟩), (8, ⟨8, 9, 0⟩), (9, ⟨9, 9, 0⟩), (10, ⟨10, 9, 0⟩)]
      [(1, ⟨0, 1, 11⟩)] ⟨1, 9, 0⟩ with
    last_tally := [(11, 50)] }

/-- A test-network node with online stake 1000 and a quorum of 1 percent on
which account 1 has weight 50 and no other account has weight. -/
def small_quorum_node : node :=
  sample_node true 1000 0 1 (fun a => if a = 1 then 50 else 0)

/-- The node `voting_node` whose inactive-votes cache holds account 1 as a
voter for the hash 1. -/
def cached_voting_node : node :=
  { voting_node with inactive_votes_cache := [(1, ⟨0, [1]⟩)] }

/-! ## The request aggregator (request_aggregator.cpp) -/

abbrev root := Nat

/-- One step of the `std::sort` of `erase_duplicates`: the pair is put before
the first pair whose hash is not smaller. -/
def insert_by_hash (a : block_hash × root) : List (block_hash × root) → List (block_hash × root)
  | [] => [a]
  | b :: rest => if a.1 ≤ b.1 then a :: b :: rest else b :: insert_by_hash a rest

/-- The call `std::sort (begin, end, comp)` of `erase_duplicates`, whose
comparison is `pair1.first < pair2.first`.  The library leaves open the order
of pairs with equal hash; here they keep their order. -/
def sort_by_hash : List (block_hash × root) → List (block_hash × root)
  | [] => []
  | a :: rest => insert_by_hash a (sort_by_hash rest)

/-- The tail of `std::unique` with the predicate `pair1.first == pair2.first`
once the pair `a` has been kept: pairs with the hash of `a` are skipped. -/
def unique_from (a : block_hash × root) : List (block_hash × root) → List (block_hash × root)
  | [] => [a]
  | b :: rest => if a.1 = b.1 then unique_from a rest else a :: unique_from b rest

/-- The call `erase (std::unique (begin, end, pred), end)`: of every run of
consecutive pairs with one hash only the first is kept. -/
def unique_hashes : List (block_hash × root) → List (block_hash × root)
  | [] => []
  | a :: rest => unique_from a rest

/-- The function `nano::request_aggregator::erase_duplicates`. -/
def erase_duplicates (requests_a : List (block_hash × root)) : List (block_hash × root) :=
  unique_hashes (sort_by_hash requests_a)

abbrev endpoint := Nat

/-- A transport channel as the aggregator uses it: an identity and the
endpoint `map_endpoint_to_v6 (channel->get_endpoint ())`. -/
structure channel where
  id : Nat
  endpoint : endpoint
deriving DecidableEq, Repr

/-- The struct `request_aggregator::channel_pool` (request_aggregator.hpp). -/
structure channel_pool where
  hashes_roots : List (block_hash × root)
  channel : channel
  endpoint : endpoint
  start : Int
  deadline : Int
deriving DecidableEq, Repr

/-- The counters of `nano::stat::detail` that request_aggregator.cpp writes. -/
inductive aggregator_detail where
  | aggregator_accepted
  | aggregator_dropped
  | requests_cannot_vote
  | requests_unknown
  | requests_cached_hashes
  | requests_cached_votes
  | requests_generated_hashes
  | requests_generated_votes
deriving DecidableEq, Repr

/-- The members of `nano::request_aggregator` that `add` reads or writes: the
three constants, the container `requests` (in insertion order, one pool per
endpoint) and the log of the statistics calls. -/
structure request_aggregator where
  max_delay : Int
  small_delay : Int
  max_channel_requests : Nat
  requests : List channel_pool
  stats : List (aggregator_detail × Nat)
deriving DecidableEq, Repr

/-- The constructor of `nano::request_aggregator`: delays of 50 ms and 10 ms
on the test network, 300 ms and 50 ms otherwise, and the cap
`config.max_queued_requests`. -/
def request_aggregator.create (is_test_network : Bool) (max_queued_requests : Nat) :
    request_aggregator :=
  { max_delay := milliseconds (if is_test_network then 50 else 300)
    small_delay := milliseconds (if is_test_network then 10 else 50)
    max_channel_requests := max_queued_requests
    requests := []
    stats := [] }

/-- The value of a counter in the statistics log of the aggregator. -/
def aggregator_stat (st : List (aggregator_detail × Nat)) (d : aggregator_detail) : Nat :=
  ((st.filter (fun p => decide (p.1 = d))).map Prod.snd).sum

/-- The constructor `channel_pool (channel_a)`: no requests, the start time
is the clock, the deadline is the default time point (the epoch). -/
def channel_pool.create (channel_a : nano.channel) (now : Int) : channel_pool :=
  { hashes_roots := [], channel := channel_a, endpoint := channel_a.endpoint, start := now,
    deadline := 0 }

/-- The call `requests_by_endpoint.find (endpoint)`. -/
def find_pool : List channel_pool → endpoint → Option channel_pool
  | [], _ => none
  | p :: rest, ep => if p.endpoint = ep then some p else find_pool rest ep

/-- The call `requests_by_endpoint.modify (existing, f)` on the pool of the
endpoint. -/
def modify_pool (f : channel_pool → channel_pool) : List channel_pool → endpoint → List channel_pool
  | [], _ => []
  | p :: rest, ep => if p.endpoint = ep then f p :: rest else p :: modify_pool f rest ep

/-- The deadline of `requests.get<tag_deadline> ().begin ()`: the earliest
deadline of the pools after the first one and of `d`. -/
def earliest_deadline (d : Int) : List channel_pool → Int
  | [] => d
  | p :: rest => earliest_deadline (min d p.deadline) rest

/-- The test that lets `add` touch the pools: no pool is queued, or the
oldest deadline plus twice `max_delay` is still ahead. -/
def request_aggregator.accepting (s : request_aggregator) (now : Int) : Bool :=
  match s.requests with
  | [] => true
  | p :: rest => decide (earliest_deadline p.deadline rest + 2 * s.max_delay > now)

/-- The test of the lambda in `add`: the batch fits into the pool. -/
def channel_pool.fits (max_channel_requests : Nat) (pool_a : channel_pool)
    (hashes_roots_a : List (block_hash × root)) : Bool :=
  decide (pool_a.hashes_roots.length + hashes_roots_a.length ≤ max_channel_requests)

/-- The lambda that `add` passes to `modify`: the channel is replaced, and
if the batch fits, the deadline is reset and the batch is inserted at the
front of the pool. -/
def add_to_pool (s : request_aggregator) (channel_a : channel)
    (hashes_roots_a : List (block_hash × root)) (now : Int) (pool_a : channel_pool) :
    channel_pool :=
  if pool_a.fits s.max_channel_requests hashes_roots_a then
    { pool_a with
      channel := channel_a
      deadline := min (pool_a.start + s.max_delay) (now + s.small_delay)
      hashes_roots := hashes_roots_a ++ pool_a.hashes_roots }
  else { pool_a with channel := channel_a }

/-- The pool that `existing` points to in `add`: the pool of the endpoint, or
the pool that is emplaced for it. -/
def request_aggregator.pool_of (s : request_aggregator) (channel_a : channel) (now : Int) :
    channel_pool :=
  match find_pool s.requests channel_a.endpoint with
  | some p => p
  | none => channel_pool.create channel_a now

/-- The value of `error` at the end of `add`. -/
def request_aggregator.add_error (s : request_aggregator) (channel_a : channel)
    (hashes_roots_a : List (block_hash × root)) (now : Int) : Bool :=
  if s.accepting now then
    !(s.pool_of channel_a now).fits s.max_channel_requests hashes_roots_a
  else true

/-- The function `nano::request_aggregator::add`. -/
def request_aggregator.add (s : request_aggregator) (channel_a : channel)
    (hashes_roots_a : List (block_hash × root)) (now : Int) : request_aggregator :=
  let error := s.add_error channel_a hashes_roots_a now
  let requests1 :=
    if s.accepting now then
      let emplaced :=
        match find_pool s.requests channel_a.endpoint with
        | some _ => s.requests
        | none => s.requests ++ [channel_pool.create channel_a now]
      modify_pool (add_to_pool s channel_a hashes_roots_a now) emplaced channel_a.endpoint
    else s.requests
  { s with
    requests := requests1
    stats := s.stats ++
      [(if !error then aggregator_detail.aggregator_accepted
        else aggregator_detail.aggregator_dropped, 1)] }

/-- A sequence of `add` calls, each with its channel, batch and clock. -/
def request_aggregator.add_all (s : request_aggregator) :
    List (channel × List (block_hash × root) × Int) → request_aggregator
  | [] => s
  | call :: rest => (s.add call.1 call.2.1 call.2.2).add_all rest

/-- The requests queued for an endpoint: the list of its pool, empty when the
endpoint has no pool. -/
def request_aggregator.pool_requests (s : request_aggregator) (ep : endpoint) :
    List (block_hash × root) :=
  match find_pool s.requests ep with
  | some p => p.hashes_roots
  | none => []

/-- What `aggregate` and `generate` read from the ledger, the store and the
election scheduler, none of which is part of these sources: the election
winner of a hash (`active.winner`), the block of a hash (`store.block_get`),
the successor of a block root (`store.block_successor`, zero when there is
none), the open block of an account root (`store.account_get`, `none` on
error) and `ledger.dependents_confirmed`. -/
structure aggregator_ledger where
  winner : block_hash → Option block
  block_get : block_hash → Option block
  block_successor : root → block_hash
  account_open_block : root → Option block_hash
  dependents_confirmed : block → Bool

/-- A message handed to `channel_a->send`. -/
inductive message where
  | publish (b : block)
  | confirm_ack (v : vote)
deriving DecidableEq, Repr

/-- The local variables of `aggregate` together with the messages sent to
the channel and the log of the statistics calls. -/
structure aggregate_state where
  cached_hashes : Nat
  to_generate : List block_hash
  cached_votes : List vote
  sent : List message
  stats : List (aggregator_detail × Nat)
deriving DecidableEq, Repr

/-- Step 4 of `aggregate`, the successor of the requested root: the
successor by block root, or else the open block of the account root, zero when
neither exists. -/
def aggregator_ledger.successor (l : aggregator_ledger) (r : root) : block_hash :=
  let successor := l.block_successor r
  if successor = 0 then
    match l.account_open_block r with
    | some open_block => open_block
    | none => successor
  else successor

/-- Steps 2 to 5 of `aggregate` for one request without cached votes: the
block that is considered further (`block` of the source) and the cached votes
of the successor that are added to the reply. -/
def aggregator_ledger.lookup (l : aggregator_ledger) (cache : List cached_votes)
    (hash_root : block_hash × root) : Option block × List vote :=
  let block0 := l.winner hash_root.1
  let block1 := match block0 with
    | some b => some b
    | none => l.block_get hash_root.1
  if block1.isNone && decide (hash_root.2 ≠ 0) then
    let successor := l.successor hash_root.2
    if successor ≠ 0 then
      let successor_block := l.block_get successor
      let find_successor_votes := votes_cache_find cache successor
      if find_successor_votes ≠ [] then (block1, find_successor_votes)
      else (successor_block, [])
    else (block1, [])
  else (block1, [])

/-- The block `if (block) { ... } else { ... }` of `aggregate`. -/
def aggregate_block (l : aggregator_ledger) (st : aggregate_state) (hash : block_hash) :
    Option block → aggregate_state
  | some b =>
    let st1 :=
      if l.dependents_confirmed b then { st with to_generate := st.to_generate ++ [b.hash] }
      else { st with stats := st.stats ++ [(aggregator_detail.requests_cannot_vote, 1)] }
    if b.hash ≠ hash then { st1 with sent := st1.sent ++ [message.publish b] } else st1
  | none => { st with stats := st.stats ++ [(aggregator_detail.requests_unknown, 1)] }

/-- The body of the loop of `aggregate` for one request. -/
def aggregate_request (l : aggregator_ledger) (cache : List cached_votes) (st : aggregate_state)
    (hash_root : block_hash × root) : aggregate_state :=
  let find_votes := votes_cache_find cache hash_root.1
  if find_votes ≠ [] then
    { st with
      cached_hashes := st.cached_hashes + 1
      cached_votes := st.cached_votes ++ find_votes }
  else
    let found := l.lookup cache hash_root
    aggregate_block l { st with cached_votes := st.cached_votes ++ found.2 } hash_root.1 found.1

/-- The function `nano::request_aggregator::aggregate`; the result is the
final state, whose `to_generate` the source returns.  The cached votes are
shared pointers that the source sorts and makes unique by address; here equal
votes are one vote, and the order of the unique votes is the one that
`List.dedup` leaves. -/
def aggregate (l : aggregator_ledger) (cache : List cached_votes)
    (stats : List (aggregator_detail × Nat)) (requests_a : List (block_hash × root)) :
    aggregate_state :=
  let st := requests_a.foldl (aggregate_request l cache)
    { cached_hashes := 0, to_generate := [], cached_votes := [], sent := [], stats := stats }
  let unique_votes := st.cached_votes.dedup
  { st with
    cached_votes := unique_votes
    sent := st.sent ++ unique_votes.map message.confirm_ack
    stats := st.stats ++ [(aggregator_detail.requests_cached_hashes, st.cached_hashes),
      (aggregator_detail.requests_cached_votes, unique_votes.length)] }

/-- A ledger that holds the block of hash 2 as the successor of the root 9 and
nothing else; no election is active. -/
def successor_ledger : aggregator_ledger :=
  { winner := fun _ => none
    block_get := fun h => if h = 2 then some ⟨2, 9, 0⟩ else none
    block_successor := fun r => if r = 9 then 2 else 0
    account_open_block := fun _ => none
    dependents_confirmed := fun _ => true }

/-- The hash is the hash of a block that was found for the request (as an
election winner, in the ledger by hash, or as the ledger successor of the
requested root) and whose dependents are confirmed, and the hash of the
request has no cached votes. -/
def aggregator_ledger.confirmable (l : aggregator_ledger) (cache : List cached_votes)
    (hash_root : block_hash × root) (h : block_hash) : Prop :=
  votes_cache_find cache hash_root.1 = [] ∧
    ∃ b : block, b.hash = h ∧ l.dependents_confirmed b = true ∧
      (l.winner hash_root.1 = some b ∨ l.block_get hash_root.1 = some b ∨
        (hash_root.2 ≠ 0 ∧ l.successor hash_root.2 ≠ 0 ∧
          l.block_get (l.successor hash_root.2) = some b))

/-! ## The local votes cache (voting.cpp) -/

/-- The lambda of `votes_cache::add` for a cached hash: the first vote of the
same representative is replaced, and if there is none the vote is pushed
back. -/
def replace_vote (vote_a : vote) : List vote → List vote
  | [] => [vote_a]
  | v :: rest => if v.account = vote_a.account then vote_a :: rest else v :: replace_vote vote_a rest

/-- The call `cache.get<tag_hash> ().modify (existing, f)` on the entry of
the hash. -/
def modify_cached (f : List vote → List vote) : List cached_votes → block_hash → List cached_votes
  | [], _ => []
  | c :: rest, h =>
    if c.hash = h then { c with votes := f c.votes } :: rest else c :: modify_cached f rest h

/-- The call `cache.get<tag_hash> ().find (hash) != end ()`. -/
def votes_cache_has (cache : List cached_votes) (h : block_hash) : Bool :=
  cache.any (fun c => decide (c.hash = h))

/-- The body of the loop of `votes_cache::add` for one hash of the vote.  The
list is the cache in its sequence order; `pop_front` on an empty cache (only
possible with `max_cache_size = 0`) is taken to leave it empty. -/
def votes_cache_add_hash (max_cache_size : Nat) (vote_a : vote) (cache : List cached_votes)
    (hash : block_hash) : List cached_votes :=
  if votes_cache_has cache hash then modify_cached (replace_vote vote_a) cache hash
  else
    let cache1 := if cache.length ≥ max_cache_size then cache.tail else cache
    cache1 ++ [{ hash := hash, votes := [vote_a] }]

/-- The function `nano::votes_cache::add` (voting.cpp); `voting` is
`wallets.reps ().voting` and `max_cache` is `network_params.voting.max_cache`. -/
def votes_cache_add (max_cache voting : Nat) (cache : List cached_votes) (vote_a : vote) :
    List cached_votes :=
  if voting = 0 then cache
  else
    let max_cache_size := max_cache / max voting 1
    vote_a.blocks.foldl (votes_cache_add_hash max_cache_size vote_a) cache

/-- One call on the votes cache: `add (vote)` or `remove (hash)`. -/
inductive votes_cache_op where
  | add (vote_a : vote)
  | remove (hash_a : block_hash)
deriving DecidableEq, Repr

/-- The cache after one call. -/
def votes_cache_apply (max_cache voting : Nat) (cache : List cached_votes) :
    votes_cache_op → List cached_votes
  | votes_cache_op.add vote_a => votes_cache_add max_cache voting cache vote_a
  | votes_cache_op.remove hash_a => votes_cache_remove cache hash_a

/-- The cache after a sequence of calls. -/
def votes_cache_run (max_cache voting : Nat) (cache : List cached_votes)
    (ops : List votes_cache_op) : List cached_votes :=
  ops.foldl (votes_cache_apply max_cache voting) cache

/-- The invariant of the cache: no hash is cached twice, the votes of a hash
have pairwise distinct accounts, and at most `max_cache / voting` hashes are
cached. -/
def votes_cache_ok (max_cache voting : Nat) (cache : List cached_votes) : Prop :=
  (cache.map (fun c => c.hash)).Nodup ∧
    (∀ c ∈ cache, (c.votes.map (fun v => v.account)).Nodup) ∧
    cache.length ≤ max_cache / voting

/-! ## Vote generation of the aggregator: `generate` -/

/-- The local variables of `generate` and what it writes: the store (whose
`vote_generate` is not part of these sources and is a parameter), the count
`generated_l`, the calls of `vote_generate` with their votes in order, the
messages sent to the channel and the votes cache. -/
structure generate_state (σ : Type) where
  store : σ
  generated_l : Nat
  votes : List ((account × List block_hash) × vote)
  sent : List message
  cache : List cached_votes

/-- The lambda that `generate` passes to `wallets.foreach_representative`,
for one representative: a vote for the batch is generated, counted, sent and
added to the votes cache. -/
def generate_vote {σ : Type} (vote_generate : σ → account → List block_hash → vote × σ)
    (max_cache voting : Nat) (hashes_l : List block_hash) (st : generate_state σ)
    (pub_a : account) : generate_state σ :=
  let r := vote_generate st.store pub_a hashes_l
  { store := r.2
    generated_l := st.generated_l + 1
    votes := st.votes ++ [((pub_a, hashes_l), r.1)]
    sent := st.sent ++ [message.confirm_ack r.1]
    cache := votes_cache_add max_cache voting st.cache r.1 }

/-- The loop `while (i != n)` of `generate`: each round moves up to
`confirm_ack_hashes_max` hashes into `hashes_l` and runs the lambda for every
representative.  The first argument bounds the number of rounds; `none` means
the bound was reached with hashes left. -/
def generate_loop {σ : Type} (vote_generate : σ → account → List block_hash → vote × σ)
    (max_cache voting confirm_ack_hashes_max : Nat) (representatives : List account) :
    Nat → List block_hash → generate_state σ → Option (generate_state σ)
  | _, [], st => some st
  | 0, _ :: _, _ => none
  | fuel + 1, h :: rest, st =>
    let hashes_l := (h :: rest).take confirm_ack_hashes_max
    let st1 := representatives.foldl
      (generate_vote vote_generate max_cache voting hashes_l) st
    generate_loop vote_generate max_cache voting confirm_ack_hashes_max representatives fuel
      ((h :: rest).drop confirm_ack_hashes_max) st1

/-- The function `nano::request_aggregator::generate`: the loop, then the two
statistics calls; the result is the final state with the statistics log. -/
def generate {σ : Type} (vote_generate : σ → account → List block_hash → vote × σ)
    (max_cache voting confirm_ack_hashes_max : Nat) (representatives : List account)
    (fuel : Nat) (hashes_a : List block_hash) (store : σ) (cache : List cached_votes)
    (stats : List (aggregator_detail × Nat)) :
    Option (generate_state σ × List (aggregator_detail × Nat)) :=
  (generate_loop vote_generate max_cache voting confirm_ack_hashes_max representatives fuel
    hashes_a { store := store, generated_l := 0, votes := [], sent := [], cache := cache }).map
    (fun st => (st, stats ++
      [(aggregator_detail.requests_generated_hashes, hashes_a.length),
        (aggregator_detail.requests_generated_votes, st.generated_l)]))

/-- Cuts the list in order into pieces of `m` hashes, the last one possibly
shorter; the first argument bounds the number of pieces. -/
def batches_of (m : Nat) : Nat → List block_hash → List (List block_hash)
  | _, [] => []
  | 0, _ :: _ => []
  | fuel + 1, h :: rest => (h :: rest).take m :: batches_of m fuel ((h :: rest).drop m)

/-- The batches of the specification: the list cut in order into consecutive
batches of `confirm_ack_hashes_max` hashes, the last one possibly shorter. -/
def specified_batches (confirm_ack_hashes_max : Nat) (hashes : List block_hash) :
    List (List block_hash) :=
  batches_of confirm_ack_hashes_max hashes.length hashes

/-- The calls of `vote_generate` that the specification asks for: one per
batch and representative, batch by batch. -/
def specified_vote_calls (batches : List (List block_hash)) (representatives : List account) :
    List (account × List block_hash) :=
  batches.flatMap (fun b => representatives.map (fun r => (r, b)))

/-- The state `st1` is the state `st` after the votes `new` have been
generated in this order: each is counted, sent as a confirm_ack and added to
the votes cache. -/
def generate_state.extended {σ : Type} (max_cache voting : Nat) (st st1 : generate_state σ)
    (new : List ((account × List block_hash) × vote)) : Prop :=
  st1.votes = st.votes ++ new ∧
    st1.generated_l = st.generated_l + new.length ∧
    st1.sent = st.sent ++ new.map (fun x => message.confirm_ack x.2) ∧
    st1.cache = (new.map Prod.snd).foldl (votes_cache_add max_cache voting) st.cache

/-- A store for the examples, whose `vote_generate` numbers the votes of an
account one after the other; the store holds the last sequence number of each
account. -/
def sample_vote_generate (store : List (account × Nat)) (pub_a : account)
    (hashes : List block_hash) : vote × List (account × Nat) :=
  let sequence := (map_find store pub_a).getD 0 + 1
  (⟨pub_a, sequence, hashes⟩, map_assign store pub_a sequence)

/-- The placeholder vote of the account `na` names a block of the election,
the blocks are stored under their hashes, the winner's hash is a key of
blocks, and the node holds no generated vote of `na`. -/
def election.quorum_ready (na : account) (e : election) (n : node) : Prop :=
  (∃ info, map_find e.last_votes na = some info ∧
      (map_find e.blocks info.hash).isSome = true) ∧
    e.blocks_keyed ∧
    (map_find e.blocks e.status.winner.hash).isSome = true ∧
    (∀ h, ¬ n.generated_vote h na)

/-- The operations that build an election before cleanup: `vote` by an
account other than `na`, `publish` and `insert_inactive_votes_cache`. -/
def election_op.builds (na : account) : election_op → Prop
  | election_op.vote rep _ _ => rep ≠ na
  | election_op.publish _ => True
  | election_op.insert_inactive_votes_cache _ => True
  | _ => False

/-! ## The ledger (section 4.1 of the specification)

The ledger and the store are not part of the sources at hand (only their
tests are); the definitions of this section follow the specification. -/

/-- Modelled from the spec: the lookup in a table of the store (the store is
not part of the sources); a table is a list of keys with their values. -/
def table_get {κ β : Type} [DecidableEq κ] : List (κ × β) → κ → Option β
  | [], _ => none
  | p :: rest, k => if p.1 = k then some p.2 else table_get rest k

/-- Modelled from the spec: deleting a key from a table of the store. -/
def table_del {κ β : Type} [DecidableEq κ] : List (κ × β) → κ → List (κ × β)
  | [], _ => []
  | p :: rest, k => if p.1 = k then table_del rest k else p :: table_del rest k

/-- Modelled from the spec: writing a key of a table of the store. -/
def table_put {κ β : Type} [DecidableEq κ] (m : List (κ × β)) (k : κ) (v : β) :
    List (κ × β) :=
  (k, v) :: table_del m k

/-- Modelled from the spec: the variants of a block (section 3). -/
inductive ledger_block_type where
  | send
  | receive
  | open
  | change
  | state
deriving DecidableEq, Repr

/-- Modelled from the spec: the details of the sideband. -/
structure block_details where
  is_send : Bool
  is_receive : Bool
  is_epoch : Bool
deriving DecidableEq, Repr

/-- Modelled from the spec: the sideband computed when a block is applied
(the timestamp is left out). -/
structure block_sideband where
  height : Nat
  epoch : Nat
  details : block_details
deriving DecidableEq, Repr

/-- Modelled from the spec: a block with its common attributes (section 3).
A legacy block does not declare all of them: the account of a send, receive
or change, the balance of a receive, open or change and the representative of
a send or receive are derived when the block is applied.  The link is the
destination account of a send, the source hash of a receive or open, and an
epoch marker or zero otherwise. -/
structure ledger_block where
  type : ledger_block_type
  hash : block_hash
  previous : block_hash
  account : nano.account
  representative : nano.account
  balance : Nat
  link : Nat
  work : Nat
deriving DecidableEq, Repr

/-- Modelled from the spec: a block as the ledger stores it, the derived
attributes filled in, with its sideband. -/
structure stored_block where
  block : ledger_block
  sideband : block_sideband
deriving DecidableEq, Repr

/-- Modelled from the spec: the account info (the time `modified` is left
out). -/
structure account_info where
  head : block_hash
  open_block : block_hash
  balance : Nat
  representative : nano.account
  block_count : Nat
  epoch : Nat
deriving DecidableEq, Repr

/-- Modelled from the spec: the value of a pending entry; its key is
(destination account, send hash). -/
structure pending_info where
  source : nano.account
  amount : Nat
  epoch : Nat
deriving DecidableEq, Repr

/-- Modelled from the spec: the confirmation-height info of an account. -/
structure confirmation_height_info where
  height : Nat
  frontier : block_hash
deriving DecidableEq, Repr

/-- Modelled from the spec: the ledger state, its tables and cached
counters. -/
structure ledger where
  blocks : List (block_hash × stored_block)
  accounts : List (account × account_info)
  pending : List ((account × block_hash) × pending_info)
  weights : List (account × Nat)
  frontiers : List (block_hash × account)
  confirmation_height : List (account × confirmation_height_info)
  block_count : Nat
  account_count : Nat
  cemented_count : Nat
  epoch_2_started : Bool
deriving DecidableEq, Repr

/-- Modelled from the spec: the fixed external constants of the ledger: the
epoch level that a link marks (none when the link is no epoch marker), the work
threshold for the details of a block, the signature check of a block against
its account, and the burn account. -/
structure ledger_constants where
  epoch_of_link : Nat → Option Nat
  work_threshold : block_details → Nat
  signature_valid : account → ledger_block → Bool
  burn_account : account

/-- Modelled from the spec: the outcomes of `process` (the table of section
4.1). -/
inductive process_result where
  | progress
  | old
  | gap_previous
  | gap_source
  | bad_signature
  | negative_spend
  | fork
  | unreceivable
  | gap_epoch_open_pending
  | opened_burn_account
  | balance_mismatch
  | representative_mismatch
  | block_position
  | insufficient_work
deriving DecidableEq, Repr

/-- Modelled from the spec: what the validation of a block hands to its
application: the block as it will be stored, the info of its account before
the block (none when the block opens the account), and the amount sent or
received. -/
structure block_effect where
  stored : stored_block
  info : Option account_info
  amount : Nat
deriving DecidableEq, Repr

/-- Modelled from the spec: the block with its derived attributes filled
in. -/
def ledger_block.resolved (b : ledger_block) (a representative : nano.account) (balance : Nat) :
    ledger_block :=
  { b with account := a, representative := representative, balance := balance }

/-- Modelled from the spec: the effect of a block that is stored with the
given height, epoch and details. -/
def block_effect.make (b : ledger_block) (height epoch : Nat) (details : block_details)
    (info : Option account_info) (amount : Nat) : block_effect :=
  { stored := { block := b, sideband := { height := height, epoch := epoch, details := details } },
    info := info, amount := amount }

/-- Modelled from the spec: the weight of a representative, zero when the
table has no row. -/
def ledger.weight (st : ledger) (rep : account) : Nat :=
  (table_get st.weights rep).getD 0

/-- Modelled from the spec: adding an amount to the weight of a
representative, in 128-bit unsigned arithmetic. -/
def weights_add (w : List (account × Nat)) (rep : account) (amount : Nat) :
    List (account × Nat) :=
  table_put w rep (((table_get w rep).getD 0 + amount) % uint128_modulus)

/-- Modelled from the spec: subtracting an amount from the weight of a
representative, in 128-bit unsigned arithmetic. -/
def weights_sub (w : List (account × Nat)) (rep : account) (amount : Nat) :
    List (account × Nat) :=
  table_put w rep
    (((table_get w rep).getD 0 + (uint128_modulus - amount % uint128_modulus)) % uint128_modulus)

/-- Modelled from the spec: the account and its info that the frontier index
gives for the previous block of a legacy block; a missing previous block is
`gap_previous`, a state block as previous is `block_position`, and a previous
block that is not the head of an account is `fork`. -/
def ledger.legacy_account (st : ledger) (b : ledger_block) :
    Except process_result (account × account_info) :=
  match table_get st.blocks b.previous with
  | none => Except.error process_result.gap_previous
  | some pb =>
    if pb.block.type = ledger_block_type.state then Except.error process_result.block_position
    else
      match table_get st.frontiers b.previous with
      | none => Except.error process_result.fork
      | some a =>
        match table_get st.accounts a with
        | none => Except.error process_result.fork
        | some info =>
          if info.head = b.previous then Except.ok (a, info)
          else Except.error process_result.fork

/-- Modelled from the spec: the pending entry that a receive of the account
consumes; an unknown source block is `gap_source`, a missing entry is
`unreceivable`. -/
def ledger.receivable (st : ledger) (a : account) (source : block_hash) :
    Except process_result pending_info :=
  match table_get st.blocks source with
  | none => Except.error process_result.gap_source
  | some _ =>
    match table_get st.pending (a, source) with
    | none => Except.error process_result.unreceivable
    | some p => Except.ok p

/-- Modelled from the spec: validation of a legacy send block. -/
def validate_send (st : ledger) (b : ledger_block) : Except process_result block_effect :=
  match st.legacy_account b with
  | Except.error code => Except.error code
  | Except.ok (a, info) =>
    if b.balance ≥ info.balance then Except.error process_result.negative_spend
    else Except.ok
      (block_effect.make (b.resolved a info.representative b.balance)
        (info.block_count + 1) info.epoch ⟨true, false, false⟩
        (some info) (info.balance - b.balance))

/-- Modelled from the spec: validation of a legacy receive block. -/
def validate_receive (st : ledger) (b : ledger_block) : Except process_result block_effect :=
  match st.legacy_account b with
  | Except.error code => Except.error code
  | Except.ok (a, info) =>
    match st.receivable a b.link with
    | Except.error code => Except.error code
    | Except.ok p =>
      Except.ok
        (block_effect.make (b.resolved a info.representative (info.balance + p.amount))
          (info.block_count + 1) (max info.epoch p.epoch) ⟨false, true, false⟩
          (some info) p.amount)

/-- Modelled from the spec: validation of a legacy open block. -/
def validate_open (k : ledger_constants) (st : ledger) (b : ledger_block) :
    Except process_result block_effect :=
  if b.account = k.burn_account then Except.error process_result.opened_burn_account
  else
    match table_get st.accounts b.account with
    | some _ => Except.error process_result.fork
    | none =>
      match st.receivable b.account b.link with
      | Except.error code => Except.error code
      | Except.ok p =>
        Except.ok
          (block_effect.make { b with previous := 0, balance := p.amount }
            1 p.epoch ⟨false, true, false⟩ none p.amount)

/-- Modelled from the spec: validation of a legacy change block. -/
def validate_change (st : ledger) (b : ledger_block) : Except process_result block_effect :=
  match st.legacy_account b with
  | Except.error code => Except.error code
  | Except.ok (a, info) =>
    Except.ok
      (block_effect.make (b.resolved a b.representative info.balance)
        (info.block_count + 1) info.epoch ⟨false, false, false⟩ (some info) 0)

/-- Modelled from the spec: validation of a state block that opens its
account: an epoch block needs a zero balance, a zero representative and some
pending entry of the account, any other block receives its source. -/
def validate_state_open (k : ledger_constants) (st : ledger) (b : ledger_block) :
    Except process_result block_effect :=
  if b.account = k.burn_account then Except.error process_result.opened_burn_account
  else
    match table_get st.accounts b.account with
    | some _ => Except.error process_result.fork
    | none =>
      match k.epoch_of_link b.link with
      | some e =>
        if b.balance ≠ 0 then Except.error process_result.balance_mismatch
        else if b.representative ≠ 0 then Except.error process_result.representative_mismatch
        else if !st.pending.any (fun p => decide (p.1.1 = b.account)) then
          Except.error process_result.gap_epoch_open_pending
        else Except.ok
          (block_effect.make b
            1 e ⟨false, false, true⟩ none 0)
      | none =>
        match st.receivable b.account b.link with
        | Except.error code => Except.error code
        | Except.ok p =>
          if b.balance ≠ p.amount then Except.error process_result.balance_mismatch
          else Except.ok
            (block_effect.make b
              1 p.epoch ⟨false, true, false⟩ none p.amount)

/-- Modelled from the spec: validation of a state block with a previous
block: a lower balance is a send, a zero link is a change, an epoch marker is
an epoch block (same balance, same representative, next epoch level), and any
other link is the source of a receive. -/
def validate_state_next (k : ledger_constants) (st : ledger) (b : ledger_block) :
    Except process_result block_effect :=
  match table_get st.blocks b.previous with
  | none => Except.error process_result.gap_previous
  | some _ =>
    match table_get st.accounts b.account with
    | none => Except.error process_result.fork
    | some info =>
      if info.head ≠ b.previous then Except.error process_result.fork
      else if b.balance < info.balance then
        Except.ok
          (block_effect.make b
            (info.block_count + 1) info.epoch ⟨true, false, false⟩
            (some info) (info.balance - b.balance))
      else if b.link = 0 then
        if b.balance ≠ info.balance then Except.error process_result.balance_mismatch
        else Except.ok
          (block_effect.make b
            (info.block_count + 1) info.epoch ⟨false, false, false⟩ (some info) 0)
      else
        match k.epoch_of_link b.link with
        | some e =>
          if b.balance ≠ info.balance then Except.error process_result.balance_mismatch
          else if b.representative ≠ info.representative then
            Except.error process_result.representative_mismatch
          else if e ≠ info.epoch + 1 then Except.error process_result.block_position
          else Except.ok
            (block_effect.make b
              (info.block_count + 1) e ⟨false, false, true⟩ (some info) 0)
        | none =>
          match st.receivable b.account b.link with
          | Except.error code => Except.error code
          | Except.ok p =>
            if b.balance ≠ info.balance + p.amount then
              Except.error process_result.balance_mismatch
            else Except.ok
              (block_effect.make b
                (info.block_count + 1) (max info.epoch p.epoch) ⟨false, true, false⟩
                (some info) p.amount)

/-- Modelled from the spec: validation of a block, by its variant. -/
def validate (k : ledger_constants) (st : ledger) (b : ledger_block) :
    Except process_result block_effect :=
  match b.type with
  | ledger_block_type.send => validate_send st b
  | ledger_block_type.receive => validate_receive st b
  | ledger_block_type.open => validate_open k st b
  | ledger_block_type.change => validate_change st b
  | ledger_block_type.state =>
    if b.previous = 0 then validate_state_open k st b else validate_state_next k st b

/-- Modelled from the spec: the account info after the block. -/
def block_effect.account_info (eff : block_effect) : account_info :=
  { head := eff.stored.block.hash
    open_block := match eff.info with
      | some info => info.open_block
      | none => eff.stored.block.hash
    balance := eff.stored.block.balance
    representative := eff.stored.block.representative
    block_count := eff.stored.sideband.height
    epoch := eff.stored.sideband.epoch }

/-- Modelled from the spec: step (c) of a block in progress: the weight of
the prior representative loses the predecessor's balance and the weight of the
new representative gains the new balance. -/
def block_effect.weights (eff : block_effect) (w : List (account × Nat)) : List (account × Nat) :=
  weights_add
    (match eff.info with
      | some info => weights_sub w info.representative info.balance
      | none => w)
    eff.stored.block.representative eff.stored.block.balance

/-- Modelled from the spec: step (d) of a block in progress: a send inserts
the pending entry (destination, hash), a receive removes the entry
(account, source). -/
def block_effect.pending (eff : block_effect)
    (pending : List ((account × block_hash) × pending_info)) :
    List ((account × block_hash) × pending_info) :=
  if eff.stored.sideband.details.is_send then
    table_put pending (eff.stored.block.link, eff.stored.block.hash)
      { source := eff.stored.block.account, amount := eff.amount,
        epoch := eff.stored.sideband.epoch }
  else if eff.stored.sideband.details.is_receive then
    table_del pending (eff.stored.block.account, eff.stored.block.link)
  else pending

/-- Modelled from the spec: step (b) of a block in progress: the frontier
index loses the previous head and maps the new head to the account. -/
def block_effect.frontiers (eff : block_effect) (frontiers : List (block_hash × account)) :
    List (block_hash × account) :=
  table_put
    (match eff.info with
      | some info => table_del frontiers info.head
      | none => frontiers)
    eff.stored.block.hash eff.stored.block.account

/-- Modelled from the spec: the ledger after a block in progress, steps (a)
to (e) of section 4.1. -/
def ledger.apply (st : ledger) (eff : block_effect) : ledger :=
  { blocks := table_put st.blocks eff.stored.block.hash eff.stored
    accounts := table_put st.accounts eff.stored.block.account eff.account_info
    pending := eff.pending st.pending
    weights := eff.weights st.weights
    frontiers := eff.frontiers st.frontiers
    confirmation_height := st.confirmation_height
    block_count := st.block_count + 1
    account_count := st.account_count + (if eff.info.isNone then 1 else 0)
    cemented_count := st.cemented_count
    epoch_2_started := st.epoch_2_started || decide (eff.stored.sideband.epoch ≥ 2) }

/-- Modelled from the spec: the operation `process (block)`: a stored hash
is `old`; otherwise the block is validated by its variant, its signature and
its work are checked, and on `progress` the block is applied. -/
def ledger.process (k : ledger_constants) (st : ledger) (b : ledger_block) :
    process_result × ledger :=
  if (table_get st.blocks b.hash).isSome then (process_result.old, st)
  else
    match validate k st b with
    | Except.error code => (code, st)
    | Except.ok eff =>
      if !k.signature_valid eff.stored.block.account b then (process_result.bad_signature, st)
      else if b.work < k.work_threshold eff.stored.sideband.details then
        (process_result.insufficient_work, st)
      else (process_result.progress, st.apply eff)

/-- Modelled from the spec: the confirmation height of an account, zero when
the table has no row. -/
def ledger.confirmed_height (st : ledger) (a : account) : Nat :=
  match table_get st.confirmation_height a with
  | some info => info.height
  | none => 0

/-- Modelled from the spec: the block is cemented: its height is not above
the confirmation height of its account. -/
def ledger.cemented (st : ledger) (sb : stored_block) : Bool :=
  decide (sb.sideband.height ≤ st.confirmed_height sb.block.account)

/-- Modelled from the spec: the pending entry that the rollback of a receive
recreates: the source account and the epoch are those of the source block, the
amount is the balance that the receive added. -/
def ledger.recreated_pending (st : ledger) (sb : stored_block) (previous_balance : Nat) :
    Option pending_info :=
  match table_get st.blocks sb.block.link with
  | some source =>
    some { source := source.block.account, amount := sb.block.balance - previous_balance,
           epoch := source.sideband.epoch }
  | none => none

/-- Modelled from the spec: the pending table after the rollback of the
block: the entry of a send is removed, the entry of a receive is recreated
(`none` when its source block is missing). -/
def ledger.undo_pending (st : ledger) (sb : stored_block) (previous_balance : Nat) :
    Option (List ((account × block_hash) × pending_info)) :=
  if sb.sideband.details.is_send then
    some (table_del st.pending (sb.block.link, sb.block.hash))
  else if sb.sideband.details.is_receive then
    (st.recreated_pending sb previous_balance).map
      (fun p => table_put st.pending (sb.block.account, sb.block.link) p)
  else some st.pending

/-- Modelled from the spec: the rollback of the head block of an account
that has a previous block: the head is reset to the previous block, the
weights are restored, the pending entry is removed or recreated. -/
def ledger.undo_next (st : ledger) (sb previous : stored_block) (info : account_info) :
    Option ledger :=
  (st.undo_pending sb previous.block.balance).map (fun pending =>
    { blocks := table_del st.blocks sb.block.hash
      accounts := table_put st.accounts sb.block.account
        { head := sb.block.previous, open_block := info.open_block,
          balance := previous.block.balance, representative := previous.block.representative,
          block_count := previous.sideband.height, epoch := previous.sideband.epoch }
      pending := pending
      weights := weights_add
        (weights_sub st.weights sb.block.representative sb.block.balance)
        previous.block.representative previous.block.balance
      frontiers := table_put (table_del st.frontiers sb.block.hash) sb.block.previous
        sb.block.account
      confirmation_height := st.confirmation_height
      block_count := st.block_count - 1
      account_count := st.account_count
      cemented_count := st.cemented_count
      epoch_2_started := st.epoch_2_started })

/-- Modelled from the spec: the rollback of the open block of an account:
the account is removed, the weight of its representative is restored and the
pending entry is recreated. -/
def ledger.undo_open (st : ledger) (sb : stored_block) : Option ledger :=
  (st.undo_pending sb 0).map (fun pending =>
    { blocks := table_del st.blocks sb.block.hash
      accounts := table_del st.accounts sb.block.account
      pending := pending
      weights := weights_sub st.weights sb.block.representative sb.block.balance
      frontiers := table_del st.frontiers sb.block.hash
      confirmation_height := st.confirmation_height
      block_count := st.block_count - 1
      account_count := st.account_count - 1
      cemented_count := st.cemented_count
      epoch_2_started := st.epoch_2_started })

/-- Modelled from the spec: the rollback of the head block of an account. -/
def ledger.undo_head (st : ledger) (sb : stored_block) (info : account_info) : Option ledger :=
  if sb.block.previous = 0 then st.undo_open sb
  else
    match table_get st.blocks sb.block.previous with
    | some previous => st.undo_next sb previous info
    | none => none

/-- Modelled from the spec: the send at the head of an account has been
received: its pending entry is gone. -/
def ledger.received (st : ledger) (sb : stored_block) : Bool :=
  sb.sideband.details.is_send &&
    (table_get st.pending (sb.block.link, sb.block.hash)).isNone

/-- Modelled from the spec: the operation `rollback (hash)`: undo all blocks
from the head of the account down to and including the hash; `none` is the
error result.  A cemented block is not rolled back.  A send that has been
received is undone after the head of the destination account has been rolled
back.  The first argument bounds the number of steps. -/
def ledger.rollback : Nat → ledger → block_hash → Option ledger
  | 0, _, _ => none
  | fuel + 1, st, hash =>
    match table_get st.blocks hash with
    | none => none
    | some sb =>
      if st.cemented sb then none
      else
        match table_get st.accounts sb.block.account with
        | none => none
        | some info =>
          match table_get st.blocks info.head with
          | none => none
          | some head =>
            if st.received head then
              match table_get st.accounts head.block.link with
              | none => none
              | some destination =>
                match ledger.rollback fuel st destination.head with
                | none => none
                | some st1 => ledger.rollback fuel st1 hash
            else
              match st.undo_head head info with
              | none => none
              | some st1 => if info.head = hash then some st1 else ledger.rollback fuel st1 hash

/-- Modelled from the spec: the invariants of the data model (section 3) that
the rollback relies on: no block has the zero hash; the info of an account
mirrors its head block, which the frontier index maps to the account; the
frontier index and the pending table name stored blocks only, a pending
entry carrying the account and the epoch of its send; and the weights are
128-bit values. -/
def ledger.consistent (st : ledger) : Prop :=
  table_get st.blocks 0 = none ∧
    (∀ a info, table_get st.accounts a = some info →
      ∃ head, table_get st.blocks info.head = some head ∧
        head.block.account = a ∧ head.block.balance = info.balance ∧
        head.block.representative = info.representative ∧
        head.sideband.height = info.block_count ∧ head.sideband.epoch = info.epoch ∧
        table_get st.frontiers info.head = some a) ∧
    (∀ h a, table_get st.frontiers h = some a → (table_get st.blocks h).isSome = true) ∧
    (∀ d h p, table_get st.pending (d, h) = some p →
      ∃ source, table_get st.blocks h = some source ∧
        source.block.account = p.source ∧ source.sideband.epoch = p.epoch) ∧
    (∀ a w, table_get st.weights a = some w → w < uint128_modulus)

/-- Modelled from the spec: two ledger states hold the same data: the same
blocks, account infos (heads, balances, representatives), representative
weights, pending entries, frontiers, confirmation heights and counters. -/
def ledger.same (st st1 : ledger) : Prop :=
  (∀ h, table_get st1.blocks h = table_get st.blocks h) ∧
    (∀ a, table_get st1.accounts a = table_get st.accounts a) ∧
    (∀ key, table_get st1.pending key = table_get st.pending key) ∧
    (∀ rep, st1.weight rep = st.weight rep) ∧
    (∀ h, table_get st1.frontiers h = table_get st.frontiers h) ∧
    (∀ a, table_get st1.confirmation_height a = table_get st.confirmation_height a) ∧
    st1.block_count = st.block_count ∧ st1.account_count = st.account_count ∧
    st1.cemented_count = st.cemented_count

/-- Modelled from the spec: the ledger after `store.initialize` with a
genesis open block of hash 1 that gives account 1, its own representative, a
balance of 1000 at confirmation height 1. -/
def genesis_ledger : ledger :=
  { blocks := [(1, ⟨⟨ledger_block_type.open, 1, 0, 1, 1, 1000, 1, 0⟩, ⟨1, 0, ⟨false, false, false⟩⟩⟩)]
    accounts := [(1, ⟨1, 1, 1000, 1, 1, 0⟩)]
    pending := []
    weights := [(1, 1000)]
    frontiers := [(1, 1)]
    confirmation_height := [(1, ⟨1, 1⟩)]
    block_count := 1
    account_count := 1
    cemented_count := 1
    epoch_2_started := false }

/-- Constants for the examples: the link 99 marks epoch 1, no work is
required, every signature verifies, and the burn account is 0. -/
def sample_constants : ledger_constants :=
  { epoch_of_link := fun l => if l = 99 then some 1 else none
    work_threshold := fun _ => 0
    signature_valid := fun _ _ => true
    burn_account := 0 }

/-- Modelled from the spec: what the validation of a block establishes for
its effect on the ledger state: the info is the one of the account, the
previous block is its head (zero when the block opens the account), and a
receive consumes a pending entry of the account whose amount is the rise of
the balance. -/
def block_effect.valid (eff : block_effect) (st : ledger) : Prop :=
  table_get st.accounts eff.stored.block.account = eff.info ∧
    (∀ info, eff.info = some info → eff.stored.block.previous = info.head) ∧
    (eff.info = none → eff.stored.block.previous = 0) ∧
    (eff.stored.sideband.details.is_send = false →
      eff.stored.sideband.details.is_receive = true →
      ∃ p, table_get st.pending (eff.stored.block.account, eff.stored.block.link) = some p ∧
        (∀ info, eff.info = some info → eff.stored.block.balance = info.balance + p.amount) ∧
        (eff.info = none → eff.stored.block.balance = p.amount))

/-! ## Lemmas on weights -/

theorem foldl_max_ge_init (ws : List Nat) (a : Nat) : a ≤ ws.foldl max a := by
  induction ws generalizing a with
  | nil => exact Nat.le_refl a
  | cons w rest ih => exact Nat.le_trans (Nat.le_max_left a w) (ih (max a w))

theorem foldl_max_of_le (ws : List Nat) (a : Nat) (h : ∀ w ∈ ws, w ≤ a) : ws.foldl max a = a := by
  induction ws generalizing a with
  | nil => rfl
  | cons w rest ih =>
    have hw : w ≤ a := h w (List.mem_cons_self w rest)
    have hmax : max a w = a := Nat.max_eq_left hw
    simp only [List.foldl_cons, hmax]
    exact ih a (fun x hx => h x (List.mem_cons_of_mem w hx))

/-- In a list of weights ordered descending the largest weight is the head. -/
theorem largest_weight_sorted (w : Nat) (rest : List Nat)
    (h : List.Pairwise (fun a b => a ≥ b) (w :: rest)) : largest_weight (w :: rest) = w := by
  unfold largest_weight
  simp only [List.foldl_cons, Nat.zero_max]
  exact foldl_max_of_le rest w (fun x hx => (List.pairwise_cons.mp h).1 x hx)

/-- In a list of weights ordered descending the next largest weight is the
second entry, or 0 when there is none. -/
theorem next_largest_weight_sorted (w : Nat) (rest : List Nat)
    (h : List.Pairwise (fun a b => a ≥ b) (w :: rest)) :
    next_largest_weight (w :: rest) = rest.headD 0 := by
  unfold next_largest_weight
  rw [largest_weight_sorted w rest h, List.erase_cons_head]
  cases rest with
  | nil => rfl
  | cons v rest2 =>
    exact largest_weight_sorted v rest2 (List.pairwise_cons.mp h).2

/-! ## Quorum arithmetic: `have_quorum` and `node::delta` -/

theorem delta_lt_modulus (n : node) : n.delta < uint128_modulus := by
  unfold node.delta
  exact Nat.mod_lt _ (by decide)

/-- The value of `have_quorum` on a non-empty tally ordered descending, in
terms of the largest and the next largest weight. -/
theorem have_quorum_of_sorted (n : node) (t : tally_t) (s : Nat) (hne : t ≠ [])
    (hs : List.Pairwise (fun a b => a ≥ b) (tally_weights t)) :
    have_quorum n t s =
      some (decide (s ≥ n.online_weight_minimum ∧
        largest_weight (tally_weights t) >
          (next_largest_weight (tally_weights t) + n.delta) % uint128_modulus)) := by
  cases t with
  | nil => exact absurd rfl hne
  | cons first rest =>
    have htop : largest_weight (tally_weights (first :: rest)) = first.1 :=
      largest_weight_sorted first.1 (tally_weights rest) hs
    have hsec : next_largest_weight (tally_weights (first :: rest)) =
        (tally_weights rest).headD 0 :=
      next_largest_weight_sorted first.1 (tally_weights rest) hs
    rw [htop, hsec]
    unfold have_quorum
    by_cases hmin : s ≥ n.online_weight_minimum
    · cases rest with
      | nil => simp [hmin, tally_weights]
      | cons i rest2 => simp [hmin, tally_weights]
    · simp [hmin]

/-- C1 (as stated, refuted): with online stake `2 ^ 128 - 1` and a quorum of
60 percent, the tally of weights `2 ^ 127` and `2 ^ 127 - 1` is ordered
descending and `have_quorum` returns true, because `second + delta` wraps
around in 128-bit arithmetic, although `top > second + delta` is false. -/
theorem have_quorum_wraps_counterexample :
    List.Pairwise (fun a b => a ≥ b)
        (tally_weights [(170141183460469231731687303715884105728, ⟨1, 1, 0⟩),
          (170141183460469231731687303715884105727, ⟨2, 1, 0⟩)]) ∧
      ¬ (have_quorum
            (sample_node true 340282366920938463463374607431768211455 0 60 (fun _ => 0))
            [(170141183460469231731687303715884105728, ⟨1, 1, 0⟩),
              (170141183460469231731687303715884105727, ⟨2, 1, 0⟩)]
            340282366920938463463374607431768211455 = some true ↔
          (340282366920938463463374607431768211455 ≥
              (sample_node true 340282366920938463463374607431768211455 0 60
                (fun _ => 0)).online_weight_minimum ∧
            largest_weight (tally_weights [(170141183460469231731687303715884105728, ⟨1, 1, 0⟩),
                (170141183460469231731687303715884105727, ⟨2, 1, 0⟩)]) >
              next_largest_weight
                  (tally_weights [(170141183460469231731687303715884105728, ⟨1, 1, 0⟩),
                    (170141183460469231731687303715884105727, ⟨2, 1, 0⟩)]) +
                (sample_node true 340282366920938463463374607431768211455 0 60
                  (fun _ => 0)).delta)) := by
  decide

/-- C1 (amended): for every non-empty tally ordered descending and every
tally_sum, `have_quorum` returns, and it returns true exactly when tally_sum is
at least online_weight_minimum and the largest weight exceeds the 128-bit sum
`(second + delta) mod 2 ^ 128` of the next largest weight and `node.delta ()`. -/
theorem have_quorum_iff (n : node) (t : tally_t) (s : Nat) (hne : t ≠ [])
    (hs : List.Pairwise (fun a b => a ≥ b) (tally_weights t)) :
    have_quorum n t s =
      some (decide (s ≥ n.online_weight_minimum ∧
        largest_weight (tally_weights t) >
          (next_largest_weight (tally_weights t) + n.delta) % uint128_modulus)) :=
  have_quorum_of_sorted n t s hne hs

/-- The statement of `have_quorum_iff` at a tally of weights 700 and 100 with
online stake 1000 and a quorum of 50 percent. -/
theorem have_quorum_iff_witness :
    have_quorum (sample_node true 1000 0 50 (fun _ => 0)) [(700, ⟨1, 1, 0⟩), (100, ⟨2, 1, 0⟩)] 800 =
      some (decide (800 ≥ (sample_node true 1000 0 50 (fun _ => 0)).online_weight_minimum ∧
        largest_weight (tally_weights [(700, ⟨1, 1, 0⟩), (100, ⟨2, 1, 0⟩)]) >
          (next_largest_weight (tally_weights [(700, ⟨1, 1, 0⟩), (100, ⟨2, 1, 0⟩)]) +
            (sample_node true 1000 0 50 (fun _ => 0)).delta) % uint128_modulus)) :=
  have_quorum_iff (sample_node true 1000 0 50 (fun _ => 0))
    [(700, ⟨1, 1, 0⟩), (100, ⟨2, 1, 0⟩)] 800 (by decide) (by decide)

/-- C7 (as stated, refuted): with online stake 100 and a quorum of 50 percent
the specified threshold is 50, and a lone block of weight exactly 50 with
enough tally sum does not have quorum. -/
theorem have_quorum_at_threshold_counterexample :
    specified_quorum_threshold (sample_node true 100 0 50 (fun _ => 0)) = 50 ∧
      50 ≥ (sample_node true 100 0 50 (fun _ => 0)).online_weight_minimum ∧
      have_quorum (sample_node true 100 0 50 (fun _ => 0)) [(50, ⟨1, 1, 0⟩)] 50 = some false := by
  decide

/-- C7 (amended): for a tally whose sum is at least online_weight_minimum and
whose runner-up weight is 0, `have_quorum` returns true exactly when the top
weight is strictly greater than `node.delta ()`; a top weight equal to delta
or smaller gives false, so the least confirming weight is delta + 1. -/
theorem have_quorum_strict_threshold (n : node) (top : Nat) (b : block) (rest : tally_t)
    (s : Nat) (hmin : s ≥ n.online_weight_minimum) (hrunner : (tally_weights rest).headD 0 = 0) :
    have_quorum n ((top, b) :: rest) s = some (decide (top > n.delta)) := by
  have hd : n.delta % uint128_modulus = n.delta := Nat.mod_eq_of_lt (delta_lt_modulus n)
  unfold have_quorum
  cases rest with
  | nil => simp [hmin, hd]
  | cons i rest2 =>
    have hi : i.1 = 0 := by simpa [tally_weights] using hrunner
    simp [hmin, hi, hd]

/-- The statement of `have_quorum_strict_threshold` at a top weight of 51 over
a runner-up of weight 0, with delta 50. -/
theorem have_quorum_strict_threshold_witness :
    have_quorum (sample_node true 100 0 50 (fun _ => 0)) [(51, ⟨1, 1, 0⟩), (0, ⟨2, 1, 0⟩)] 51 =
      some (decide (51 > (sample_node true 100 0 50 (fun _ => 0)).delta)) :=
  have_quorum_strict_threshold (sample_node true 100 0 50 (fun _ => 0)) 51 ⟨1, 1, 0⟩
    [(0, ⟨2, 1, 0⟩)] 51 (by decide) (by decide)

/-- C8 (as stated, refuted): with online stake 150 and a quorum of 50 percent
`node::delta` is 50, while multiplying first and dividing by 100 gives 75. -/
theorem delta_divides_first_counterexample :
    (sample_node true 150 0 50 (fun _ => 0)).delta = 50 ∧
      specified_quorum_threshold (sample_node true 150 0 50 (fun _ => 0)) = 75 := by
  decide

/-- C8 (amended): for every online stake and every configured quorum
percentage `node::delta ()` is the quotient online_stake / 100 multiplied by
the quorum percentage (divide first, then multiply) reduced modulo
`2 ^ 128`, and it never exceeds online_stake * quorum_percent / 100. -/
theorem delta_value (n : node) :
    n.delta = ((n.online_stake / 100) * n.online_weight_quorum) % uint128_modulus ∧
      n.delta ≤ specified_quorum_threshold n := by
  refine ⟨rfl, ?_⟩
  unfold node.delta specified_quorum_threshold
  refine Nat.le_trans (Nat.mod_le _ _) ?_
  rw [Nat.le_div_iff_mul_le (by decide : 0 < 100)]
  calc n.online_stake / 100 * n.online_weight_quorum * 100
      = (n.online_stake / 100 * 100) * n.online_weight_quorum := by ring
    _ ≤ n.online_stake * n.online_weight_quorum :=
        Nat.mul_le_mul_right _ (Nat.div_mul_le_self _ _)

/-! ## The state machine: `valid_change` -/

/-- C9 (as stated, refuted): `valid_change` accepts the pair passive to
confirmed, which is not among the transitions of the specified lifecycle. -/
theorem valid_change_passive_confirmed_counterexample :
    valid_change state_t.passive state_t.confirmed = true ∧
      (state_t.passive, state_t.confirmed) ∉ specified_transitions := by
  decide

/-- C9 (amended): the state pairs accepted by `valid_change` are exactly the
transitions of the specified lifecycle together with passive to confirmed;
every other pair, including any pair starting from expired_confirmed or
expired_unconfirmed, is rejected. -/
theorem valid_change_iff (expected_a desired_a : state_t) :
    valid_change expected_a desired_a = true ↔
      (expected_a, desired_a) ∈ (state_t.passive, state_t.confirmed) :: specified_transitions := by
  cases expected_a <;> cases desired_a <;> decide

/-! ## Votes: `election::vote` -/

theorem vote_of_not_processed (n : node) (e : election) (rep : account) (sequence : Nat)
    (hash_a : block_hash) (c : clock)
    (h : (election.vote_decision n e rep sequence hash_a c).2 = false) :
    election.vote n e rep sequence hash_a c =
      some (e, n, ⟨(election.vote_decision n e rep sequence hash_a c).1, false⟩) := by
  unfold election.vote
  simp [h]

/-- C3: on the test network, when representative R has a stored vote
(S0, H0) and (S, H) is not lexicographically greater than (S0, H0), the call
vote (R, S, H) returns replay = true and processed = false and leaves the
election and the node unchanged, whatever the clock shows. -/
theorem vote_replay_of_not_greater (n : node) (e : election) (rep : account) (sequence : Nat)
    (hash_a : block_hash) (c : clock) (stored : vote_info)
    (htest : n.is_test_network = true)
    (hstored : map_find e.last_votes rep = some stored)
    (hle : ¬ (stored.sequence < sequence ∨ (stored.sequence = sequence ∧ stored.hash < hash_a))) :
    election.vote n e rep sequence hash_a c = some (e, n, ⟨true, false⟩) := by
  have hd : election.vote_decision n e rep sequence hash_a c = (true, false) := by
    unfold election.vote_decision
    simp only [htest, Bool.true_or, if_true, hstored]
    rw [if_neg hle]
  rw [vote_of_not_processed n e rep sequence hash_a c (by rw [hd]), hd]

/-- The statement of `vote_replay_of_not_greater` for a new election of block 7:
the placeholder account repeats its stored vote (0, 7). -/
theorem vote_replay_of_not_greater_witness :
    election.vote (sample_node true 1000 0 50 (fun _ => 10))
        (election.create (sample_node true 1000 0 50 (fun _ => 10)) ⟨7, 1, 0⟩ false false
          election_behavior.normal 1 ⟨100, 100⟩)
        0 0 7 ⟨200000000000, 200⟩ =
      some (election.create (sample_node true 1000 0 50 (fun _ => 10)) ⟨7, 1, 0⟩ false false
          election_behavior.normal 1 ⟨100, 100⟩,
        sample_node true 1000 0 50 (fun _ => 10), ⟨true, false⟩) :=
  vote_replay_of_not_greater (sample_node true 1000 0 50 (fun _ => 10))
    (election.create (sample_node true 1000 0 50 (fun _ => 10)) ⟨7, 1, 0⟩ false false
      election_behavior.normal 1 ⟨100, 100⟩)
    0 0 7 ⟨200000000000, 200⟩ ⟨100, 0, 7⟩ rfl rfl (by decide)

/-- C4: on the test network, when R has a stored vote recorded less than
cooldown seconds ago, a lexicographically greater vote (S, H) is not applied:
vote returns processed = false and replay = false and leaves the election and
the node (so last_votes[R] too) unchanged; the cooldown is 15 s for a weight
below online_stake / 100, 5 s for a weight at least that but below
online_stake / 20, and 1 s otherwise. -/
theorem vote_cooldown_respected (n : node) (e : election) (rep : account) (sequence : Nat)
    (hash_a : block_hash) (c : clock) (stored : vote_info)
    (htest : n.is_test_network = true)
    (hstored : map_find e.last_votes rep = some stored)
    (hgt : stored.sequence < sequence ∨ (stored.sequence = sequence ∧ stored.hash < hash_a))
    (hrecent : c.steady - stored.time < seconds (vote_cooldown (n.weight rep) n.online_stake)) :
    election.vote n e rep sequence hash_a c = some (e, n, ⟨false, false⟩) ∧
      map_find e.last_votes rep = some stored ∧
      vote_cooldown (n.weight rep) n.online_stake =
        (if n.weight rep < n.online_stake / 100 then 15
          else if n.online_stake / 100 ≤ n.weight rep ∧ n.weight rep < n.online_stake / 20 then 5
          else 1) := by
  have hd : election.vote_decision n e rep sequence hash_a c = (false, false) := by
    unfold election.vote_decision
    have hnot : ¬ (stored.time ≤
        c.steady - seconds (vote_cooldown (n.weight rep) n.online_stake)) := by omega
    simp only [htest, Bool.true_or, if_true, hstored]
    rw [if_pos hgt, if_neg hnot]
  refine ⟨?_, hstored, ?_⟩
  · rw [vote_of_not_processed n e rep sequence hash_a c (by rw [hd]), hd]
  · unfold vote_cooldown
    by_cases h1 : n.weight rep < n.online_stake / 100
    · simp [h1]
    · have h1le : n.online_stake / 100 ≤ n.weight rep := Nat.le_of_not_lt h1
      simp [h1, h1le]

/-- The statement of `vote_cooldown_respected` for a new election of block 7:
the placeholder account votes again with sequence 1 four seconds after its
stored vote, inside the cooldown of 15 seconds. -/
theorem vote_cooldown_respected_witness :
    election.vote (sample_node true 1000 0 50 (fun _ => 10))
          (election.create (sample_node true 1000 0 50 (fun _ => 10)) ⟨7, 1, 0⟩ false false
            election_behavior.normal 1 ⟨100, 100⟩)
          0 1 7 ⟨4000000100, 200⟩ =
        some (election.create (sample_node true 1000 0 50 (fun _ => 10)) ⟨7, 1, 0⟩ false false
            election_behavior.normal 1 ⟨100, 100⟩,
          sample_node true 1000 0 50 (fun _ => 10), ⟨false, false⟩) ∧
      map_find (election.create (sample_node true 1000 0 50 (fun _ => 10)) ⟨7, 1, 0⟩ false false
          election_behavior.normal 1 ⟨100, 100⟩).last_votes 0 = some ⟨100, 0, 7⟩ ∧
      vote_cooldown ((sample_node true 1000 0 50 (fun _ => 10)).weight 0)
          (sample_node true 1000 0 50 (fun _ => 10)).online_stake =
        (if (sample_node true 1000 0 50 (fun _ => 10)).weight 0 <
            (sample_node true 1000 0 50 (fun _ => 10)).online_stake / 100 then 15
          else if (sample_node true 1000 0 50 (fun _ => 10)).online_stake / 100 ≤
              (sample_node true 1000 0 50 (fun _ => 10)).weight 0 ∧
            (sample_node true 1000 0 50 (fun _ => 10)).weight 0 <
              (sample_node true 1000 0 50 (fun _ => 10)).online_stake / 20 then 5
          else 1) :=
  vote_cooldown_respected (sample_node true 1000 0 50 (fun _ => 10))
    (election.create (sample_node true 1000 0 50 (fun _ => 10)) ⟨7, 1, 0⟩ false false
      election_behavior.normal 1 ⟨100, 100⟩)
    0 1 7 ⟨4000000100, 200⟩ ⟨100, 0, 7⟩ rfl rfl (by decide) (by decide)

/-! ## Lemmas on association lists -/

theorem map_find_assign_self {β : Type} (m : List (Nat × β)) (k : Nat) (v : β) :
    map_find (map_assign m k v) k = some v := by
  induction m with
  | nil => simp [map_assign, map_find]
  | cons p rest ih =>
    by_cases hp : p.1 = k
    · simp [map_assign, map_find, hp]
    · simp [map_assign, map_find, hp, ih]

theorem map_find_assign_other {β : Type} (m : List (Nat × β)) (k k2 : Nat) (v : β)
    (hne : k2 ≠ k) : map_find (map_assign m k v) k2 = map_find m k2 := by
  induction m with
  | nil => simp [map_assign, map_find, Ne.symm hne]
  | cons p rest ih =>
    by_cases hp : p.1 = k
    · have hp2 : ¬ p.1 = k2 := fun h => hne (h.symm.trans hp)
      simp [map_assign, map_find, hp, hp2, Ne.symm hne]
    · simp [map_assign, map_find, hp, ih]

theorem map_find_erase_other {β : Type} (m : List (Nat × β)) (k k2 : Nat) (hne : k2 ≠ k) :
    map_find (map_erase m k) k2 = map_find m k2 := by
  induction m with
  | nil => rfl
  | cons p rest ih =>
    by_cases hp : p.1 = k
    · have hp2 : ¬ p.1 = k2 := fun h => hne (h.symm.trans hp)
      simp [map_erase, map_find, hp, hp2, ih, Ne.symm hne]
    · by_cases hp2 : p.1 = k2
      · simp [map_erase, map_find, hp2, hne]
      · simp [map_erase, map_find, hp, hp2, ih]

theorem map_find_append {β : Type} (m m2 : List (Nat × β)) (k : Nat) :
    map_find (m ++ m2) k = (map_find m k).orElse (fun _ => map_find m2 k) := by
  induction m with
  | nil => simp [map_find]
  | cons p rest ih =>
    by_cases hp : p.1 = k
    · simp [map_find, hp]
    · simp [map_find, hp, ih]

theorem map_find_some_mem {β : Type} (m : List (Nat × β)) (k : Nat) (v : β)
    (h : map_find m k = some v) : (k, v) ∈ m := by
  induction m with
  | nil => simp [map_find] at h
  | cons p rest ih =>
    by_cases hp : p.1 = k
    · simp [map_find, hp] at h
      simp [← h, ← hp]
    · simp [map_find, hp] at h
      exact List.mem_cons_of_mem _ (ih h)

theorem map_find_isSome_iff {β : Type} (m : List (Nat × β)) (k : Nat) :
    (map_find m k).isSome = true ↔ k ∈ m.map Prod.fst := by
  induction m with
  | nil => simp [map_find]
  | cons p rest ih =>
    by_cases hp : p.1 = k
    · simp [map_find, hp]
    · simp only [map_find, hp, if_false, ih, List.map_cons, List.mem_cons]
      constructor
      · intro h; exact Or.inr h
      · intro h
        rcases h with h | h
        · exact absurd h.symm hp
        · exact h

/-! ## Lemmas on the tally -/

theorem tally_emplace_perm (k : Nat) (b : block) (t : tally_t) :
    List.Perm (tally_emplace k b t) ((k, b) :: t) := by
  induction t with
  | nil => exact List.Perm.refl _
  | cons p rest ih =>
    unfold tally_emplace
    by_cases hp : p.1 < k
    · simp [hp]
    · simp only [hp, if_false]
      exact (List.Perm.cons p ih).trans (List.Perm.swap _ _ _)

theorem tally_emplace_sorted (k : Nat) (b : block) (t : tally_t)
    (h : List.Pairwise (fun a b => a ≥ b) (tally_weights t)) :
    List.Pairwise (fun a b => a ≥ b) (tally_weights (tally_emplace k b t)) := by
  induction t with
  | nil => simp [tally_emplace, tally_weights]
  | cons p rest ih =>
    have hp := List.pairwise_cons.mp h
    unfold tally_emplace
    by_cases hlt : p.1 < k
    · simp only [hlt, if_true]
      refine List.pairwise_cons.mpr ⟨?_, h⟩
      intro x hx
      have hx2 : x = p.1 ∨ x ∈ tally_weights rest := by
        simpa [tally_weights] using hx
      rcases hx2 with hx2 | hx2
      · omega
      · have := hp.1 x hx2
        omega
    · simp only [hlt, if_false]
      refine List.pairwise_cons.mpr ⟨?_, ih hp.2⟩
      intro x hx
      have hmem : x ∈ tally_weights ((k, b) :: rest) :=
        (List.Perm.map Prod.fst (tally_emplace_perm k b rest)).subset hx
      have hx2 : x = k ∨ x ∈ tally_weights rest := by
        simpa [tally_weights] using hmem
      rcases hx2 with hx2 | hx2
      · omega
      · exact hp.1 x hx2

theorem tally_of_fold_perm (blocks : List (block_hash × block)) (bw : List (block_hash × Nat))
    (r : tally_t) :
    List.Perm
      (bw.foldl (fun r item =>
        match map_find blocks item.1 with
        | some b => tally_emplace item.2 b r
        | none => r) r)
      (bw.filterMap (fun item => (map_find blocks item.1).map (fun b => (item.2, b))) ++ r) := by
  induction bw generalizing r with
  | nil => simp
  | cons item rest ih =>
    simp only [List.foldl_cons]
    refine (ih _).trans ?_
    cases hb : map_find blocks item.1 with
    | none => simp [List.filterMap_cons, hb]
    | some b =>
      simp only [List.filterMap_cons, hb, Option.map_some']
      refine (List.Perm.append_left _ (tally_emplace_perm item.2 b r)).trans ?_
      simp only [List.cons_append]
      exact List.perm_middle

theorem tally_of_fold_sorted (blocks : List (block_hash × block)) (bw : List (block_hash × Nat))
    (r : tally_t) (h : List.Pairwise (fun a b => a ≥ b) (tally_weights r)) :
    List.Pairwise (fun a b => a ≥ b) (tally_weights
      (bw.foldl (fun r item =>
        match map_find blocks item.1 with
        | some b => tally_emplace item.2 b r
        | none => r) r)) := by
  induction bw generalizing r with
  | nil => simpa using h
  | cons item rest ih =>
    simp only [List.foldl_cons]
    apply ih
    cases hb : map_find blocks item.1 with
    | none => exact h
    | some b => exact tally_emplace_sorted item.2 b r h

theorem tally_of_perm (blocks : List (block_hash × block)) (bw : List (block_hash × Nat)) :
    List.Perm (tally_of blocks bw)
      (bw.filterMap (fun item => (map_find blocks item.1).map (fun b => (item.2, b)))) := by
  have h := tally_of_fold_perm blocks bw []
  simpa [tally_of] using h

theorem tally_of_sorted (blocks : List (block_hash × block)) (bw : List (block_hash × Nat)) :
    List.Pairwise (fun a b => a ≥ b) (tally_weights (tally_of blocks bw)) :=
  tally_of_fold_sorted blocks bw [] (by simp [tally_weights])

theorem map_find_block_weights_add (bw : List (block_hash × Nat)) (h h2 : block_hash) (w : Nat) :
    map_find (block_weights_add bw h w) h2 =
      if h2 = h then some (((map_find bw h).getD 0 + w) % uint128_modulus) else map_find bw h2 := by
  induction bw with
  | nil =>
    by_cases hh : h2 = h
    · simp [block_weights_add, map_find, hh]
    · simp [block_weights_add, map_find, hh, Ne.symm hh]
  | cons p rest ih =>
    by_cases hp : p.1 = h
    · by_cases hh : h2 = h
      · simp [block_weights_add, map_find, hp, hh]
      · have hp2 : ¬ p.1 = h2 := fun x => hh (x.symm.trans hp)
        simp [block_weights_add, map_find, hp, hh, hp2, Ne.symm hh]
    · by_cases hh : h2 = h
      · subst hh
        simp only [block_weights_add, map_find, hp, if_false, ih, if_true]
      · by_cases hp2 : p.1 = h2
        · simp [block_weights_add, map_find, hp, hp2, hh]
        · simp [block_weights_add, map_find, hp, hp2, hh, ih]

theorem keys_block_weights_add (bw : List (block_hash × Nat)) (h : block_hash) (w : Nat) :
    (block_weights_add bw h w).map Prod.fst =
      if h ∈ bw.map Prod.fst then bw.map Prod.fst else bw.map Prod.fst ++ [h] := by
  induction bw with
  | nil => simp [block_weights_add]
  | cons p rest ih =>
    by_cases hp : p.1 = h
    · simp [block_weights_add, hp]
    · have hp2 : ¬ h = p.1 := fun x => hp x.symm
      simp only [block_weights_add, hp, if_false, List.map_cons, ih, List.mem_cons, hp2, false_or]
      by_cases hm : h ∈ rest.map Prod.fst
      · simp [hm]
      · simp [hm]

theorem nodup_keys_block_weights_add (bw : List (block_hash × Nat)) (h : block_hash) (w : Nat)
    (hnd : (bw.map Prod.fst).Nodup) : ((block_weights_add bw h w).map Prod.fst).Nodup := by
  rw [keys_block_weights_add]
  by_cases hm : h ∈ bw.map Prod.fst
  · simpa [hm] using hnd
  · simp only [hm, if_false]
    exact List.Nodup.append hnd (List.nodup_singleton h) (by simpa using hm)

theorem nodup_keys_fold (n : node) (lv : List (account × vote_info))
    (acc : List (block_hash × Nat)) (hnd : (acc.map Prod.fst).Nodup) :
    ((lv.foldl (fun bw v => block_weights_add bw v.2.hash (n.weight v.1)) acc).map
      Prod.fst).Nodup := by
  induction lv generalizing acc with
  | nil => simpa using hnd
  | cons v rest ih =>
    simp only [List.foldl_cons]
    exact ih _ (nodup_keys_block_weights_add acc v.2.hash (n.weight v.1) hnd)

theorem nodup_keys_block_weights (n : node) (lv : List (account × vote_info)) :
    ((block_weights n lv).map Prod.fst).Nodup :=
  nodup_keys_fold n lv [] (by simp)

/-- Adding weights one by one in 128-bit arithmetic. -/
theorem foldl_add_mod (ws : List Nat) (o : Option Nat) (hne : ws ≠ []) :
    ws.foldl (fun o w => some ((o.getD 0 + w) % uint128_modulus)) o =
      some ((o.getD 0 + ws.sum) % uint128_modulus) := by
  induction ws generalizing o with
  | nil => exact absurd rfl hne
  | cons w rest ih =>
    simp only [List.foldl_cons, List.sum_cons]
    cases rest with
    | nil => simp
    | cons w2 rest2 =>
      rw [ih _ (by simp)]
      simp only [Option.getD_some, Nat.mod_add_mod, Nat.add_assoc]

theorem map_find_fold (n : node) (lv : List (account × vote_info))
    (acc : List (block_hash × Nat)) (h : block_hash) :
    map_find (lv.foldl (fun bw v => block_weights_add bw v.2.hash (n.weight v.1)) acc) h =
      (voted_weights n lv h).foldl (fun o w => some ((o.getD 0 + w) % uint128_modulus))
        (map_find acc h) := by
  induction lv generalizing acc with
  | nil => simp [voted_weights]
  | cons v rest ih =>
    simp only [List.foldl_cons]
    rw [ih, map_find_block_weights_add]
    by_cases hv : v.2.hash = h
    · simp [voted_weights, List.filter_cons, hv]
    · simp [voted_weights, List.filter_cons, hv, Ne.symm hv]

theorem map_find_block_weights (n : node) (lv : List (account × vote_info)) (h : block_hash) :
    map_find (block_weights n lv) h =
      if voted_weights n lv h = [] then none else some (voted_sum n lv h) := by
  unfold block_weights
  rw [map_find_fold]
  by_cases hw : voted_weights n lv h = []
  · simp [hw, map_find]
  · rw [foldl_add_mod _ _ hw]
    simp [hw, map_find, voted_sum]

theorem voted_weights_eq_nil_iff (n : node) (lv : List (account × vote_info)) (h : block_hash) :
    voted_weights n lv h = [] ↔ h ∉ lv.map (fun v => v.2.hash) := by
  unfold voted_weights
  simp [List.filter_eq_nil_iff]

theorem mem_keys_block_weights (n : node) (lv : List (account × vote_info)) (h : block_hash) :
    h ∈ (block_weights n lv).map Prod.fst ↔ h ∈ lv.map (fun v => v.2.hash) := by
  rw [← map_find_isSome_iff, map_find_block_weights]
  by_cases hw : voted_weights n lv h = []
  · have := (voted_weights_eq_nil_iff n lv h).mp hw
    simp [hw, this]
  · have : h ∈ lv.map (fun v => v.2.hash) := by
      by_contra hc
      exact hw ((voted_weights_eq_nil_iff n lv h).mpr hc)
    simp [hw, this]

theorem map_find_of_mem_nodup {β : Type} (m : List (Nat × β)) (k : Nat) (v : β)
    (hnd : (m.map Prod.fst).Nodup) (hmem : (k, v) ∈ m) : map_find m k = some v := by
  induction m with
  | nil => simp at hmem
  | cons p rest ih =>
    have hnd2 : p.1 ∉ rest.map Prod.fst ∧ (rest.map Prod.fst).Nodup :=
      List.nodup_cons.mp hnd
    rcases List.mem_cons.mp hmem with hp | hp
    · simp [map_find, ← hp]
    · have hk : k ∈ rest.map Prod.fst := List.mem_map.mpr ⟨(k, v), hp, rfl⟩
      have hne : ¬ p.1 = k := fun x => hnd2.1 (x ▸ hk)
      simp only [map_find, hne, if_false]
      exact ih hnd2.2 hp

theorem block_weights_entry (n : node) (lv : List (account × vote_info))
    (item : block_hash × Nat) (hmem : item ∈ block_weights n lv) :
    item.2 = voted_sum n lv item.1 := by
  have hfind := map_find_of_mem_nodup (block_weights n lv) item.1 item.2
    (nodup_keys_block_weights n lv) hmem
  rw [map_find_block_weights] at hfind
  by_cases hw : voted_weights n lv item.1 = []
  · simp [hw] at hfind
  · simp only [hw, if_false, Option.some.injEq] at hfind
    exact hfind.symm

/-- In the tally as it is modelled, which keeps entries of equal weight, the
weights are, up to order, the per-block sums of the votes: one sum for each
voted hash that is a block of the election. -/
theorem tally_weights_perm (n : node) (e : election) :
    List.Perm (tally_weights (election.tally n e).2) (specified_block_sums n e) := by
  unfold election.tally specified_block_sums tally_weights
  simp only
  refine (List.Perm.map Prod.fst (tally_of_perm e.blocks (block_weights n e.last_votes))).trans ?_
  have hkeys : List.Perm ((block_weights n e.last_votes).map Prod.fst)
      ((e.last_votes.map (fun v => v.2.hash)).dedup) := by
    rw [List.perm_ext_iff_of_nodup (nodup_keys_block_weights n e.last_votes)
      (List.nodup_dedup _)]
    intro h
    rw [mem_keys_block_weights, List.mem_dedup]
  have hrew : List.map Prod.fst
      ((block_weights n e.last_votes).filterMap
        (fun item => (map_find e.blocks item.1).map (fun b => (item.2, b)))) =
      ((((block_weights n e.last_votes).map Prod.fst).filter
        (fun h => (map_find e.blocks h).isSome)).map (voted_sum n e.last_votes)) := by
    generalize hbw : block_weights n e.last_votes = bw
    have hent : ∀ item ∈ bw, item.2 = voted_sum n e.last_votes item.1 := by
      intro item hitem
      exact block_weights_entry n e.last_votes item (hbw ▸ hitem)
    clear hbw hkeys
    induction bw with
    | nil => rfl
    | cons item rest ih =>
      have hrest := ih (fun x hx => hent x (List.mem_cons_of_mem _ hx))
      have hitem := hent item (List.mem_cons_self _ _)
      cases hb : map_find e.blocks item.1 with
      | none => simp [List.filterMap_cons, List.filter_cons, hb, hrest]
      | some b => simp [List.filterMap_cons, List.filter_cons, hb, hrest, hitem]
  rw [hrew]
  exact List.Perm.map _ (List.Perm.filter _ hkeys)

theorem tally_sorted (n : node) (e : election) :
    List.Pairwise (fun a b => a ≥ b) (tally_weights (election.tally n e).2) :=
  tally_of_sorted e.blocks (block_weights n e.last_votes)

/-! ## Quorum check: `confirm_if_quorum` -/

theorem remove_votes_state (n : node) (e : election) (h : block_hash) :
    (election.remove_votes n e h).1.state_m = e.state_m := by
  unfold election.remove_votes
  split <;> rfl

theorem remove_votes_quorum_config (n : node) (e : election) (h : block_hash) :
    (election.remove_votes n e h).2.delta = n.delta ∧
      (election.remove_votes n e h).2.online_weight_minimum = n.online_weight_minimum := by
  unfold election.remove_votes
  split <;> exact ⟨rfl, rfl⟩

theorem switch_winner_state (n : node) (e : election) (b : block) (s : Nat) :
    (election.switch_winner n e b s).1.state_m = e.state_m := by
  simp only [election.switch_winner]
  split
  · exact remove_votes_state _ _ _
  · rfl

theorem switch_winner_quorum_config (n : node) (e : election) (b : block) (s : Nat) :
    (election.switch_winner n e b s).2.delta = n.delta ∧
      (election.switch_winner n e b s).2.online_weight_minimum = n.online_weight_minimum := by
  simp only [election.switch_winner]
  split
  · exact remove_votes_quorum_config _ _ _
  · exact ⟨rfl, rfl⟩

theorem have_quorum_congr (n n2 : node) (t : tally_t) (s : Nat) (hd : n2.delta = n.delta)
    (hm : n2.online_weight_minimum = n.online_weight_minimum) :
    have_quorum n2 t s = have_quorum n t s := by
  unfold have_quorum
  rw [hd, hm]

theorem have_quorum_cons_isSome (n : node) (w : Nat × block) (rest : tally_t) (s : Nat) :
    ∃ q, have_quorum n (w :: rest) s = some q := by
  simp only [have_quorum]
  split <;> exact ⟨_, rfl⟩

/-- The shape of a returning `confirm_if_quorum`: the tally has a first entry,
the winner switch runs on it, and `confirm_once` follows exactly when the
quorum test on the tally succeeds. -/
theorem confirm_if_quorum_some (n : node) (e : election) (c : clock) (r : election × node)
    (hr : election.confirm_if_quorum n e c = some r) :
    ∃ winner rest, (election.tally n e).2 = winner :: rest ∧
      ((have_quorum n (winner :: rest) (tally_sum (winner :: rest)) = some true ∧
          r = election.confirm_once
            (election.switch_winner n (election.set_status_tally (election.tally n e).1 winner.1)
              winner.2 (tally_sum (winner :: rest))).2
            (election.switch_winner n (election.set_status_tally (election.tally n e).1 winner.1)
              winner.2 (tally_sum (winner :: rest))).1
            election_status_type.active_confirmed_quorum c) ∨
        (have_quorum n (winner :: rest) (tally_sum (winner :: rest)) = some false ∧
          r = election.switch_winner n (election.set_status_tally (election.tally n e).1 winner.1)
            winner.2 (tally_sum (winner :: rest)))) := by
  unfold election.confirm_if_quorum at hr
  generalize election.tally n e = te at hr ⊢
  obtain ⟨e0, t⟩ := te
  cases t with
  | nil => simp at hr
  | cons winner rest =>
    refine ⟨winner, rest, rfl, ?_⟩
    simp only at hr ⊢
    rw [have_quorum_congr n _ _ _ (switch_winner_quorum_config n _ _ _).1
      (switch_winner_quorum_config n _ _ _).2] at hr
    obtain ⟨q, hq⟩ := have_quorum_cons_isSome n winner rest (tally_sum (winner :: rest))
    rw [hq] at hr ⊢
    cases q with
    | true =>
      simp only [Option.some.injEq] at hr
      exact Or.inl ⟨rfl, hr.symm⟩
    | false =>
      simp only [Option.some.injEq] at hr
      exact Or.inr ⟨rfl, hr.symm⟩

/-- The converse shape: with a non-empty tally `confirm_if_quorum` returns. -/
theorem confirm_if_quorum_isSome (n : node) (e : election) (c : clock)
    (hne : (election.tally n e).2 ≠ []) : ∃ r, election.confirm_if_quorum n e c = some r := by
  unfold election.confirm_if_quorum
  generalize election.tally n e = te at hne ⊢
  obtain ⟨e0, t⟩ := te
  cases t with
  | nil => exact absurd rfl hne
  | cons winner rest =>
    simp only
    split <;> exact ⟨_, rfl⟩

theorem vote_decision_processed_iff (n : node) (e : election) (rep : account) (sequence : Nat)
    (hash_a : block_hash) (c : clock) :
    (election.vote_decision n e rep sequence hash_a c).2 = true ↔
      election.accepts n e rep sequence hash_a c := by
  unfold election.vote_decision election.accepts vote_info.older
  by_cases hgate : n.is_test_network = true ∨
      n.weight rep > n.minimum_principal_weight n.online_stake
  · have hg : (n.is_test_network || decide (n.weight rep >
        n.minimum_principal_weight n.online_stake)) = true := by
      rcases hgate with h | h
      · simp [h]
      · simp [h]
    simp only [hg, if_true, hgate, true_and]
    cases hfind : map_find e.last_votes rep with
    | none => simp
    | some stored =>
      simp only [false_or, Option.some.injEq, exists_eq_left', reduceCtorEq]
      by_cases hold : stored.sequence < sequence ∨
          (stored.sequence = sequence ∧ stored.hash < hash_a)
      · by_cases ht : stored.time ≤
            c.steady - seconds (vote_cooldown (n.weight rep) n.online_stake)
        · simp [hold, ht]
        · simp [hold, ht]
      · simp [hold]
  · have hg : (n.is_test_network || decide (n.weight rep >
        n.minimum_principal_weight n.online_stake)) = false := by
      have h1 : n.is_test_network = false := by
        cases h : n.is_test_network
        · rfl
        · exact absurd (Or.inl h) hgate
      have h2 : ¬ n.weight rep > n.minimum_principal_weight n.online_stake :=
        fun h => hgate (Or.inr h)
      simp [h1, h2]
    simp [hg, hgate]

theorem remove_votes_find (n : node) (e : election) (h : block_hash) (k : account)
    (hkeep : ¬ (n.local_voting ∧ n.generated_vote h k)) :
    map_find (election.remove_votes n e h).1.last_votes k = map_find e.last_votes k := by
  unfold election.remove_votes
  by_cases hv : n.local_voting
  · have hk : k ∉ (votes_cache_find n.votes_cache h).map (fun v => v.account) :=
      fun hm => hkeep ⟨hv, hm⟩
    have hcond : (n.enable_voting && decide (n.reps_voting > 0)) = true := by
      simp [hv.1, hv.2]
    simp only [hcond, if_true]
    generalize votes_cache_find n.votes_cache h = votes at hk
    generalize e.last_votes = lv
    induction votes generalizing lv with
    | nil => rfl
    | cons v rest ih =>
      simp only [List.foldl_cons]
      have hne : k ≠ v.account := fun hx => hk (by simp [hx])
      rw [ih (fun hm => hk (by simp only [List.map_cons, List.mem_cons]; exact Or.inr hm))]
      exact map_find_erase_other lv v.account k hne
  · have hcond : (n.enable_voting && decide (n.reps_voting > 0)) = false := by
      unfold node.local_voting at hv
      cases he : n.enable_voting
      · simp
      · have : ¬ n.reps_voting > 0 := fun h0 => hv ⟨he, h0⟩
        simp [this]
    simp [hcond]

theorem switch_winner_find (n : node) (e : election) (b : block) (s : Nat) (k : account)
    (hkeep : ¬ (n.local_voting ∧ n.generated_vote e.status.winner.hash k)) :
    map_find (election.switch_winner n e b s).1.last_votes k = map_find e.last_votes k := by
  simp only [election.switch_winner]
  split
  · exact remove_votes_find n _ _ k hkeep
  · rfl

theorem confirm_once_last_votes (n : node) (e : election) (t : election_status_type)
    (c : clock) : (election.confirm_once n e t c).1.last_votes = e.last_votes := by
  simp only [election.confirm_once]
  split <;> rfl

theorem confirm_if_quorum_find (n : node) (e : election) (c : clock) (r : election × node)
    (k : account) (hr : election.confirm_if_quorum n e c = some r)
    (hkeep : ¬ (n.local_voting ∧ n.generated_vote e.status.winner.hash k)) :
    map_find r.1.last_votes k = map_find e.last_votes k := by
  obtain ⟨winner, rest, _, hcase⟩ := confirm_if_quorum_some n e c r hr
  rcases hcase with ⟨_, hrr⟩ | ⟨_, hrr⟩
  · rw [hrr, confirm_once_last_votes]
    exact switch_winner_find n _ _ _ k hkeep
  · rw [hrr]
    exact switch_winner_find n _ _ _ k hkeep

/-- A vote for a block of the election makes the tally non-empty. -/
theorem tally_ne_nil (n : node) (e : election) (rep : account) (info : vote_info) (b : block)
    (hvote : map_find e.last_votes rep = some info)
    (hblock : map_find e.blocks info.hash = some b) : (election.tally n e).2 ≠ [] := by
  have hmem : info.hash ∈ e.last_votes.map (fun v => v.2.hash) :=
    List.mem_map.mpr ⟨(rep, info), map_find_some_mem _ _ _ hvote, rfl⟩
  have hkey := (mem_keys_block_weights n e.last_votes info.hash).mpr hmem
  obtain ⟨item, hitem, hfst⟩ := List.mem_map.mp hkey
  have hin : (item.2, b) ∈ (block_weights n e.last_votes).filterMap
      (fun item => (map_find e.blocks item.1).map (fun b => (item.2, b))) := by
    refine List.mem_filterMap.mpr ⟨item, hitem, ?_⟩
    rw [hfst, hblock]
    rfl
  have hperm := tally_of_perm e.blocks (block_weights n e.last_votes)
  intro hnil
  have hnil2 : tally_of e.blocks (block_weights n e.last_votes) = [] := hnil
  rw [hnil2] at hperm
  have := hperm.symm.subset hin
  simp at this

theorem vote_of_processed (n : node) (e : election) (rep : account) (sequence : Nat)
    (hash_a : block_hash) (c : clock)
    (h : (election.vote_decision n e rep sequence hash_a c).2 = true) :
    election.vote n e rep sequence hash_a c =
      if e.confirmed = true then
        some (e.set_last_vote rep ⟨c.steady, sequence, hash_a⟩,
          n.stats_inc stat_detail.vote_new,
          ⟨(election.vote_decision n e rep sequence hash_a c).1, true⟩)
      else
        (election.confirm_if_quorum (n.stats_inc stat_detail.vote_new)
          (e.set_last_vote rep ⟨c.steady, sequence, hash_a⟩) c).map
          (fun r => (r.1, r.2, ⟨(election.vote_decision n e rep sequence hash_a c).1, true⟩)) := by
  have hc : (e.set_last_vote rep ⟨c.steady, sequence, hash_a⟩).confirmed = e.confirmed := rfl
  simp only [election.vote, h, if_true, hc]
  cases e.confirmed <;> simp

/-- C2 (as stated, refuted): outside the test network a representative of
weight 0 without a stored vote is not accepted, although the specified
condition (no prior vote) holds. -/
theorem vote_gate_counterexample :
    election.specified_accepts (sample_node false 1000 0 50 (fun _ => 0))
        (election.create (sample_node false 1000 0 50 (fun _ => 0)) ⟨7, 1, 0⟩ false false
          election_behavior.normal 1 ⟨100, 100⟩)
        5 1 7 ⟨200, 200⟩ ∧
      (election.vote (sample_node false 1000 0 50 (fun _ => 0))
        (election.create (sample_node false 1000 0 50 (fun _ => 0)) ⟨7, 1, 0⟩ false false
          election_behavior.normal 1 ⟨100, 100⟩)
        5 1 7 ⟨200, 200⟩).map (fun r => (r.2.2.processed, map_find r.1.last_votes 5)) =
        some (false, none) :=
  ⟨Or.inl rfl, by decide⟩

/-- C2 (amended): for every election, representative R, sequence S and hash
H, a returning call vote (R, S, H) has processed = true if and only if R
passes the principal-weight gate (the network is the test network or R's
weight exceeds minimum_principal_weight (online_stake)) and either last_votes
has no entry for R, or the stored (sequence, hash) is lexicographically
smaller than (S, H) and the stored time is at most now minus the cooldown.
An accepted vote leaves last_votes[R] at (now, S, H) unless the node votes
locally and holds a generated vote of R for the previous winner (the entry
may then be removed with a winner switch); a vote that is not accepted leaves
election and node unchanged.  The call returns whenever the vote is not
accepted, the election is confirmed, or H is a block of the election. -/
theorem vote_accepts_iff (n : node) (e : election) (rep : account) (sequence : Nat)
    (hash_a : block_hash) (c : clock) :
    (∀ r, election.vote n e rep sequence hash_a c = some r →
        (r.2.2.processed = true ↔ election.accepts n e rep sequence hash_a c) ∧
        (election.accepts n e rep sequence hash_a c →
          ¬ (n.local_voting ∧ n.generated_vote e.status.winner.hash rep) →
          map_find r.1.last_votes rep = some ⟨c.steady, sequence, hash_a⟩) ∧
        (¬ election.accepts n e rep sequence hash_a c → r.1 = e ∧ r.2.1 = n)) ∧
      ((¬ election.accepts n e rep sequence hash_a c ∨ e.confirmed = true ∨
          (map_find e.blocks hash_a).isSome = true) →
        ∃ r, election.vote n e rep sequence hash_a c = some r) := by
  have hiff := vote_decision_processed_iff n e rep sequence hash_a c
  have hset : map_find (e.set_last_vote rep ⟨c.steady, sequence, hash_a⟩).last_votes rep =
      some ⟨c.steady, sequence, hash_a⟩ := map_find_assign_self _ _ _
  cases hd : (election.vote_decision n e rep sequence hash_a c).2 with
  | false =>
    have hna : ¬ election.accepts n e rep sequence hash_a c := by
      intro ha
      rw [hiff.mpr ha] at hd
      exact Bool.noConfusion hd
    have hv := vote_of_not_processed n e rep sequence hash_a c hd
    refine ⟨fun r hr => ?_, fun _ => ⟨_, hv⟩⟩
    rw [hv] at hr
    have hr2 := (Option.some.inj hr).symm
    subst hr2
    exact ⟨⟨fun h => Bool.noConfusion h, fun h => absurd h hna⟩, fun h => absurd h hna,
      fun _ => ⟨rfl, rfl⟩⟩
  | true =>
    have ha : election.accepts n e rep sequence hash_a c := hiff.mp hd
    have hv := vote_of_processed n e rep sequence hash_a c hd
    by_cases hconf : e.confirmed = true
    · rw [if_pos hconf] at hv
      refine ⟨fun r hr => ?_, fun _ => ⟨_, hv⟩⟩
      rw [hv] at hr
      have hr2 := (Option.some.inj hr).symm
      subst hr2
      exact ⟨⟨fun _ => ha, fun _ => rfl⟩, fun _ _ => hset, fun h => absurd ha h⟩
    · rw [if_neg hconf] at hv
      refine ⟨fun r hr => ?_, fun hret => ?_⟩
      · rw [hv] at hr
        obtain ⟨q, hq, hqr⟩ := Option.map_eq_some'.mp hr
        subst hqr
        refine ⟨⟨fun _ => ha, fun _ => rfl⟩, fun _ hkeep => ?_, fun h => absurd ha h⟩
        have hfind := confirm_if_quorum_find (n.stats_inc stat_detail.vote_new)
          (e.set_last_vote rep ⟨c.steady, sequence, hash_a⟩) c q rep hq hkeep
        exact hfind.trans hset
      · rcases hret with h | h | h
        · exact absurd ha h
        · exact absurd h hconf
        · obtain ⟨b, hb⟩ := Option.isSome_iff_exists.mp h
          have hne := tally_ne_nil (n.stats_inc stat_detail.vote_new)
            (e.set_last_vote rep ⟨c.steady, sequence, hash_a⟩) rep
            ⟨c.steady, sequence, hash_a⟩ b hset hb
          obtain ⟨q, hq⟩ := confirm_if_quorum_isSome (n.stats_inc stat_detail.vote_new)
            (e.set_last_vote rep ⟨c.steady, sequence, hash_a⟩) c hne
          exact ⟨_, by rw [hv, hq]; rfl⟩

/-- The statement of `vote_accepts_iff` for a new election of block 7 on the
test network: the first vote of account 5 for block 7 returns, is processed
and is stored. -/
theorem vote_accepts_iff_witness :
    ∃ r, election.vote (sample_node true 1000 0 50 (fun _ => 10))
          (election.create (sample_node true 1000 0 50 (fun _ => 10)) ⟨7, 1, 0⟩ false false
            election_behavior.normal 1 ⟨100, 100⟩)
          5 1 7 ⟨200, 200⟩ = some r ∧
        r.2.2.processed = true ∧ map_find r.1.last_votes 5 = some ⟨200, 1, 7⟩ :=
  have hacc : election.accepts (sample_node true 1000 0 50 (fun _ => 10))
      (election.create (sample_node true 1000 0 50 (fun _ => 10)) ⟨7, 1, 0⟩ false false
        election_behavior.normal 1 ⟨100, 100⟩) 5 1 7 ⟨200, 200⟩ := ⟨Or.inl rfl, Or.inl rfl⟩
  have hthm := vote_accepts_iff (sample_node true 1000 0 50 (fun _ => 10))
      (election.create (sample_node true 1000 0 50 (fun _ => 10)) ⟨7, 1, 0⟩ false false
        election_behavior.normal 1 ⟨100, 100⟩) 5 1 7 ⟨200, 200⟩
  match hthm.2 (Or.inr (Or.inr rfl)) with
  | ⟨r, hr⟩ =>
    ⟨r, hr, (hthm.1 r hr).1.mpr hacc,
      (hthm.1 r hr).2.1 hacc (fun h => Bool.noConfusion h.1.1)⟩

/-! ## Stored votes across operations -/

theorem map_find_erase_self {β : Type} (m : List (Nat × β)) (k : Nat) :
    map_find (map_erase m k) k = none := by
  induction m with
  | nil => rfl
  | cons p rest ih =>
    by_cases hp : p.1 = k
    · simp [map_erase, hp, ih]
    · simp [map_erase, map_find, hp, ih]

theorem map_find_erase_none {β : Type} (m : List (Nat × β)) (k k2 : Nat)
    (h : map_find m k2 = none) : map_find (map_erase m k) k2 = none := by
  by_cases hk : k2 = k
  · rw [hk]; exact map_find_erase_self m k
  · rw [map_find_erase_other m k k2 hk]; exact h

theorem map_find_erase_votes (votes : List vote) (lv : List (account × vote_info)) (k : account) :
    map_find (votes.foldl (fun m v => map_erase m v.account) lv) k = map_find lv k ∨
      (map_find (votes.foldl (fun m v => map_erase m v.account) lv) k = none ∧
        k ∈ votes.map (fun v => v.account)) := by
  induction votes generalizing lv with
  | nil => exact Or.inl rfl
  | cons v rest ih =>
    simp only [List.foldl_cons, List.map_cons, List.mem_cons]
    rcases ih (map_erase lv v.account) with h | ⟨h1, h2⟩
    · by_cases hk : k = v.account
      · refine Or.inr ⟨?_, Or.inl hk⟩
        rw [h, hk]
        exact map_find_erase_self lv v.account
      · exact Or.inl (h.trans (map_find_erase_other lv v.account k hk))
    · exact Or.inr ⟨h1, Or.inr h2⟩

theorem remove_votes_find_cases (n : node) (e : election) (h : block_hash) (k : account) :
    map_find (election.remove_votes n e h).1.last_votes k = map_find e.last_votes k ∨
      (map_find (election.remove_votes n e h).1.last_votes k = none ∧
        n.local_voting ∧ n.generated_vote h k) := by
  unfold election.remove_votes
  by_cases hcond : (n.enable_voting && decide (n.reps_voting > 0)) = true
  · simp only [hcond, if_true]
    have hv : n.local_voting := by
      simpa [node.local_voting] using hcond
    rcases map_find_erase_votes (votes_cache_find n.votes_cache h) e.last_votes k with h1 | h1
    · exact Or.inl h1
    · exact Or.inr ⟨h1.1, hv, h1.2⟩
  · simp only [hcond]
    exact Or.inl rfl

theorem switch_winner_find_cases (n : node) (e : election) (b : block) (s : Nat)
    (k : account) :
    map_find (election.switch_winner n e b s).1.last_votes k = map_find e.last_votes k ∨
      (map_find (election.switch_winner n e b s).1.last_votes k = none ∧
        n.local_voting ∧ n.generated_vote e.status.winner.hash k) := by
  simp only [election.switch_winner]
  split
  · exact remove_votes_find_cases n _ _ k
  · exact Or.inl rfl

theorem confirm_if_quorum_find_cases (n : node) (e : election) (c : clock)
    (r : election × node) (k : account) (hr : election.confirm_if_quorum n e c = some r) :
    map_find r.1.last_votes k = map_find e.last_votes k ∨
      (map_find r.1.last_votes k = none ∧
        n.local_voting ∧ n.generated_vote e.status.winner.hash k) := by
  obtain ⟨winner, rest, _, hcase⟩ := confirm_if_quorum_some n e c r hr
  rcases hcase with ⟨_, hrr⟩ | ⟨_, hrr⟩
  · rw [hrr, confirm_once_last_votes]
    exact switch_winner_find_cases n _ _ _ k
  · rw [hrr]
    exact switch_winner_find_cases n _ _ _ k

theorem vote_info.lex_le_refl (a : vote_info) : a.lex_le a :=
  Or.inr ⟨rfl, Nat.le_refl _⟩

theorem vote_info.lex_le_trans (a b c : vote_info) (h1 : a.lex_le b) (h2 : b.lex_le c) :
    a.lex_le c := by
  unfold vote_info.lex_le at *
  rcases h1 with h1 | ⟨h1, h1h⟩ <;> rcases h2 with h2 | ⟨h2, h2h⟩
  · exact Or.inl (Nat.lt_trans h1 h2)
  · exact Or.inl (h2 ▸ h1)
  · exact Or.inl (h1 ▸ h2)
  · exact Or.inr ⟨h1.trans h2, Nat.le_trans h1h h2h⟩

/-- What one operation may do to a stored vote: keep the entry with a pair
that is not smaller, or remove it with a winner switch on a node that votes
locally and holds a generated vote of the account for the previous winner. -/
theorem vote_find_step (n : node) (e : election) (rep : account) (sequence : Nat)
    (hash_a : block_hash) (c : clock) (r : election × node × election_vote_result)
    (k : account) (s1 : vote_info)
    (hr : election.vote n e rep sequence hash_a c = some r)
    (h1 : map_find e.last_votes k = some s1) :
    (∃ s2, map_find r.1.last_votes k = some s2 ∧ s1.lex_le s2) ∨
      (map_find r.1.last_votes k = none ∧
        n.local_voting ∧ n.generated_vote e.status.winner.hash k) := by
  cases hd : (election.vote_decision n e rep sequence hash_a c).2 with
  | false =>
    rw [vote_of_not_processed n e rep sequence hash_a c hd] at hr
    have hr2 := (Option.some.inj hr).symm
    subst hr2
    exact Or.inl ⟨s1, h1, s1.lex_le_refl⟩
  | true =>
    have hacc := (vote_decision_processed_iff n e rep sequence hash_a c).mp hd
    have hset : ∃ s2, map_find (e.set_last_vote rep ⟨c.steady, sequence, hash_a⟩).last_votes k =
        some s2 ∧ s1.lex_le s2 := by
      by_cases hk : k = rep
      · subst hk
        refine ⟨_, map_find_assign_self _ _ _, ?_⟩
        rcases hacc.2 with hnone | ⟨stored, hst, hold, _⟩
        · rw [h1] at hnone
          exact Option.noConfusion hnone
        · rw [h1] at hst
          have hs := Option.some.inj hst
          subst hs
          unfold vote_info.older at hold
          unfold vote_info.lex_le
          rcases hold with h | ⟨h, hh⟩
          · exact Or.inl h
          · exact Or.inr ⟨h, Nat.le_of_lt hh⟩
      · exact ⟨s1, (map_find_assign_other _ _ _ _ hk).trans h1, s1.lex_le_refl⟩
    rw [vote_of_processed n e rep sequence hash_a c hd] at hr
    by_cases hconf : e.confirmed = true
    · rw [if_pos hconf] at hr
      have hr2 := (Option.some.inj hr).symm
      subst hr2
      exact Or.inl hset
    · rw [if_neg hconf] at hr
      obtain ⟨q, hq, hqr⟩ := Option.map_eq_some'.mp hr
      subst hqr
      rcases confirm_if_quorum_find_cases _ _ c q k hq with hf | hf
      · obtain ⟨s2, hs2, hle⟩ := hset
        exact Or.inl ⟨s2, hf.trans hs2, hle⟩
      · exact Or.inr hf

/-! ## The shape of the operations that check the quorum -/

theorem node.same_shared_refl (n : node) : n.same_shared n :=
  ⟨rfl, rfl, rfl, rfl, rfl⟩

theorem node.same_shared_trans (n n1 n2 : node) (h1 : n.same_shared n1)
    (h2 : n1.same_shared n2) : n.same_shared n2 :=
  ⟨h2.1.trans h1.1, h2.2.1.trans h1.2.1, h2.2.2.1.trans h1.2.2.1,
    h2.2.2.2.1.trans h1.2.2.2.1, h2.2.2.2.2.trans h1.2.2.2.2⟩

theorem election.same_phase_refl (e : election) : e.same_phase e := ⟨rfl, rfl⟩

theorem election.same_phase_trans (e e1 e2 : election) (h1 : e.same_phase e1)
    (h2 : e1.same_phase e2) : e.same_phase e2 :=
  ⟨h2.1.trans h1.1, h2.2.trans h1.2⟩

theorem election.keeps_votes_refl (e : election) : e.keeps_votes e := fun _ _ h => h

theorem election.keeps_votes_trans (e e1 e2 : election) (h1 : e.keeps_votes e1)
    (h2 : e1.keeps_votes e2) : e.keeps_votes e2 := fun k v h => h2 k v (h1 k v h)

theorem election.confirmed_of_same_phase (e e1 : election) (h : e.same_phase e1) :
    e1.confirmed = e.confirmed := by
  unfold election.confirmed
  rw [h.1]

theorem vote_shape (n : node) (e : election) (rep : account) (sequence : Nat)
    (hash_a : block_hash) (c : clock) (r : election × node × election_vote_result)
    (hr : election.vote n e rep sequence hash_a c = some r) :
    election.quorum_call_shape c
      (fun e1 => e1 = e ∨ e1 = e.set_last_vote rep ⟨c.steady, sequence, hash_a⟩)
      e n r.1 r.2.1 := by
  cases hd : (election.vote_decision n e rep sequence hash_a c).2 with
  | false =>
    rw [vote_of_not_processed n e rep sequence hash_a c hd] at hr
    have hr2 := (Option.some.inj hr).symm
    subst hr2
    exact ⟨e, n, Or.inl rfl, e.same_phase_refl, n.same_shared_refl,
      Or.inl ⟨rfl, n.same_shared_refl⟩⟩
  | true =>
    rw [vote_of_processed n e rep sequence hash_a c hd] at hr
    refine ⟨e.set_last_vote rep ⟨c.steady, sequence, hash_a⟩, n.stats_inc stat_detail.vote_new,
      Or.inr rfl, ⟨rfl, rfl⟩, ⟨rfl, rfl, rfl, rfl, rfl⟩, ?_⟩
    by_cases hconf : e.confirmed = true
    · rw [if_pos hconf] at hr
      have hr2 := (Option.some.inj hr).symm
      subst hr2
      exact Or.inl ⟨rfl, ⟨rfl, rfl, rfl, rfl, rfl⟩⟩
    · rw [if_neg hconf] at hr
      obtain ⟨q, hq, hqr⟩ := Option.map_eq_some'.mp hr
      subst hqr
      exact Or.inr ⟨by simpa using hconf, q, hq, rfl, q.2.same_shared_refl⟩

theorem insert_cached_voters_keeps (hash_a : block_hash) (voters : List account)
    (lv : List (account × vote_info)) (st : List (stat_detail × Int)) (k : account)
    (v : vote_info)
    (h : map_find lv k = some v) :
    map_find (insert_cached_voters hash_a voters (lv, st)).1 k = some v := by
  induction voters generalizing lv st with
  | nil => exact h
  | cons rep rest ih =>
    unfold insert_cached_voters
    cases hfind : map_find lv rep with
    | some x => simp only; exact ih lv st h
    | none =>
      simp only
      apply ih
      rw [map_find_append, h]
      rfl

theorem insert_inactive_votes_cache_shape (n : node) (e : election) (hash_a : block_hash)
    (c : clock) (r : election × node × Nat)
    (hr : election.insert_inactive_votes_cache n e hash_a c = some r) :
    election.quorum_call_shape c e.keeps_votes e n r.1 r.2.1 ∧
      (r.2.2 = 0 → e.keeps_votes r.1 ∧ e.same_phase r.1 ∧ n.same_shared r.2.1) := by
  simp only [election.insert_inactive_votes_cache] at hr
  generalize find_inactive_votes_cache n hash_a = cache at hr
  have hkeep : e.keeps_votes
      (e.set_last_votes (insert_cached_voters hash_a cache.voters (e.last_votes, n.stats)).1) :=
    fun k v h => insert_cached_voters_keeps hash_a cache.voters e.last_votes n.stats k v h
  have hconf : (e.set_last_votes
      (insert_cached_voters hash_a cache.voters (e.last_votes, n.stats)).1).confirmed =
      e.confirmed := rfl
  rw [hconf] at hr
  by_cases hcond : (!e.confirmed && !cache.voters.isEmpty) = true
  · rw [if_pos hcond] at hr
    obtain ⟨q, hq, hqr⟩ := Option.map_eq_some'.mp hr
    subst hqr
    have hne : cache.voters.length ≠ 0 := by
      intro h0
      have : cache.voters = [] := List.length_eq_zero.mp h0
      simp [this] at hcond
    have hnc : e.confirmed = false := by
      cases h : e.confirmed
      · rfl
      · simp [h] at hcond
    refine ⟨?_, fun h0 => absurd h0 hne⟩
    by_cases hdelay : Int.tdiv (c.steady - cache.arrival) 1000000000 > late_blocks_delay
    · rw [if_pos hdelay] at hq
      refine ⟨_, _, hkeep, ⟨rfl, rfl⟩, ?_, Or.inr ⟨hnc, q, hq, rfl, q.2.same_shared_refl⟩⟩
      exact ⟨rfl, rfl, rfl, rfl, rfl⟩
    · rw [if_neg hdelay] at hq
      refine ⟨_, _, hkeep, ⟨rfl, rfl⟩, ?_, Or.inr ⟨hnc, q, hq, rfl, q.2.same_shared_refl⟩⟩
      exact ⟨rfl, rfl, rfl, rfl, rfl⟩
  · rw [if_neg hcond] at hr
    have hr2 := (Option.some.inj hr).symm
    subst hr2
    exact ⟨⟨_, _, hkeep, ⟨rfl, rfl⟩, ⟨rfl, rfl, rfl, rfl, rfl⟩,
      Or.inl ⟨rfl, ⟨rfl, rfl, rfl, rfl, rfl⟩⟩⟩,
      fun _ => ⟨hkeep, ⟨rfl, rfl⟩, ⟨rfl, rfl, rfl, rfl, rfl⟩⟩⟩

theorem publish_insert_shape (n : node) (e : election) (block_a : block) (c : clock)
    (r : election × node × Bool) (hconf : e.confirmed = false)
    (hr : election.publish_insert n e block_a c = some r) :
    election.quorum_call_shape c e.keeps_votes e n r.1 r.2.1 := by
  unfold election.publish_insert at hr
  cases hfind : map_find e.blocks block_a.hash with
  | some existing =>
    rw [hfind] at hr
    simp only at hr
    have hr2 := (Option.some.inj hr).symm
    subst hr2
    refine ⟨_, n, ?_, ?_, n.same_shared_refl, Or.inl ⟨rfl, n.same_shared_refl⟩⟩
    · intro k v h
      split <;> exact h
    · split
      · rename_i hw
        exact ⟨rfl, hw.symm ▸ rfl⟩
      · exact ⟨rfl, rfl⟩
  | none =>
    rw [hfind] at hr
    simp only at hr
    cases hins : election.insert_inactive_votes_cache n
        (e.set_blocks (e.blocks ++ [(block_a.hash, block_a)])) block_a.hash c with
    | none => rw [hins] at hr; exact Option.noConfusion hr
    | some r2 =>
      obtain ⟨e2, n2, count⟩ := r2
      rw [hins] at hr
      simp only at hr
      obtain ⟨hshape, hzero⟩ := insert_inactive_votes_cache_shape n _ block_a.hash c _ hins
      by_cases hc : count = 0
      · rw [if_pos hc] at hr
        obtain ⟨q, hq, hqr⟩ := Option.map_eq_some'.mp hr
        subst hqr
        obtain ⟨hk, hp, hs⟩ := hzero hc
        exact ⟨e2, n2, hk, hp, hs, Or.inr ⟨hconf, q, hq, rfl, ⟨rfl, rfl, rfl, rfl, rfl⟩⟩⟩
      · rw [if_neg hc] at hr
        have hr2 := (Option.some.inj hr).symm
        subst hr2
        obtain ⟨e1, n1, hk, hp, hs, hcase⟩ := hshape
        refine ⟨e1, n1, hk, hp, hs, ?_⟩
        rcases hcase with ⟨h1, h2⟩ | ⟨h1, q, hq, h2, h3⟩
        · exact Or.inl ⟨h1, node.same_shared_trans n n2 _ h2 ⟨rfl, rfl, rfl, rfl, rfl⟩⟩
        · exact Or.inr ⟨hconf, q, hq, h2,
            node.same_shared_trans q.2 n2 _ h3 ⟨rfl, rfl, rfl, rfl, rfl⟩⟩

theorem publish_shape (n : node) (e : election) (block_a : block) (c : clock)
    (r : election × node × Bool) (hr : election.publish n e block_a c = some r) :
    election.quorum_call_shape c e.keeps_votes e n r.1 r.2.1 := by
  have hplain : ∀ (e0 : election) (res : Bool), e.keeps_votes e0 → e.same_phase e0 →
      some (e0, n, res) = some r → election.quorum_call_shape c e.keeps_votes e n r.1 r.2.1 := by
    intro e0 res hk hp h
    have hr2 := (Option.some.inj h).symm
    subst hr2
    exact ⟨e0, n, hk, hp, n.same_shared_refl, Or.inl ⟨rfl, n.same_shared_refl⟩⟩
  have hins : ∀ (e0 : election), e.keeps_votes e0 → e.same_phase e0 → e.confirmed = false →
      election.publish_insert n e0 block_a c = some r →
      election.quorum_call_shape c e.keeps_votes e n r.1 r.2.1 := by
    intro e0 hk hp hc h
    have hc0 : e0.confirmed = false := by
      rw [election.confirmed_of_same_phase e e0 hp]; exact hc
    obtain ⟨e1, n1, hk1, hp1, hs1, hcase⟩ := publish_insert_shape n e0 block_a c r hc0 h
    refine ⟨e1, n1, election.keeps_votes_trans e e0 e1 hk hk1,
      election.same_phase_trans e e0 e1 hp hp1, hs1, ?_⟩
    rcases hcase with h1 | ⟨_, h2⟩
    · exact Or.inl h1
    · exact Or.inr ⟨hc, h2⟩
  simp only [election.publish] at hr
  cases hconf : e.confirmed with
  | true =>
    rw [hconf] at hr
    simp only [Bool.not_true, Bool.false_and, Bool.false_eq_true, if_false] at hr
    exact hplain e true (e.keeps_votes_refl) (e.same_phase_refl) hr
  | false =>
    rw [hconf] at hr
    simp only [Bool.not_false, Bool.true_and] at hr
    by_cases hmany : decide (e.blocks.length ≥ 10) = true
    · simp only [hmany, if_true] at hr
      by_cases hw : (map_find e.last_tally block_a.hash).getD 0 < n.online_stake / 10
      · simp only [hw, if_true, Bool.not_true, Bool.false_eq_true, if_false] at hr
        exact hplain (e.set_last_tally (map_emplace e.last_tally block_a.hash 0)) true
          (fun _ _ h => h) ⟨rfl, rfl⟩ hr
      · simp only [hw, if_false, Bool.not_false, if_true] at hr
        exact hins (e.set_last_tally (map_emplace e.last_tally block_a.hash 0))
          (fun _ _ h => h) ⟨rfl, rfl⟩ hconf hr
    · simp only [hmany, if_false, Bool.not_false, if_true] at hr
      exact hins e (e.keeps_votes_refl) (e.same_phase_refl) hconf hr

/-! ## Frames of the remaining operations -/

theorem state_change_frame (e : election) (a b : state_t) (c : clock) :
    (election.state_change e a b c).1.last_votes = e.last_votes ∧
      (election.state_change e a b c).1.status = e.status ∧
      (election.state_change e a b c).1.election_start = e.election_start ∧
      (election.state_change e a b c).1.behavior = e.behavior := by
  unfold election.state_change
  by_cases hv : valid_change a b = true <;> by_cases hs : e.state_m = a <;> simp [hv, hs]

theorem state_change_state (e : election) (a b : state_t) (c : clock) :
    (election.state_change e a b c).1.state_m = e.state_m ∨
      (valid_change a b = true ∧ e.state_m = a ∧ (election.state_change e a b c).1.state_m = b) := by
  unfold election.state_change
  by_cases hv : valid_change a b = true <;> by_cases hs : e.state_m = a <;> simp [hv, hs]

theorem send_confirm_req_frame (n : node) (e : election) (s : confirmation_solicitor)
    (c : clock) :
    (election.send_confirm_req n e s c).last_votes = e.last_votes ∧
      (election.send_confirm_req n e s c).status = e.status ∧
      (election.send_confirm_req n e s c).state_m = e.state_m ∧
      (election.send_confirm_req n e s c).election_start = e.election_start ∧
      (election.send_confirm_req n e s c).behavior = e.behavior := by
  unfold election.send_confirm_req
  by_cases h1 : election.base_latency n * (if e.optimistic = true then 10 else 5) <
      c.steady - e.last_req
  · rw [if_pos h1]
    cases s.add <;> exact ⟨rfl, rfl, rfl, rfl, rfl⟩
  · rw [if_neg h1]
    exact ⟨rfl, rfl, rfl, rfl, rfl⟩

theorem broadcast_block_frame (n : node) (e : election) (s : confirmation_solicitor)
    (c : clock) :
    (election.broadcast_block n e s c).last_votes = e.last_votes ∧
      (election.broadcast_block n e s c).status = e.status ∧
      (election.broadcast_block n e s c).state_m = e.state_m ∧
      (election.broadcast_block n e s c).election_start = e.election_start ∧
      (election.broadcast_block n e s c).behavior = e.behavior := by
  unfold election.broadcast_block
  by_cases h1 : election.base_latency n * 15 < c.steady - e.last_block
  · rw [if_pos h1]
    cases s.broadcast <;> exact ⟨rfl, rfl, rfl, rfl, rfl⟩
  · rw [if_neg h1]
    exact ⟨rfl, rfl, rfl, rfl, rfl⟩

/-- A state change to a state other than confirmed keeps `confirmed ()`
unless it is not one of the transitions of `valid_change`. -/
theorem state_change_confirmed (e : election) (a b : state_t) (c : clock)
    (hb : b ≠ state_t.confirmed) :
    (election.state_change e a b c).1.confirmed = e.confirmed := by
  rcases state_change_state e a b c with h | ⟨hv, ha, hb2⟩
  · unfold election.confirmed; rw [h]
  · unfold election.confirmed
    rw [hb2, ha]
    cases a <;> cases b <;> first | rfl | exact absurd hv (by decide) | exact absurd rfl hb

theorem transition_switch_frame (n : node) (e : election) (s : confirmation_solicitor)
    (c : clock) :
    (election.transition_switch n e s c).1.last_votes = e.last_votes ∧
      (election.transition_switch n e s c).1.status.winner = e.status.winner ∧
      (election.transition_switch n e s c).1.confirmed = e.confirmed := by
  have hsc := fun (x : election) (a b : state_t) => state_change_frame x a b c
  have hsr := fun (x : election) => send_confirm_req_frame n x s c
  have hbb := fun (x : election) => broadcast_block_frame n x s c
  have hconf : ∀ x y : election, x.state_m = y.state_m → x.confirmed = y.confirmed := by
    intro x y h; unfold election.confirmed; rw [h]
  unfold election.transition_switch
  split
  · split
    · exact ⟨(hsc _ _ _).1, by rw [(hsc _ _ _).2.1], state_change_confirmed _ _ _ _ (by decide)⟩
    · exact ⟨rfl, rfl, rfl⟩
  · simp only
    split
    · refine ⟨(hsc _ _ _).1.trans (hsr _).1, ?_, ?_⟩
      · rw [(hsc _ _ _).2.1, (hsr _).2.1]
      · rw [state_change_confirmed _ _ _ _ (by decide)]
        exact hconf _ _ (hsr _).2.2.1
    · exact ⟨(hsr _).1, by rw [(hsr _).2.1], hconf _ _ (hsr _).2.2.1⟩
  · refine ⟨(hsr _).1.trans (hbb _).1, ?_, ?_⟩
    · rw [(hsr _).2.1, (hbb _).2.1]
    · exact hconf _ _ ((hsr _).2.2.1.trans (hbb _).2.2.1)
  · split
    · exact ⟨(hsc _ _ _).1, by rw [(hsc _ _ _).2.1], state_change_confirmed _ _ _ _ (by decide)⟩
    · exact ⟨rfl, rfl, rfl⟩
  · exact ⟨rfl, rfl, rfl⟩
  · exact ⟨rfl, rfl, rfl⟩

theorem transition_time_frame (n : node) (e : election) (s : confirmation_solicitor)
    (c : clock) :
    (election.transition_time n e s c).1.last_votes = e.last_votes ∧
      (election.transition_time n e s c).1.status.winner = e.status.winner ∧
      (election.transition_time n e s c).1.confirmed = e.confirmed := by
  obtain ⟨h1, h2, h3⟩ := transition_switch_frame n e s c
  simp only [election.transition_time]
  generalize election.transition_switch n e s c = r at h1 h2 h3 ⊢
  have key : ∀ b : Bool,
      (if b = true then
          ((election.state_change r.1 r.1.state_m state_t.expired_unconfirmed c).1.set_status_type
            election_status_type.stopped, true)
        else r).1.last_votes = e.last_votes ∧
      (if b = true then
          ((election.state_change r.1 r.1.state_m state_t.expired_unconfirmed c).1.set_status_type
            election_status_type.stopped, true)
        else r).1.status.winner = e.status.winner ∧
      (if b = true then
          ((election.state_change r.1 r.1.state_m state_t.expired_unconfirmed c).1.set_status_type
            election_status_type.stopped, true)
        else r).1.confirmed = e.confirmed := by
    intro b
    cases b
    · exact ⟨h1, h2, h3⟩
    · refine ⟨(state_change_frame _ _ _ c).1.trans h1, ?_, ?_⟩
      · show (election.state_change r.1 r.1.state_m state_t.expired_unconfirmed c).1.status.winner
          = _
        rw [(state_change_frame _ _ _ c).2.1, h2]
      · show (election.state_change r.1 r.1.state_m state_t.expired_unconfirmed c).1.confirmed = _
        rw [state_change_confirmed _ _ _ _ (by decide), h3]
  exact key _

/-! ## Monotone stored votes -/

theorem remove_votes_voting (n : node) (e : election) (h : block_hash) :
    (election.remove_votes n e h).2.enable_voting = n.enable_voting ∧
      (election.remove_votes n e h).2.reps_voting = n.reps_voting := by
  unfold election.remove_votes
  split <;> exact ⟨rfl, rfl⟩

theorem switch_winner_voting (n : node) (e : election) (b : block) (s : Nat) :
    (election.switch_winner n e b s).2.enable_voting = n.enable_voting ∧
      (election.switch_winner n e b s).2.reps_voting = n.reps_voting := by
  simp only [election.switch_winner]
  split
  · exact remove_votes_voting _ _ _
  · exact ⟨rfl, rfl⟩

theorem confirm_once_voting (n : node) (e : election) (t : election_status_type) (c : clock) :
    (election.confirm_once n e t c).2.enable_voting = n.enable_voting ∧
      (election.confirm_once n e t c).2.reps_voting = n.reps_voting := by
  simp only [election.confirm_once]
  split
  · split <;> exact ⟨rfl, rfl⟩
  · exact ⟨rfl, rfl⟩

theorem confirm_if_quorum_voting (n : node) (e : election) (c : clock) (r : election × node)
    (hr : election.confirm_if_quorum n e c = some r) :
    r.2.enable_voting = n.enable_voting ∧ r.2.reps_voting = n.reps_voting := by
  obtain ⟨winner, rest, _, hcase⟩ := confirm_if_quorum_some n e c r hr
  rcases hcase with ⟨_, hrr⟩ | ⟨_, hrr⟩
  · rw [hrr]
    exact ⟨(confirm_once_voting _ _ _ _).1.trans (switch_winner_voting _ _ _ _).1,
      (confirm_once_voting _ _ _ _).2.trans (switch_winner_voting _ _ _ _).2⟩
  · rw [hrr]
    exact switch_winner_voting _ _ _ _

theorem shape_voting (c : clock) (P : election → Prop) (e : election) (n : node)
    (e2 : election) (n2 : node) (h : election.quorum_call_shape c P e n e2 n2) :
    n2.enable_voting = n.enable_voting ∧ n2.reps_voting = n.reps_voting := by
  obtain ⟨e1, n1, _, _, hs, hcase⟩ := h
  rcases hcase with ⟨_, h2⟩ | ⟨_, q, hq, _, h3⟩
  · exact ⟨h2.2.2.2.1, h2.2.2.2.2⟩
  · have hv := confirm_if_quorum_voting n1 e1 c q hq
    exact ⟨h3.2.2.2.1.trans (hv.1.trans hs.2.2.2.1), h3.2.2.2.2.trans (hv.2.trans hs.2.2.2.2)⟩

theorem shape_find_step (c : clock) (P : election → Prop) (e : election) (n : node)
    (e2 : election) (n2 : node) (k : account) (s1 : vote_info)
    (hP : ∀ e1, P e1 → e.keeps_votes e1)
    (h : election.quorum_call_shape c P e n e2 n2)
    (h1 : map_find e.last_votes k = some s1) :
    (∃ s2, map_find e2.last_votes k = some s2 ∧ s1.lex_le s2) ∨
      (map_find e2.last_votes k = none ∧
        n.local_voting ∧ n.generated_vote e.status.winner.hash k) := by
  obtain ⟨e1, n1, hp, hph, hs, hcase⟩ := h
  have hk1 := hP e1 hp k s1 h1
  rcases hcase with ⟨h2, _⟩ | ⟨_, q, hq, h2, _⟩
  · rw [h2]
    exact Or.inl ⟨s1, hk1, s1.lex_le_refl⟩
  · rw [h2]
    rcases confirm_if_quorum_find_cases n1 e1 c q k hq with hf | ⟨hf, hv, hg⟩
    · exact Or.inl ⟨s1, hf.trans hk1, s1.lex_le_refl⟩
    · refine Or.inr ⟨hf, ?_, ?_⟩
      · unfold node.local_voting at hv ⊢
        rw [← hs.2.2.2.1, ← hs.2.2.2.2]
        exact hv
      · unfold node.generated_vote at hg ⊢
        rw [← hs.2.2.1, ← hph.2]
        exact hg

theorem apply_find_step (e : election) (n : node) (op : election_op) (c : clock)
    (e2 : election) (n2 : node) (k : account) (s1 : vote_info)
    (hr : election.apply (e, n) op c = some (e2, n2))
    (h1 : map_find e.last_votes k = some s1) :
    (∃ s2, map_find e2.last_votes k = some s2 ∧ s1.lex_le s2) ∨
      (map_find e2.last_votes k = none ∧
        n.local_voting ∧ n.generated_vote e.status.winner.hash k) := by
  cases op with
  | vote rep sequence hash_a =>
    obtain ⟨r, hv, hrr⟩ := Option.map_eq_some'.mp hr
    have h2 := vote_find_step n e rep sequence hash_a c r k s1 hv h1
    rw [← (Prod.mk.inj hrr).1]
    exact h2
  | publish block_a =>
    obtain ⟨r, hv, hrr⟩ := Option.map_eq_some'.mp hr
    have h2 := shape_find_step c _ e n r.1 r.2.1 k s1 (fun _ hp => hp)
      (publish_shape n e block_a c r hv) h1
    rw [← (Prod.mk.inj hrr).1]
    exact h2
  | insert_inactive_votes_cache hash_a =>
    obtain ⟨r, hv, hrr⟩ := Option.map_eq_some'.mp hr
    have h2 := shape_find_step c _ e n r.1 r.2.1 k s1 (fun _ hp => hp)
      (insert_inactive_votes_cache_shape n e hash_a c r hv).1 h1
    rw [← (Prod.mk.inj hrr).1]
    exact h2
  | confirm_if_quorum =>
    rcases confirm_if_quorum_find_cases n e c (e2, n2) k hr with hf | hf
    · exact Or.inl ⟨s1, hf.trans h1, s1.lex_le_refl⟩
    · exact Or.inr hf
  | confirm_once type_a =>
    have hrr : election.confirm_once n e type_a c = (e2, n2) := Option.some.inj hr
    have he2 : e2 = (election.confirm_once n e type_a c).1 := by rw [hrr]
    refine Or.inl ⟨s1, ?_, s1.lex_le_refl⟩
    rw [he2, confirm_once_last_votes]
    exact h1
  | transition_time solicitor_a =>
    have hrr : ((election.transition_time n e solicitor_a c).1, n) = (e2, n2) :=
      Option.some.inj hr
    have he2 : e2 = (election.transition_time n e solicitor_a c).1 := by rw [← (Prod.mk.inj hrr).1]
    refine Or.inl ⟨s1, ?_, s1.lex_le_refl⟩
    rw [he2, (transition_time_frame n e solicitor_a c).1]
    exact h1
  | transition_active =>
    have hrr : (election.transition_active e c, n) = (e2, n2) := Option.some.inj hr
    have he2 : e2 = election.transition_active e c := by rw [← (Prod.mk.inj hrr).1]
    refine Or.inl ⟨s1, ?_, s1.lex_le_refl⟩
    rw [he2]
    unfold election.transition_active
    rw [(state_change_frame _ _ _ c).1]
    exact h1

theorem apply_voting (e : election) (n : node) (op : election_op) (c : clock)
    (e2 : election) (n2 : node) (hr : election.apply (e, n) op c = some (e2, n2)) :
    n2.enable_voting = n.enable_voting ∧ n2.reps_voting = n.reps_voting := by
  cases op with
  | vote rep sequence hash_a =>
    obtain ⟨r, hv, hrr⟩ := Option.map_eq_some'.mp hr
    rw [← (Prod.mk.inj hrr).2]
    exact shape_voting c _ e n r.1 r.2.1 (vote_shape n e rep sequence hash_a c r hv)
  | publish block_a =>
    obtain ⟨r, hv, hrr⟩ := Option.map_eq_some'.mp hr
    rw [← (Prod.mk.inj hrr).2]
    exact shape_voting c _ e n r.1 r.2.1 (publish_shape n e block_a c r hv)
  | insert_inactive_votes_cache hash_a =>
    obtain ⟨r, hv, hrr⟩ := Option.map_eq_some'.mp hr
    rw [← (Prod.mk.inj hrr).2]
    exact shape_voting c _ e n r.1 r.2.1 (insert_inactive_votes_cache_shape n e hash_a c r hv).1
  | confirm_if_quorum => exact confirm_if_quorum_voting n e c (e2, n2) hr
  | confirm_once type_a =>
    have hrr : election.confirm_once n e type_a c = (e2, n2) := Option.some.inj hr
    have hn2 : n2 = (election.confirm_once n e type_a c).2 := by rw [hrr]
    rw [hn2]
    exact confirm_once_voting n e type_a c
  | transition_time solicitor_a =>
    have hrr : ((election.transition_time n e solicitor_a c).1, n) = (e2, n2) :=
      Option.some.inj hr
    rw [← (Prod.mk.inj hrr).2]
    exact ⟨rfl, rfl⟩
  | transition_active =>
    have hrr : (election.transition_active e c, n) = (e2, n2) := Option.some.inj hr
    rw [← (Prod.mk.inj hrr).2]
    exact ⟨rfl, rfl⟩

theorem run_find_of_no_local_voting (ops : List (election_op × clock)) (e : election) (n : node)
    (e2 : election) (n2 : node) (k : account) (s1 : vote_info)
    (hnv : ¬ n.local_voting) (hr : election.run (e, n) ops = some (e2, n2))
    (h1 : map_find e.last_votes k = some s1) :
    ∃ s2, map_find e2.last_votes k = some s2 ∧ s1.lex_le s2 := by
  induction ops generalizing e n s1 with
  | nil =>
    have hrr := Prod.mk.inj (Option.some.inj hr)
    rw [← hrr.1]
    exact ⟨s1, h1, s1.lex_le_refl⟩
  | cons oc rest ih =>
    unfold election.run at hr
    cases hstep : election.apply (e, n) oc.1 oc.2 with
    | none => rw [hstep] at hr; exact Option.noConfusion hr
    | some s =>
      obtain ⟨e1, n1⟩ := s
      rw [hstep] at hr
      simp only at hr
      have hv := apply_voting e n oc.1 oc.2 e1 n1 hstep
      have hnv1 : ¬ n1.local_voting := by
        unfold node.local_voting at hnv ⊢
        rw [hv.1, hv.2]
        exact hnv
      rcases apply_find_step e n oc.1 oc.2 e1 n1 k s1 hstep h1 with ⟨s, hs, hle⟩ | ⟨_, hlv, _⟩
      · obtain ⟨s2, hs2, hle2⟩ := ih e1 n1 s hnv1 hr hs
        exact ⟨s2, hs2, vote_info.lex_le_trans s1 s s2 hle hle2⟩
      · exact absurd hlv hnv

/-- C5 (as stated, refuted): on a node that votes locally, account 2 holds
(5, block 2); a vote of account 1 for block 1 switches the winner, which
removes the entry of account 2, and a later vote of account 2 with the lower
sequence 1 is then stored: (5, 2) is followed by (1, 2). -/
theorem last_votes_not_monotone_counterexample :
    map_find fork_election.last_votes 2 = some ⟨0, 5, 2⟩ ∧
      (election.run (fork_election, voting_node)
          [(election_op.vote 1 1 1, ⟨0, 0⟩), (election_op.vote 2 1 2, ⟨0, 0⟩)]).map
        (fun r => map_find r.1.last_votes 2) = some (some ⟨0, 1, 2⟩) ∧
      ¬ vote_info.lex_le ⟨0, 5, 2⟩ ⟨0, 1, 2⟩ := by
  refine ⟨by decide, by decide, ?_⟩
  unfold vote_info.lex_le
  decide

/-- C5 (amended): one election operation (vote, publish,
insert_inactive_votes_cache, confirm_if_quorum, and also confirm_once,
transition_time, transition_active) either keeps the entry last_votes[R] with
a pair (S2, H2) lexicographically greater than or equal to the pair (S1, H1)
it held before, or removes the entry, which happens only on a node that votes
locally and holds a generated vote of R for the winner that the operation
replaces.  On a node that does not vote locally, over every sequence of
operations an entry (S1, H1) is still present at every later point, with a
pair that is lexicographically greater than or equal. -/
theorem last_votes_monotone_unless_removed :
    (∀ (e : election) (n : node) (op : election_op) (c : clock) (e2 : election) (n2 : node)
        (k : account) (s1 : vote_info),
        election.apply (e, n) op c = some (e2, n2) → map_find e.last_votes k = some s1 →
        (∃ s2, map_find e2.last_votes k = some s2 ∧ s1.lex_le s2) ∨
          (map_find e2.last_votes k = none ∧
            n.local_voting ∧ n.generated_vote e.status.winner.hash k)) ∧
      (∀ (e : election) (n : node) (ops : List (election_op × clock)) (e2 : election)
        (n2 : node) (k : account) (s1 : vote_info),
        ¬ n.local_voting → election.run (e, n) ops = some (e2, n2) →
        map_find e.last_votes k = some s1 →
        ∃ s2, map_find e2.last_votes k = some s2 ∧ s1.lex_le s2) :=
  ⟨fun e n op c e2 n2 k s1 hr h1 => apply_find_step e n op c e2 n2 k s1 hr h1,
    fun e n ops e2 n2 k s1 hnv hr h1 => run_find_of_no_local_voting ops e n e2 n2 k s1 hnv hr h1⟩

/-- The statement of `last_votes_monotone_unless_removed` on a node that does
not vote locally: after a second vote of account 1 in the fork election its
entry (1, block 1) is still present, with a pair that is not smaller. -/
theorem last_votes_monotone_unless_removed_witness :
    ∃ s2, map_find
          ((election.run (split_election, sample_node true 1000 0 100 split_weights)
            [(election_op.vote 1 2 1, ⟨10000000000, 0⟩)]).getD
            (split_election, sample_node true 1000 0 100 split_weights)).1.last_votes 1 =
        some s2 ∧ vote_info.lex_le ⟨0, 1, 1⟩ s2 :=
  last_votes_monotone_unless_removed.2 split_election
    (sample_node true 1000 0 100 split_weights)
    [(election_op.vote 1 2 1, ⟨10000000000, 0⟩)]
    ((election.run (split_election, sample_node true 1000 0 100 split_weights)
      [(election_op.vote 1 2 1, ⟨10000000000, 0⟩)]).getD
      (split_election, sample_node true 1000 0 100 split_weights)).1
    ((election.run (split_election, sample_node true 1000 0 100 split_weights)
      [(election_op.vote 1 2 1, ⟨10000000000, 0⟩)]).getD
      (split_election, sample_node true 1000 0 100 split_weights)).2
    1 ⟨0, 1, 1⟩ (fun h => Bool.noConfusion h.1) rfl rfl

/-! ## Insertions into `recently_confirmed` -/

theorem confirmed_of_state_eq (e e1 : election) (h : e1.state_m = e.state_m) :
    e1.confirmed = e.confirmed := by
  unfold election.confirmed
  rw [h]

theorem confirmed_of_state_confirmed (e : election) (h : e.state_m = state_t.confirmed) :
    e.confirmed = true := by
  unfold election.confirmed
  rw [h]
  rfl

theorem confirm_once_step (n : node) (e : election) (t : election_status_type) (c : clock) :
    election.confirmation_step e n (election.confirm_once n e t c).1
        (election.confirm_once n e t c).2 ∧
      (election.confirm_once n e t c).1.state_m = state_t.confirmed ∧
      (election.confirm_once n e t c).1.status.winner = e.status.winner := by
  simp only [election.confirm_once]
  by_cases hcond : e.state_m ≠ state_t.confirmed ∧
      ¬ (e.status.winner.hash ∈ n.election_winner_details)
  · rw [if_pos hcond]
    refine ⟨Or.inr ⟨?_, ?_, rfl, hcond.2, hcond.1⟩, rfl, rfl⟩
    · cases e.has_confirmation_action <;> rfl
    · cases e.has_confirmation_action <;> rfl
  · rw [if_neg hcond]
    refine ⟨Or.inl ⟨rfl, rfl, fun _ => ?_⟩, rfl, rfl⟩
    by_cases hs : e.state_m = state_t.confirmed
    · exact Or.inl (confirmed_of_state_confirmed e hs)
    · by_cases hm : e.status.winner.hash ∈ n.election_winner_details
      · exact Or.inr hm
      · exact absurd ⟨hs, hm⟩ hcond

theorem remove_votes_shared (n : node) (e : election) (h : block_hash) :
    (election.remove_votes n e h).2.recently_confirmed = n.recently_confirmed ∧
      (election.remove_votes n e h).2.election_winner_details = n.election_winner_details := by
  unfold election.remove_votes
  split <;> exact ⟨rfl, rfl⟩

theorem switch_winner_shared (n : node) (e : election) (b : block) (s : Nat) :
    (election.switch_winner n e b s).2.recently_confirmed = n.recently_confirmed ∧
      (election.switch_winner n e b s).2.election_winner_details =
        n.election_winner_details := by
  simp only [election.switch_winner]
  split
  · exact remove_votes_shared _ _ _
  · exact ⟨rfl, rfl⟩

/-- A confirmation step seen from records that agree with its start and end
records on the state and on the shared node data. -/
theorem confirmation_step_transfer (e e1 e2 : election) (n n1 n2 n3 : node)
    (hstate : e1.state_m = e.state_m)
    (hrc1 : n1.recently_confirmed = n.recently_confirmed)
    (hd1 : n1.election_winner_details = n.election_winner_details)
    (hrc3 : n3.recently_confirmed = n2.recently_confirmed)
    (hd3 : n3.election_winner_details = n2.election_winner_details)
    (h : election.confirmation_step e1 n1 e2 n2) : election.confirmation_step e n e2 n3 := by
  have hc := confirmed_of_state_eq e e1 hstate
  unfold election.confirmation_step at h ⊢
  rw [hrc3, hd3, ← hrc1, ← hd1, ← hc, ← hstate]
  exact h

theorem confirm_if_quorum_step (n : node) (e : election) (c : clock) (r : election × node)
    (hr : election.confirm_if_quorum n e c = some r) :
    election.confirmation_step e n r.1 r.2 := by
  obtain ⟨winner, rest, _, hcase⟩ := confirm_if_quorum_some n e c r hr
  have hst : (election.switch_winner n
      (election.set_status_tally (election.tally n e).1 winner.1) winner.2
      (tally_sum (winner :: rest))).1.state_m = e.state_m := switch_winner_state _ _ _ _
  have hsh := switch_winner_shared n
      (election.set_status_tally (election.tally n e).1 winner.1) winner.2
      (tally_sum (winner :: rest))
  rcases hcase with ⟨_, hrr⟩ | ⟨_, hrr⟩
  · rw [hrr]
    exact confirmation_step_transfer e _ _ n _ _ _ hst hsh.1 hsh.2 rfl rfl
      (confirm_once_step _ _ _ c).1
  · rw [hrr]
    exact Or.inl ⟨hsh.1, hsh.2, fun h => Or.inl ((confirmed_of_state_eq e _ hst) ▸ h)⟩

theorem shape_step (c : clock) (P : election → Prop) (e : election) (n : node)
    (e2 : election) (n2 : node) (h : election.quorum_call_shape c P e n e2 n2) :
    election.confirmation_step e n e2 n2 := by
  obtain ⟨e1, n1, _, hph, hs, hcase⟩ := h
  rcases hcase with ⟨h2, hs2⟩ | ⟨_, q, hq, h2, hs3⟩
  · refine Or.inl ⟨hs2.2.1, hs2.1, fun hc => Or.inl ?_⟩
    rw [h2, confirmed_of_state_eq e e1 hph.1] at hc
    exact hc
  · rw [h2]
    exact confirmation_step_transfer e e1 q.1 n n1 q.2 n2 hph.1 hs.2.1 hs.1 hs3.2.1 hs3.1
      (confirm_if_quorum_step n1 e1 c q hq)

theorem shape_recorded (c : clock) (P : election → Prop) (e : election) (n : node)
    (e2 : election) (n2 : node) (h : election.quorum_call_shape c P e n e2 n2)
    (hrec : e.winner_recorded n) :
    n2.recently_confirmed = n.recently_confirmed ∧ e2.winner_recorded n2 := by
  obtain ⟨e1, n1, _, hph, hs, hcase⟩ := h
  rcases hcase with ⟨h2, hs2⟩ | ⟨hnc, _⟩
  · refine ⟨hs2.2.1, ?_, ?_⟩
    · rw [h2, confirmed_of_state_eq e e1 hph.1]
      exact hrec.1
    · rw [h2, hph.2, hs2.1]
      exact hrec.2
  · rw [hrec.1] at hnc
    exact Bool.noConfusion hnc

theorem apply_step (e : election) (n : node) (op : election_op) (c : clock)
    (e2 : election) (n2 : node) (hr : election.apply (e, n) op c = some (e2, n2)) :
    election.confirmation_step e n e2 n2 := by
  cases op with
  | vote rep sequence hash_a =>
    obtain ⟨r, hv, hrr⟩ := Option.map_eq_some'.mp hr
    rw [← (Prod.mk.inj hrr).1, ← (Prod.mk.inj hrr).2]
    exact shape_step c _ e n r.1 r.2.1 (vote_shape n e rep sequence hash_a c r hv)
  | publish block_a =>
    obtain ⟨r, hv, hrr⟩ := Option.map_eq_some'.mp hr
    rw [← (Prod.mk.inj hrr).1, ← (Prod.mk.inj hrr).2]
    exact shape_step c _ e n r.1 r.2.1 (publish_shape n e block_a c r hv)
  | insert_inactive_votes_cache hash_a =>
    obtain ⟨r, hv, hrr⟩ := Option.map_eq_some'.mp hr
    rw [← (Prod.mk.inj hrr).1, ← (Prod.mk.inj hrr).2]
    exact shape_step c _ e n r.1 r.2.1 (insert_inactive_votes_cache_shape n e hash_a c r hv).1
  | confirm_if_quorum => exact confirm_if_quorum_step n e c (e2, n2) hr
  | confirm_once type_a =>
    have hrr : election.confirm_once n e type_a c = (e2, n2) := Option.some.inj hr
    have h := (confirm_once_step n e type_a c).1
    rw [hrr] at h
    exact h
  | transition_time solicitor_a =>
    have hrr : ((election.transition_time n e solicitor_a c).1, n) = (e2, n2) :=
      Option.some.inj hr
    rw [← (Prod.mk.inj hrr).1, ← (Prod.mk.inj hrr).2]
    refine Or.inl ⟨rfl, rfl, fun hc => Or.inl ?_⟩
    rw [(transition_time_frame n e solicitor_a c).2.2] at hc
    exact hc
  | transition_active =>
    have hrr : (election.transition_active e c, n) = (e2, n2) := Option.some.inj hr
    rw [← (Prod.mk.inj hrr).1, ← (Prod.mk.inj hrr).2]
    refine Or.inl ⟨rfl, rfl, fun hc => Or.inl ?_⟩
    unfold election.transition_active at hc
    rw [state_change_confirmed _ _ _ _ (by decide)] at hc
    exact hc

theorem apply_recorded (e : election) (n : node) (op : election_op) (c : clock)
    (e2 : election) (n2 : node) (hop : op.is_quorum_check = false)
    (hr : election.apply (e, n) op c = some (e2, n2)) (hrec : e.winner_recorded n) :
    n2.recently_confirmed = n.recently_confirmed ∧ e2.winner_recorded n2 := by
  cases op with
  | vote rep sequence hash_a =>
    obtain ⟨r, hv, hrr⟩ := Option.map_eq_some'.mp hr
    rw [← (Prod.mk.inj hrr).1, ← (Prod.mk.inj hrr).2]
    exact shape_recorded c _ e n r.1 r.2.1 (vote_shape n e rep sequence hash_a c r hv) hrec
  | publish block_a =>
    obtain ⟨r, hv, hrr⟩ := Option.map_eq_some'.mp hr
    rw [← (Prod.mk.inj hrr).1, ← (Prod.mk.inj hrr).2]
    exact shape_recorded c _ e n r.1 r.2.1 (publish_shape n e block_a c r hv) hrec
  | insert_inactive_votes_cache hash_a =>
    obtain ⟨r, hv, hrr⟩ := Option.map_eq_some'.mp hr
    rw [← (Prod.mk.inj hrr).1, ← (Prod.mk.inj hrr).2]
    exact shape_recorded c _ e n r.1 r.2.1
      (insert_inactive_votes_cache_shape n e hash_a c r hv).1 hrec
  | confirm_if_quorum => exact Bool.noConfusion hop
  | confirm_once type_a =>
    have hrr : election.confirm_once n e type_a c = (e2, n2) := Option.some.inj hr
    obtain ⟨hstep, hstate, hwin⟩ := confirm_once_step n e type_a c
    rw [hrr] at hstep hstate hwin
    simp only at hstep hstate hwin
    rcases hstep with ⟨h1, h2, _⟩ | ⟨_, _, _, h4, _⟩
    · refine ⟨h1, confirmed_of_state_confirmed e2 hstate, ?_⟩
      rw [hwin, h2]
      exact hrec.2
    · rw [hwin] at h4
      exact absurd hrec.2 h4
  | transition_time solicitor_a =>
    have hrr : ((election.transition_time n e solicitor_a c).1, n) = (e2, n2) :=
      Option.some.inj hr
    rw [← (Prod.mk.inj hrr).1, ← (Prod.mk.inj hrr).2]
    obtain ⟨_, hw, hc⟩ := transition_time_frame n e solicitor_a c
    exact ⟨rfl, hc.trans hrec.1, by rw [hw]; exact hrec.2⟩
  | transition_active =>
    have hrr : (election.transition_active e c, n) = (e2, n2) := Option.some.inj hr
    rw [← (Prod.mk.inj hrr).1, ← (Prod.mk.inj hrr).2]
    refine ⟨rfl, ?_, ?_⟩
    · unfold election.transition_active
      rw [state_change_confirmed _ _ _ _ (by decide)]
      exact hrec.1
    · unfold election.transition_active
      rw [(state_change_frame _ _ _ c).2.1]
      exact hrec.2

theorem run_recorded (ops : List (election_op × clock)) (e : election) (n : node)
    (e2 : election) (n2 : node) (hops : ∀ oc ∈ ops, oc.1.is_quorum_check = false)
    (hr : election.run (e, n) ops = some (e2, n2)) (hrec : e.winner_recorded n) :
    n2.recently_confirmed = n.recently_confirmed ∧ e2.winner_recorded n2 := by
  induction ops generalizing e n with
  | nil =>
    have hrr := Prod.mk.inj (Option.some.inj hr)
    rw [← hrr.1, ← hrr.2]
    exact ⟨rfl, hrec⟩
  | cons oc rest ih =>
    unfold election.run at hr
    cases hstep : election.apply (e, n) oc.1 oc.2 with
    | none => rw [hstep] at hr; exact Option.noConfusion hr
    | some s =>
      obtain ⟨e1, n1⟩ := s
      rw [hstep] at hr
      simp only at hr
      obtain ⟨h1, hrec1⟩ := apply_recorded e n oc.1 oc.2 e1 n1
        (hops oc (List.mem_cons_self _ _)) hstep hrec
      obtain ⟨h2, hrec2⟩ := ih e1 n1 (fun x hx => hops x (List.mem_cons_of_mem _ hx)) hr hrec1
      exact ⟨h2.trans h1, hrec2⟩

theorem recorded_of_inserting_step (n : node) (e2 : election) (n2 : node)
    (h2 : n2.election_winner_details = n.election_winner_details ++ [e2.status.winner.hash])
    (h3 : e2.state_m = state_t.confirmed) : e2.winner_recorded n2 := by
  refine ⟨confirmed_of_state_confirmed e2 h3, ?_⟩
  rw [h2]
  simp

theorem run_at_most_once (ops : List (election_op × clock)) (e : election) (n : node)
    (e2 : election) (n2 : node) (hops : ∀ oc ∈ ops, oc.1.is_quorum_check = false)
    (hr : election.run (e, n) ops = some (e2, n2)) :
    n2.recently_confirmed = n.recently_confirmed ∨
      ∃ w : block, n2.recently_confirmed = n.recently_confirmed ++ [(w.qualified_root, w.hash)] := by
  induction ops generalizing e n with
  | nil =>
    have hrr := Prod.mk.inj (Option.some.inj hr)
    rw [← hrr.2]
    exact Or.inl rfl
  | cons oc rest ih =>
    unfold election.run at hr
    cases hstep : election.apply (e, n) oc.1 oc.2 with
    | none => rw [hstep] at hr; exact Option.noConfusion hr
    | some s =>
      obtain ⟨e1, n1⟩ := s
      rw [hstep] at hr
      simp only at hr
      have hrest : ∀ x ∈ rest, x.1.is_quorum_check = false :=
        fun x hx => hops x (List.mem_cons_of_mem _ hx)
      rcases apply_step e n oc.1 oc.2 e1 n1 hstep with ⟨h1, _, _⟩ | ⟨h1, h2, h3, _, _⟩
      · rw [← h1]
        exact ih e1 n1 hrest hr
      · obtain ⟨h4, _⟩ := run_recorded rest e1 n1 e2 n2 hrest hr
          (recorded_of_inserting_step n e1 n1 h2 h3)
        exact Or.inr ⟨e1.status.winner, h4.trans h1⟩

theorem run_exactly_once (ops : List (election_op × clock)) (e : election) (n : node)
    (e2 : election) (n2 : node) (hops : ∀ oc ∈ ops, oc.1.is_quorum_check = false)
    (hr : election.run (e, n) ops = some (e2, n2))
    (hd : n.election_winner_details = []) (hc : e.confirmed = false)
    (hc2 : e2.confirmed = true) :
    ∃ w : block, n2.recently_confirmed = n.recently_confirmed ++ [(w.qualified_root, w.hash)] := by
  induction ops generalizing e n with
  | nil =>
    have hrr := Prod.mk.inj (Option.some.inj hr)
    rw [← hrr.1, hc] at hc2
    exact Bool.noConfusion hc2
  | cons oc rest ih =>
    unfold election.run at hr
    cases hstep : election.apply (e, n) oc.1 oc.2 with
    | none => rw [hstep] at hr; exact Option.noConfusion hr
    | some s =>
      obtain ⟨e1, n1⟩ := s
      rw [hstep] at hr
      simp only at hr
      have hrest : ∀ x ∈ rest, x.1.is_quorum_check = false :=
        fun x hx => hops x (List.mem_cons_of_mem _ hx)
      rcases apply_step e n oc.1 oc.2 e1 n1 hstep with ⟨h1, h2, h3⟩ | ⟨h1, h2, h3, _, _⟩
      · have hc1 : e1.confirmed = false := by
          cases hx : e1.confirmed
          · rfl
          · rcases h3 hx with h | h
            · rw [hc] at h; exact Bool.noConfusion h
            · rw [hd] at h; simp at h
        rw [← h1]
        exact ih e1 n1 hrest hr (h2.trans hd) hc1
      · obtain ⟨h4, _⟩ := run_recorded rest e1 n1 e2 n2 hrest hr
          (recorded_of_inserting_step n e1 n1 h2 h3)
        exact ⟨e1.status.winner, h4.trans h1⟩

/-- C10 (as stated, refuted): on a node whose winner details already hold the
hash of the winner, `confirm_once` makes the passive election confirmed and
inserts nothing into `recently_confirmed`. -/
theorem confirmed_without_insertion_counterexample :
    (sample_election state_t.passive [(7, ⟨7, 3, 0⟩)] [] ⟨7, 3, 0⟩).confirmed = false ∧
      winner_known_node.recently_confirmed = [] ∧
      (election.run (sample_election state_t.passive [(7, ⟨7, 3, 0⟩)] [] ⟨7, 3, 0⟩,
          winner_known_node)
          [(election_op.confirm_once election_status_type.active_confirmed_quorum, ⟨0, 0⟩)]).map
        (fun r => (r.1.confirmed, r.2.recently_confirmed)) = some (true, []) := by
  decide

/-- C10 (amended): over every sequence of the operations confirm_once, vote,
publish, insert_inactive_votes_cache, transition_time (and transition_active)
of an election, at most one pair is inserted into `recently_confirmed`.  An
operation that makes `confirmed ()` true inserts the pair (qualified root,
hash) of the winner if the winner's hash is not yet in
`election_winner_details`; if it is, nothing is inserted.  So for an election
that starts unconfirmed on a node with empty winner details and ends
confirmed, exactly one pair has been inserted. -/
theorem recently_confirmed_insertions :
    (∀ (ops : List (election_op × clock)) (e : election) (n : node) (e2 : election) (n2 : node),
        (∀ oc ∈ ops, oc.1.is_quorum_check = false) →
        election.run (e, n) ops = some (e2, n2) →
        n2.recently_confirmed = n.recently_confirmed ∨
          ∃ w : block,
            n2.recently_confirmed = n.recently_confirmed ++ [(w.qualified_root, w.hash)]) ∧
      (∀ (e : election) (n : node) (op : election_op) (c : clock) (e2 : election) (n2 : node),
        election.apply (e, n) op c = some (e2, n2) → e.confirmed = false →
        e2.confirmed = true →
        (e2.status.winner.hash ∉ n.election_winner_details →
          n2.recently_confirmed = n.recently_confirmed ++
            [(e2.status.winner.qualified_root, e2.status.winner.hash)]) ∧
        (e2.status.winner.hash ∈ n.election_winner_details →
          n2.recently_confirmed = n.recently_confirmed)) ∧
      (∀ (ops : List (election_op × clock)) (e : election) (n : node) (e2 : election) (n2 : node),
        (∀ oc ∈ ops, oc.1.is_quorum_check = false) →
        election.run (e, n) ops = some (e2, n2) →
        n.election_winner_details = [] → e.confirmed = false → e2.confirmed = true →
        ∃ w : block,
          n2.recently_confirmed = n.recently_confirmed ++ [(w.qualified_root, w.hash)]) := by
  refine ⟨fun ops e n e2 n2 hops hr => run_at_most_once ops e n e2 n2 hops hr, ?_,
    fun ops e n e2 n2 hops hr hd hc hc2 => run_exactly_once ops e n e2 n2 hops hr hd hc hc2⟩
  intro e n op c e2 n2 hr hc hc2
  rcases apply_step e n op c e2 n2 hr with ⟨h1, _, h3⟩ | ⟨h1, _, _, h4, _⟩
  · refine ⟨fun hnot => ?_, fun _ => h1⟩
    rcases h3 hc2 with h | h
    · rw [hc] at h; exact Bool.noConfusion h
    · exact absurd h hnot
  · exact ⟨fun _ => h1, fun hin => absurd hin h4⟩

/-- The statement of `recently_confirmed_insertions` for the fork election on
a node with empty winner details and a quorum of 0 percent: a vote of account
3 for block 1 lets the election confirm, and exactly one pair is inserted. -/
theorem recently_confirmed_insertions_witness :
    ∃ w : block,
      ((election.run (split_election, sample_node true 1000 0 0 split_weights)
          [(election_op.vote 3 1 1, ⟨0, 0⟩)]).getD
          (split_election, sample_node true 1000 0 0 split_weights)).2.recently_confirmed =
        (sample_node true 1000 0 0 split_weights).recently_confirmed ++
          [(w.qualified_root, w.hash)] :=
  recently_confirmed_insertions.2.2 [(election_op.vote 3 1 1, ⟨0, 0⟩)] split_election
    (sample_node true 1000 0 0 split_weights)
    ((election.run (split_election, sample_node true 1000 0 0 split_weights)
      [(election_op.vote 3 1 1, ⟨0, 0⟩)]).getD
      (split_election, sample_node true 1000 0 0 split_weights)).1
    ((election.run (split_election, sample_node true 1000 0 0 split_weights)
      [(election_op.vote 3 1 1, ⟨0, 0⟩)]).getD
      (split_election, sample_node true 1000 0 0 split_weights)).2
    (by decide) rfl rfl rfl (by decide)

/-! ## Ticks: `transition_time` before confirmation -/

theorem state_change_start (e : election) (a b : state_t) (c : clock) :
    (election.state_change e a b c).1.election_start = e.election_start ∧
      (election.state_change e a b c).1.behavior = e.behavior :=
  ⟨(state_change_frame e a b c).2.2.1, (state_change_frame e a b c).2.2.2⟩

theorem state_change_valid (e : election) (a b : state_t) (c : clock)
    (hv : valid_change a b = true) (hs : e.state_m = a) :
    (election.state_change e a b c).1.state_m = b := by
  unfold election.state_change
  simp [hv, hs]

/-- The step of the `switch` for the three states before confirmation: the
result flag stays false, a passive election becomes active exactly when more
than 5 x base_latency has elapsed since the state started, an active election
becomes broadcasting exactly when the request counter exceeds 2 after the
request attempt, and a broadcasting election keeps its state. -/
theorem transition_switch_pre (n : node) (e : election) (s : confirmation_solicitor)
    (c : clock) (hpre : e.pre_confirmed) :
    (election.transition_switch n e s c).2 = false ∧
      (election.transition_switch n e s c).1.election_start = e.election_start ∧
      (election.transition_switch n e s c).1.behavior = e.behavior ∧
      (election.transition_switch n e s c).1.pre_confirmed ∧
      (e.state_m = state_t.passive →
        (election.transition_switch n e s c).1.state_m =
          if election.base_latency n * 5 < c.steady - e.state_start then state_t.active
          else state_t.passive) ∧
      (e.state_m = state_t.active →
        (election.transition_switch n e s c).1.state_m =
          if (election.send_confirm_req n e s c).confirmation_request_count > 2 then
            state_t.broadcasting
          else state_t.active) ∧
      (e.state_m = state_t.broadcasting →
        (election.transition_switch n e s c).1.state_m = state_t.broadcasting) := by
  have hsr := send_confirm_req_frame n
  have hbb := broadcast_block_frame n
  unfold election.pre_confirmed at hpre ⊢
  rcases hpre with h | h | h
  · have hsw : election.transition_switch n e s c =
        if election.base_latency n * passive_duration_factor < c.steady - e.state_start then
          ((election.state_change e state_t.passive state_t.active c).1, false)
        else (e, false) := by
      unfold election.transition_switch
      rw [h]
    rw [hsw]
    by_cases ht : election.base_latency n * passive_duration_factor < c.steady - e.state_start
    · have hst := state_change_valid e state_t.passive state_t.active c (by decide) h
      have ht2 : election.base_latency n * 5 < c.steady - e.state_start := ht
      rw [if_pos ht]
      refine ⟨rfl, (state_change_start _ _ _ c).1, (state_change_start _ _ _ c).2,
        Or.inr (Or.inl hst), fun _ => ?_, fun h2 => ?_, fun h2 => ?_⟩
      · rw [if_pos ht2]; exact hst
      · rw [h] at h2; exact absurd h2 (by decide)
      · rw [h] at h2; exact absurd h2 (by decide)
    · have ht2 : ¬ election.base_latency n * 5 < c.steady - e.state_start := ht
      rw [if_neg ht]
      refine ⟨rfl, rfl, rfl, Or.inl h, fun _ => ?_, fun h2 => ?_, fun h2 => ?_⟩
      · rw [if_neg ht2]; exact h
      · rw [h] at h2; exact absurd h2 (by decide)
      · rw [h] at h2; exact absurd h2 (by decide)
  · have hsw : election.transition_switch n e s c =
        if (election.send_confirm_req n e s c).confirmation_request_count >
            active_request_count_min then
          ((election.state_change (election.send_confirm_req n e s c) state_t.active
            state_t.broadcasting c).1, false)
        else (election.send_confirm_req n e s c, false) := by
      unfold election.transition_switch
      rw [h]
    have hs1 : (election.send_confirm_req n e s c).state_m = state_t.active :=
      (hsr e s c).2.2.1.trans h
    rw [hsw]
    by_cases ht : (election.send_confirm_req n e s c).confirmation_request_count >
        active_request_count_min
    · have hst := state_change_valid (election.send_confirm_req n e s c) state_t.active
        state_t.broadcasting c (by decide) hs1
      have ht2 : (election.send_confirm_req n e s c).confirmation_request_count > 2 := ht
      rw [if_pos ht]
      refine ⟨rfl, (state_change_start _ _ _ c).1.trans (hsr e s c).2.2.2.1,
        (state_change_start _ _ _ c).2.trans (hsr e s c).2.2.2.2,
        Or.inr (Or.inr hst), fun h2 => ?_, fun _ => ?_, fun h2 => ?_⟩
      · rw [h] at h2; exact absurd h2 (by decide)
      · rw [if_pos ht2]; exact hst
      · rw [h] at h2; exact absurd h2 (by decide)
    · have ht2 : ¬ (election.send_confirm_req n e s c).confirmation_request_count > 2 := ht
      rw [if_neg ht]
      refine ⟨rfl, (hsr e s c).2.2.2.1, (hsr e s c).2.2.2.2, Or.inr (Or.inl hs1),
        fun h2 => ?_, fun _ => ?_, fun h2 => ?_⟩
      · rw [h] at h2; exact absurd h2 (by decide)
      · rw [if_neg ht2]; exact hs1
      · rw [h] at h2; exact absurd h2 (by decide)
  · have hsw : election.transition_switch n e s c =
        (election.send_confirm_req n (election.broadcast_block n e s c) s c, false) := by
      unfold election.transition_switch
      rw [h]
    have hs1 : (election.send_confirm_req n (election.broadcast_block n e s c) s c).state_m =
        state_t.broadcasting :=
      ((hsr _ s c).2.2.1.trans (hbb e s c).2.2.1).trans h
    rw [hsw]
    refine ⟨rfl, (hsr _ s c).2.2.2.1.trans (hbb e s c).2.2.2.1,
      (hsr _ s c).2.2.2.2.trans (hbb e s c).2.2.2.2, Or.inr (Or.inr hs1),
      fun h2 => ?_, fun h2 => ?_, fun _ => hs1⟩
    · rw [h] at h2; exact absurd h2 (by decide)
    · rw [h] at h2; exact absurd h2 (by decide)

theorem not_confirmed_of_pre_confirmed (e : election) (h : e.pre_confirmed) :
    e.confirmed = false := by
  unfold election.pre_confirmed at h
  unfold election.confirmed
  rcases h with h | h | h <;> rw [h] <;> rfl

theorem valid_change_expire (e : election) (h : e.pre_confirmed) :
    valid_change e.state_m state_t.expired_unconfirmed = true := by
  unfold election.pre_confirmed at h
  rcases h with h | h | h <;> rw [h] <;> rfl

/-- The deadline that `transition_time` computes is the hard deadline. -/
theorem expire_time_eq (n : node) (e : election) :
    milliseconds (if e.optimistic = true then (if n.is_test_network = true then 500 else 60 * 1000)
      else 5 * 60 * 1000) = hard_deadline n e := by
  unfold hard_deadline election.optimistic
  cases e.behavior <;> cases n.is_test_network <;> rfl

/-- The value of one tick on an election in a state before confirmation. -/
theorem transition_time_pre (n : node) (e : election) (s : confirmation_solicitor)
    (c : clock) (hpre : e.pre_confirmed) :
    election.transition_time n e s c =
      if hard_deadline n e < c.steady - e.election_start then
        (((election.state_change (election.transition_switch n e s c).1
            (election.transition_switch n e s c).1.state_m state_t.expired_unconfirmed c).1
          ).set_status_type election_status_type.stopped, true)
      else election.transition_switch n e s c := by
  obtain ⟨_, hstart, hbeh, hpre2, _, _, _⟩ := transition_switch_pre n e s c hpre
  have hconf := not_confirmed_of_pre_confirmed _ hpre2
  have hopt : (election.transition_switch n e s c).1.optimistic = e.optimistic := by
    unfold election.optimistic; rw [hbeh]
  simp only [election.transition_time]
  rw [hconf, hopt, hstart, expire_time_eq]
  by_cases hd : hard_deadline n e < c.steady - e.election_start
  · simp [hd]
  · simp [hd]

/-- C11: for every election in state passive, active or broadcasting, one
call of `transition_time` moves it to expired_unconfirmed, sets status.type to
stopped and returns true if and only if more than the hard deadline has
elapsed since election_start (5 minutes for a normal election, 60 seconds for
an optimistic one, 500 ms for an optimistic one on the test network);
otherwise it returns false and the election stays in a state before
confirmation. -/
theorem transition_time_expires_iff (n : node) (e : election) (s : confirmation_solicitor)
    (c : clock) (hpre : e.pre_confirmed) :
    (((election.transition_time n e s c).1.state_m = state_t.expired_unconfirmed ∧
        (election.transition_time n e s c).1.status.type = election_status_type.stopped ∧
        (election.transition_time n e s c).2 = true) ↔
      hard_deadline n e < c.steady - e.election_start) ∧
    (¬ hard_deadline n e < c.steady - e.election_start →
      (election.transition_time n e s c).2 = false ∧
        (election.transition_time n e s c).1.pre_confirmed) ∧
    hard_deadline n e =
      (if e.behavior = election_behavior.optimistic then
        (if n.is_test_network = true then 500 * 1000000 else 60 * 1000 * 1000000)
      else 5 * 60 * 1000 * 1000000) := by
  obtain ⟨hfalse, _, _, hpre2, _, _, _⟩ := transition_switch_pre n e s c hpre
  rw [transition_time_pre n e s c hpre]
  refine ⟨?_, ?_, ?_⟩
  · by_cases hd : hard_deadline n e < c.steady - e.election_start
    · rw [if_pos hd]
      refine ⟨fun _ => hd, fun _ => ⟨?_, rfl, rfl⟩⟩
      exact state_change_valid _ _ _ c (valid_change_expire _ hpre2) rfl
    · rw [if_neg hd]
      refine ⟨fun h => ?_, fun h => absurd h hd⟩
      rw [hfalse] at h
      exact Bool.noConfusion h.2.2
  · intro hd
    rw [if_neg hd]
    exact ⟨hfalse, hpre2⟩
  · unfold hard_deadline milliseconds
    cases e.behavior <;> cases n.is_test_network <;> rfl

/-- The statement of `transition_time_expires_iff` for an active election six
minutes after its start: the tick expires it. -/
theorem transition_time_expires_iff_witness :
    (election.transition_time (sample_node false 1000 0 50 (fun _ => 0))
        (sample_election state_t.active [(7, ⟨7, 3, 0⟩)] [] ⟨7, 3, 0⟩) ⟨true, true⟩
        ⟨360000000000, 0⟩).1.state_m = state_t.expired_unconfirmed :=
  ((transition_time_expires_iff (sample_node false 1000 0 50 (fun _ => 0))
    (sample_election state_t.active [(7, ⟨7, 3, 0⟩)] [] ⟨7, 3, 0⟩) ⟨true, true⟩
    ⟨360000000000, 0⟩ (Or.inr (Or.inl rfl))).1.mpr (by decide)).1

/-- C13: before the hard deadline, one tick of `transition_time` on an
election in a state before confirmation returns false; a passive election
becomes active exactly when more than 5 x base_latency (25 ms on the test
network, 1000 ms otherwise) has elapsed since the state started, an active
election becomes broadcasting exactly when confirmation_request_count exceeds
2 after the tick's request attempt, and no other state change happens. -/
theorem transition_time_tick (n : node) (e : election) (s : confirmation_solicitor)
    (c : clock) (hpre : e.pre_confirmed)
    (hbefore : ¬ hard_deadline n e < c.steady - e.election_start) :
    (election.transition_time n e s c).2 = false ∧
      (e.state_m = state_t.passive →
        (election.transition_time n e s c).1.state_m =
          if election.base_latency n * 5 < c.steady - e.state_start then state_t.active
          else state_t.passive) ∧
      (e.state_m = state_t.active →
        (election.transition_time n e s c).1.state_m =
          if (election.send_confirm_req n e s c).confirmation_request_count > 2 then
            state_t.broadcasting
          else state_t.active) ∧
      (e.state_m = state_t.broadcasting →
        (election.transition_time n e s c).1.state_m = state_t.broadcasting) ∧
      election.base_latency n = (if n.is_test_network = true then 25 * 1000000 else 1000 * 1000000) := by
  obtain ⟨hfalse, _, _, _, h1, h2, h3⟩ := transition_switch_pre n e s c hpre
  rw [transition_time_pre n e s c hpre, if_neg hbefore]
  refine ⟨hfalse, h1, h2, h3, ?_⟩
  unfold election.base_latency milliseconds
  cases n.is_test_network <;> rfl

/-- The statement of `transition_time_tick` for a passive election on the test
network 200 ms after its start: the tick makes it active. -/
theorem transition_time_tick_witness :
    (election.transition_time (sample_node true 1000 0 50 (fun _ => 0))
        (sample_election state_t.passive [(7, ⟨7, 3, 0⟩)] [] ⟨7, 3, 0⟩) ⟨true, true⟩
        ⟨200000000, 0⟩).1.state_m =
      if election.base_latency (sample_node true 1000 0 50 (fun _ => 0)) * 5 <
          (200000000 : Int) - 0 then state_t.active else state_t.passive :=
  (transition_time_tick (sample_node true 1000 0 50 (fun _ => 0))
    (sample_election state_t.passive [(7, ⟨7, 3, 0⟩)] [] ⟨7, 3, 0⟩) ⟨true, true⟩
    ⟨200000000, 0⟩ (Or.inl rfl) (by decide)).2.1 rfl

/-- C12 (the code at the failing input): an election created at time 0 on
the main network and confirmed by `confirm_once` at 10 s is moved to
expired_confirmed, with result true, by a `transition_time` call at the same
10 s, because `confirm_once` leaves `state_start` at 0. -/
theorem confirmed_expires_at_once :
    (election.confirm_once (sample_node false 1000 0 50 (fun _ => 0))
        (election.create (sample_node false 1000 0 50 (fun _ => 0)) ⟨7, 3, 0⟩ false false
          election_behavior.normal 1 ⟨0, 0⟩)
        election_status_type.active_confirmed_quorum ⟨10000000000, 0⟩).1.state_m =
        state_t.confirmed ∧
      (election.confirm_once (sample_node false 1000 0 50 (fun _ => 0))
        (election.create (sample_node false 1000 0 50 (fun _ => 0)) ⟨7, 3, 0⟩ false false
          election_behavior.normal 1 ⟨0, 0⟩)
        election_status_type.active_confirmed_quorum ⟨10000000000, 0⟩).1.state_start = 0 ∧
      ¬ ((10000000000 : Int) >
        10000000000 + 5 * election.base_latency (sample_node false 1000 0 50 (fun _ => 0))) ∧
      (election.transition_time (sample_node false 1000 0 50 (fun _ => 0))
        (election.confirm_once (sample_node false 1000 0 50 (fun _ => 0))
          (election.create (sample_node false 1000 0 50 (fun _ => 0)) ⟨7, 3, 0⟩ false false
            election_behavior.normal 1 ⟨0, 0⟩)
          election_status_type.active_confirmed_quorum ⟨10000000000, 0⟩).1
        ⟨true, true⟩ ⟨10000000000, 0⟩).1.state_m = state_t.expired_confirmed ∧
      (election.transition_time (sample_node false 1000 0 50 (fun _ => 0))
        (election.confirm_once (sample_node false 1000 0 50 (fun _ => 0))
          (election.create (sample_node false 1000 0 50 (fun _ => 0)) ⟨7, 3, 0⟩ false false
            election_behavior.normal 1 ⟨0, 0⟩)
          election_status_type.active_confirmed_quorum ⟨10000000000, 0⟩).1
        ⟨true, true⟩ ⟨10000000000, 0⟩).2 = true := by
  decide

/-! ## Frames of the quorum check -/

theorem remove_votes_frame (n : node) (e : election) (h : block_hash) :
    (election.remove_votes n e h).1.blocks = e.blocks ∧
      (election.remove_votes n e h).1.status = e.status ∧
      (election.remove_votes n e h).2.stats = n.stats ∧
      n.same_ledger (election.remove_votes n e h).2 := by
  unfold election.remove_votes
  split <;> exact ⟨rfl, rfl, rfl, rfl, rfl, rfl, rfl⟩

theorem switch_winner_frame (n : node) (e : election) (b : block) (s : Nat) :
    (election.switch_winner n e b s).1.blocks = e.blocks ∧
      (election.switch_winner n e b s).2.stats = n.stats ∧
      n.same_ledger (election.switch_winner n e b s).2 := by
  simp only [election.switch_winner]
  split
  · exact ⟨(remove_votes_frame _ _ _).1, (remove_votes_frame _ _ _).2.2.1,
      (remove_votes_frame _ _ _).2.2.2⟩
  · exact ⟨rfl, rfl, rfl, rfl, rfl, rfl⟩

theorem switch_winner_winner (n : node) (e : election) (b : block) (s : Nat)
    (hs : s ≥ n.online_weight_minimum) :
    (election.switch_winner n e b s).1.status.winner.hash = b.hash := by
  simp only [election.switch_winner]
  by_cases hne : b.hash ≠ e.status.winner.hash
  · rw [if_pos ⟨hs, hne⟩]
    show (election.remove_votes n _ _).1.status.winner.hash = b.hash
    rw [(remove_votes_frame _ _ _).2.1]
  · rw [if_neg (fun h => hne h.2)]
    exact (not_not.mp hne).symm

theorem confirm_once_frame (n : node) (e : election) (t : election_status_type) (c : clock) :
    (election.confirm_once n e t c).1.blocks = e.blocks ∧
      (election.confirm_once n e t c).2.stats = n.stats := by
  simp only [election.confirm_once]
  split
  · refine ⟨rfl, ?_⟩
    cases e.has_confirmation_action <;> rfl
  · exact ⟨rfl, rfl⟩

theorem confirm_if_quorum_frame (n : node) (e : election) (c : clock) (r : election × node)
    (hr : election.confirm_if_quorum n e c = some r) :
    r.1.blocks = e.blocks ∧ r.2.stats = n.stats := by
  obtain ⟨winner, rest, _, hcase⟩ := confirm_if_quorum_some n e c r hr
  rcases hcase with ⟨_, hrr⟩ | ⟨_, hrr⟩
  · rw [hrr]
    exact ⟨(confirm_once_frame _ _ _ c).1.trans (switch_winner_frame n _ _ _).1,
      (confirm_once_frame _ _ _ c).2.trans (switch_winner_frame n _ _ _).2.1⟩
  · rw [hrr]
    exact ⟨(switch_winner_frame n _ _ _).1, (switch_winner_frame n _ _ _).2.1⟩

/-- With quorum on its tally, `confirm_if_quorum` makes the first block of the
tally the winner and leaves the election in state confirmed. -/
theorem confirm_if_quorum_of_quorum (n : node) (e : election) (c : clock) (w : Nat × block)
    (rest : tally_t) (ht : (election.tally n e).2 = w :: rest)
    (hq : have_quorum n (w :: rest) (tally_sum (w :: rest)) = some true) :
    ∃ r, election.confirm_if_quorum n e c = some r ∧
      r.1.status.winner.hash = w.2.hash ∧ r.1.state_m = state_t.confirmed := by
  obtain ⟨r, hr⟩ := confirm_if_quorum_isSome n e c (by rw [ht]; simp)
  refine ⟨r, hr, ?_⟩
  obtain ⟨winner, rest2, ht2, hcase⟩ := confirm_if_quorum_some n e c r hr
  rw [ht] at ht2
  obtain ⟨hw, hrest⟩ := List.cons.inj ht2
  subst hw hrest
  have hmin : tally_sum (w :: rest) ≥ n.online_weight_minimum := by
    by_contra hlt
    unfold have_quorum at hq
    rw [if_neg hlt] at hq
    exact Bool.noConfusion (Option.some.inj hq)
  rcases hcase with ⟨_, hrr⟩ | ⟨hq2, _⟩
  · rw [hrr]
    obtain ⟨_, hst, hwin⟩ := confirm_once_step
      (election.switch_winner n (election.set_status_tally (election.tally n e).1 w.1) w.2
        (tally_sum (w :: rest))).2
      (election.switch_winner n (election.set_status_tally (election.tally n e).1 w.1) w.2
        (tally_sum (w :: rest))).1 election_status_type.active_confirmed_quorum c
    refine ⟨?_, hst⟩
    rw [hwin]
    exact switch_winner_winner n _ _ _ hmin
  · rw [hq] at hq2
    exact Bool.noConfusion (Option.some.inj hq2)

/-- The tally and the quorum test read the node only through the ledger
weights and the quorum settings, and the election only through `last_votes`
and `blocks`. -/
theorem tally_congr (n n2 : node) (e e2 : election) (hn : n.same_ledger n2)
    (hv : e2.last_votes = e.last_votes) (hb : e2.blocks = e.blocks) :
    (election.tally n2 e2).2 = (election.tally n e).2 := by
  unfold election.tally block_weights
  simp only [hv, hb, hn.1]

theorem have_quorum_same_ledger (n n2 : node) (t : tally_t) (s : Nat) (hn : n.same_ledger n2) :
    have_quorum n2 t s = have_quorum n t s := by
  apply have_quorum_congr
  · unfold node.delta; rw [hn.2.1, hn.2.2.2]
  · exact hn.2.2.1

/-! ## Non-empty tallies -/

theorem tally_ne_nil_iff (n : node) (e : election) :
    (election.tally n e).2 ≠ [] ↔
      ∃ v ∈ e.last_votes, (map_find e.blocks v.2.hash).isSome = true := by
  have hperm := tally_of_perm e.blocks (block_weights n e.last_votes)
  constructor
  · intro hne
    have hne2 : tally_of e.blocks (block_weights n e.last_votes) ≠ [] := hne
    obtain ⟨x, hx⟩ := List.exists_mem_of_ne_nil _ hne2
    obtain ⟨item, hitem, hsome⟩ := List.mem_filterMap.mp (hperm.subset hx)
    have hkey : item.1 ∈ (block_weights n e.last_votes).map Prod.fst :=
      List.mem_map.mpr ⟨item, hitem, rfl⟩
    obtain ⟨v, hv, hvh⟩ := List.mem_map.mp ((mem_keys_block_weights n e.last_votes item.1).mp hkey)
    refine ⟨v, hv, ?_⟩
    rw [hvh]
    cases hf : map_find e.blocks item.1 with
    | none => rw [hf] at hsome; exact Option.noConfusion hsome
    | some b => rfl
  · rintro ⟨v, hv, hsome⟩
    have hkey := (mem_keys_block_weights n e.last_votes v.2.hash).mpr
      (List.mem_map.mpr ⟨v, hv, rfl⟩)
    obtain ⟨item, hitem, hfst⟩ := List.mem_map.mp hkey
    obtain ⟨b, hb⟩ := Option.isSome_iff_exists.mp hsome
    have hin : (item.2, b) ∈ (block_weights n e.last_votes).filterMap
        (fun item => (map_find e.blocks item.1).map (fun b => (item.2, b))) := by
      refine List.mem_filterMap.mpr ⟨item, hitem, ?_⟩
      rw [hfst, hb]
      rfl
    intro hnil
    have hnil2 : tally_of e.blocks (block_weights n e.last_votes) = [] := hnil
    rw [hnil2] at hperm
    have := hperm.symm.subset hin
    simp at this

theorem insert_cached_voters_prefix (hash_a : block_hash) (voters : List account)
    (lv : List (account × vote_info)) (st : List (stat_detail × Int)) :
    ∃ extra, (insert_cached_voters hash_a voters (lv, st)).1 = lv ++ extra := by
  induction voters generalizing lv st with
  | nil => exact ⟨[], by simp [insert_cached_voters]⟩
  | cons rep rest ih =>
    unfold insert_cached_voters
    cases hfind : map_find lv rep with
    | some x => simp only; exact ih lv st
    | none =>
      simp only
      obtain ⟨extra, hex⟩ := ih (lv ++ [(rep, ⟨time_point_min, 0, hash_a⟩)])
        (st ++ [(stat_detail.vote_cached, 1)])
      exact ⟨[(rep, ⟨time_point_min, 0, hash_a⟩)] ++ extra, by rw [hex, List.append_assoc]⟩

theorem map_find_append_isSome {β : Type} (m m2 : List (Nat × β)) (k : Nat)
    (h : (map_find m k).isSome = true) : (map_find (m ++ m2) k).isSome = true := by
  rw [map_find_append]
  cases hf : map_find m k with
  | none => rw [hf] at h; exact Bool.noConfusion h
  | some x => rfl

/-- Adding a block and copying cached voters keeps a tally non-empty. -/
theorem tally_ne_nil_with_block (n : node) (e e0 : election) (b : block) (h : block_hash)
    (hv : e0.last_votes = e.last_votes) (hb : e0.blocks = e.blocks)
    (hne : (election.tally n e).2 ≠ []) :
    (election.tally n (election.with_cached_votes n (e0.with_block b) h)).2 ≠ [] := by
  rw [tally_ne_nil_iff] at hne ⊢
  obtain ⟨v, hvm, hsome⟩ := hne
  obtain ⟨extra, hex⟩ := insert_cached_voters_prefix h (find_inactive_votes_cache n h).voters
    e0.last_votes n.stats
  refine ⟨v, ?_, ?_⟩
  · show v ∈ (insert_cached_voters h (find_inactive_votes_cache n h).voters
      ((e0.with_block b).last_votes, n.stats)).1
    show v ∈ (insert_cached_voters h (find_inactive_votes_cache n h).voters
      (e0.last_votes, n.stats)).1
    rw [hex, hv]
    exact List.mem_append_left _ hvm
  · show (map_find (e0.blocks ++ [(b.hash, b)]) v.2.hash).isSome = true
    rw [hb]
    exact map_find_append_isSome _ _ _ hsome

/-! ## The cached voters: `insert_inactive_votes_cache` -/

theorem stat_value_append (st : List (stat_detail × Int)) (d d2 : stat_detail) (v : Int) :
    stat_value (st ++ [(d2, v)]) d = stat_value st d + (if d2 = d then v else 0) := by
  unfold stat_value
  by_cases h : d2 = d
  · simp [List.filter_append, h]
  · simp [List.filter_append, h]

/-- The value of `insert_inactive_votes_cache`: the cached voters are copied,
and an unconfirmed election with a non-empty cache entry then checks the
quorum, on a node that differs from the given one in the statistics log
only. -/
theorem insert_inactive_votes_cache_cases (n : node) (e : election) (hash_a : block_hash)
    (c : clock) :
    ∃ n2, n.same_shared n2 ∧ n.same_ledger n2 ∧
      stat_value n2.stats stat_detail.vote_cached =
        stat_value (insert_cached_voters hash_a (find_inactive_votes_cache n hash_a).voters
          (e.last_votes, n.stats)).2 stat_detail.vote_cached ∧
      election.insert_inactive_votes_cache n e hash_a c =
        if e.confirmed = false ∧ (find_inactive_votes_cache n hash_a).voters ≠ [] then
          (election.confirm_if_quorum n2 (election.with_cached_votes n e hash_a) c).map
            (fun r => (r.1, r.2, (find_inactive_votes_cache n hash_a).voters.length))
        else
          some (election.with_cached_votes n e hash_a, n2,
            (find_inactive_votes_cache n hash_a).voters.length) := by
  simp only [election.insert_inactive_votes_cache]
  have hconf : (e.set_last_votes (insert_cached_voters hash_a
      (find_inactive_votes_cache n hash_a).voters (e.last_votes, n.stats)).1).confirmed =
      e.confirmed := rfl
  rw [hconf]
  by_cases hcond : e.confirmed = false ∧ (find_inactive_votes_cache n hash_a).voters ≠ []
  · have hb : (!e.confirmed && !(find_inactive_votes_cache n hash_a).voters.isEmpty) = true := by
      rw [hcond.1]
      cases hv : (find_inactive_votes_cache n hash_a).voters with
      | nil => exact absurd hv hcond.2
      | cons x xs => rfl
    rw [if_pos hb]
    simp only [if_pos hcond]
    by_cases hdelay : Int.tdiv (c.steady - (find_inactive_votes_cache n hash_a).arrival)
        1000000000 > late_blocks_delay
    · rw [if_pos hdelay]
      refine ⟨((n.set_stats (insert_cached_voters hash_a
          (find_inactive_votes_cache n hash_a).voters (e.last_votes, n.stats)).2).stats_inc
          stat_detail.late_block).stats_add stat_detail.late_block_seconds
          (Int.tdiv (c.steady - (find_inactive_votes_cache n hash_a).arrival) 1000000000),
        ⟨rfl, rfl, rfl, rfl, rfl⟩, ⟨rfl, rfl, rfl, rfl⟩, ?_, rfl⟩
      show stat_value (((insert_cached_voters hash_a (find_inactive_votes_cache n hash_a).voters
        (e.last_votes, n.stats)).2 ++ [(stat_detail.late_block, 1)]) ++
          [(stat_detail.late_block_seconds, _)]) stat_detail.vote_cached = _
      rw [stat_value_append, stat_value_append]
      simp
    · rw [if_neg hdelay]
      exact ⟨n.set_stats (insert_cached_voters hash_a
          (find_inactive_votes_cache n hash_a).voters (e.last_votes, n.stats)).2,
        ⟨rfl, rfl, rfl, rfl, rfl⟩, ⟨rfl, rfl, rfl, rfl⟩, rfl, rfl⟩
  · have hb : ¬ (!e.confirmed && !(find_inactive_votes_cache n hash_a).voters.isEmpty) = true := by
      intro hb
      apply hcond
      cases hc : e.confirmed
      · refine ⟨rfl, fun hv => ?_⟩
        rw [hc, hv] at hb
        exact Bool.noConfusion hb
      · rw [hc] at hb
        exact Bool.noConfusion hb
    rw [if_neg hb]
    simp only [if_neg hcond]
    exact ⟨n.set_stats (insert_cached_voters hash_a
        (find_inactive_votes_cache n hash_a).voters (e.last_votes, n.stats)).2,
      ⟨rfl, rfl, rfl, rfl, rfl⟩, ⟨rfl, rfl, rfl, rfl⟩, rfl, rfl⟩

/-! ## Publishing a block -/

/-- The value of `publish` when the capacity rule does not admit the block:
nothing but `last_tally` may change, and the result is true. -/
theorem publish_of_not_admits (n : node) (e : election) (b : block) (c : clock)
    (h : ¬ e.publish_admits n b) :
    ∃ e0, election.publish n e b c = some (e0, n, true) ∧ e0.blocks = e.blocks ∧
      e0.status = e.status ∧ e0.state_m = e.state_m ∧ e0.last_votes = e.last_votes := by
  simp only [election.publish]
  unfold election.publish_admits at h
  cases hconf : e.confirmed with
  | true =>
    simp only [Bool.not_true, Bool.false_and, Bool.false_eq_true, if_false]
    exact ⟨e, rfl, rfl, rfl, rfl, rfl⟩
  | false =>
    have hmany : decide (e.blocks.length ≥ 10) = true := by
      by_contra hm
      apply h
      refine ⟨hconf, Or.inl ?_⟩
      have : ¬ e.blocks.length ≥ 10 := by simpa using hm
      omega
    have hlow : (map_find e.last_tally b.hash).getD 0 < n.online_stake / 10 := by
      by_contra hl
      exact h ⟨hconf, Or.inr (Nat.le_of_not_lt hl)⟩
    simp only [Bool.not_false, Bool.true_and, hmany, if_true, hlow, Bool.not_true,
      Bool.false_eq_true, if_false]
    exact ⟨_, rfl, rfl, rfl, rfl, rfl⟩

/-- The value of `publish` when the capacity rule admits the block: the
insertion block runs, on an election that differs in `last_tally` at most. -/
theorem publish_of_admits (n : node) (e : election) (b : block) (c : clock)
    (h : e.publish_admits n b) :
    ∃ e0, election.publish n e b c = election.publish_insert n e0 b c ∧ e0.blocks = e.blocks ∧
      e0.status = e.status ∧ e0.state_m = e.state_m ∧ e0.last_votes = e.last_votes := by
  simp only [election.publish]
  unfold election.publish_admits at h
  rw [h.1]
  simp only [Bool.not_false, Bool.true_and]
  by_cases hmany : decide (e.blocks.length ≥ 10) = true
  · have hge : e.blocks.length ≥ 10 := by simpa using hmany
    have hhigh : ¬ (map_find e.last_tally b.hash).getD 0 < n.online_stake / 10 := by
      rcases h.2 with h2 | h2
      · omega
      · omega
    simp only [hmany, if_true, hhigh, if_false, Bool.not_false]
    exact ⟨_, rfl, rfl, rfl, rfl, rfl⟩
  · simp only [hmany, if_false, Bool.not_false, if_true]
    exact ⟨e, rfl, rfl, rfl, rfl, rfl⟩

/-- The insertion block of `publish` on a block whose hash is stored already:
the stored object is replaced, and so is the winner object if it has that
hash; the result is true. -/
theorem publish_insert_existing (n : node) (e : election) (b : block) (c : clock)
    (h : (map_find e.blocks b.hash).isSome = true) :
    ∃ e2, election.publish_insert n e b c = some (e2, n, true) ∧
      e2.blocks = map_assign e.blocks b.hash b ∧ e2.state_m = e.state_m ∧
      e2.last_votes = e.last_votes ∧
      e2.status.winner = (if e.status.winner.hash = b.hash then b else e.status.winner) := by
  obtain ⟨x, hx⟩ := Option.isSome_iff_exists.mp h
  unfold election.publish_insert
  rw [hx]
  simp only
  refine ⟨_, rfl, ?_, ?_, ?_, ?_⟩
  · split <;> rfl
  · split <;> rfl
  · split <;> rfl
  · show (if e.status.winner.hash = b.hash then
        (e.set_blocks (map_assign e.blocks b.hash b)).set_winner b
      else e.set_blocks (map_assign e.blocks b.hash b)).status.winner = _
    by_cases hw : e.status.winner.hash = b.hash
    · rw [if_pos hw, if_pos hw]; rfl
    · rw [if_neg hw, if_neg hw]; rfl

/-- The insertion block of `publish` on a new block of an unconfirmed
election: the block is added, the cached voters of its hash are copied, the
quorum is checked once and the block is flooded; the result is false. -/
theorem publish_insert_new (n : node) (e : election) (b : block) (c : clock)
    (hconf : e.confirmed = false) (h : map_find e.blocks b.hash = none) :
    ∃ n2, n.same_shared n2 ∧ n.same_ledger n2 ∧
      election.publish_insert n e b c =
        (election.confirm_if_quorum n2 (election.with_cached_votes n (e.with_block b) b.hash)
          c).map (fun r => (r.1, r.2.flood_block b, false)) := by
  obtain ⟨n2, hs, hl, _, hins⟩ := insert_inactive_votes_cache_cases n (e.with_block b) b.hash c
  have hc1 : (e.with_block b).confirmed = false := hconf
  refine ⟨n2, hs, hl, ?_⟩
  unfold election.publish_insert
  rw [h]
  simp only
  have hfold : e.set_blocks (e.blocks ++ [(b.hash, b)]) = e.with_block b := rfl
  rw [hfold, hins]
  by_cases hv : (find_inactive_votes_cache n b.hash).voters = []
  · rw [if_neg (fun hx => hx.2 hv)]
    simp [hv]
  · rw [if_pos ⟨hc1, hv⟩]
    have hlen : (find_inactive_votes_cache n b.hash).voters.length ≠ 0 := by
      intro h0; exact hv (List.length_eq_zero.mp h0)
    cases hq : election.confirm_if_quorum n2
        (election.with_cached_votes n (e.with_block b) b.hash) c with
    | none => rfl
    | some q => simp [hlen]

theorem keys_map_assign {β : Type} (m : List (Nat × β)) (k : Nat) (v : β)
    (h : (map_find m k).isSome = true) : (map_assign m k v).map Prod.fst = m.map Prod.fst := by
  induction m with
  | nil => simp [map_find] at h
  | cons p rest ih =>
    by_cases hp : p.1 = k
    · simp [map_assign, hp]
    · simp only [map_find, hp, if_false] at h
      simp [map_assign, hp, ih h]

/-- The value of `publish` in full: rejected by the capacity rule, replacing
a stored block, or adding a new block and checking the quorum. -/
theorem publish_cases (n : node) (e : election) (b : block) (c : clock) :
    (¬ e.publish_admits n b →
      ∃ e0 : election, election.publish n e b c = some (e0, n, true) ∧ e0.blocks = e.blocks ∧
        e0.status = e.status ∧ e0.state_m = e.state_m) ∧
    (e.publish_admits n b → (map_find e.blocks b.hash).isSome = true →
      ∃ e2 : election, election.publish n e b c = some (e2, n, true) ∧
        e2.blocks = map_assign e.blocks b.hash b ∧ e2.state_m = e.state_m ∧
        e2.status.winner = (if e.status.winner.hash = b.hash then b else e.status.winner)) ∧
    (e.publish_admits n b → map_find e.blocks b.hash = none →
      ∃ (e0 : election) (n2 : node), e0.blocks = e.blocks ∧ e0.last_votes = e.last_votes ∧ n.same_ledger n2 ∧
        election.publish n e b c =
          (election.confirm_if_quorum n2 (election.with_cached_votes n (e0.with_block b) b.hash)
            c).map (fun r => (r.1, r.2.flood_block b, false))) := by
  refine ⟨fun h => ?_, fun h hs => ?_, fun h hn => ?_⟩
  · obtain ⟨e0, h1, h2, h3, h4, _⟩ := publish_of_not_admits n e b c h
    exact ⟨e0, h1, h2, h3, h4⟩
  · obtain ⟨e0, h1, h2, h3, h4, h5⟩ := publish_of_admits n e b c h
    obtain ⟨e2, g1, g2, g3, _, g5⟩ := publish_insert_existing n e0 b c (by rw [h2]; exact hs)
    refine ⟨e2, h1.trans g1, ?_, g3.trans h4, ?_⟩
    · rw [g2, h2]
    · rw [g5, h3]
  · obtain ⟨e0, h1, h2, h3, h4, h5⟩ := publish_of_admits n e b c h
    have hc0 : e0.confirmed = false := by
      rw [confirmed_of_state_eq e e0 h4]; exact h.1
    obtain ⟨n2, _, hl, g⟩ := publish_insert_new n e0 b c hc0 (by rw [h2]; exact hn)
    exact ⟨e0, n2, h2, h5, hl, h1.trans g⟩

/-- C14: a returning call `publish (b)` has result false if and only if b's
hash was not in blocks, the election is not confirmed, and fewer than 10
blocks are present or last_tally[hash (b)] is at least online_stake / 10; in
that case blocks gains exactly the entry for b, and in every other case the
result is true and the hashes of blocks are unchanged.  The call returns
whenever the block is not added, and also when the tally of the election is
not empty. -/
theorem publish_result_iff (n : node) (e : election) (b : block) (c : clock) :
    (∀ r, election.publish n e b c = some r →
        (r.2.2 = false ↔ (map_find e.blocks b.hash = none ∧ e.publish_admits n b)) ∧
        (r.2.2 = false → r.1.blocks = e.blocks ++ [(b.hash, b)]) ∧
        (r.2.2 = true → r.1.blocks.map Prod.fst = e.blocks.map Prod.fst)) ∧
      ((¬ (map_find e.blocks b.hash = none ∧ e.publish_admits n b) ∨
          (election.tally n e).2 ≠ []) →
        ∃ r, election.publish n e b c = some r) := by
  obtain ⟨hrej, hex, hnew⟩ := publish_cases n e b c
  by_cases hadm : e.publish_admits n b
  · cases hfind : map_find e.blocks b.hash with
    | some x =>
      have hs : (map_find e.blocks b.hash).isSome = true := by rw [hfind]; rfl
      obtain ⟨e2, h1, h2, _, _⟩ := hex hadm hs
      refine ⟨fun r hr => ?_, fun _ => ⟨_, h1⟩⟩
      rw [h1] at hr
      have hr2 := (Option.some.inj hr).symm
      subst hr2
      refine ⟨⟨fun h => Bool.noConfusion h, fun h => Option.noConfusion h.1⟩,
        fun h => Bool.noConfusion h, fun _ => ?_⟩
      show e2.blocks.map Prod.fst = _
      rw [h2, keys_map_assign _ _ _ hs]
    | none =>
      obtain ⟨e0, n2, hb, hv, hl, h1⟩ := hnew hadm hfind
      refine ⟨fun r hr => ?_, fun hret => ?_⟩
      · rw [h1] at hr
        obtain ⟨q, hq, hqr⟩ := Option.map_eq_some'.mp hr
        subst hqr
        refine ⟨⟨fun _ => ⟨rfl, hadm⟩, fun _ => rfl⟩, fun _ => ?_, fun h => Bool.noConfusion h⟩
        show q.1.blocks = _
        rw [(confirm_if_quorum_frame _ _ c q hq).1]
        show e0.blocks ++ [(b.hash, b)] = _
        rw [hb]
      · rcases hret with h | h
        · exact absurd ⟨rfl, hadm⟩ h
        · have hne := tally_ne_nil_with_block n e e0 b b.hash hv hb h
          rw [← tally_congr n n2 _ _ hl rfl rfl] at hne
          obtain ⟨q, hq⟩ := confirm_if_quorum_isSome n2 _ c hne
          exact ⟨_, by rw [h1, hq]; rfl⟩
  · obtain ⟨e0, h1, h2, _, _⟩ := hrej hadm
    refine ⟨fun r hr => ?_, fun _ => ⟨_, h1⟩⟩
    rw [h1] at hr
    have hr2 := (Option.some.inj hr).symm
    subst hr2
    refine ⟨⟨fun h => Bool.noConfusion h, fun h => absurd h.2 hadm⟩,
      fun h => Bool.noConfusion h, fun _ => ?_⟩
    show e0.blocks.map Prod.fst = _
    rw [h2]

/-- The statement of `publish_result_iff` for the fork election of blocks 1
and 2: publishing a block of hash 3 returns, with result false, and the block
is added at the end of blocks. -/
theorem publish_result_iff_witness :
    ∃ r, election.publish (sample_node true 1000 0 100 split_weights) split_election
          ⟨3, 9, 0⟩ ⟨0, 0⟩ = some r ∧
        r.2.2 = false ∧ r.1.blocks = split_election.blocks ++ [(3, ⟨3, 9, 0⟩)] :=
  have hthm := publish_result_iff (sample_node true 1000 0 100 split_weights) split_election
    ⟨3, 9, 0⟩ ⟨0, 0⟩
  match hthm.2 (Or.inr (by decide)) with
  | ⟨r, hr⟩ =>
    ⟨r, hr, (hthm.1 r hr).1.mpr ⟨rfl, rfl, Or.inl (by decide)⟩,
      (hthm.1 r hr).2.1 ((hthm.1 r hr).1.mpr ⟨rfl, rfl, Or.inl (by decide)⟩)⟩

/-- C15 (as stated, refuted): a confirmed election whose winner is the block
of hash 7 with work 0 keeps that winner object when the block of hash 7 with
work 5 is published. -/
theorem publish_confirmed_keeps_winner_counterexample :
    (⟨7, 3, 5⟩ : block).hash =
        (sample_election state_t.confirmed [(7, ⟨7, 3, 0⟩)] [] ⟨7, 3, 0⟩).status.winner.hash ∧
      (election.publish (sample_node true 1000 0 50 (fun _ => 0))
          (sample_election state_t.confirmed [(7, ⟨7, 3, 0⟩)] [] ⟨7, 3, 0⟩) ⟨7, 3, 5⟩
          ⟨0, 0⟩).map (fun r => (r.1.status.winner, r.2.2)) = some (⟨7, 3, 0⟩, true) := by
  decide

/-- C15 (amended): when `publish` is called with a block whose hash equals
the hash of the current winner, the winner object is refreshed if the
election is not confirmed, passes the capacity rule (fewer than 10 blocks, or
a last tally of the hash of at least online_stake / 10) and holds the hash in
blocks: after the call status.winner is the published block object.  In a
confirmed election, or when the capacity rule rejects the block, the winner
object is left as it was.  The result is true in all these cases. -/
theorem publish_refreshes_winner (n : node) (e : election) (b : block) (c : clock)
    (hw : b.hash = e.status.winner.hash) :
    (e.publish_admits n b → (map_find e.blocks b.hash).isSome = true →
        ∃ e2 : election, election.publish n e b c = some (e2, n, true) ∧
          e2.status.winner = b) ∧
      (¬ e.publish_admits n b →
        ∃ e2 : election, election.publish n e b c = some (e2, n, true) ∧
          e2.status.winner = e.status.winner) := by
  obtain ⟨hrej, hex, _⟩ := publish_cases n e b c
  refine ⟨fun hadm hs => ?_, fun hadm => ?_⟩
  · obtain ⟨e2, h1, _, _, h4⟩ := hex hadm hs
    refine ⟨e2, h1, ?_⟩
    rw [h4, if_pos hw.symm]
  · obtain ⟨e0, h1, _, h3, _⟩ := hrej hadm
    exact ⟨e0, h1, by rw [h3]⟩

/-- The statement of `publish_refreshes_winner` for a passive election whose
winner is the block of hash 7 with work 0: publishing the block of hash 7
with work 5 makes that object the winner. -/
theorem publish_refreshes_winner_witness :
    ∃ e2 : election, election.publish (sample_node true 1000 0 50 (fun _ => 0))
          (sample_election state_t.passive [(7, ⟨7, 3, 0⟩)] [] ⟨7, 3, 0⟩) ⟨7, 3, 5⟩ ⟨0, 0⟩ =
        some (e2, sample_node true 1000 0 50 (fun _ => 0), true) ∧
      e2.status.winner = ⟨7, 3, 5⟩ :=
  (publish_refreshes_winner (sample_node true 1000 0 50 (fun _ => 0))
    (sample_election state_t.passive [(7, ⟨7, 3, 0⟩)] [] ⟨7, 3, 0⟩) ⟨7, 3, 5⟩ ⟨0, 0⟩ rfl).1
    ⟨rfl, Or.inl (by decide)⟩ rfl

/-- C16 (as stated, refuted): an unconfirmed election that holds ten blocks
and a vote of weight 50 for the hash 11, which is not in blocks.  With the
block of hash 11 added the tally has quorum for it (50 exceeds the delta of
10), but the last tally of the hash, 50, is below online_stake / 10 = 100, so
`publish` rejects the block: the result is true, the election stays passive
and the winner keeps hash 1. -/
theorem publish_crowded_counterexample :
    crowded_election.confirmed = false ∧
      map_find crowded_election.last_votes 1 = some ⟨0, 1, 11⟩ ∧
      map_find crowded_election.blocks 11 = none ∧
      ((election.tally small_quorum_node (crowded_election.with_block ⟨11, 9, 0⟩)).2.map
        (fun p => (p.1, p.2.hash))) = [(50, 11)] ∧
      have_quorum small_quorum_node
        (election.tally small_quorum_node (crowded_election.with_block ⟨11, 9, 0⟩)).2
        (tally_sum (election.tally small_quorum_node
          (crowded_election.with_block ⟨11, 9, 0⟩)).2) = some true ∧
      (election.publish small_quorum_node crowded_election ⟨11, 9, 0⟩ ⟨0, 0⟩).map
        (fun r => (r.1.state_m, r.1.status.winner.hash, r.2.2)) =
        some (state_t.passive, 1, true) := by
  decide

/-- C16 (amended): votes are tallied on `publish` even if no vote is inserted
through the inactive-votes cache.  For an unconfirmed election that passes
the capacity rule (fewer than 10 blocks, or a last tally of the hash of at
least online_stake / 10) and a block whose hash is not yet in blocks: if,
with the block added and the cached voters of its hash copied, the tally has
the block first and has quorum, then `publish` returns with result false,
the block is the winner and the election is confirmed. -/
theorem publish_tallies_votes (n : node) (e : election) (b : block) (c : clock)
    (hadm : e.publish_admits n b) (hnew : map_find e.blocks b.hash = none)
    (w : Nat × block) (rest : tally_t)
    (ht : (election.tally n (election.with_cached_votes n (e.with_block b) b.hash)).2 =
      w :: rest)
    (hwh : w.2.hash = b.hash)
    (hq : have_quorum n (w :: rest) (tally_sum (w :: rest)) = some true) :
    ∃ r, election.publish n e b c = some r ∧ r.2.2 = false ∧
      r.1.status.winner.hash = b.hash ∧ r.1.state_m = state_t.confirmed ∧
      r.1.confirmed = true := by
  obtain ⟨_, _, hnewc⟩ := publish_cases n e b c
  obtain ⟨e0, n2, hb, hv, hl, h1⟩ := hnewc hadm hnew
  have ht2 : (election.tally n2 (election.with_cached_votes n (e0.with_block b) b.hash)).2 =
      w :: rest := by
    rw [← ht]
    apply tally_congr n n2 _ _ hl
    · show (insert_cached_voters b.hash (find_inactive_votes_cache n b.hash).voters
        (e0.last_votes, n.stats)).1 = (insert_cached_voters b.hash
          (find_inactive_votes_cache n b.hash).voters (e.last_votes, n.stats)).1
      rw [hv]
    · show e0.blocks ++ [(b.hash, b)] = e.blocks ++ [(b.hash, b)]
      rw [hb]
  have hq2 : have_quorum n2 (w :: rest) (tally_sum (w :: rest)) = some true := by
    rw [have_quorum_same_ledger n n2 _ _ hl]; exact hq
  obtain ⟨q, hq1, hq3, hq4⟩ := confirm_if_quorum_of_quorum n2 _ c w rest ht2 hq2
  refine ⟨(q.1, q.2.flood_block b, false), ?_, rfl, hq3.trans hwh, hq4, ?_⟩
  · rw [h1, hq1]; rfl
  · show q.1.confirmed = true
    unfold election.confirmed
    rw [hq4]; rfl

/-- The statement of `publish_tallies_votes` for an unconfirmed election of
one block in which account 1, of weight 50, has voted for the hash 11:
publishing the block of hash 11 confirms it. -/
theorem publish_tallies_votes_witness :
    ∃ r, election.publish small_quorum_node
          (sample_election state_t.passive [(1, ⟨1, 9, 0⟩)] [(1, ⟨0, 1, 11⟩)] ⟨1, 9, 0⟩)
          ⟨11, 9, 0⟩ ⟨0, 0⟩ = some r ∧ r.2.2 = false ∧
      r.1.status.winner.hash = 11 ∧ r.1.state_m = state_t.confirmed ∧
      r.1.confirmed = true :=
  publish_tallies_votes small_quorum_node
    (sample_election state_t.passive [(1, ⟨1, 9, 0⟩)] [(1, ⟨0, 1, 11⟩)] ⟨1, 9, 0⟩)
    ⟨11, 9, 0⟩ ⟨0, 0⟩ ⟨rfl, Or.inl (by decide)⟩ rfl (50, ⟨11, 9, 0⟩) [] (by decide) rfl
    (by decide)

/-! ## The first entry of the tally -/

theorem sum_filter_map_le {α : Type} (l : List α) (p : α → Bool) (f : α → Nat) :
    ((l.filter p).map f).sum ≤ (l.map f).sum := by
  induction l with
  | nil => simp
  | cons a rest ih =>
    by_cases ha : p a = true
    · simp only [List.filter_cons, ha, if_true, List.map_cons, List.sum_cons]
      omega
    · simp only [List.filter_cons, ha, Bool.false_eq_true, if_false, List.map_cons,
        List.sum_cons]
      omega

/-- Without overflow of the total voted weight, the 128-bit sum of the
weights voted for a hash is the exact sum. -/
theorem voted_sum_eq_total (n : node) (lv : List (account × vote_info)) (h : block_hash)
    (hsum : (lv.map (fun v => n.weight v.1)).sum < uint128_modulus) :
    voted_sum n lv h = voted_total n lv h := by
  unfold voted_sum voted_total voted_weights
  exact Nat.mod_eq_of_lt (Nat.lt_of_le_of_lt (sum_filter_map_le lv _ _) hsum)

/-- Every entry of the tally is a block of the election, with the 128-bit sum
of the weights voted for the hash it is stored under. -/
theorem tally_entry (n : node) (e : election) (x : Nat × block)
    (hx : x ∈ (election.tally n e).2) :
    ∃ h, map_find e.blocks h = some x.2 ∧ x.1 = voted_sum n e.last_votes h := by
  have hperm := tally_of_perm e.blocks (block_weights n e.last_votes)
  have hx2 : x ∈ (block_weights n e.last_votes).filterMap
      (fun item => (map_find e.blocks item.1).map (fun b => (item.2, b))) :=
    hperm.mem_iff.mp hx
  obtain ⟨item, hitem, hmap⟩ := List.mem_filterMap.mp hx2
  obtain ⟨b, hb, hxb⟩ := Option.map_eq_some'.mp hmap
  refine ⟨item.1, ?_, ?_⟩
  · rw [hb, ← hxb]
  · rw [← hxb]
    exact block_weights_entry n e.last_votes item hitem

/-- A voted hash that is a block of the election has its 128-bit sum among
the weights of the tally. -/
theorem tally_has_voted (n : node) (e : election) (h : block_hash)
    (hblock : (map_find e.blocks h).isSome = true)
    (hvoted : voted_weights n e.last_votes h ≠ []) :
    voted_sum n e.last_votes h ∈ tally_weights (election.tally n e).2 := by
  obtain ⟨b, hb⟩ := Option.isSome_iff_exists.mp hblock
  have hfind : map_find (block_weights n e.last_votes) h = some (voted_sum n e.last_votes h) := by
    rw [map_find_block_weights, if_neg hvoted]
  have hitem := map_find_some_mem _ _ _ hfind
  have hin : (voted_sum n e.last_votes h, b) ∈ (block_weights n e.last_votes).filterMap
      (fun item => (map_find e.blocks item.1).map (fun b => (item.2, b))) := by
    refine List.mem_filterMap.mpr ⟨_, hitem, ?_⟩
    show (map_find e.blocks h).map _ = _
    rw [hb]
    rfl
  have hperm := tally_of_perm e.blocks (block_weights n e.last_votes)
  have hmem : (voted_sum n e.last_votes h, b) ∈ (election.tally n e).2 := hperm.mem_iff.mpr hin
  exact List.mem_map.mpr ⟨_, hmem, rfl⟩

/-- C17: the first entry of `election::tally ()` is a block of the election
with the greatest summed weight, its weight is the sum of the ledger weights
of all representatives whose entry in last_votes names that block's hash, and
every block of the tally is stored in blocks under its hash.  The blocks of
the election are stored under their own hashes, and the ledger weights of the
voters sum to less than 2^128 (they are bounded by the supply). -/
theorem tally_first_entry (n : node) (e : election) (w : Nat × block) (rest : tally_t)
    (ht : (election.tally n e).2 = w :: rest) (hk : e.blocks_keyed)
    (hsum : (e.last_votes.map (fun v => n.weight v.1)).sum < uint128_modulus) :
    map_find e.blocks w.2.hash = some w.2 ∧
      w.1 = voted_total n e.last_votes w.2.hash ∧
      (∀ p ∈ e.blocks, voted_total n e.last_votes p.1 ≤ w.1) ∧
      (∀ x ∈ (election.tally n e).2, map_find e.blocks x.2.hash = some x.2) := by
  have hentry : ∀ x ∈ (election.tally n e).2,
      map_find e.blocks x.2.hash = some x.2 ∧ x.1 = voted_total n e.last_votes x.2.hash := by
    intro x hx
    obtain ⟨h, hb, hv⟩ := tally_entry n e x hx
    have hh : x.2.hash = h := hk (h, x.2) (map_find_some_mem _ _ _ hb)
    rw [hh]
    exact ⟨hb, by rw [hv, voted_sum_eq_total n _ _ hsum]⟩
  have hw : w ∈ (election.tally n e).2 := by rw [ht]; exact List.mem_cons_self _ _
  refine ⟨(hentry w hw).1, (hentry w hw).2, fun p hp => ?_, fun x hx => (hentry x hx).1⟩
  by_cases hv : voted_weights n e.last_votes p.1 = []
  · unfold voted_total
    rw [hv]
    exact Nat.zero_le _
  · have hblock : (map_find e.blocks p.1).isSome = true :=
      (map_find_isSome_iff _ _).mpr (List.mem_map.mpr ⟨p, hp, rfl⟩)
    have hmem := tally_has_voted n e p.1 hblock hv
    rw [voted_sum_eq_total n _ _ hsum] at hmem
    have hsorted := tally_sorted n e
    rw [ht] at hmem hsorted
    unfold tally_weights at hmem hsorted
    rw [List.map_cons] at hmem hsorted
    rcases List.mem_cons.mp hmem with h1 | h1
    · exact Nat.le_of_eq h1
    · exact (List.pairwise_cons.mp hsorted).1 _ h1

/-- The statement of `tally_first_entry` for the fork election of blocks 1
and 2 after votes of weight 50 for block 2 and of weight 7 for block 1. -/
theorem tally_first_entry_witness :
    map_find (sample_election state_t.passive [(1, ⟨1, 9, 0⟩), (2, ⟨2, 9, 0⟩)]
        [(2, ⟨0, 1, 1⟩), (1, ⟨0, 1, 2⟩)] ⟨1, 9, 0⟩).blocks 2 = some ⟨2, 9, 0⟩ ∧
      50 = voted_total (sample_node true 1000 0 1 (fun a => if a = 1 then 50 else 7))
        [(2, ⟨0, 1, 1⟩), (1, ⟨0, 1, 2⟩)] 2 :=
  have h := tally_first_entry (sample_node true 1000 0 1 (fun a => if a = 1 then 50 else 7))
    (sample_election state_t.passive [(1, ⟨1, 9, 0⟩), (2, ⟨2, 9, 0⟩)]
      [(2, ⟨0, 1, 1⟩), (1, ⟨0, 1, 2⟩)] ⟨1, 9, 0⟩)
    (50, ⟨2, 9, 0⟩) [(7, ⟨1, 9, 0⟩)] (by decide) (by unfold election.blocks_keyed; decide)
    (by decide)
  ⟨h.1, h.2.1⟩

/-! ## Copying the cached voters -/

/-- The entries of `last_votes` after the loop over the cached voters. -/
theorem insert_cached_voters_find (hash_a : block_hash) (voters : List account)
    (lv : List (account × vote_info)) (st : List (stat_detail × Int)) (k : account) :
    (∀ v, map_find lv k = some v →
        map_find (insert_cached_voters hash_a voters (lv, st)).1 k = some v) ∧
      (map_find lv k = none → k ∈ voters →
        map_find (insert_cached_voters hash_a voters (lv, st)).1 k =
          some ⟨time_point_min, 0, hash_a⟩) ∧
      (map_find lv k = none → k ∉ voters →
        map_find (insert_cached_voters hash_a voters (lv, st)).1 k = none) := by
  refine ⟨fun v h => insert_cached_voters_keeps hash_a voters lv st k v h, ?_, ?_⟩
  · induction voters generalizing lv st with
    | nil => intro _ hk; simp at hk
    | cons rep rest ih =>
      intro hnone hk
      unfold insert_cached_voters
      cases hfind : map_find lv rep with
      | some x =>
        simp only
        have hne : k ≠ rep := by
          intro hx
          rw [hx, hfind] at hnone
          exact Option.noConfusion hnone
        rcases List.mem_cons.mp hk with h1 | h1
        · exact absurd h1 hne
        · exact ih lv st hnone h1
      | none =>
        simp only
        by_cases hkr : k = rep
        · apply insert_cached_voters_keeps
          rw [map_find_append, hnone, hkr]
          simp [map_find]
        · rcases List.mem_cons.mp hk with h1 | h1
          · exact absurd h1 hkr
          · apply ih _ _ _ h1
            rw [map_find_append, hnone]
            simp [map_find, Ne.symm hkr]
  · induction voters generalizing lv st with
    | nil => intro hnone _; exact hnone
    | cons rep rest ih =>
      intro hnone hk
      have hkr : k ≠ rep := fun hx => hk (hx ▸ List.mem_cons_self _ _)
      have hk2 : k ∉ rest := fun hx => hk (List.mem_cons_of_mem _ hx)
      unfold insert_cached_voters
      cases hfind : map_find lv rep with
      | some x => simp only; exact ih lv st hnone hk2
      | none =>
        simp only
        apply ih _ _ _ hk2
        rw [map_find_append, hnone]
        simp [map_find, Ne.symm hkr]

/-- The loop over the cached voters increments the counter `vote_cached` once
for each entry it adds to `last_votes`. -/
theorem insert_cached_voters_count (hash_a : block_hash) (voters : List account)
    (lv : List (account × vote_info)) (st : List (stat_detail × Int)) :
    ∃ m : Nat, (insert_cached_voters hash_a voters (lv, st)).1.length = lv.length + m ∧
      stat_value (insert_cached_voters hash_a voters (lv, st)).2 stat_detail.vote_cached =
        stat_value st stat_detail.vote_cached + m := by
  induction voters generalizing lv st with
  | nil => exact ⟨0, by simp [insert_cached_voters]⟩
  | cons rep rest ih =>
    unfold insert_cached_voters
    cases hfind : map_find lv rep with
    | some x => simp only; exact ih lv st
    | none =>
      simp only
      obtain ⟨m, h1, h2⟩ := ih (lv ++ [(rep, ⟨time_point_min, 0, hash_a⟩)])
        (st ++ [(stat_detail.vote_cached, 1)])
      refine ⟨m + 1, ?_, ?_⟩
      · rw [h1, List.length_append]
        simp only [List.length_singleton]
        omega
      · rw [h2, stat_value_append]
        simp only [if_true]
        push_cast
        omega

theorem local_voting_same_shared (n n2 : node) (hs : n.same_shared n2) (h : block_hash)
    (k : account) (hl : n2.local_voting ∧ n2.generated_vote h k) :
    n.local_voting ∧ n.generated_vote h k := by
  obtain ⟨_, _, h3, h4, h5⟩ := hs
  unfold node.local_voting node.generated_vote at hl ⊢
  rw [h3, h4, h5] at hl
  exact hl

/-- C18 (as stated, refuted): on a node that votes locally and holds a
generated vote of account 2 for block 2, the election holds the vote (5,
block 2) of account 2 and block 2 is the winner.  The cache entry of hash 1
names account 1; copying it gives block 1 the greater weight, the winner is
switched, and `remove_votes` erases the entry of account 2, which existed
before the call.  The return value is 1. -/
theorem insert_inactive_votes_cache_erases_counterexample :
    map_find fork_election.last_votes 2 = some ⟨0, 5, 2⟩ ∧
      (election.insert_inactive_votes_cache cached_voting_node fork_election 1 ⟨0, 0⟩).map
        (fun r => (map_find r.1.last_votes 2, map_find r.1.last_votes 1, r.2.2)) =
        some (none, some ⟨time_point_min, 0, 1⟩, 1) := by
  decide

/-- C18 (amended): a returning call `insert_inactive_votes_cache (h)` returns
the number of cached voters, and the counter vote_cached grows by exactly the
number of entries the copy adds to last_votes.  For every account, unless the
quorum check that ends the call switched the winner and `remove_votes` erased
the account's entry (which needs a node that votes locally and a generated
vote of the account for the replaced winner): an entry already in last_votes
keeps its time, sequence and hash, a cached voter absent from last_votes has
the entry (time = minimum, sequence 0, hash h), and no other account has an
entry.  A confirmed election or an empty cache entry gives exactly the copy.
The call returns when the election is confirmed, the cache entry is empty or
the tally after the copy is not empty. -/
theorem insert_inactive_votes_cache_copies (n : node) (e : election) (h : block_hash)
    (c : clock) :
    (∀ r, election.insert_inactive_votes_cache n e h c = some r →
        r.2.2 = (find_inactive_votes_cache n h).voters.length ∧
        (∃ inserted : Nat,
          (election.with_cached_votes n e h).last_votes.length =
            e.last_votes.length + inserted ∧
          stat_value r.2.1.stats stat_detail.vote_cached =
            stat_value n.stats stat_detail.vote_cached + inserted) ∧
        (∀ k, (map_find r.1.last_votes k = none ∧
              n.local_voting ∧ n.generated_vote e.status.winner.hash k) ∨
            ((∀ v, map_find e.last_votes k = some v → map_find r.1.last_votes k = some v) ∧
              (map_find e.last_votes k = none → k ∈ (find_inactive_votes_cache n h).voters →
                map_find r.1.last_votes k = some ⟨time_point_min, 0, h⟩) ∧
              (map_find e.last_votes k = none → k ∉ (find_inactive_votes_cache n h).voters →
                map_find r.1.last_votes k = none))) ∧
        (e.confirmed = true ∨ (find_inactive_votes_cache n h).voters = [] →
          r.1 = election.with_cached_votes n e h)) ∧
      (e.confirmed = true ∨ (find_inactive_votes_cache n h).voters = [] ∨
          (election.tally n (election.with_cached_votes n e h)).2 ≠ [] →
        ∃ r, election.insert_inactive_votes_cache n e h c = some r) := by
  obtain ⟨n2, hs, hl, hstat, hval⟩ := insert_inactive_votes_cache_cases n e h c
  obtain ⟨m, hm1, hm2⟩ := insert_cached_voters_count h (find_inactive_votes_cache n h).voters
    e.last_votes n.stats
  have hfind := insert_cached_voters_find h (find_inactive_votes_cache n h).voters
    e.last_votes n.stats
  by_cases hcond : e.confirmed = false ∧ (find_inactive_votes_cache n h).voters ≠ []
  · rw [if_pos hcond] at hval
    refine ⟨fun r hr => ?_, fun hret => ?_⟩
    · rw [hval] at hr
      obtain ⟨q, hq, hqr⟩ := Option.map_eq_some'.mp hr
      subst hqr
      refine ⟨rfl, ⟨m, hm1, ?_⟩, fun k => ?_, fun hx => ?_⟩
      · show stat_value q.2.stats stat_detail.vote_cached = _
        rw [(confirm_if_quorum_frame _ _ c q hq).2, hstat, hm2]
      · rcases confirm_if_quorum_find_cases n2 _ c q k hq with hk | hk
        · right
          show (∀ v, map_find e.last_votes k = some v → map_find q.1.last_votes k = some v) ∧
            (map_find e.last_votes k = none → k ∈ (find_inactive_votes_cache n h).voters →
              map_find q.1.last_votes k = some ⟨time_point_min, 0, h⟩) ∧
            (map_find e.last_votes k = none → k ∉ (find_inactive_votes_cache n h).voters →
              map_find q.1.last_votes k = none)
          rw [hk]
          exact hfind k
        · left
          exact ⟨hk.1, local_voting_same_shared n n2 hs _ k hk.2⟩
      · rcases hx with hx | hx
        · rw [hcond.1] at hx
          exact Bool.noConfusion hx
        · exact absurd hx hcond.2
    · have hne : (election.tally n (election.with_cached_votes n e h)).2 ≠ [] := by
        rcases hret with hx | hx | hx
        · rw [hcond.1] at hx
          exact Bool.noConfusion hx
        · exact absurd hx hcond.2
        · exact hx
      rw [← tally_congr n n2 _ _ hl rfl rfl] at hne
      obtain ⟨q, hq⟩ := confirm_if_quorum_isSome n2 _ c hne
      exact ⟨_, by rw [hval, hq]; rfl⟩
  · rw [if_neg hcond] at hval
    refine ⟨fun r hr => ?_, fun _ => ⟨_, hval⟩⟩
    rw [hval] at hr
    have hr2 := (Option.some.inj hr).symm
    subst hr2
    refine ⟨rfl, ⟨m, hm1, ?_⟩, fun k => Or.inr (hfind k), fun _ => rfl⟩
    show stat_value n2.stats stat_detail.vote_cached = _
    rw [hstat, hm2]

/-- The statement of `insert_inactive_votes_cache_copies` for the fork
election on the node whose cache names account 1 for the hash 1: the call
returns 1. -/
theorem insert_inactive_votes_cache_copies_witness :
    ∃ r, election.insert_inactive_votes_cache cached_voting_node fork_election 1 ⟨0, 0⟩ =
        some r ∧ r.2.2 = 1 :=
  have hthm := insert_inactive_votes_cache_copies cached_voting_node fork_election 1 ⟨0, 0⟩
  match hthm.2 (Or.inr (Or.inr (by decide))) with
  | ⟨r, hr⟩ => ⟨r, hr, (hthm.1 r hr).1⟩

/-! ## Cleanup -/

theorem cleanup_block_frame (u : Bool) (wh : block_hash) (n : node) (h : block_hash) :
    (cleanup_block u wh n h).recently_dropped = n.recently_dropped ∧
      (cleanup_block u wh n h).publish_filter_cleared = n.publish_filter_cleared ∧
      (cleanup_block u wh n h).active_blocks =
        n.active_blocks.filter (fun x => decide (x ≠ h)) ∧
      (cleanup_block u wh n h).inactive_votes_cache = map_erase n.inactive_votes_cache h ∧
      (cleanup_block u wh n h).active_stopped =
        n.active_stopped ++ (if (u || decide (h ≠ wh)) = true then [h] else []) := by
  unfold cleanup_block
  by_cases hc : (u || decide (h ≠ wh)) = true
  · rw [if_pos hc, if_pos hc]
    exact ⟨rfl, rfl, rfl, rfl, rfl⟩
  · rw [if_neg hc, if_neg hc]
    exact ⟨rfl, rfl, rfl, rfl, (List.append_nil _).symm⟩

/-- The loop of `cleanup` over the blocks: the logs `recently_dropped` and
`publish_filter_cleared` are not touched, `active_stopped` is notified, in
the order of the blocks, for every hash if the election is unconfirmed and
for the hashes other than the winner's otherwise, and no hash of the blocks
stays in `active_blocks` or in the inactive-votes cache. -/
theorem cleanup_fold (u : Bool) (wh : block_hash) (bs : List (block_hash × block)) (n : node) :
    (bs.foldl (fun m blk => cleanup_block u wh m blk.1) n).recently_dropped =
        n.recently_dropped ∧
      (bs.foldl (fun m blk => cleanup_block u wh m blk.1) n).publish_filter_cleared =
        n.publish_filter_cleared ∧
      (bs.foldl (fun m blk => cleanup_block u wh m blk.1) n).active_stopped =
        n.active_stopped ++
          (bs.map Prod.fst).filter (fun h => u || decide (h ≠ wh)) ∧
      (bs.foldl (fun m blk => cleanup_block u wh m blk.1) n).active_blocks =
        n.active_blocks.filter (fun x => decide (x ∉ bs.map Prod.fst)) ∧
      (∀ k, (k ∈ bs.map Prod.fst ∨ map_find n.inactive_votes_cache k = none) →
        map_find (bs.foldl (fun m blk => cleanup_block u wh m blk.1) n).inactive_votes_cache
          k = none) := by
  induction bs generalizing n with
  | nil =>
    refine ⟨rfl, rfl, by simp, by simp, fun k hk => ?_⟩
    rcases hk with hk | hk
    · simp at hk
    · exact hk
  | cons p rest ih =>
    obtain ⟨f1, f2, f3, f4, f5⟩ := cleanup_block_frame u wh n p.1
    obtain ⟨i1, i2, i3, i4, i5⟩ := ih (cleanup_block u wh n p.1)
    simp only [List.foldl_cons]
    refine ⟨i1.trans f1, i2.trans f2, ?_, ?_, fun k hk => ?_⟩
    · rw [i3, f5, List.map_cons, List.filter_cons, List.append_assoc]
      by_cases hc : (u || decide (p.1 ≠ wh)) = true
      · simp only [hc, if_true, List.singleton_append]
      · simp only [hc, Bool.false_eq_true, if_false, List.nil_append]
    · rw [i4, f3, List.filter_filter]
      apply List.filter_congr
      intro x _
      simp only [List.map_cons, List.mem_cons, not_or, Bool.decide_and, Bool.and_comm]
    · apply i5
      rw [f4]
      rcases hk with hk | hk
      · rcases List.mem_cons.mp hk with h1 | h1
        · right
          rw [h1]
          exact map_find_erase_self _ _
        · exact Or.inl h1
      · exact Or.inr (map_find_erase_none _ _ _ hk)

/-- The value of `cleanup` on a confirmed election. -/
theorem cleanup_confirmed (n : node) (e : election) (c : clock) (hc : e.confirmed = true) :
    election.cleanup n e c =
      (e, e.blocks.foldl (fun m blk => cleanup_block false e.status.winner.hash m blk.1) n) := by
  simp only [election.cleanup, hc, Bool.not_true, Bool.false_eq_true, if_false]

/-- The value of `cleanup` on an election that is not confirmed. -/
theorem cleanup_unconfirmed (n : node) (e : election) (c : clock) (hc : e.confirmed = false) :
    (election.cleanup n e c).2.recently_dropped =
        (e.blocks.foldl (fun m blk => cleanup_block true e.status.winner.hash m blk.1)
          n).recently_dropped ++ [(e.status.winner.qualified_root, c.steady)] ∧
      (election.cleanup n e c).2.publish_filter_cleared =
        (e.blocks.foldl (fun m blk => cleanup_block true e.status.winner.hash m blk.1)
          n).publish_filter_cleared ++ e.blocks.map Prod.snd ∧
      (election.cleanup n e c).2.active_stopped =
        (e.blocks.foldl (fun m blk => cleanup_block true e.status.winner.hash m blk.1)
          n).active_stopped := by
  simp only [election.cleanup, hc, Bool.not_false, if_true]
  exact ⟨rfl, rfl, rfl⟩

/-- C19 (as stated, refuted): a confirmed election that holds the winner,
block 1, and the losing block 2 still holds both blocks after `cleanup`. -/
theorem cleanup_confirmed_keeps_blocks_counterexample :
    (sample_election state_t.confirmed [(1, ⟨1, 9, 0⟩), (2, ⟨2, 9, 0⟩)] [] ⟨1, 9, 0⟩).confirmed =
        true ∧
      (election.cleanup (sample_node true 1000 0 50 (fun _ => 0))
        (sample_election state_t.confirmed [(1, ⟨1, 9, 0⟩), (2, ⟨2, 9, 0⟩)] [] ⟨1, 9, 0⟩)
        ⟨0, 0⟩).1.blocks = [(1, ⟨1, 9, 0⟩), (2, ⟨2, 9, 0⟩)] := by
  decide

/-- C19 (amended): for every confirmed election, `cleanup` leaves the
election, and so its blocks map with the winner and every conflicting block
it held, unchanged; what it removes are the hashes of all blocks of the
election from the node: none of them is left among the active blocks or in
the inactive-votes cache, and the other active blocks stay. -/
theorem cleanup_confirmed_keeps_blocks (n : node) (e : election) (c : clock)
    (hc : e.confirmed = true) :
    (election.cleanup n e c).1 = e ∧
      (election.cleanup n e c).2.active_blocks =
        n.active_blocks.filter (fun x => decide (x ∉ e.blocks.map Prod.fst)) ∧
      (∀ p ∈ e.blocks, p.1 ∉ (election.cleanup n e c).2.active_blocks ∧
        map_find (election.cleanup n e c).2.inactive_votes_cache p.1 = none) := by
  rw [cleanup_confirmed n e c hc]
  obtain ⟨_, _, _, h4, h5⟩ := cleanup_fold false e.status.winner.hash e.blocks n
  refine ⟨rfl, h4, fun p hp => ⟨?_, ?_⟩⟩
  · show p.1 ∉ (e.blocks.foldl
      (fun m blk => cleanup_block false e.status.winner.hash m blk.1) n).active_blocks
    rw [h4]
    intro hmem
    have := (List.mem_filter.mp hmem).2
    simp only [decide_eq_true_eq] at this
    exact this (List.mem_map.mpr ⟨p, hp, rfl⟩)
  · exact h5 p.1 (Or.inl (List.mem_map.mpr ⟨p, hp, rfl⟩))

/-- The statement of `cleanup_confirmed_keeps_blocks` for a confirmed
election of the blocks 1 and 2 on a node whose active blocks are 1, 2 and
3. -/
theorem cleanup_confirmed_keeps_blocks_witness :
    (election.cleanup
        { sample_node true 1000 0 50 (fun _ => 0) with active_blocks := [1, 2, 3] }
        (sample_election state_t.confirmed [(1, ⟨1, 9, 0⟩), (2, ⟨2, 9, 0⟩)] [] ⟨1, 9, 0⟩)
        ⟨0, 0⟩).1 =
      sample_election state_t.confirmed [(1, ⟨1, 9, 0⟩), (2, ⟨2, 9, 0⟩)] [] ⟨1, 9, 0⟩ ∧
    (election.cleanup
        { sample_node true 1000 0 50 (fun _ => 0) with active_blocks := [1, 2, 3] }
        (sample_election state_t.confirmed [(1, ⟨1, 9, 0⟩), (2, ⟨2, 9, 0⟩)] [] ⟨1, 9, 0⟩)
        ⟨0, 0⟩).2.active_blocks =
      ([1, 2, 3] : List block_hash).filter (fun x => decide (x ∉ [1, 2])) :=
  have h := cleanup_confirmed_keeps_blocks
    { sample_node true 1000 0 50 (fun _ => 0) with active_blocks := [1, 2, 3] }
    (sample_election state_t.confirmed [(1, ⟨1, 9, 0⟩), (2, ⟨2, 9, 0⟩)] [] ⟨1, 9, 0⟩)
    ⟨0, 0⟩ rfl
  ⟨h.1, h.2.1⟩

/-- C20: `cleanup` of an election that is not confirmed records the winner's
qualified root, with the drop time, in recently_dropped, notifies
active_stopped for every hash in blocks and schedules the clearing of the
network publish filter for every block in blocks; `cleanup` of a confirmed
election touches neither recently_dropped nor the filter and notifies
active_stopped only for the hashes other than the winner's. -/
theorem cleanup_notifications (n : node) (e : election) (c : clock) :
    (e.confirmed = false →
        (election.cleanup n e c).2.recently_dropped =
          n.recently_dropped ++ [(e.status.winner.qualified_root, c.steady)] ∧
        (election.cleanup n e c).2.active_stopped =
          n.active_stopped ++ e.blocks.map Prod.fst ∧
        (election.cleanup n e c).2.publish_filter_cleared =
          n.publish_filter_cleared ++ e.blocks.map Prod.snd) ∧
      (e.confirmed = true →
        (election.cleanup n e c).2.recently_dropped = n.recently_dropped ∧
        (election.cleanup n e c).2.publish_filter_cleared = n.publish_filter_cleared ∧
        (election.cleanup n e c).2.active_stopped =
          n.active_stopped ++
            (e.blocks.map Prod.fst).filter (fun h => decide (h ≠ e.status.winner.hash))) := by
  refine ⟨fun hc => ?_, fun hc => ?_⟩
  · obtain ⟨h1, h2, h3⟩ := cleanup_unconfirmed n e c hc
    obtain ⟨f1, f2, f3, _, _⟩ := cleanup_fold true e.status.winner.hash e.blocks n
    refine ⟨by rw [h1, f1], ?_, by rw [h2, f2]⟩
    rw [h3, f3]
    simp
  · rw [cleanup_confirmed n e c hc]
    obtain ⟨f1, f2, f3, _, _⟩ := cleanup_fold false e.status.winner.hash e.blocks n
    refine ⟨f1, f2, ?_⟩
    show (e.blocks.foldl
      (fun m blk => cleanup_block false e.status.winner.hash m blk.1) n).active_stopped = _
    rw [f3]
    simp

/-- The statement of `cleanup_notifications` for the unconfirmed fork
election of blocks 1 and 2, dropped at time 7. -/
theorem cleanup_notifications_witness :
    (election.cleanup (sample_node true 1000 0 50 (fun _ => 0)) split_election
        ⟨7, 0⟩).2.recently_dropped = [(9, 7)] ∧
      (election.cleanup (sample_node true 1000 0 50 (fun _ => 0)) split_election
        ⟨7, 0⟩).2.active_stopped = [1, 2] ∧
      (election.cleanup (sample_node true 1000 0 50 (fun _ => 0)) split_election
        ⟨7, 0⟩).2.publish_filter_cleared = [⟨1, 9, 0⟩, ⟨2, 9, 0⟩] :=
  (cleanup_notifications (sample_node true 1000 0 50 (fun _ => 0)) split_election ⟨7, 0⟩).1 rfl

/-! ## Duplicate requests: `erase_duplicates` -/

theorem insert_by_hash_perm (a : block_hash × root) (l : List (block_hash × root)) :
    List.Perm (insert_by_hash a l) (a :: l) := by
  induction l with
  | nil => exact List.Perm.refl _
  | cons b rest ih =>
    unfold insert_by_hash
    by_cases h : a.1 ≤ b.1
    · rw [if_pos h]
    · rw [if_neg h]
      exact (List.Perm.cons b ih).trans (List.Perm.swap a b rest)

theorem sort_by_hash_perm (l : List (block_hash × root)) : List.Perm (sort_by_hash l) l := by
  induction l with
  | nil => exact List.Perm.refl _
  | cons a rest ih =>
    unfold sort_by_hash
    exact (insert_by_hash_perm a _).trans (List.Perm.cons a ih)

theorem insert_by_hash_sorted (a : block_hash × root) (l : List (block_hash × root))
    (h : List.Pairwise (fun x y => x.1 ≤ y.1) l) :
    List.Pairwise (fun x y => x.1 ≤ y.1) (insert_by_hash a l) := by
  induction l with
  | nil => simp [insert_by_hash]
  | cons b rest ih =>
    have hb := List.pairwise_cons.mp h
    unfold insert_by_hash
    by_cases hab : a.1 ≤ b.1
    · rw [if_pos hab]
      refine List.pairwise_cons.mpr ⟨fun x hx => ?_, h⟩
      rcases List.mem_cons.mp hx with h1 | h1
      · rw [h1]; exact hab
      · exact Nat.le_trans hab (hb.1 x h1)
    · rw [if_neg hab]
      refine List.pairwise_cons.mpr ⟨fun x hx => ?_, ih hb.2⟩
      have hx2 : x ∈ a :: rest := (insert_by_hash_perm a rest).mem_iff.mp hx
      rcases List.mem_cons.mp hx2 with h1 | h1
      · rw [h1]; exact Nat.le_of_lt (Nat.lt_of_not_le hab)
      · exact hb.1 x h1

theorem sort_by_hash_sorted (l : List (block_hash × root)) :
    List.Pairwise (fun x y => x.1 ≤ y.1) (sort_by_hash l) := by
  induction l with
  | nil => exact List.Pairwise.nil
  | cons a rest ih => exact insert_by_hash_sorted a _ ih

/-- What `std::unique` leaves of a list sorted by hash, the pair `a` being
kept and not greater than the rest: a strictly ascending list that starts
with `a`, made of `a` and pairs of the rest, with every hash of the rest. -/
theorem unique_from_spec (a : block_hash × root) (l : List (block_hash × root))
    (hs : List.Pairwise (fun x y => x.1 ≤ y.1) (a :: l)) :
    List.Pairwise (fun x y => x.1 < y.1) (unique_from a l) ∧
      (∃ t, unique_from a l = a :: t) ∧
      (∀ p ∈ unique_from a l, p ∈ a :: l) ∧
      (∀ p ∈ a :: l, ∃ q ∈ unique_from a l, q.1 = p.1) := by
  induction l generalizing a with
  | nil =>
    refine ⟨by simp [unique_from], ⟨[], rfl⟩, fun p hp => hp, fun p hp => ⟨p, hp, rfl⟩⟩
  | cons b rest ih =>
    have hab : a.1 ≤ b.1 := (List.pairwise_cons.mp hs).1 b (List.mem_cons_self _ _)
    have hbrest : List.Pairwise (fun x y => x.1 ≤ y.1) (b :: rest) := (List.pairwise_cons.mp hs).2
    unfold unique_from
    by_cases h : a.1 = b.1
    · rw [if_pos h]
      have hs2 : List.Pairwise (fun x y => x.1 ≤ y.1) (a :: rest) := by
        refine List.pairwise_cons.mpr ⟨fun x hx => ?_, (List.pairwise_cons.mp hbrest).2⟩
        exact (List.pairwise_cons.mp hs).1 x (List.mem_cons_of_mem _ hx)
      obtain ⟨i1, i2, i3, i4⟩ := ih a hs2
      refine ⟨i1, i2, fun p hp => ?_, fun p hp => ?_⟩
      · rcases List.mem_cons.mp (i3 p hp) with h1 | h1
        · rw [h1]; exact List.mem_cons_self _ _
        · exact List.mem_cons_of_mem _ (List.mem_cons_of_mem _ h1)
      · rcases List.mem_cons.mp hp with h1 | h1
        · exact i4 p (by rw [h1]; exact List.mem_cons_self _ _)
        · rcases List.mem_cons.mp h1 with h2 | h2
          · obtain ⟨q, hq, hqa⟩ := i4 a (List.mem_cons_self _ _)
            exact ⟨q, hq, by rw [hqa, h2, h]⟩
          · exact i4 p (List.mem_cons_of_mem _ h2)
    · rw [if_neg h]
      obtain ⟨i1, ⟨t, i2⟩, i3, i4⟩ := ih b hbrest
      have hlt : a.1 < b.1 := Nat.lt_of_le_of_ne hab h
      refine ⟨?_, ⟨_, rfl⟩, fun p hp => ?_, fun p hp => ?_⟩
      · refine List.pairwise_cons.mpr ⟨fun x hx => ?_, i1⟩
        have hx2 := i3 x hx
        have hbx : b.1 ≤ x.1 := by
          rcases List.mem_cons.mp hx2 with h1 | h1
          · rw [h1]
          · exact (List.pairwise_cons.mp hbrest).1 x h1
        exact Nat.lt_of_lt_of_le hlt hbx
      · rcases List.mem_cons.mp hp with h1 | h1
        · rw [h1]; exact List.mem_cons_self _ _
        · exact List.mem_cons_of_mem _ (i3 p h1)
      · rcases List.mem_cons.mp hp with h1 | h1
        · exact ⟨a, List.mem_cons_self _ _, by rw [h1]⟩
        · obtain ⟨q, hq, hqp⟩ := i4 p h1
          exact ⟨q, List.mem_cons_of_mem _ hq, hqp⟩

theorem unique_hashes_spec (l : List (block_hash × root))
    (hs : List.Pairwise (fun x y => x.1 ≤ y.1) l) :
    List.Pairwise (fun x y => x.1 < y.1) (unique_hashes l) ∧
      (∀ p ∈ unique_hashes l, p ∈ l) ∧
      (∀ p ∈ l, ∃ q ∈ unique_hashes l, q.1 = p.1) := by
  cases l with
  | nil => simp [unique_hashes]
  | cons a rest =>
    obtain ⟨h1, _, h3, h4⟩ := unique_from_spec a rest hs
    exact ⟨h1, h3, h4⟩

/-- C21: for every list of (hash, root) pairs, the list that
`erase_duplicates` leaves is sorted by hash in ascending order, contains no
two pairs with the same hash, contains only pairs of the input, and contains
a pair for every hash that occurs in the input. -/
theorem erase_duplicates_spec (requests_a : List (block_hash × root)) :
    List.Pairwise (fun x y => x.1 ≤ y.1) (erase_duplicates requests_a) ∧
      ((erase_duplicates requests_a).map Prod.fst).Nodup ∧
      (∀ p ∈ erase_duplicates requests_a, p ∈ requests_a) ∧
      (∀ h ∈ requests_a.map Prod.fst, h ∈ (erase_duplicates requests_a).map Prod.fst) := by
  obtain ⟨h1, h2, h3⟩ := unique_hashes_spec _ (sort_by_hash_sorted requests_a)
  have hperm := sort_by_hash_perm requests_a
  refine ⟨h1.imp (fun h => Nat.le_of_lt h), ?_, fun p hp => hperm.mem_iff.mp (h2 p hp),
    fun h hh => ?_⟩
  · unfold List.Nodup
    rw [List.pairwise_map]
    exact h1.imp (fun h => Nat.ne_of_lt h)
  · obtain ⟨p, hp, hph⟩ := List.mem_map.mp hh
    obtain ⟨q, hq, hqp⟩ := h3 p (hperm.mem_iff.mpr hp)
    exact List.mem_map.mpr ⟨q, hq, hqp.trans hph⟩

/-! ## The pools of the aggregator: `add` -/

theorem add_to_pool_endpoint (s : request_aggregator) (ch : channel)
    (batch : List (block_hash × root)) (now : Int) (p : channel_pool) :
    (add_to_pool s ch batch now p).endpoint = p.endpoint := by
  unfold add_to_pool
  split <;> rfl

theorem add_to_pool_requests (s : request_aggregator) (ch : channel)
    (batch : List (block_hash × root)) (now : Int) (p : channel_pool) :
    (add_to_pool s ch batch now p).hashes_roots =
      if p.fits s.max_channel_requests batch = true then batch ++ p.hashes_roots
      else p.hashes_roots := by
  unfold add_to_pool
  split <;> rfl

theorem add_to_pool_bounded (s : request_aggregator) (ch : channel)
    (batch : List (block_hash × root)) (now : Int) (p : channel_pool)
    (h : p.hashes_roots.length ≤ s.max_channel_requests) :
    (add_to_pool s ch batch now p).hashes_roots.length ≤ s.max_channel_requests := by
  rw [add_to_pool_requests]
  by_cases hf : p.fits s.max_channel_requests batch = true
  · rw [if_pos hf, List.length_append]
    have := of_decide_eq_true hf
    omega
  · rw [if_neg hf]; exact h

theorem modify_pool_all (f : channel_pool → channel_pool) (P : channel_pool → Prop)
    (l : List channel_pool) (ep : endpoint) (hl : ∀ p ∈ l, P p) (hf : ∀ p, P p → P (f p)) :
    ∀ p ∈ modify_pool f l ep, P p := by
  induction l with
  | nil => intro p hp; simp [modify_pool] at hp
  | cons q rest ih =>
    intro p hp
    unfold modify_pool at hp
    by_cases hq : q.endpoint = ep
    · rw [if_pos hq] at hp
      rcases List.mem_cons.mp hp with h1 | h1
      · rw [h1]; exact hf q (hl q (List.mem_cons_self _ _))
      · exact hl p (List.mem_cons_of_mem _ h1)
    · rw [if_neg hq] at hp
      rcases List.mem_cons.mp hp with h1 | h1
      · rw [h1]; exact hl q (List.mem_cons_self _ _)
      · exact ih (fun x hx => hl x (List.mem_cons_of_mem _ hx)) p h1

theorem find_pool_modify (f : channel_pool → channel_pool) (l : List channel_pool)
    (ep ep2 : endpoint) (hf : ∀ p, (f p).endpoint = p.endpoint) :
    find_pool (modify_pool f l ep) ep2 =
      if ep2 = ep then (find_pool l ep).map f else find_pool l ep2 := by
  induction l with
  | nil => simp [modify_pool, find_pool]
  | cons q rest ih =>
    unfold modify_pool
    by_cases hq : q.endpoint = ep
    · rw [if_pos hq]
      by_cases h2 : ep2 = ep
      · rw [if_pos h2]
        simp [find_pool, hf, hq, h2]
      · rw [if_neg h2]
        have hne : ¬ q.endpoint = ep2 := fun hx => h2 (hx.symm.trans hq)
        simp [find_pool, hf, hne]
    · rw [if_neg hq]
      by_cases h2 : ep2 = ep
      · rw [if_pos h2] at ih ⊢
        have hne : ¬ q.endpoint = ep2 := fun hx => hq (hx.trans h2)
        simp only [find_pool, hne, if_false, hq]
        exact ih
      · rw [if_neg h2] at ih ⊢
        by_cases h3 : q.endpoint = ep2
        · simp [find_pool, h3]
        · simp only [find_pool, h3, if_false]
          exact ih

theorem find_pool_append (l : List channel_pool) (q : channel_pool) (ep : endpoint) :
    find_pool (l ++ [q]) ep =
      match find_pool l ep with
      | some p => some p
      | none => if q.endpoint = ep then some q else none := by
  induction l with
  | nil => simp [find_pool]
  | cons p rest ih =>
    by_cases hp : p.endpoint = ep
    · simp [find_pool, hp]
    · simp only [List.cons_append, find_pool, hp, if_false]
      exact ih

theorem add_max_channel_requests (s : request_aggregator) (ch : channel)
    (batch : List (block_hash × root)) (now : Int) :
    (s.add ch batch now).max_channel_requests = s.max_channel_requests := rfl

/-- The pools after `add`: the container is untouched when the aggregator
does not accept, and otherwise the lambda is applied to the pool of the
endpoint, which is emplaced first if it is missing. -/
theorem add_requests (s : request_aggregator) (ch : channel)
    (batch : List (block_hash × root)) (now : Int) :
    (s.add ch batch now).requests =
      if s.accepting now = true then
        modify_pool (add_to_pool s ch batch now)
          (match find_pool s.requests ch.endpoint with
            | some _ => s.requests
            | none => s.requests ++ [channel_pool.create ch now]) ch.endpoint
      else s.requests := rfl

theorem add_bounded (s : request_aggregator) (ch : channel)
    (batch : List (block_hash × root)) (now : Int)
    (h : ∀ p ∈ s.requests, p.hashes_roots.length ≤ s.max_channel_requests) :
    ∀ p ∈ (s.add ch batch now).requests,
      p.hashes_roots.length ≤ (s.add ch batch now).max_channel_requests := by
  rw [add_max_channel_requests, add_requests]
  by_cases hacc : s.accepting now = true
  · rw [if_pos hacc]
    apply modify_pool_all _ (fun p => p.hashes_roots.length ≤ s.max_channel_requests)
    · cases hfind : find_pool s.requests ch.endpoint with
      | some x => exact h
      | none =>
        intro p hp
        rcases List.mem_append.mp hp with h1 | h1
        · exact h p h1
        · rw [List.mem_singleton.mp h1]
          exact Nat.zero_le _
    · exact fun p hp => add_to_pool_bounded s ch batch now p hp
  · rw [if_neg hacc]; exact h

theorem add_all_bounded (calls : List (channel × List (block_hash × root) × Int))
    (s : request_aggregator)
    (h : ∀ p ∈ s.requests, p.hashes_roots.length ≤ s.max_channel_requests) :
    (s.add_all calls).max_channel_requests = s.max_channel_requests ∧
      ∀ p ∈ (s.add_all calls).requests, p.hashes_roots.length ≤ s.max_channel_requests := by
  induction calls generalizing s with
  | nil => exact ⟨rfl, h⟩
  | cons call rest ih =>
    have h2 := ih (s.add call.1 call.2.1 call.2.2) (add_bounded s _ _ _ h)
    rw [add_max_channel_requests] at h2
    exact h2

/-- The requests queued for an endpoint after `add`: the batch goes to the
front of the pool of the channel's endpoint when `error` is false, and
nothing else changes. -/
theorem add_pool_requests (s : request_aggregator) (ch : channel)
    (batch : List (block_hash × root)) (now : Int) (ep : endpoint) :
    (s.add ch batch now).pool_requests ep =
      if ep = ch.endpoint ∧ s.add_error ch batch now = false then batch ++ s.pool_requests ep
      else s.pool_requests ep := by
  unfold request_aggregator.pool_requests
  rw [add_requests]
  unfold request_aggregator.add_error request_aggregator.pool_of
  by_cases hacc : s.accepting now = true
  · rw [if_pos hacc, if_pos hacc, find_pool_modify _ _ _ _ (add_to_pool_endpoint s ch batch now)]
    by_cases hep : ep = ch.endpoint
    · rw [if_pos hep, hep]
      cases hfind : find_pool s.requests ch.endpoint with
      | some p =>
        simp only [hfind, Option.map_some', add_to_pool_requests, true_and]
        by_cases hf : p.fits s.max_channel_requests batch = true
        · simp [hf]
        · simp [hf]
      | none =>
        have hnew : find_pool (s.requests ++ [channel_pool.create ch now]) ch.endpoint =
            some (channel_pool.create ch now) := by
          rw [find_pool_append, hfind]
          simp [channel_pool.create]
        simp only [hnew, Option.map_some', add_to_pool_requests, true_and]
        by_cases hf : (channel_pool.create ch now).fits s.max_channel_requests batch = true
        · simp [hf, channel_pool.create]
        · simp [hf, channel_pool.create]
    · rw [if_neg hep, if_neg (fun hx => hep hx.1)]
      cases hfind : find_pool s.requests ch.endpoint with
      | some p => rfl
      | none =>
        simp only []
        rw [find_pool_append]
        have hne : ¬ (channel_pool.create ch now).endpoint = ep := fun hx => hep hx.symm
        cases find_pool s.requests ep with
        | some q => rfl
        | none => simp [hne]
  · rw [if_neg hacc, if_neg hacc]
    simp

theorem aggregator_stat_append (st : List (aggregator_detail × Nat)) (d d2 : aggregator_detail)
    (v : Nat) :
    aggregator_stat (st ++ [(d2, v)]) d = aggregator_stat st d + (if d2 = d then v else 0) := by
  unfold aggregator_stat
  by_cases h : d2 = d
  · simp [List.filter_append, h]
  · simp [List.filter_append, h]

/-- The counters after `add`: accepted grows by one when `error` is false,
dropped grows by one when it is true. -/
theorem add_stats (s : request_aggregator) (ch : channel)
    (batch : List (block_hash × root)) (now : Int) :
    (s.add_error ch batch now = false →
        aggregator_stat (s.add ch batch now).stats aggregator_detail.aggregator_accepted =
          aggregator_stat s.stats aggregator_detail.aggregator_accepted + 1 ∧
        aggregator_stat (s.add ch batch now).stats aggregator_detail.aggregator_dropped =
          aggregator_stat s.stats aggregator_detail.aggregator_dropped) ∧
      (s.add_error ch batch now = true →
        aggregator_stat (s.add ch batch now).stats aggregator_detail.aggregator_accepted =
          aggregator_stat s.stats aggregator_detail.aggregator_accepted ∧
        aggregator_stat (s.add ch batch now).stats aggregator_detail.aggregator_dropped =
          aggregator_stat s.stats aggregator_detail.aggregator_dropped + 1) := by
  have hst : (s.add ch batch now).stats = s.stats ++
      [(if (!s.add_error ch batch now) = true then aggregator_detail.aggregator_accepted
        else aggregator_detail.aggregator_dropped, 1)] := rfl
  rw [hst]
  refine ⟨fun h => ?_, fun h => ?_⟩
  · rw [h, aggregator_stat_append, aggregator_stat_append]
    simp
  · rw [h, aggregator_stat_append, aggregator_stat_append]
    simp

/-- A batch that does not fit gives `error = true`. -/
theorem add_error_of_over_cap (s : request_aggregator) (ch : channel)
    (batch : List (block_hash × root)) (now : Int)
    (h : (s.pool_requests ch.endpoint).length + batch.length > s.max_channel_requests) :
    s.add_error ch batch now = true := by
  unfold request_aggregator.add_error
  by_cases hacc : s.accepting now = true
  · rw [if_pos hacc]
    unfold request_aggregator.pool_requests at h
    unfold request_aggregator.pool_of channel_pool.fits
    cases hfind : find_pool s.requests ch.endpoint with
    | some p =>
      rw [hfind] at h
      simp only at h ⊢
      simp only [Bool.not_eq_true', decide_eq_false_iff_not]
      omega
    | none =>
      rw [hfind] at h
      simp only at h ⊢
      simp only [Bool.not_eq_true', decide_eq_false_iff_not, channel_pool.create]
      omega
  · rw [if_neg hacc]

/-- C22: after every sequence of `add` calls on a new aggregator, each
endpoint pool holds at most max_channel_requests (hash, root) pairs; an `add`
whose batch would take the pool of its endpoint above the cap is dropped as a
whole (the list of pairs of every pool is unchanged) and is counted as
aggregator_dropped; and every `add` call increments exactly one of the
counters aggregator_accepted and aggregator_dropped, by one. -/
theorem add_pools_bounded (is_test_network : Bool) (max_queued_requests : Nat) :
    (∀ calls, ∀ p ∈ ((request_aggregator.create is_test_network
        max_queued_requests).add_all calls).requests,
      p.hashes_roots.length ≤ max_queued_requests) ∧
    (∀ (s : request_aggregator) (ch : channel) (batch : List (block_hash × root)) (now : Int),
      (s.pool_requests ch.endpoint).length + batch.length > s.max_channel_requests →
        (∀ ep, (s.add ch batch now).pool_requests ep = s.pool_requests ep) ∧
        aggregator_stat (s.add ch batch now).stats aggregator_detail.aggregator_dropped =
          aggregator_stat s.stats aggregator_detail.aggregator_dropped + 1 ∧
        aggregator_stat (s.add ch batch now).stats aggregator_detail.aggregator_accepted =
          aggregator_stat s.stats aggregator_detail.aggregator_accepted) ∧
    (∀ (s : request_aggregator) (ch : channel) (batch : List (block_hash × root)) (now : Int),
      (aggregator_stat (s.add ch batch now).stats aggregator_detail.aggregator_accepted =
          aggregator_stat s.stats aggregator_detail.aggregator_accepted + 1 ∧
        aggregator_stat (s.add ch batch now).stats aggregator_detail.aggregator_dropped =
          aggregator_stat s.stats aggregator_detail.aggregator_dropped) ∨
      (aggregator_stat (s.add ch batch now).stats aggregator_detail.aggregator_accepted =
          aggregator_stat s.stats aggregator_detail.aggregator_accepted ∧
        aggregator_stat (s.add ch batch now).stats aggregator_detail.aggregator_dropped =
          aggregator_stat s.stats aggregator_detail.aggregator_dropped + 1)) := by
  refine ⟨fun calls => ?_, fun s ch batch now hover => ?_, fun s ch batch now => ?_⟩
  · exact (add_all_bounded calls (request_aggregator.create is_test_network max_queued_requests)
      (fun p hp => by simp [request_aggregator.create] at hp)).2
  · have herr := add_error_of_over_cap s ch batch now hover
    obtain ⟨h1, h2⟩ := (add_stats s ch batch now).2 herr
    refine ⟨fun ep => ?_, h2, h1⟩
    rw [add_pool_requests, if_neg]
    intro hx
    rw [herr] at hx
    exact Bool.noConfusion hx.2
  · cases herr : s.add_error ch batch now with
    | false => exact Or.inl ((add_stats s ch batch now).1 herr)
    | true => exact Or.inr ((add_stats s ch batch now).2 herr)

/-! ## Aggregating requests: `aggregate` -/

/-- The block that `lookup` hands on was found by one of the three
lookups. -/
theorem lookup_found (l : aggregator_ledger) (cache : List cached_votes)
    (hash_root : block_hash × root) (b : block)
    (h : (l.lookup cache hash_root).1 = some b) :
    l.winner hash_root.1 = some b ∨ l.block_get hash_root.1 = some b ∨
      (hash_root.2 ≠ 0 ∧ l.successor hash_root.2 ≠ 0 ∧
        l.block_get (l.successor hash_root.2) = some b) := by
  unfold aggregator_ledger.lookup at h
  simp only at h
  cases hw : l.winner hash_root.1 with
  | some w =>
    rw [hw] at h
    simp only [Option.isNone_some, Bool.false_and, Bool.false_eq_true, if_false] at h
    exact Or.inl h
  | none =>
    rw [hw] at h
    simp only at h
    cases hg : l.block_get hash_root.1 with
    | some g =>
      rw [hg] at h
      simp only [Option.isNone_some, Bool.false_and, Bool.false_eq_true, if_false] at h
      exact Or.inr (Or.inl h)
    | none =>
      rw [hg] at h
      by_cases hr : hash_root.2 = 0
      · simp [hr] at h
      · by_cases hs : l.successor hash_root.2 = 0
        · simp [hr, hs] at h
        · by_cases hv : votes_cache_find cache (l.successor hash_root.2) = []
          · simp [hr, hs, hv] at h
            exact Or.inr (Or.inr ⟨hr, hs, h⟩)
          · simp [hr, hs, hv] at h

theorem aggregate_block_to_generate (l : aggregator_ledger) (st : aggregate_state)
    (hash : block_hash) (ob : Option block) (h : block_hash)
    (hh : h ∈ (aggregate_block l st hash ob).to_generate) :
    h ∈ st.to_generate ∨ ∃ b, ob = some b ∧ b.hash = h ∧ l.dependents_confirmed b = true := by
  cases ob with
  | none => exact Or.inl hh
  | some b =>
    unfold aggregate_block at hh
    simp only at hh
    have key : h ∈ (if l.dependents_confirmed b = true then
        { st with to_generate := st.to_generate ++ [b.hash] }
        else { st with stats := st.stats ++ [(aggregator_detail.requests_cannot_vote, 1)] }
        : aggregate_state).to_generate := by
      by_cases hp : b.hash ≠ hash
      · rw [if_pos hp] at hh; exact hh
      · rw [if_neg hp] at hh; exact hh
    by_cases hd : l.dependents_confirmed b = true
    · rw [if_pos hd] at key
      rcases List.mem_append.mp key with h1 | h1
      · exact Or.inl h1
      · exact Or.inr ⟨b, rfl, (List.mem_singleton.mp h1).symm, hd⟩
    · rw [if_neg hd] at key
      exact Or.inl key

/-- The body of the loop of `aggregate` adds to `to_generate` only a hash
that is confirmable for the request. -/
theorem aggregate_request_to_generate (l : aggregator_ledger) (cache : List cached_votes)
    (st : aggregate_state) (hash_root : block_hash × root) (h : block_hash)
    (hh : h ∈ (aggregate_request l cache st hash_root).to_generate) :
    h ∈ st.to_generate ∨ l.confirmable cache hash_root h := by
  unfold aggregate_request at hh
  simp only at hh
  by_cases hv : votes_cache_find cache hash_root.1 ≠ []
  · rw [if_pos hv] at hh
    exact Or.inl hh
  · rw [if_neg hv] at hh
    rcases aggregate_block_to_generate l _ _ _ h hh with h1 | ⟨b, hb, hbh, hd⟩
    · exact Or.inl h1
    · exact Or.inr ⟨not_not.mp hv, b, hbh, hd, lookup_found l cache hash_root b hb⟩

theorem aggregate_fold_to_generate (l : aggregator_ledger) (cache : List cached_votes)
    (requests_a : List (block_hash × root)) (st : aggregate_state) (h : block_hash)
    (hh : h ∈ (requests_a.foldl (aggregate_request l cache) st).to_generate) :
    h ∈ st.to_generate ∨ ∃ r ∈ requests_a, l.confirmable cache r h := by
  induction requests_a generalizing st with
  | nil => exact Or.inl hh
  | cons r rest ih =>
    rw [List.foldl_cons] at hh
    rcases ih _ hh with h1 | ⟨q, hq, hc⟩
    · rcases aggregate_request_to_generate l cache st r h h1 with h2 | h2
      · exact Or.inl h2
      · exact Or.inr ⟨r, List.mem_cons_self _ _, h2⟩
    · exact Or.inr ⟨q, List.mem_cons_of_mem _ hq, hc⟩

/-- C23 (the code at the failing input): the request (hash 1, root 9) has no
cached votes, no election winner and no block by hash; the block of hash 2 is
the successor of root 9 in the ledger and a vote for it is cached.
`aggregate` sends that vote as a confirm_ack, sends no publish message, and
counts the request as requests_unknown. -/
theorem aggregate_cached_successor_not_published :
    votes_cache_find [⟨2, [⟨5, 1, [2]⟩]⟩] 1 = [] ∧
      successor_ledger.winner 1 = none ∧ successor_ledger.block_get 1 = none ∧
      successor_ledger.successor 9 = 2 ∧ successor_ledger.block_get 2 = some ⟨2, 9, 0⟩ ∧
      votes_cache_find [⟨2, [⟨5, 1, [2]⟩]⟩] 2 = [⟨5, 1, [2]⟩] ∧
      aggregate successor_ledger [⟨2, [⟨5, 1, [2]⟩]⟩] [] [(1, 9)] =
        { cached_hashes := 0, to_generate := [], cached_votes := [⟨5, 1, [2]⟩],
          sent := [message.confirm_ack ⟨5, 1, [2]⟩],
          stats := [(aggregator_detail.requests_unknown, 1),
            (aggregator_detail.requests_cached_hashes, 0),
            (aggregator_detail.requests_cached_votes, 1)] } := by
  decide

/-- C24: every hash in the list returned by `aggregate` is the hash of a
block that was found for a request (as an election winner, in the ledger by
hash, or as the ledger successor of the requested root) and whose dependents
are confirmed, the request having no cached votes for its hash; and a request
whose hash has cached votes contributes no hash to that list. -/
theorem aggregate_marks_confirmable (l : aggregator_ledger) (cache : List cached_votes)
    (stats : List (aggregator_detail × Nat)) (requests_a : List (block_hash × root)) :
    (∀ h ∈ (aggregate l cache stats requests_a).to_generate,
        ∃ r ∈ requests_a, l.confirmable cache r h) ∧
      (∀ (st : aggregate_state) (r : block_hash × root), votes_cache_find cache r.1 ≠ [] →
        (aggregate_request l cache st r).to_generate = st.to_generate) := by
  refine ⟨fun h hh => ?_, fun st r hv => ?_⟩
  · have hh2 : h ∈ (requests_a.foldl (aggregate_request l cache)
        { cached_hashes := 0, to_generate := [], cached_votes := [], sent := [],
          stats := stats }).to_generate := hh
    rcases aggregate_fold_to_generate l cache requests_a _ h hh2 with h1 | h1
    · simp at h1
    · exact h1
  · unfold aggregate_request
    simp only
    rw [if_pos hv]

/-! ## The local votes cache: `add`, `find`, `remove` -/

theorem replace_vote_mem (vote_a : vote) (l : List vote) : vote_a ∈ replace_vote vote_a l := by
  induction l with
  | nil => simp [replace_vote]
  | cons v rest ih =>
    unfold replace_vote
    by_cases h : v.account = vote_a.account
    · rw [if_pos h]; exact List.mem_cons_self _ _
    · rw [if_neg h]; exact List.mem_cons_of_mem _ ih

theorem replace_vote_accounts (vote_a : vote) (l : List vote) :
    (replace_vote vote_a l).map (fun v => v.account) =
      if vote_a.account ∈ l.map (fun v => v.account) then l.map (fun v => v.account)
      else l.map (fun v => v.account) ++ [vote_a.account] := by
  induction l with
  | nil => simp [replace_vote]
  | cons v rest ih =>
    unfold replace_vote
    by_cases h : v.account = vote_a.account
    · rw [if_pos h]
      simp [h]
    · rw [if_neg h, List.map_cons, ih]
      have hne : ¬ vote_a.account = v.account := fun hx => h hx.symm
      by_cases hm : vote_a.account ∈ rest.map (fun v => v.account)
      · simp [hm]
      · simp [hm, hne]

theorem replace_vote_nodup (vote_a : vote) (l : List vote)
    (h : (l.map (fun v => v.account)).Nodup) :
    ((replace_vote vote_a l).map (fun v => v.account)).Nodup := by
  rw [replace_vote_accounts]
  by_cases hm : vote_a.account ∈ l.map (fun v => v.account)
  · rw [if_pos hm]; exact h
  · rw [if_neg hm]
    exact List.Nodup.append h (List.nodup_singleton _) (by simpa using hm)

theorem votes_cache_has_iff (cache : List cached_votes) (h : block_hash) :
    votes_cache_has cache h = true ↔ h ∈ cache.map (fun c => c.hash) := by
  unfold votes_cache_has
  simp only [List.any_eq_true, decide_eq_true_eq, List.mem_map]

theorem modify_cached_hashes (f : List vote → List vote) (cache : List cached_votes)
    (h : block_hash) :
    (modify_cached f cache h).map (fun c => c.hash) = cache.map (fun c => c.hash) := by
  induction cache with
  | nil => rfl
  | cons c rest ih =>
    unfold modify_cached
    by_cases hc : c.hash = h
    · rw [if_pos hc]; rfl
    · rw [if_neg hc, List.map_cons, List.map_cons, ih]

theorem modify_cached_mem (f : List vote → List vote) (cache : List cached_votes)
    (h : block_hash) (c : cached_votes) (hc : c ∈ modify_cached f cache h) :
    c ∈ cache ∨ ∃ c0 ∈ cache, c.votes = f c0.votes := by
  induction cache with
  | nil => simp [modify_cached] at hc
  | cons c1 rest ih =>
    unfold modify_cached at hc
    by_cases h1 : c1.hash = h
    · rw [if_pos h1] at hc
      rcases List.mem_cons.mp hc with h2 | h2
      · exact Or.inr ⟨c1, List.mem_cons_self _ _, by rw [h2]⟩
      · exact Or.inl (List.mem_cons_of_mem _ h2)
    · rw [if_neg h1] at hc
      rcases List.mem_cons.mp hc with h2 | h2
      · exact Or.inl (by rw [h2]; exact List.mem_cons_self _ _)
      · rcases ih h2 with h3 | ⟨c0, h3, h4⟩
        · exact Or.inl (List.mem_cons_of_mem _ h3)
        · exact Or.inr ⟨c0, List.mem_cons_of_mem _ h3, h4⟩

theorem votes_cache_find_modify (f : List vote → List vote) (cache : List cached_votes)
    (h h2 : block_hash) :
    votes_cache_find (modify_cached f cache h) h2 =
      if h2 = h ∧ votes_cache_has cache h = true then f (votes_cache_find cache h)
      else votes_cache_find cache h2 := by
  induction cache with
  | nil => simp [modify_cached, votes_cache_find, votes_cache_has]
  | cons c rest ih =>
    unfold modify_cached
    by_cases hc : c.hash = h
    · rw [if_pos hc]
      have hhas : votes_cache_has (c :: rest) h = true := by
        rw [votes_cache_has_iff]; simp [hc]
      by_cases h3 : h2 = h
      · rw [if_pos ⟨h3, hhas⟩]
        simp [votes_cache_find, hc, h3]
      · rw [if_neg (fun hx => h3 hx.1)]
        have hne : ¬ c.hash = h2 := fun hx => h3 (hx.symm.trans hc)
        simp [votes_cache_find, hne]
    · rw [if_neg hc]
      have hhas : votes_cache_has (c :: rest) h = votes_cache_has rest h := by
        unfold votes_cache_has
        simp [hc]
      rw [hhas]
      by_cases h3 : h2 = h
      · have hne : ¬ c.hash = h2 := fun hx => hc (hx.trans h3)
        simp only [votes_cache_find, hne, if_false, hc]
        rw [ih]
      · by_cases h4 : c.hash = h2
        · simp [votes_cache_find, h4, h3]
        · simp only [votes_cache_find, h4, if_false]
          rw [ih]
          simp [h3]

theorem votes_cache_find_append (cache : List cached_votes) (c : cached_votes)
    (h : block_hash) :
    votes_cache_find (cache ++ [c]) h =
      if votes_cache_has cache h = true then votes_cache_find cache h
      else if c.hash = h then c.votes else [] := by
  induction cache with
  | nil => simp [votes_cache_find, votes_cache_has]
  | cons c1 rest ih =>
    by_cases h1 : c1.hash = h
    · have hhas : votes_cache_has (c1 :: rest) h = true := by
        rw [votes_cache_has_iff]; simp [h1]
      simp [votes_cache_find, h1, hhas]
    · have hhas : votes_cache_has (c1 :: rest) h = votes_cache_has rest h := by
        unfold votes_cache_has
        simp [h1]
      rw [hhas]
      simp only [List.cons_append, votes_cache_find, h1, if_false]
      exact ih

/-- The votes found for a hash are the votes of an entry of the cache, or
none. -/
theorem votes_cache_find_entry (cache : List cached_votes) (h : block_hash) :
    (votes_cache_has cache h = false ∧ votes_cache_find cache h = []) ∨
      (votes_cache_has cache h = true ∧
        ∃ c ∈ cache, c.hash = h ∧ votes_cache_find cache h = c.votes) := by
  induction cache with
  | nil => exact Or.inl ⟨rfl, rfl⟩
  | cons c rest ih =>
    by_cases hc : c.hash = h
    · right
      refine ⟨by rw [votes_cache_has_iff]; simp [hc], c, List.mem_cons_self _ _, hc, ?_⟩
      simp [votes_cache_find, hc]
    · have hhas : votes_cache_has (c :: rest) h = votes_cache_has rest h := by
        unfold votes_cache_has
        simp [hc]
      have hfind : votes_cache_find (c :: rest) h = votes_cache_find rest h := by
        simp [votes_cache_find, hc]
      rw [hhas, hfind]
      rcases ih with h1 | ⟨h1, c0, h2, h3, h4⟩
      · exact Or.inl h1
      · exact Or.inr ⟨h1, c0, List.mem_cons_of_mem _ h2, h3, h4⟩

/-- In a cache without a repeated hash, dropping the oldest entry leaves the
votes of every hash that is still cached. -/
theorem votes_cache_find_tail (cache : List cached_votes) (h : block_hash)
    (hnd : (cache.map (fun c => c.hash)).Nodup) (hhas : votes_cache_has cache.tail h = true) :
    votes_cache_find cache.tail h = votes_cache_find cache h := by
  cases cache with
  | nil => rfl
  | cons c rest =>
    have hmem : h ∈ rest.map (fun c => c.hash) := (votes_cache_has_iff rest h).mp hhas
    have hne : ¬ c.hash = h := by
      intro hx
      rw [List.map_cons, List.nodup_cons] at hnd
      exact hnd.1 (hx ▸ hmem)
    simp [votes_cache_find, hne]

theorem votes_cache_remove_ok (max_cache voting : Nat) (cache : List cached_votes)
    (h : block_hash) (hok : votes_cache_ok max_cache voting cache) :
    votes_cache_ok max_cache voting (votes_cache_remove cache h) := by
  obtain ⟨h1, h2, h3⟩ := hok
  unfold votes_cache_remove
  refine ⟨?_, fun c hc => h2 c (List.mem_filter.mp hc).1, ?_⟩
  · exact h1.sublist (List.Sublist.map _ (List.filter_sublist _))
  · exact Nat.le_trans (List.length_filter_le _ _) h3

/-- One step of the loop of `add` keeps the invariant of the cache, when the
capacity is at least 1. -/
theorem votes_cache_add_hash_ok (max_cache voting : Nat) (vote_a : vote)
    (cache : List cached_votes) (hash : block_hash) (hcap : max_cache / voting ≥ 1)
    (hok : votes_cache_ok max_cache voting cache) :
    votes_cache_ok max_cache voting
      (votes_cache_add_hash (max_cache / voting) vote_a cache hash) := by
  obtain ⟨h1, h2, h3⟩ := hok
  unfold votes_cache_add_hash
  by_cases hhas : votes_cache_has cache hash = true
  · rw [if_pos hhas]
    refine ⟨by rw [modify_cached_hashes]; exact h1, fun c hc => ?_, ?_⟩
    · rcases modify_cached_mem _ _ _ _ hc with h4 | ⟨c0, h4, h5⟩
      · exact h2 c h4
      · rw [h5]; exact replace_vote_nodup vote_a _ (h2 c0 h4)
    · have hlen := congrArg List.length (modify_cached_hashes (replace_vote vote_a) cache hash)
      rw [List.length_map, List.length_map] at hlen
      rw [hlen]; exact h3
  · rw [if_neg hhas]
    have hnot : hash ∉ cache.map (fun c => c.hash) :=
      fun hx => hhas ((votes_cache_has_iff cache hash).mpr hx)
    simp only
    by_cases hfull : cache.length ≥ max_cache / voting
    · rw [if_pos hfull]
      have hsub : List.Sublist cache.tail cache := List.tail_sublist cache
      refine ⟨?_, fun c hc => ?_, ?_⟩
      · rw [List.map_append]
        refine List.Nodup.append (h1.sublist (List.Sublist.map _ hsub))
          (List.nodup_singleton _) ?_
        intro x hx hx2
        rw [List.map_singleton, List.mem_singleton] at hx2
        have hx3 : x = hash := hx2
        rw [hx3] at hx
        exact hnot ((List.Sublist.map _ hsub).subset hx)
      · rcases List.mem_append.mp hc with h4 | h4
        · exact h2 c (hsub.subset h4)
        · rw [List.mem_singleton.mp h4]
          exact List.nodup_singleton _
      · rw [List.length_append, List.length_tail, List.length_singleton]
        omega
    · rw [if_neg hfull]
      refine ⟨?_, fun c hc => ?_, ?_⟩
      · rw [List.map_append]
        refine List.Nodup.append h1 (List.nodup_singleton _) ?_
        intro x hx hx2
        rw [List.map_singleton, List.mem_singleton] at hx2
        have hx3 : x = hash := hx2
        rw [hx3] at hx
        exact hnot hx
      · rcases List.mem_append.mp hc with h4 | h4
        · exact h2 c h4
        · rw [List.mem_singleton.mp h4]
          exact List.nodup_singleton _
      · rw [List.length_append, List.length_singleton]
        omega

theorem votes_cache_add_eq (max_cache voting : Nat) (cache : List cached_votes) (vote_a : vote)
    (hv : voting ≥ 1) :
    votes_cache_add max_cache voting cache vote_a =
      vote_a.blocks.foldl (votes_cache_add_hash (max_cache / voting) vote_a) cache := by
  unfold votes_cache_add
  have h0 : ¬ voting = 0 := by omega
  rw [if_neg h0]
  simp only [Nat.max_eq_left hv]

theorem votes_cache_fold_ok (max_cache voting : Nat) (vote_a : vote) (hashes : List block_hash)
    (cache : List cached_votes) (hcap : max_cache / voting ≥ 1)
    (hok : votes_cache_ok max_cache voting cache) :
    votes_cache_ok max_cache voting
      (hashes.foldl (votes_cache_add_hash (max_cache / voting) vote_a) cache) := by
  induction hashes generalizing cache with
  | nil => exact hok
  | cons h rest ih => exact ih _ (votes_cache_add_hash_ok max_cache voting vote_a cache h hcap hok)

theorem votes_cache_add_ok (max_cache voting : Nat) (cache : List cached_votes) (vote_a : vote)
    (hv : voting ≥ 1) (hcap : max_cache / voting ≥ 1)
    (hok : votes_cache_ok max_cache voting cache) :
    votes_cache_ok max_cache voting (votes_cache_add max_cache voting cache vote_a) := by
  rw [votes_cache_add_eq max_cache voting cache vote_a hv]
  exact votes_cache_fold_ok max_cache voting vote_a _ cache hcap hok

theorem votes_cache_run_ok (max_cache voting : Nat) (ops : List votes_cache_op)
    (cache : List cached_votes) (hv : voting ≥ 1) (hcap : max_cache / voting ≥ 1)
    (hok : votes_cache_ok max_cache voting cache) :
    votes_cache_ok max_cache voting (votes_cache_run max_cache voting cache ops) := by
  unfold votes_cache_run
  induction ops generalizing cache with
  | nil => exact hok
  | cons op rest ih =>
    rw [List.foldl_cons]
    apply ih
    cases op with
    | add vote_a => exact votes_cache_add_ok max_cache voting cache vote_a hv hcap hok
    | remove hash_a => exact votes_cache_remove_ok max_cache voting cache hash_a hok

/-- After the step of `add` for a hash, the votes found for the hash contain
the vote. -/
theorem votes_cache_add_hash_self (m : Nat) (vote_a : vote) (cache : List cached_votes)
    (hash : block_hash) :
    vote_a ∈ votes_cache_find (votes_cache_add_hash m vote_a cache hash) hash := by
  unfold votes_cache_add_hash
  by_cases hhas : votes_cache_has cache hash = true
  · rw [if_pos hhas, votes_cache_find_modify, if_pos ⟨rfl, hhas⟩]
    exact replace_vote_mem vote_a _
  · rw [if_neg hhas]
    simp only
    rw [votes_cache_find_append]
    have hnot : hash ∉ cache.map (fun c => c.hash) :=
      fun hx => hhas ((votes_cache_has_iff cache hash).mpr hx)
    have hnot2 : ¬ votes_cache_has (if cache.length ≥ m then cache.tail else cache) hash = true := by
      rw [votes_cache_has_iff]
      intro hx
      apply hnot
      by_cases hfull : cache.length ≥ m
      · rw [if_pos hfull] at hx
        exact (List.Sublist.map _ (List.tail_sublist cache)).subset hx
      · rw [if_neg hfull] at hx
        exact hx
    rw [if_neg hnot2]
    simp

/-- The step of `add` for another hash keeps the vote among the votes found
for a hash, as long as the hash is still cached. -/
theorem votes_cache_add_hash_other (m : Nat) (vote_a : vote) (cache : List cached_votes)
    (hash h : block_hash) (hne : h ≠ hash)
    (hnd : (cache.map (fun c => c.hash)).Nodup)
    (hq : votes_cache_has cache h = true → vote_a ∈ votes_cache_find cache h)
    (hhas2 : votes_cache_has (votes_cache_add_hash m vote_a cache hash) h = true) :
    vote_a ∈ votes_cache_find (votes_cache_add_hash m vote_a cache hash) h := by
  unfold votes_cache_add_hash at hhas2 ⊢
  by_cases hhas : votes_cache_has cache hash = true
  · rw [if_pos hhas] at hhas2 ⊢
    rw [votes_cache_find_modify, if_neg (fun hx => hne hx.1)]
    apply hq
    rw [votes_cache_has_iff] at hhas2 ⊢
    rw [modify_cached_hashes] at hhas2
    exact hhas2
  · rw [if_neg hhas] at hhas2 ⊢
    simp only at hhas2 ⊢
    rw [votes_cache_find_append]
    have hin : votes_cache_has (if cache.length ≥ m then cache.tail else cache) h = true := by
      rw [votes_cache_has_iff] at hhas2 ⊢
      rw [List.map_append, List.mem_append] at hhas2
      rcases hhas2 with h1 | h1
      · exact h1
      · rw [List.map_singleton, List.mem_singleton] at h1
        exact absurd h1 hne
    rw [if_pos hin]
    by_cases hfull : cache.length ≥ m
    · rw [if_pos hfull] at hin ⊢
      rw [votes_cache_find_tail cache h hnd hin]
      apply hq
      rw [votes_cache_has_iff] at hin ⊢
      exact (List.Sublist.map _ (List.tail_sublist cache)).subset hin
    · rw [if_neg hfull] at hin ⊢
      exact hq hin

theorem votes_cache_fold_contains (max_cache voting : Nat) (vote_a : vote)
    (hashes : List block_hash) (cache : List cached_votes) (h : block_hash)
    (hcap : max_cache / voting ≥ 1) (hok : votes_cache_ok max_cache voting cache)
    (hq : h ∈ hashes ∨ (votes_cache_has cache h = true → vote_a ∈ votes_cache_find cache h))
    (hhas : votes_cache_has
      (hashes.foldl (votes_cache_add_hash (max_cache / voting) vote_a) cache) h = true) :
    vote_a ∈ votes_cache_find
      (hashes.foldl (votes_cache_add_hash (max_cache / voting) vote_a) cache) h := by
  induction hashes generalizing cache with
  | nil =>
    rcases hq with h1 | h1
    · simp at h1
    · exact h1 hhas
  | cons b rest ih =>
    rw [List.foldl_cons] at hhas ⊢
    have hok1 := votes_cache_add_hash_ok max_cache voting vote_a cache b hcap hok
    apply ih _ hok1 _ hhas
    by_cases hb : h = b
    · right
      intro _
      rw [hb]
      exact votes_cache_add_hash_self _ vote_a cache b
    · rcases hq with h1 | h1
      · rcases List.mem_cons.mp h1 with h2 | h2
        · exact absurd h2 hb
        · exact Or.inl h2
      · right
        intro hhas1
        exact votes_cache_add_hash_other _ vote_a cache b h hb hok.1 h1 hhas1

/-- The votes found for a hash have pairwise distinct accounts in a cache
that satisfies the invariant. -/
theorem votes_cache_find_nodup (max_cache voting : Nat) (cache : List cached_votes)
    (h : block_hash) (hok : votes_cache_ok max_cache voting cache) :
    ((votes_cache_find cache h).map (fun v => v.account)).Nodup := by
  rcases votes_cache_find_entry cache h with ⟨_, h1⟩ | ⟨_, c, hc, _, h1⟩
  · rw [h1]; exact List.nodup_nil
  · rw [h1]; exact hok.2.1 c hc

/-- C30: with at least one voting representative and a capacity
max_cache / voting of at least 1, in every state reached from the empty cache
by `add` and `remove` the votes stored for any hash have pairwise distinct
accounts, no hash is cached twice and the number of cached hashes does not
exceed max_cache / voting; and after a further `add (v)`, for every hash of v
that is still cached, `find (hash)` contains v and no other vote by v's
account. -/
theorem votes_cache_one_vote_per_representative (max_cache voting : Nat) (hv : voting ≥ 1)
    (hcap : max_cache / voting ≥ 1) (ops : List votes_cache_op) :
    (∀ h, ((votes_cache_find (votes_cache_run max_cache voting [] ops) h).map
        (fun v => v.account)).Nodup) ∧
      ((votes_cache_run max_cache voting [] ops).map (fun c => c.hash)).Nodup ∧
      (votes_cache_run max_cache voting [] ops).length ≤ max_cache / voting ∧
      (∀ (vote_a : vote) (h : block_hash), h ∈ vote_a.blocks →
        votes_cache_has (votes_cache_add max_cache voting
          (votes_cache_run max_cache voting [] ops) vote_a) h = true →
        vote_a ∈ votes_cache_find (votes_cache_add max_cache voting
          (votes_cache_run max_cache voting [] ops) vote_a) h ∧
        ∀ u ∈ votes_cache_find (votes_cache_add max_cache voting
          (votes_cache_run max_cache voting [] ops) vote_a) h,
          u.account = vote_a.account → u = vote_a) := by
  have hempty : votes_cache_ok max_cache voting [] :=
    ⟨List.nodup_nil, fun c hc => by simp at hc, Nat.zero_le _⟩
  have hok := votes_cache_run_ok max_cache voting ops [] hv hcap hempty
  refine ⟨fun h => votes_cache_find_nodup max_cache voting _ h hok, hok.1, hok.2.2,
    fun vote_a h hh hhas => ?_⟩
  have hok2 := votes_cache_add_ok max_cache voting _ vote_a hv hcap hok
  have hnd := votes_cache_find_nodup max_cache voting _ h hok2
  rw [votes_cache_add_eq max_cache voting _ vote_a hv] at hhas hnd ⊢
  have hmem := votes_cache_fold_contains max_cache voting vote_a vote_a.blocks _ h hcap hok
    (Or.inl hh) hhas
  exact ⟨hmem, fun u hu hacc => List.inj_on_of_nodup_map hnd hu hmem hacc⟩

/-- The statement of `votes_cache_one_vote_per_representative` for a cache of
capacity 2 with one voting representative, after account 1 has voted for the
hashes 7 and 8 with sequence 1: a vote of account 1 with sequence 2 for the
hash 7 is the only vote found for the hash 7. -/
theorem votes_cache_one_vote_per_representative_witness :
    (⟨1, 2, [7]⟩ : vote) ∈ votes_cache_find (votes_cache_add 2 1
        (votes_cache_run 2 1 [] [votes_cache_op.add ⟨1, 1, [7, 8]⟩]) ⟨1, 2, [7]⟩) 7 ∧
      ∀ u ∈ votes_cache_find (votes_cache_add 2 1
        (votes_cache_run 2 1 [] [votes_cache_op.add ⟨1, 1, [7, 8]⟩]) ⟨1, 2, [7]⟩) 7,
        u.account = (⟨1, 2, [7]⟩ : vote).account → u = ⟨1, 2, [7]⟩ :=
  (votes_cache_one_vote_per_representative 2 1 (by decide) (by decide)
    [votes_cache_op.add ⟨1, 1, [7, 8]⟩]).2.2.2 ⟨1, 2, [7]⟩ 7 (by decide) (by decide)

/-! ## Vote generation in batches: `generate` -/

theorem batches_of_fuel (m : Nat) (hm : m ≥ 1) (fuel fuel2 : Nat) (l : List block_hash)
    (h1 : fuel ≥ l.length) (h2 : fuel2 ≥ l.length) : batches_of m fuel l = batches_of m fuel2 l := by
  induction fuel generalizing fuel2 l with
  | zero =>
    cases l with
    | nil => cases fuel2 <;> rfl
    | cons a rest => simp at h1
  | succ k ih =>
    cases l with
    | nil => cases fuel2 <;> rfl
    | cons a rest =>
      cases fuel2 with
      | zero => simp at h2
      | succ k2 =>
        simp only [batches_of]
        have hlen : ((a :: rest).drop m).length ≤ rest.length := by
          rw [List.length_drop, List.length_cons]
          omega
        rw [List.length_cons] at h1 h2
        rw [ih k2 _ (by omega) (by omega)]

/-- The batches of a non-empty list: the first `m` hashes, then the batches
of the rest. -/
theorem specified_batches_cons (m : Nat) (hm : m ≥ 1) (a : block_hash) (rest : List block_hash) :
    specified_batches m (a :: rest) =
      (a :: rest).take m :: specified_batches m ((a :: rest).drop m) := by
  unfold specified_batches
  rw [List.length_cons]
  simp only [batches_of]
  have hlen : ((a :: rest).drop m).length ≤ rest.length := by
    rw [List.length_drop, List.length_cons]
    omega
  rw [batches_of_fuel m hm rest.length ((a :: rest).drop m).length _ hlen (Nat.le_refl _)]

theorem ceil_div_step (n m : Nat) (hm : m ≥ 1) (hn : n ≥ 1) :
    (n + m - 1) / m = 1 + ((n - m) + m - 1) / m := by
  by_cases h : n ≤ m
  · have h0 : n - m = 0 := by omega
    rw [h0]
    have e1 : (n + m - 1) / m = 1 := by
      apply Nat.div_eq_of_lt_le
      · omega
      · rw [show (1 + 1) * m = m + m from by ring]
        omega
    have e2 : (0 + m - 1) / m = 0 := by
      apply Nat.div_eq_of_lt
      omega
    rw [e1, e2]
  · have e : n + m - 1 = (n - m + m - 1) + m := by omega
    rw [e, Nat.add_div_right _ (by omega : 0 < m)]
    omega

/-- The batches cover the list in order, none is empty or longer than `m`,
and there are ceil (n / m) of them. -/
theorem specified_batches_spec (m : Nat) (hm : m ≥ 1) (n : Nat) (l : List block_hash)
    (hn : l.length ≤ n) :
    (specified_batches m l).flatten = l ∧
      (∀ b ∈ specified_batches m l, b.length ≤ m ∧ b ≠ []) ∧
      (specified_batches m l).length = (l.length + m - 1) / m := by
  induction n generalizing l with
  | zero =>
    have hl : l = [] := List.length_eq_zero.mp (Nat.le_zero.mp hn)
    rw [hl]
    refine ⟨rfl, fun b hb => ?_, ?_⟩
    · simp [specified_batches, batches_of] at hb
    · show 0 = (0 + m - 1) / m
      rw [Nat.div_eq_of_lt (by omega)]
  | succ k ih =>
    cases l with
    | nil =>
      refine ⟨rfl, fun b hb => ?_, ?_⟩
      · simp [specified_batches, batches_of] at hb
      · show 0 = (0 + m - 1) / m
        rw [Nat.div_eq_of_lt (by omega)]
    | cons a rest =>
      rw [specified_batches_cons m hm]
      have hlen : ((a :: rest).drop m).length = (a :: rest).length - m := List.length_drop _ _
      rw [List.length_cons] at hn hlen
      obtain ⟨i1, i2, i3⟩ := ih ((a :: rest).drop m) (by rw [hlen]; omega)
      refine ⟨?_, fun b hb => ?_, ?_⟩
      · rw [List.flatten_cons, i1, List.take_append_drop]
      · rcases List.mem_cons.mp hb with h1 | h1
        · rw [h1]
          refine ⟨?_, ?_⟩
          · rw [List.length_take]; exact Nat.min_le_left _ _
          · obtain ⟨m2, hm2⟩ : ∃ m2, m = m2 + 1 := ⟨m - 1, by omega⟩
            rw [hm2]
            simp
        · exact i2 b h1
      · rw [List.length_cons, i3, hlen, List.length_cons,
          ceil_div_step (rest.length + 1) m hm (by omega)]
        omega

theorem extended_refl {σ : Type} (max_cache voting : Nat) (st : generate_state σ) :
    st.extended max_cache voting st [] := by
  refine ⟨by simp, by simp, by simp, rfl⟩

theorem extended_trans {σ : Type} (max_cache voting : Nat) (st st1 st2 : generate_state σ)
    (new new2 : List ((account × List block_hash) × vote))
    (h1 : st.extended max_cache voting st1 new) (h2 : st1.extended max_cache voting st2 new2) :
    st.extended max_cache voting st2 (new ++ new2) := by
  obtain ⟨a1, a2, a3, a4⟩ := h1
  obtain ⟨b1, b2, b3, b4⟩ := h2
  refine ⟨?_, ?_, ?_, ?_⟩
  · rw [b1, a1, List.append_assoc]
  · rw [b2, a2, List.length_append]; omega
  · rw [b3, a3, List.map_append, List.append_assoc]
  · rw [b4, a4, List.map_append, List.foldl_append]

theorem generate_vote_extended {σ : Type}
    (vote_generate : σ → account → List block_hash → vote × σ) (max_cache voting : Nat)
    (hashes_l : List block_hash) (st : generate_state σ) (pub_a : account) :
    st.extended max_cache voting (generate_vote vote_generate max_cache voting hashes_l st pub_a)
      [((pub_a, hashes_l), (vote_generate st.store pub_a hashes_l).1)] :=
  ⟨rfl, rfl, rfl, rfl⟩

/-- One round of the loop of `generate`: one vote for the batch per
representative, in the order of the representatives. -/
theorem generate_round {σ : Type} (vote_generate : σ → account → List block_hash → vote × σ)
    (max_cache voting : Nat) (hashes_l : List block_hash) (representatives : List account)
    (st : generate_state σ) :
    ∃ new, st.extended max_cache voting
        (representatives.foldl (generate_vote vote_generate max_cache voting hashes_l) st) new ∧
      new.map Prod.fst = representatives.map (fun r => (r, hashes_l)) := by
  induction representatives generalizing st with
  | nil => exact ⟨[], extended_refl max_cache voting st, rfl⟩
  | cons r rest ih =>
    obtain ⟨new, h1, h2⟩ := ih (generate_vote vote_generate max_cache voting hashes_l st r)
    refine ⟨((r, hashes_l), (vote_generate st.store r hashes_l).1) :: new, ?_, ?_⟩
    · exact extended_trans max_cache voting st _ _
        [((r, hashes_l), (vote_generate st.store r hashes_l).1)] new
        (generate_vote_extended vote_generate max_cache voting hashes_l st r) h1
    · rw [List.map_cons, List.map_cons, h2]

/-- With a batch size of at least 1 and at least as many rounds allowed as
there are hashes, the loop of `generate` ends, and it has generated exactly
the votes that the specification asks for. -/
theorem generate_loop_spec {σ : Type} (vote_generate : σ → account → List block_hash → vote × σ)
    (max_cache voting m : Nat) (representatives : List account) (hm : m ≥ 1) (fuel : Nat)
    (hashes : List block_hash) (st : generate_state σ) (hfuel : fuel ≥ hashes.length) :
    ∃ st1 new, generate_loop vote_generate max_cache voting m representatives fuel hashes st =
        some st1 ∧
      st.extended max_cache voting st1 new ∧
      new.map Prod.fst = specified_vote_calls (specified_batches m hashes) representatives := by
  induction fuel generalizing hashes st with
  | zero =>
    have hl : hashes = [] := List.length_eq_zero.mp (Nat.le_zero.mp hfuel)
    rw [hl]
    exact ⟨st, [], rfl, extended_refl max_cache voting st, rfl⟩
  | succ k ih =>
    cases hashes with
    | nil => exact ⟨st, [], rfl, extended_refl max_cache voting st, rfl⟩
    | cons a rest =>
      obtain ⟨new1, e1, c1⟩ := generate_round vote_generate max_cache voting
        ((a :: rest).take m) representatives st
      have hlen : ((a :: rest).drop m).length ≤ k := by
        rw [List.length_drop]
        rw [List.length_cons] at hfuel ⊢
        omega
      obtain ⟨st2, new2, r2, e2, c2⟩ := ih ((a :: rest).drop m)
        (representatives.foldl
          (generate_vote vote_generate max_cache voting ((a :: rest).take m)) st) hlen
      refine ⟨st2, new1 ++ new2, ?_, extended_trans max_cache voting st _ st2 new1 new2 e1 e2, ?_⟩
      · simp only [generate_loop]
        exact r2
      · rw [List.map_append, c1, c2, specified_batches_cons m hm]
        simp [specified_vote_calls]

theorem specified_vote_calls_length (batches : List (List block_hash))
    (representatives : List account) :
    (specified_vote_calls batches representatives).length =
      batches.length * representatives.length := by
  unfold specified_vote_calls
  induction batches with
  | nil => simp
  | cons b rest ih =>
    rw [List.flatMap_cons, List.length_append, ih, List.length_map, List.length_cons]
    ring

/-- With `confirm_ack_hashes_max = 0` the loop of `generate` makes no
progress: no bound on the rounds lets it end on a non-empty list. -/
theorem generate_loop_zero {σ : Type} (vote_generate : σ → account → List block_hash → vote × σ)
    (max_cache voting : Nat) (representatives : List account) (fuel : Nat)
    (a : block_hash) (rest : List block_hash) (st : generate_state σ) :
    generate_loop vote_generate max_cache voting 0 representatives fuel (a :: rest) st = none := by
  induction fuel generalizing st with
  | zero => rfl
  | succ k ih =>
    simp only [generate_loop, List.drop_zero]
    exact ih _

/-- C25: for every list of n hashes and every list of r local
representatives, with confirm_ack_hashes_max >= 1, `generate` terminates
(n rounds of its loop are enough).  It splits the list in order into
ceil (n / confirm_ack_hashes_max) consecutive batches of at most
confirm_ack_hashes_max hashes whose concatenation is the input list, and it
generates, sends and caches exactly one vote per batch and representative,
ceil (n / confirm_ack_hashes_max) * r votes in total; it adds n to
requests_generated_hashes and the vote count to requests_generated_votes. -/
theorem generate_batches {σ : Type} (vote_generate : σ → account → List block_hash → vote × σ)
    (max_cache voting confirm_ack_hashes_max : Nat) (representatives : List account)
    (fuel : Nat) (hashes_a : List block_hash) (store : σ) (cache : List cached_votes)
    (stats : List (aggregator_detail × Nat))
    (hmax : confirm_ack_hashes_max ≥ 1) (hfuel : fuel ≥ hashes_a.length) :
    ∃ (st : generate_state σ) (new : List ((account × List block_hash) × vote)),
      generate vote_generate max_cache voting confirm_ack_hashes_max representatives fuel
          hashes_a store cache stats =
        some (st, stats ++ [(aggregator_detail.requests_generated_hashes, hashes_a.length),
          (aggregator_detail.requests_generated_votes, new.length)]) ∧
      st.votes = new ∧
      st.sent = new.map (fun x => message.confirm_ack x.2) ∧
      st.cache = (new.map Prod.snd).foldl (votes_cache_add max_cache voting) cache ∧
      new.map Prod.fst =
        specified_vote_calls (specified_batches confirm_ack_hashes_max hashes_a)
          representatives ∧
      new.length =
        ((hashes_a.length + confirm_ack_hashes_max - 1) / confirm_ack_hashes_max) *
          representatives.length ∧
      (specified_batches confirm_ack_hashes_max hashes_a).flatten = hashes_a ∧
      (∀ b ∈ specified_batches confirm_ack_hashes_max hashes_a,
        b.length ≤ confirm_ack_hashes_max ∧ b ≠ []) ∧
      (specified_batches confirm_ack_hashes_max hashes_a).length =
        (hashes_a.length + confirm_ack_hashes_max - 1) / confirm_ack_hashes_max := by
  obtain ⟨st1, new, hloop, ⟨e1, e2, e3, e4⟩, hcalls⟩ := generate_loop_spec vote_generate max_cache
    voting confirm_ack_hashes_max representatives hmax fuel hashes_a
    { store := store, generated_l := 0, votes := [], sent := [], cache := cache } hfuel
  obtain ⟨b1, b2, b3⟩ := specified_batches_spec confirm_ack_hashes_max hmax hashes_a.length
    hashes_a (Nat.le_refl _)
  have hgen : st1.generated_l = new.length := by rw [e2]; simp
  refine ⟨st1, new, ?_, by rw [e1]; simp, by rw [e3]; simp, e4, hcalls, ?_, b1, b2, b3⟩
  · unfold generate
    rw [hloop, Option.map_some', hgen]
  · have hl := congrArg List.length hcalls
    rw [List.length_map, specified_vote_calls_length, b3] at hl
    exact hl

/-- The statement of `generate_batches` for the hashes 1, 2, 3, batches of
two hashes and the representatives 1 and 2: four votes are generated. -/
theorem generate_batches_witness :
    ∃ (st : generate_state (List (account × Nat)))
      (new : List ((account × List block_hash) × vote)),
      generate sample_vote_generate 10 2 2 [1, 2] 3 [1, 2, 3] [] [] [] =
        some (st, [] ++ [(aggregator_detail.requests_generated_hashes, 3),
          (aggregator_detail.requests_generated_votes, new.length)]) ∧
      new.map Prod.fst = [(1, [1, 2]), (2, [1, 2]), (1, [3]), (2, [3])] ∧
      new.length = 4 :=
  match generate_batches sample_vote_generate 10 2 2 [1, 2] 3 [1, 2, 3] [] [] []
    (by decide) (by decide) with
  | ⟨st, new, h1, _, _, _, h5, h6, _⟩ => ⟨st, new, h1, h5, h6⟩

/-! ## Expired elections and non-principal votes -/

/-- C28 (the code at the failing input): an election is created at time 0
and expires without confirmation on a tick six minutes later, so it has
failed; a following `confirm_once` sets its state to confirmed, and so does a
vote of a representative with quorum weight through `confirm_if_quorum`.  An
election in state expired_confirmed is set back to confirmed by
`confirm_once` as well. -/
theorem expired_election_confirmed :
    (election.run
        (election.create (sample_node false 1000 0 50 (fun _ => 0)) ⟨7, 3, 0⟩ false false
          election_behavior.normal 1 ⟨0, 0⟩, sample_node false 1000 0 50 (fun _ => 0))
        [(election_op.transition_time ⟨true, true⟩, ⟨360000000000, 0⟩)]).map
        (fun s => (s.1.state_m, s.1.failed)) = some (state_t.expired_unconfirmed, true) ∧
      (election.run
        (election.create (sample_node false 1000 0 50 (fun _ => 0)) ⟨7, 3, 0⟩ false false
          election_behavior.normal 1 ⟨0, 0⟩, sample_node false 1000 0 50 (fun _ => 0))
        [(election_op.transition_time ⟨true, true⟩, ⟨360000000000, 0⟩),
          (election_op.confirm_once election_status_type.active_confirmed_quorum,
            ⟨361000000000, 0⟩)]).map
        (fun s => (s.1.state_m, s.1.confirmed)) = some (state_t.confirmed, true) ∧
      (election.run
        (election.create (sample_node true 1000 0 50 (fun a => if a = 1 then 600 else 0))
          ⟨7, 3, 0⟩ false false election_behavior.normal 1 ⟨0, 0⟩,
          sample_node true 1000 0 50 (fun a => if a = 1 then 600 else 0))
        [(election_op.transition_time ⟨true, true⟩, ⟨360000000000, 0⟩),
          (election_op.vote 1 1 7, ⟨361000000000, 0⟩)]).map
        (fun s => (s.1.state_m, s.1.confirmed)) = some (state_t.confirmed, true) ∧
      (election.confirm_once (sample_node false 1000 0 50 (fun _ => 0))
        (sample_election state_t.expired_confirmed [(7, ⟨7, 3, 0⟩)] [] ⟨7, 3, 0⟩)
        election_status_type.active_confirmed_quorum ⟨0, 0⟩).1.state_m = state_t.confirmed := by
  decide

/-- C29: when the network is not the test network and the representative's
ledger weight is not greater than online_stake / principal_weight_factor,
`vote` returns replay = false and processed = false and leaves the election
(last_votes, the winner, the state) and the node (the vote_new counter)
unchanged, for every sequence and hash. -/
theorem vote_ignored_of_non_principal (n : node) (e : election) (rep : account)
    (sequence : Nat) (hash_a : block_hash) (c : clock)
    (hnet : n.is_test_network = false)
    (hweight : ¬ n.weight rep > n.online_stake / n.principal_weight_factor) :
    election.vote n e rep sequence hash_a c = some (e, n, ⟨false, false⟩) := by
  have hd : election.vote_decision n e rep sequence hash_a c = (false, false) := by
    unfold election.vote_decision node.minimum_principal_weight
    simp only [hnet, Bool.false_or, decide_eq_true_eq]
    rw [if_neg hweight]
  rw [vote_of_not_processed n e rep sequence hash_a c (by rw [hd]), hd]

/-- The statement of `vote_ignored_of_non_principal` on the main network for
a representative of weight 1 with an online stake of 1000 and the factor
1000: its vote for block 7 changes nothing. -/
theorem vote_ignored_of_non_principal_witness :
    election.vote (sample_node false 1000 0 50 (fun _ => 1))
        (sample_election state_t.active [(7, ⟨7, 3, 0⟩)] [] ⟨7, 3, 0⟩) 4 1 7 ⟨0, 0⟩ =
      some (sample_election state_t.active [(7, ⟨7, 3, 0⟩)] [] ⟨7, 3, 0⟩,
        sample_node false 1000 0 50 (fun _ => 1), ⟨false, false⟩) :=
  vote_ignored_of_non_principal (sample_node false 1000 0 50 (fun _ => 1))
    (sample_election state_t.active [(7, ⟨7, 3, 0⟩)] [] ⟨7, 3, 0⟩) 4 1 7 ⟨0, 0⟩ rfl
    (by decide)

/-! ## The tally is never empty -/

theorem votes_cache_find_remove (cache : List cached_votes) (x h : block_hash) :
    votes_cache_find (votes_cache_remove cache x) h =
      if h = x then [] else votes_cache_find cache h := by
  unfold votes_cache_remove
  induction cache with
  | nil => simp [votes_cache_find]
  | cons c rest ih =>
    by_cases hc : c.hash = x
    · have hf : List.filter (fun c => decide (c.hash ≠ x)) (c :: rest) =
          List.filter (fun c => decide (c.hash ≠ x)) rest := by
        simp [List.filter_cons, hc]
      rw [hf, ih]
      by_cases hh : h = x
      · rw [if_pos hh, if_pos hh]
      · rw [if_neg hh, if_neg hh]
        have hne : ¬ c.hash = h := fun hx => hh (hx.symm.trans hc)
        simp [votes_cache_find, hne]
    · have hf : List.filter (fun c => decide (c.hash ≠ x)) (c :: rest) =
          c :: List.filter (fun c => decide (c.hash ≠ x)) rest := by
        simp [List.filter_cons, hc]
      rw [hf]
      by_cases hh : h = x
      · rw [if_pos hh] at ih ⊢
        have hne : ¬ c.hash = h := fun hx => hc (hx.trans hh)
        simp only [votes_cache_find, hne, if_false]
        exact ih
      · rw [if_neg hh] at ih ⊢
        by_cases h2 : c.hash = h
        · simp [votes_cache_find, h2]
        · simp only [votes_cache_find, h2, if_false]
          exact ih

/-- The generated votes of the node after `remove_votes` were there
before. -/
theorem remove_votes_generated (n : node) (e : election) (x h : block_hash) (k : account)
    (hg : (election.remove_votes n e x).2.generated_vote h k) : n.generated_vote h k := by
  unfold election.remove_votes at hg
  by_cases hc : (n.enable_voting && decide (n.reps_voting > 0)) = true
  · rw [if_pos hc] at hg
    unfold node.generated_vote at hg ⊢
    have hg2 : k ∈ (votes_cache_find (votes_cache_remove n.votes_cache x) h).map
        (fun v => v.account) := hg
    rw [votes_cache_find_remove] at hg2
    by_cases hh : h = x
    · rw [if_pos hh] at hg2
      simp at hg2
    · rw [if_neg hh] at hg2
      exact hg2
  · rw [if_neg hc] at hg
    exact hg

theorem switch_winner_generated (n : node) (e : election) (b : block) (s : Nat)
    (h : block_hash) (k : account)
    (hg : (election.switch_winner n e b s).2.generated_vote h k) : n.generated_vote h k := by
  simp only [election.switch_winner] at hg
  split at hg
  · exact remove_votes_generated n _ _ h k hg
  · exact hg

theorem confirm_once_generated (n : node) (e : election) (t : election_status_type) (c : clock)
    (h : block_hash) (k : account)
    (hg : (election.confirm_once n e t c).2.generated_vote h k) : n.generated_vote h k := by
  have hvc : (election.confirm_once n e t c).2.votes_cache = n.votes_cache := by
    simp only [election.confirm_once]
    split
    · cases e.has_confirmation_action <;> rfl
    · rfl
  unfold node.generated_vote at hg ⊢
  rw [hvc] at hg
  exact hg

theorem confirm_once_winner (n : node) (e : election) (t : election_status_type) (c : clock) :
    (election.confirm_once n e t c).1.status.winner = e.status.winner := by
  simp only [election.confirm_once]
  split <;> rfl

theorem switch_winner_winner_cases (n : node) (e : election) (b : block) (s : Nat) :
    (election.switch_winner n e b s).1.status.winner = e.status.winner ∨
      (election.switch_winner n e b s).1.status.winner = b := by
  simp only [election.switch_winner]
  split
  · right
    show (election.remove_votes n _ _).1.status.winner = b
    rw [(remove_votes_frame _ _ _).2.1]
  · exact Or.inl rfl

/-- After a returning `confirm_if_quorum` the winner is the previous winner
or the first block of the tally, and the node holds no generated vote that it
did not hold before. -/
theorem confirm_if_quorum_winner_cases (n : node) (e : election) (c : clock)
    (r : election × node) (hr : election.confirm_if_quorum n e c = some r) :
    (r.1.status.winner = e.status.winner ∨
        ∃ w rest, (election.tally n e).2 = w :: rest ∧ r.1.status.winner = w.2) ∧
      (∀ h k, r.2.generated_vote h k → n.generated_vote h k) := by
  obtain ⟨winner, rest, ht, hcase⟩ := confirm_if_quorum_some n e c r hr
  have hsw := switch_winner_winner_cases n
    (election.set_status_tally (election.tally n e).1 winner.1) winner.2
    (tally_sum (winner :: rest))
  rcases hcase with ⟨_, hrr⟩ | ⟨_, hrr⟩
  · have hw : r.1.status.winner = (election.switch_winner n
        (election.set_status_tally (election.tally n e).1 winner.1) winner.2
        (tally_sum (winner :: rest))).1.status.winner := by
      rw [hrr, confirm_once_winner]
    refine ⟨?_, fun h k hg => ?_⟩
    · rcases hsw with h1 | h1
      · exact Or.inl (hw.trans h1)
      · exact Or.inr ⟨winner, rest, ht, hw.trans h1⟩
    · rw [hrr] at hg
      exact switch_winner_generated n _ _ _ h k (confirm_once_generated _ _ _ c h k hg)
  · have hw : r.1.status.winner = (election.switch_winner n
        (election.set_status_tally (election.tally n e).1 winner.1) winner.2
        (tally_sum (winner :: rest))).1.status.winner := by
      rw [hrr]
    refine ⟨?_, fun h k hg => ?_⟩
    · rcases hsw with h1 | h1
      · exact Or.inl (hw.trans h1)
      · exact Or.inr ⟨winner, rest, ht, hw.trans h1⟩
    · rw [hrr] at hg
      exact switch_winner_generated n _ _ _ h k hg

/-- A ready election passes the quorum check: `confirm_if_quorum` returns,
and the election is ready afterwards. -/
theorem quorum_ready_check (na : account) (e : election) (n : node) (c : clock)
    (h : e.quorum_ready na n) :
    ∃ r, election.confirm_if_quorum n e c = some r ∧ r.1.quorum_ready na r.2 := by
  obtain ⟨⟨info, hvote, hblock⟩, hkeyed, hwin, hgen⟩ := h
  obtain ⟨b, hb⟩ := Option.isSome_iff_exists.mp hblock
  obtain ⟨r, hr⟩ := confirm_if_quorum_isSome n e c (tally_ne_nil n e na info b hvote hb)
  have hfind := confirm_if_quorum_find n e c r na hr (fun hx => hgen _ hx.2)
  have hblocks := (confirm_if_quorum_frame n e c r hr).1
  obtain ⟨hw, hg⟩ := confirm_if_quorum_winner_cases n e c r hr
  refine ⟨r, hr, ⟨info, by rw [hfind]; exact hvote, by rw [hblocks]; exact hblock⟩, ?_, ?_,
    fun h hx => hgen h (hg h na hx)⟩
  · unfold election.blocks_keyed
    rw [hblocks]
    exact hkeyed
  · rw [hblocks]
    rcases hw with h1 | ⟨w, rest, ht, h1⟩
    · rw [h1]; exact hwin
    · rw [h1]
      obtain ⟨x, hx, _⟩ := tally_entry n e w (by rw [ht]; exact List.mem_cons_self _ _)
      have hkey : w.2.hash = x := hkeyed (x, w.2) (map_find_some_mem _ _ _ hx)
      rw [hkey, hx]
      rfl

theorem quorum_ready_transfer (na : account) (e e1 : election) (n n1 : node)
    (h : e.quorum_ready na n)
    (hv : ∀ info, map_find e.last_votes na = some info → map_find e1.last_votes na = some info)
    (hb : ∀ k, (map_find e.blocks k).isSome = true → (map_find e1.blocks k).isSome = true)
    (hk : e1.blocks_keyed)
    (hw : (map_find e1.blocks e1.status.winner.hash).isSome = true)
    (hc : n1.votes_cache = n.votes_cache) : e1.quorum_ready na n1 := by
  obtain ⟨⟨info, hvote, hblock⟩, _, _, hgen⟩ := h
  refine ⟨⟨info, hv info hvote, hb _ hblock⟩, hk, hw, fun x hx => hgen x ?_⟩
  unfold node.generated_vote at hx ⊢
  rw [hc] at hx
  exact hx

theorem map_assign_mem {β : Type} (m : List (Nat × β)) (k : Nat) (v : β) (p : Nat × β)
    (hp : p ∈ map_assign m k v) : p = (k, v) ∨ p ∈ m := by
  induction m with
  | nil =>
    simp only [map_assign, List.mem_singleton] at hp
    exact Or.inl hp
  | cons q rest ih =>
    unfold map_assign at hp
    by_cases hq : q.1 = k
    · rw [if_pos hq] at hp
      rcases List.mem_cons.mp hp with h1 | h1
      · exact Or.inl h1
      · exact Or.inr (List.mem_cons_of_mem _ h1)
    · rw [if_neg hq] at hp
      rcases List.mem_cons.mp hp with h1 | h1
      · exact Or.inr (by rw [h1]; exact List.mem_cons_self _ _)
      · rcases ih h1 with h2 | h2
        · exact Or.inl h2
        · exact Or.inr (List.mem_cons_of_mem _ h2)

theorem map_find_assign_isSome {β : Type} (m : List (Nat × β)) (k k2 : Nat) (v : β)
    (h : (map_find m k2).isSome = true) : (map_find (map_assign m k v) k2).isSome = true := by
  by_cases hk : k2 = k
  · rw [hk, map_find_assign_self]; rfl
  · rw [map_find_assign_other m k k2 v hk]; exact h

/-- The election stays ready when it is confirmed or checks the quorum after
an edit that keeps it ready. -/
theorem quorum_ready_map (na : account) (e1 : election) (n1 : node) (c : clock) {α : Type}
    (f : election × node → α) (g : α → election × node)
    (hg : ∀ r, (g (f r)).1 = r.1 ∧ (g (f r)).2.votes_cache = r.2.votes_cache)
    (h : e1.quorum_ready na n1) :
    ∃ s2, ((election.confirm_if_quorum n1 e1 c).map f).map g = some s2 ∧
      s2.1.quorum_ready na s2.2 := by
  obtain ⟨r, hr, hready⟩ := quorum_ready_check na e1 n1 c h
  refine ⟨g (f r), by rw [hr]; rfl, ?_⟩
  rw [(hg r).1]
  exact quorum_ready_transfer na r.1 r.1 r.2 _ hready (fun _ hx => hx) (fun _ hx => hx)
    hready.2.1 hready.2.2.1 (hg r).2

theorem quorum_ready_with_cached (na : account) (e : election) (n n2 : node) (h : block_hash)
    (hs : n.same_shared n2) (hr : e.quorum_ready na n) :
    (election.with_cached_votes n e h).quorum_ready na n2 :=
  quorum_ready_transfer na e _ n n2 hr
    (fun info hx => insert_cached_voters_keeps h _ e.last_votes n.stats na info hx)
    (fun _ hx => hx) hr.2.1 hr.2.2.1 hs.2.2.1

theorem quorum_ready_with_block (na : account) (e : election) (n : node) (b : block)
    (hr : e.quorum_ready na n) : (e.with_block b).quorum_ready na n := by
  refine quorum_ready_transfer na e _ n n hr (fun _ hx => hx)
    (fun k hx => map_find_append_isSome e.blocks _ k hx) ?_ ?_ rfl
  · intro p hp
    rcases List.mem_append.mp hp with h1 | h1
    · exact hr.2.1 p h1
    · rw [List.mem_singleton.mp h1]
  · exact map_find_append_isSome e.blocks _ _ hr.2.2.1

/-- One building operation on a ready election returns and leaves the
election ready. -/
theorem apply_quorum_ready (na : account) (e : election) (n : node) (op : election_op)
    (c : clock) (hop : op.builds na) (h : e.quorum_ready na n) :
    ∃ s2, election.apply (e, n) op c = some s2 ∧ s2.1.quorum_ready na s2.2 := by
  cases op with
  | vote rep sequence hash_a =>
    have hrep : rep ≠ na := hop
    simp only [election.apply]
    cases hd : (election.vote_decision n e rep sequence hash_a c).2 with
    | false =>
      rw [vote_of_not_processed n e rep sequence hash_a c hd]
      exact ⟨(e, n), rfl, h⟩
    | true =>
      have hready : (e.set_last_vote rep ⟨c.steady, sequence, hash_a⟩).quorum_ready na
          (n.stats_inc stat_detail.vote_new) :=
        quorum_ready_transfer na e _ n _ h
          (fun info hx => by
            show map_find (map_assign e.last_votes rep _) na = some info
            rw [map_find_assign_other _ _ _ _ (Ne.symm hrep)]
            exact hx)
          (fun _ hx => hx) h.2.1 h.2.2.1 rfl
      rw [vote_of_processed n e rep sequence hash_a c hd]
      by_cases hconf : e.confirmed = true
      · rw [if_pos hconf]
        exact ⟨_, rfl, hready⟩
      · rw [if_neg hconf]
        exact quorum_ready_map na _ _ c _ _ (fun r => ⟨rfl, rfl⟩) hready
  | publish block_a =>
    simp only [election.apply]
    by_cases hadm : e.publish_admits n block_a
    · obtain ⟨e0, h1, h2, h3, h4, h5⟩ := publish_of_admits n e block_a c hadm
      have hready0 : e0.quorum_ready na n :=
        quorum_ready_transfer na e e0 n n h (fun info hx => by rw [h5]; exact hx)
          (fun k hx => by rw [h2]; exact hx)
          (by unfold election.blocks_keyed; rw [h2]; exact h.2.1)
          (by rw [h2, h3]; exact h.2.2.1) rfl
      rw [h1]
      cases hfind : map_find e0.blocks block_a.hash with
      | some x =>
        obtain ⟨e2, g1, g2, _, g4, g5⟩ := publish_insert_existing n e0 block_a c
          (by rw [hfind]; rfl)
        rw [g1]
        refine ⟨(e2, n), rfl, ?_⟩
        refine quorum_ready_transfer na e0 e2 n n hready0 (fun info hx => by rw [g4]; exact hx)
          (fun k hx => by rw [g2]; exact map_find_assign_isSome _ _ _ _ hx) ?_ ?_ rfl
        · intro p hp
          rw [g2] at hp
          rcases map_assign_mem _ _ _ p hp with h6 | h6
          · rw [h6]
          · exact hready0.2.1 p h6
        · rw [g2, g5]
          by_cases hw : e0.status.winner.hash = block_a.hash
          · rw [if_pos hw, map_find_assign_self]; rfl
          · rw [if_neg hw]
            exact map_find_assign_isSome _ _ _ _ hready0.2.2.1
      | none =>
        have hc0 : e0.confirmed = false := by
          rw [confirmed_of_state_eq e e0 h4]; exact hadm.1
        obtain ⟨n2, hs, _, g⟩ := publish_insert_new n e0 block_a c hc0 hfind
        rw [g]
        exact quorum_ready_map na _ _ c _ _ (fun r => ⟨rfl, rfl⟩)
          (quorum_ready_with_cached na _ n n2 _ hs
            (quorum_ready_with_block na e0 n block_a hready0))
    · obtain ⟨e0, h1, h2, h3, _, h5⟩ := publish_of_not_admits n e block_a c hadm
      rw [h1]
      refine ⟨(e0, n), rfl, ?_⟩
      exact quorum_ready_transfer na e e0 n n h (fun info hx => by rw [h5]; exact hx)
        (fun k hx => by rw [h2]; exact hx)
        (by unfold election.blocks_keyed; rw [h2]; exact h.2.1)
        (by rw [h2, h3]; exact h.2.2.1) rfl
  | insert_inactive_votes_cache hash_a =>
    simp only [election.apply]
    obtain ⟨n2, hs, _, _, hval⟩ := insert_inactive_votes_cache_cases n e hash_a c
    have hready := quorum_ready_with_cached na e n n2 hash_a hs h
    rw [hval]
    by_cases hcond : e.confirmed = false ∧ (find_inactive_votes_cache n hash_a).voters ≠ []
    · rw [if_pos hcond]
      exact quorum_ready_map na _ _ c _ _ (fun r => ⟨rfl, rfl⟩) hready
    · rw [if_neg hcond]
      exact ⟨_, rfl, hready⟩
  | confirm_if_quorum => exact absurd hop (fun hx => hx)
  | confirm_once type_a => exact absurd hop (fun hx => hx)
  | transition_time solicitor_a => exact absurd hop (fun hx => hx)
  | transition_active => exact absurd hop (fun hx => hx)

theorem run_quorum_ready (na : account) (ops : List (election_op × clock)) (e : election)
    (n : node) (hops : ∀ oc ∈ ops, oc.1.builds na) (h : e.quorum_ready na n) :
    ∃ s2, election.run (e, n) ops = some s2 ∧ s2.1.quorum_ready na s2.2 := by
  induction ops generalizing e n with
  | nil => exact ⟨(e, n), rfl, h⟩
  | cons oc rest ih =>
    obtain ⟨s1, h1, hr1⟩ := apply_quorum_ready na e n oc.1 oc.2
      (hops oc (List.mem_cons_self _ _)) h
    obtain ⟨s2, h2, hr2⟩ := ih s1.1 s1.2 (fun x hx => hops x (List.mem_cons_of_mem _ hx)) hr1
    refine ⟨s2, ?_, hr2⟩
    simp only [election.run, h1]
    exact h2

theorem create_quorum_ready (n : node) (block_a : block) (has_action prioritized_a : Bool)
    (behavior : election_behavior) (height_a : Nat) (c : clock)
    (hrep : ∀ h, ¬ n.generated_vote h n.not_an_account) :
    (election.create n block_a has_action prioritized_a behavior height_a c).quorum_ready
      n.not_an_account n := by
  refine ⟨⟨⟨c.steady, 0, block_a.hash⟩, ?_, ?_⟩, ?_, ?_, hrep⟩
  · simp [election.create, map_find]
  · simp [election.create, map_find]
  · intro p hp
    simp only [election.create, List.mem_singleton] at hp
    rw [hp]
  · simp [election.create, map_find]

/-- C27: in every election state reached from construction by `vote`,
`publish` and `insert_inactive_votes_cache`, provided the placeholder account
not_an_account never votes and the node holds no generated vote of it (it is
not a local representative), every operation returns, last_votes contains an
entry naming a hash that is in blocks, and the winner's hash is a key of
blocks; so the tally is not empty, `confirm_if_quorum` finds its first entry
and returns at every clock reading, and `have_quorum` on the tally has a
result. -/
theorem tally_never_empty (n : node) (block_a : block) (has_action prioritized_a : Bool)
    (behavior : election_behavior) (height_a : Nat) (c0 : clock)
    (ops : List (election_op × clock))
    (hops : ∀ oc ∈ ops, oc.1.builds n.not_an_account)
    (hrep : ∀ h, ¬ n.generated_vote h n.not_an_account) :
    ∃ e2 n2,
      election.run
          (election.create n block_a has_action prioritized_a behavior height_a c0, n) ops =
        some (e2, n2) ∧
      (∃ info, map_find e2.last_votes n.not_an_account = some info ∧
        (map_find e2.blocks info.hash).isSome = true) ∧
      (map_find e2.blocks e2.status.winner.hash).isSome = true ∧
      (election.tally n2 e2).2 ≠ [] ∧
      (∀ c, ∃ r, election.confirm_if_quorum n2 e2 c = some r) ∧
      (∃ q, have_quorum n2 (election.tally n2 e2).2 (tally_sum (election.tally n2 e2).2) =
        some q) := by
  obtain ⟨s2, hrun, hready⟩ := run_quorum_ready n.not_an_account ops _ n hops
    (create_quorum_ready n block_a has_action prioritized_a behavior height_a c0 hrep)
  obtain ⟨⟨info, hvote, hblock⟩, _, hwin, _⟩ := hready
  obtain ⟨b, hb⟩ := Option.isSome_iff_exists.mp hblock
  have hne := tally_ne_nil s2.2 s2.1 n.not_an_account info b hvote hb
  refine ⟨s2.1, s2.2, hrun, ⟨info, hvote, hblock⟩, hwin, hne,
    fun c => confirm_if_quorum_isSome s2.2 s2.1 c hne, ?_⟩
  cases ht : (election.tally s2.2 s2.1).2 with
  | nil => exact absurd ht hne
  | cons w rest => exact have_quorum_cons_isSome s2.2 w rest _

/-- The statement of `tally_never_empty` for an election of block 7 on the
test network after the vote of account 1 for an unknown hash, the
publication of block 8 and the copy of the cached voters of the hash 8. -/
theorem tally_never_empty_witness :
    ∃ e2 n2,
      election.run
          (election.create (sample_node true 1000 0 50 (fun _ => 10)) ⟨7, 3, 0⟩ false false
            election_behavior.normal 1 ⟨0, 0⟩, sample_node true 1000 0 50 (fun _ => 10))
          [(election_op.vote 1 1 9, ⟨1, 0⟩), (election_op.publish ⟨8, 3, 0⟩, ⟨2, 0⟩),
            (election_op.insert_inactive_votes_cache 8, ⟨3, 0⟩)] = some (e2, n2) ∧
      (election.tally n2 e2).2 ≠ [] :=
  match tally_never_empty (sample_node true 1000 0 50 (fun _ => 10)) ⟨7, 3, 0⟩ false false
    election_behavior.normal 1 ⟨0, 0⟩
    [(election_op.vote 1 1 9, ⟨1, 0⟩), (election_op.publish ⟨8, 3, 0⟩, ⟨2, 0⟩),
      (election_op.insert_inactive_votes_cache 8, ⟨3, 0⟩)]
    (by
      intro oc hoc
      simp only [List.mem_cons, List.mem_singleton, List.not_mem_nil, or_false] at hoc
      rcases hoc with h | h | h <;> rw [h]
      · show (1 : Nat) ≠ 0
        decide
      · exact True.intro
      · exact True.intro)
    (by
      intro h hx
      simp [node.generated_vote, sample_node, votes_cache_find] at hx) with
  | ⟨e2, n2, h1, _, _, h4, _⟩ => ⟨e2, n2, h1, h4⟩

/-! ## Tables of the ledger -/

theorem table_get_del {κ β : Type} [DecidableEq κ] (m : List (κ × β)) (k k2 : κ) :
    table_get (table_del m k) k2 = if k2 = k then none else table_get m k2 := by
  induction m with
  | nil => simp [table_del, table_get]
  | cons p rest ih =>
    unfold table_del
    by_cases hp : p.1 = k
    · rw [if_pos hp, ih]
      by_cases h2 : k2 = k
      · rw [if_pos h2, if_pos h2]
      · rw [if_neg h2, if_neg h2]
        have hne : ¬ p.1 = k2 := fun hx => h2 (hx.symm.trans hp)
        simp [table_get, hne]
    · rw [if_neg hp]
      by_cases h2 : k2 = k
      · rw [if_pos h2] at ih ⊢
        have hne : ¬ p.1 = k2 := fun hx => hp (hx.trans h2)
        simp only [table_get, hne, if_false]
        exact ih
      · rw [if_neg h2] at ih ⊢
        by_cases h3 : p.1 = k2
        · simp [table_get, h3]
        · simp only [table_get, h3, if_false]
          exact ih

theorem table_get_put {κ β : Type} [DecidableEq κ] (m : List (κ × β)) (k k2 : κ) (v : β) :
    table_get (table_put m k v) k2 = if k2 = k then some v else table_get m k2 := by
  unfold table_put
  by_cases h2 : k2 = k
  · rw [if_pos h2]
    simp [table_get, h2]
  · rw [if_neg h2]
    have hne : ¬ k = k2 := fun hx => h2 hx.symm
    simp only [table_get, hne, if_false]
    rw [table_get_del, if_neg h2]

theorem weight_add (w : List (account × Nat)) (rep rep2 : account) (amount : Nat) :
    (table_get (weights_add w rep amount) rep2).getD 0 =
      if rep2 = rep then ((table_get w rep).getD 0 + amount) % uint128_modulus
      else (table_get w rep2).getD 0 := by
  unfold weights_add
  rw [table_get_put]
  by_cases h : rep2 = rep
  · rw [if_pos h, if_pos h]; rfl
  · rw [if_neg h, if_neg h]

theorem weight_sub (w : List (account × Nat)) (rep rep2 : account) (amount : Nat) :
    (table_get (weights_sub w rep amount) rep2).getD 0 =
      if rep2 = rep then
        ((table_get w rep).getD 0 + (uint128_modulus - amount % uint128_modulus)) %
          uint128_modulus
      else (table_get w rep2).getD 0 := by
  unfold weights_sub
  rw [table_get_put]
  by_cases h : rep2 = rep
  · rw [if_pos h, if_pos h]; rfl
  · rw [if_neg h, if_neg h]

/-- Adding an amount and subtracting it again, in 128-bit arithmetic, gives
back a 128-bit value. -/
theorem uint128_add_sub (x amount : Nat) (hx : x < uint128_modulus) :
    ((x + amount) % uint128_modulus + (uint128_modulus - amount % uint128_modulus)) %
      uint128_modulus = x := by
  have hM : 0 < uint128_modulus := by unfold uint128_modulus; omega
  have h1 : amount % uint128_modulus < uint128_modulus := Nat.mod_lt _ hM
  have h2 : (x + amount) % uint128_modulus = (x + amount % uint128_modulus) % uint128_modulus :=
    (Nat.add_mod_mod x amount uint128_modulus).symm
  rw [h2]
  generalize amount % uint128_modulus = r at h1 ⊢
  by_cases hlt : x + r < uint128_modulus
  · rw [Nat.mod_eq_of_lt hlt]
    have e : x + r + (uint128_modulus - r) = x + uint128_modulus := by omega
    rw [e, Nat.add_mod_right, Nat.mod_eq_of_lt hx]
  · have e1 : (x + r) % uint128_modulus = x + r - uint128_modulus := by
      rw [Nat.mod_eq_sub_mod (by omega)]
      exact Nat.mod_eq_of_lt (by omega)
    rw [e1]
    have e : x + r - uint128_modulus + (uint128_modulus - r) = x := by omega
    rw [e, Nat.mod_eq_of_lt hx]

/-- Subtracting an amount and adding it again, in 128-bit arithmetic, gives
back a 128-bit value. -/
theorem uint128_sub_add (x amount : Nat) (hx : x < uint128_modulus) :
    ((x + (uint128_modulus - amount % uint128_modulus)) % uint128_modulus + amount) %
      uint128_modulus = x := by
  have hM : 0 < uint128_modulus := by unfold uint128_modulus; omega
  have h1 : amount % uint128_modulus < uint128_modulus := Nat.mod_lt _ hM
  have h2 : ((x + (uint128_modulus - amount % uint128_modulus)) % uint128_modulus + amount) %
      uint128_modulus =
      ((x + (uint128_modulus - amount % uint128_modulus)) % uint128_modulus +
        amount % uint128_modulus) % uint128_modulus :=
    (Nat.add_mod_mod _ amount uint128_modulus).symm
  rw [h2]
  generalize amount % uint128_modulus = r at h1 ⊢
  by_cases hlt : x + (uint128_modulus - r) < uint128_modulus
  · rw [Nat.mod_eq_of_lt hlt]
    have e : x + (uint128_modulus - r) + r = x + uint128_modulus := by omega
    rw [e, Nat.add_mod_right, Nat.mod_eq_of_lt hx]
  · have e1 : (x + (uint128_modulus - r)) % uint128_modulus = x - r := by
      rw [Nat.mod_eq_sub_mod (by omega)]
      have e2 : x + (uint128_modulus - r) - uint128_modulus = x - r := by omega
      rw [e2]
      exact Nat.mod_eq_of_lt (by omega)
    rw [e1]
    have e : x - r + r = x := by omega
    rw [e, Nat.mod_eq_of_lt hx]

/-! ## Validation of a block -/

theorem legacy_account_ok (st : ledger) (b : ledger_block) (a : account) (info : account_info)
    (h : st.legacy_account b = Except.ok (a, info)) :
    table_get st.accounts a = some info ∧ info.head = b.previous := by
  unfold ledger.legacy_account at h
  cases hb : table_get st.blocks b.previous with
  | none => rw [hb] at h; exact Except.noConfusion h
  | some pb =>
    rw [hb] at h
    simp only at h
    by_cases ht : pb.block.type = ledger_block_type.state
    · rw [if_pos ht] at h; exact Except.noConfusion h
    · rw [if_neg ht] at h
      cases hf : table_get st.frontiers b.previous with
      | none => rw [hf] at h; exact Except.noConfusion h
      | some a2 =>
        rw [hf] at h
        simp only at h
        cases ha : table_get st.accounts a2 with
        | none => rw [ha] at h; exact Except.noConfusion h
        | some info2 =>
          rw [ha] at h
          simp only at h
          by_cases hh : info2.head = b.previous
          · rw [if_pos hh] at h
            have e := Except.ok.inj h
            have e1 : a2 = a := congrArg Prod.fst e
            have e2 : info2 = info := congrArg Prod.snd e
            rw [← e1, ← e2]
            exact ⟨ha, hh⟩
          · rw [if_neg hh] at h; exact Except.noConfusion h

theorem receivable_ok (st : ledger) (a : account) (source : block_hash) (p : pending_info)
    (h : st.receivable a source = Except.ok p) : table_get st.pending (a, source) = some p := by
  unfold ledger.receivable at h
  cases hb : table_get st.blocks source with
  | none => rw [hb] at h; exact Except.noConfusion h
  | some sb =>
    rw [hb] at h
    simp only at h
    cases hp : table_get st.pending (a, source) with
    | none => rw [hp] at h; exact Except.noConfusion h
    | some p2 =>
      rw [hp] at h
      rw [Except.ok.inj h]

/-- The effect of a block with a previous block, derived from the info of
its account, is valid. -/
theorem valid_next (st : ledger) (b : ledger_block) (height epoch : Nat) (d : block_details)
    (info : account_info) (amount : Nat)
    (ha : table_get st.accounts b.account = some info) (hh : info.head = b.previous)
    (hr : d.is_send = false → d.is_receive = true →
      ∃ p, table_get st.pending (b.account, b.link) = some p ∧
        b.balance = info.balance + p.amount) :
    (block_effect.make b height epoch d (some info) amount).valid st := by
  refine ⟨ha, fun i hi => ?_, fun hx => Option.noConfusion hx, fun h1 h2 => ?_⟩
  · have e : info = i := Option.some.inj hi
    rw [← e]
    exact hh.symm
  · obtain ⟨p, hp, hbal⟩ := hr h1 h2
    refine ⟨p, hp, fun i hi => ?_, fun hx => Option.noConfusion hx⟩
    have e : info = i := Option.some.inj hi
    rw [← e]
    exact hbal

/-- The effect of a block that opens its account is valid. -/
theorem valid_open (st : ledger) (b : ledger_block) (height epoch : Nat) (d : block_details)
    (amount : Nat) (ha : table_get st.accounts b.account = none) (hp : b.previous = 0)
    (hr : d.is_send = false → d.is_receive = true →
      ∃ p, table_get st.pending (b.account, b.link) = some p ∧ b.balance = p.amount) :
    (block_effect.make b height epoch d none amount).valid st := by
  refine ⟨ha, fun i hi => Option.noConfusion hi, fun _ => hp, fun h1 h2 => ?_⟩
  obtain ⟨p, hpp, hbal⟩ := hr h1 h2
  exact ⟨p, hpp, fun i hi => Option.noConfusion hi, fun _ => hbal⟩

theorem validate_send_ok (st : ledger) (b : ledger_block) (eff : block_effect)
    (h : validate_send st b = Except.ok eff) :
    eff.valid st ∧ eff.stored.block.hash = b.hash := by
  unfold validate_send at h
  cases hl : st.legacy_account b with
  | error code => rw [hl] at h; exact Except.noConfusion h
  | ok r =>
    obtain ⟨a, info⟩ := r
    rw [hl] at h
    simp only at h
    obtain ⟨ha, hh⟩ := legacy_account_ok st b a info hl
    by_cases hb : b.balance ≥ info.balance
    · rw [if_pos hb] at h; exact Except.noConfusion h
    · rw [if_neg hb] at h
      rw [← Except.ok.inj h]
      exact ⟨valid_next st _ _ _ _ info _ ha hh (fun _ hx => Bool.noConfusion hx), rfl⟩

theorem validate_receive_ok (st : ledger) (b : ledger_block) (eff : block_effect)
    (h : validate_receive st b = Except.ok eff) :
    eff.valid st ∧ eff.stored.block.hash = b.hash := by
  unfold validate_receive at h
  cases hl : st.legacy_account b with
  | error code => rw [hl] at h; exact Except.noConfusion h
  | ok r =>
    obtain ⟨a, info⟩ := r
    rw [hl] at h
    simp only at h
    obtain ⟨ha, hh⟩ := legacy_account_ok st b a info hl
    cases hr : st.receivable a b.link with
    | error code => rw [hr] at h; exact Except.noConfusion h
    | ok p =>
      rw [hr] at h
      simp only at h
      rw [← Except.ok.inj h]
      exact ⟨valid_next st _ _ _ _ info _ ha hh
        (fun _ _ => ⟨p, receivable_ok st a b.link p hr, rfl⟩), rfl⟩

theorem validate_open_ok (k : ledger_constants) (st : ledger) (b : ledger_block)
    (eff : block_effect) (h : validate_open k st b = Except.ok eff) :
    eff.valid st ∧ eff.stored.block.hash = b.hash := by
  unfold validate_open at h
  by_cases hburn : b.account = k.burn_account
  · rw [if_pos hburn] at h; exact Except.noConfusion h
  · rw [if_neg hburn] at h
    cases ha : table_get st.accounts b.account with
    | some x => rw [ha] at h; exact Except.noConfusion h
    | none =>
      rw [ha] at h
      simp only at h
      cases hr : st.receivable b.account b.link with
      | error code => rw [hr] at h; exact Except.noConfusion h
      | ok p =>
        rw [hr] at h
        simp only at h
        rw [← Except.ok.inj h]
        exact ⟨valid_open st _ _ _ _ _ ha rfl
          (fun _ _ => ⟨p, receivable_ok st b.account b.link p hr, rfl⟩), rfl⟩

theorem validate_change_ok (st : ledger) (b : ledger_block) (eff : block_effect)
    (h : validate_change st b = Except.ok eff) :
    eff.valid st ∧ eff.stored.block.hash = b.hash := by
  unfold validate_change at h
  cases hl : st.legacy_account b with
  | error code => rw [hl] at h; exact Except.noConfusion h
  | ok r =>
    obtain ⟨a, info⟩ := r
    rw [hl] at h
    simp only at h
    obtain ⟨ha, hh⟩ := legacy_account_ok st b a info hl
    rw [← Except.ok.inj h]
    exact ⟨valid_next st _ _ _ _ info _ ha hh (fun _ hx => Bool.noConfusion hx), rfl⟩

theorem validate_state_open_ok (k : ledger_constants) (st : ledger) (b : ledger_block)
    (eff : block_effect) (hprev : b.previous = 0)
    (h : validate_state_open k st b = Except.ok eff) :
    eff.valid st ∧ eff.stored.block.hash = b.hash := by
  unfold validate_state_open at h
  by_cases hburn : b.account = k.burn_account
  · rw [if_pos hburn] at h; exact Except.noConfusion h
  · rw [if_neg hburn] at h
    cases ha : table_get st.accounts b.account with
    | some x => rw [ha] at h; exact Except.noConfusion h
    | none =>
      rw [ha] at h
      simp only at h
      cases he : k.epoch_of_link b.link with
      | some e =>
        rw [he] at h
        simp only at h
        by_cases h1 : b.balance ≠ 0
        · rw [if_pos h1] at h; exact Except.noConfusion h
        · rw [if_neg h1] at h
          by_cases h2 : b.representative ≠ 0
          · rw [if_pos h2] at h; exact Except.noConfusion h
          · rw [if_neg h2] at h
            by_cases h3 : (!st.pending.any (fun p => decide (p.1.1 = b.account))) = true
            · rw [if_pos h3] at h; exact Except.noConfusion h
            · rw [if_neg h3] at h
              rw [← Except.ok.inj h]
              exact ⟨valid_open st _ _ _ _ _ ha hprev (fun _ hx => Bool.noConfusion hx), rfl⟩
      | none =>
        rw [he] at h
        simp only at h
        cases hr : st.receivable b.account b.link with
        | error code => rw [hr] at h; exact Except.noConfusion h
        | ok p =>
          rw [hr] at h
          simp only at h
          by_cases h1 : b.balance ≠ p.amount
          · rw [if_pos h1] at h; exact Except.noConfusion h
          · rw [if_neg h1] at h
            rw [← Except.ok.inj h]
            exact ⟨valid_open st _ _ _ _ _ ha hprev
              (fun _ _ => ⟨p, receivable_ok st b.account b.link p hr, not_not.mp h1⟩), rfl⟩

theorem validate_state_next_ok (k : ledger_constants) (st : ledger) (b : ledger_block)
    (eff : block_effect) (h : validate_state_next k st b = Except.ok eff) :
    eff.valid st ∧ eff.stored.block.hash = b.hash := by
  unfold validate_state_next at h
  cases hb : table_get st.blocks b.previous with
  | none => rw [hb] at h; exact Except.noConfusion h
  | some pb =>
    rw [hb] at h
    simp only at h
    cases ha : table_get st.accounts b.account with
    | none => rw [ha] at h; exact Except.noConfusion h
    | some info =>
      rw [ha] at h
      simp only at h
      by_cases hh : info.head ≠ b.previous
      · rw [if_pos hh] at h; exact Except.noConfusion h
      · rw [if_neg hh] at h
        have hhead : info.head = b.previous := not_not.mp hh
        by_cases hs : b.balance < info.balance
        · rw [if_pos hs] at h
          rw [← Except.ok.inj h]
          exact ⟨valid_next st _ _ _ _ info _ ha hhead (fun hx => Bool.noConfusion hx), rfl⟩
        · rw [if_neg hs] at h
          by_cases hl : b.link = 0
          · rw [if_pos hl] at h
            by_cases h1 : b.balance ≠ info.balance
            · rw [if_pos h1] at h; exact Except.noConfusion h
            · rw [if_neg h1] at h
              rw [← Except.ok.inj h]
              exact ⟨valid_next st _ _ _ _ info _ ha hhead (fun _ hx => Bool.noConfusion hx), rfl⟩
          · rw [if_neg hl] at h
            cases he : k.epoch_of_link b.link with
            | some e =>
              rw [he] at h
              simp only at h
              by_cases h1 : b.balance ≠ info.balance
              · rw [if_pos h1] at h; exact Except.noConfusion h
              · rw [if_neg h1] at h
                by_cases h2 : b.representative ≠ info.representative
                · rw [if_pos h2] at h; exact Except.noConfusion h
                · rw [if_neg h2] at h
                  by_cases h3 : e ≠ info.epoch + 1
                  · rw [if_pos h3] at h; exact Except.noConfusion h
                  · rw [if_neg h3] at h
                    rw [← Except.ok.inj h]
                    exact ⟨valid_next st _ _ _ _ info _ ha hhead
                      (fun _ hx => Bool.noConfusion hx), rfl⟩
            | none =>
              rw [he] at h
              simp only at h
              cases hr : st.receivable b.account b.link with
              | error code => rw [hr] at h; exact Except.noConfusion h
              | ok p =>
                rw [hr] at h
                simp only at h
                by_cases h1 : b.balance ≠ info.balance + p.amount
                · rw [if_pos h1] at h; exact Except.noConfusion h
                · rw [if_neg h1] at h
                  rw [← Except.ok.inj h]
                  exact ⟨valid_next st _ _ _ _ info _ ha hhead
                    (fun _ _ => ⟨p, receivable_ok st b.account b.link p hr, not_not.mp h1⟩), rfl⟩

/-- A validated block has a valid effect, stored under the hash of the
block. -/
theorem validate_ok (k : ledger_constants) (st : ledger) (b : ledger_block) (eff : block_effect)
    (h : validate k st b = Except.ok eff) :
    eff.valid st ∧ eff.stored.block.hash = b.hash := by
  unfold validate at h
  cases ht : b.type <;> rw [ht] at h
  · exact validate_send_ok st b eff h
  · exact validate_receive_ok st b eff h
  · exact validate_open_ok k st b eff h
  · exact validate_change_ok st b eff h
  · simp only at h
    by_cases hp : b.previous = 0
    · rw [if_pos hp] at h; exact validate_state_open_ok k st b eff hp h
    · rw [if_neg hp] at h; exact validate_state_next_ok k st b eff h

theorem legacy_account_error (st : ledger) (b : ledger_block) (code : process_result)
    (h : st.legacy_account b = Except.error code) : code ≠ process_result.progress := by
  unfold ledger.legacy_account at h
  repeat' (split at h)
  all_goals first
    | (cases h; decide)
    | cases h

theorem receivable_error (st : ledger) (a : account) (source : block_hash)
    (code : process_result) (h : st.receivable a source = Except.error code) :
    code ≠ process_result.progress := by
  unfold ledger.receivable at h
  repeat' (split at h)
  all_goals first
    | (cases h; decide)
    | cases h

/-- A block that fails validation does not have the outcome `progress`. -/
theorem validate_error (k : ledger_constants) (st : ledger) (b : ledger_block)
    (code : process_result) (h : validate k st b = Except.error code) :
    code ≠ process_result.progress := by
  unfold validate validate_send validate_receive validate_open validate_change
    validate_state_open validate_state_next at h
  repeat' (split at h)
  all_goals first
    | (cases h; decide)
    | (cases h; exact legacy_account_error _ _ _ (by assumption))
    | (cases h; exact receivable_error _ _ _ _ (by assumption))
    | cases h

/-- A block in progress was not stored and has a valid effect, which
`process` applies. -/
theorem process_progress (k : ledger_constants) (st st1 : ledger) (b : ledger_block)
    (h : st.process k b = (process_result.progress, st1)) :
    ∃ eff, st1 = st.apply eff ∧ eff.valid st ∧ eff.stored.block.hash = b.hash ∧
      table_get st.blocks b.hash = none := by
  unfold ledger.process at h
  cases hold : table_get st.blocks b.hash with
  | some x =>
    rw [hold] at h
    simp only [Option.isSome_some, if_true] at h
    exact process_result.noConfusion (Prod.mk.inj h).1
  | none =>
    rw [hold] at h
    simp only [Option.isSome_none, Bool.false_eq_true, if_false] at h
    cases hv : validate k st b with
    | error code =>
      rw [hv] at h
      simp only at h
      exact absurd (Prod.mk.inj h).1 (validate_error k st b code hv)
    | ok eff =>
      rw [hv] at h
      simp only at h
      obtain ⟨hvalid, hhash⟩ := validate_ok k st b eff hv
      by_cases h1 : (!k.signature_valid eff.stored.block.account b) = true
      · rw [if_pos h1] at h
        exact process_result.noConfusion (Prod.mk.inj h).1
      · rw [if_neg h1] at h
        by_cases h2 : b.work < k.work_threshold eff.stored.sideband.details
        · rw [if_pos h2] at h
          exact process_result.noConfusion (Prod.mk.inj h).1
        · rw [if_neg h2] at h
          exact ⟨eff, (Prod.mk.inj h).2.symm, hvalid, hhash, rfl⟩

/-! ## Rollback of the block just processed -/

theorem weight_lt (st : ledger) (hc : st.consistent) (rep : account) :
    (table_get st.weights rep).getD 0 < uint128_modulus := by
  cases h : table_get st.weights rep with
  | none => unfold uint128_modulus; simp
  | some w => exact hc.2.2.2.2 rep w h

/-- Subtracting from a representative what was just added restores every
weight. -/
theorem weights_add_sub (w : List (account × Nat)) (rep rep2 : account) (amount : Nat)
    (h : (table_get w rep).getD 0 < uint128_modulus) :
    (table_get (weights_sub (weights_add w rep amount) rep amount) rep2).getD 0 =
      (table_get w rep2).getD 0 := by
  rw [weight_sub]
  by_cases h2 : rep2 = rep
  · rw [if_pos h2, weight_add, if_pos rfl, h2]
    exact uint128_add_sub _ amount h
  · rw [if_neg h2, weight_add, if_neg h2]

/-- Adding to a representative what was just subtracted restores every
weight. -/
theorem weights_sub_add (w : List (account × Nat)) (rep rep2 : account) (amount : Nat)
    (h : (table_get w rep).getD 0 < uint128_modulus) :
    (table_get (weights_add (weights_sub w rep amount) rep amount) rep2).getD 0 =
      (table_get w rep2).getD 0 := by
  rw [weight_add]
  by_cases h2 : rep2 = rep
  · rw [if_pos h2, weight_sub, if_pos rfl, h2]
    exact uint128_sub_add _ amount h
  · rw [if_neg h2, weight_sub, if_neg h2]

theorem weight_add_congr (w w2 : List (account × Nat)) (rep : account) (amount : Nat)
    (h : ∀ r, (table_get w2 r).getD 0 = (table_get w r).getD 0) (r : account) :
    (table_get (weights_add w2 rep amount) r).getD 0 =
      (table_get (weights_add w rep amount) r).getD 0 := by
  rw [weight_add, weight_add, h rep, h r]

theorem weight_sub_lt (w : List (account × Nat)) (rep rep2 : account) (amount : Nat)
    (h : (table_get w rep2).getD 0 < uint128_modulus) :
    (table_get (weights_sub w rep amount) rep2).getD 0 < uint128_modulus := by
  rw [weight_sub]
  by_cases h2 : rep2 = rep
  · rw [if_pos h2]
    exact Nat.mod_lt _ (by unfold uint128_modulus; omega)
  · rw [if_neg h2]; exact h

/-- The pending table after the rollback of the block just applied. -/
theorem undo_pending_apply (st : ledger) (eff : block_effect) (previous_balance : Nat)
    (hc : st.consistent) (hnew : table_get st.blocks eff.stored.block.hash = none)
    (hr : eff.stored.sideband.details.is_send = false →
      eff.stored.sideband.details.is_receive = true →
      ∃ p, table_get st.pending (eff.stored.block.account, eff.stored.block.link) = some p ∧
        eff.stored.block.balance = previous_balance + p.amount) :
    ∃ pending, (st.apply eff).undo_pending eff.stored previous_balance = some pending ∧
      ∀ key, table_get pending key = table_get st.pending key := by
  unfold ledger.undo_pending
  have hpend : (st.apply eff).pending = eff.pending st.pending := rfl
  rw [hpend]
  unfold block_effect.pending
  cases hs : eff.stored.sideband.details.is_send with
  | true =>
    simp only [if_true]
    refine ⟨_, rfl, fun key => ?_⟩
    rw [table_get_del, table_get_put]
    by_cases hk : key = (eff.stored.block.link, eff.stored.block.hash)
    · rw [if_pos hk, hk]
      cases hp : table_get st.pending (eff.stored.block.link, eff.stored.block.hash) with
      | none => rfl
      | some p =>
        obtain ⟨source, hsrc, _⟩ := hc.2.2.2.1 _ _ p hp
        rw [hnew] at hsrc
        exact Option.noConfusion hsrc
    · rw [if_neg hk, if_neg hk]
  | false =>
    simp only [Bool.false_eq_true, if_false]
    cases hrcv : eff.stored.sideband.details.is_receive with
    | true =>
      simp only [if_true]
      obtain ⟨p, hp, hbal⟩ := hr hs hrcv
      obtain ⟨source, hsrc, hacc, hep⟩ := hc.2.2.2.1 _ _ p hp
      have hne : eff.stored.block.link ≠ eff.stored.block.hash := by
        intro hx
        rw [hx, hnew] at hsrc
        exact Option.noConfusion hsrc
      have hblock : table_get (st.apply eff).blocks eff.stored.block.link = some source := by
        show table_get (table_put st.blocks eff.stored.block.hash eff.stored)
          eff.stored.block.link = some source
        rw [table_get_put, if_neg hne]
        exact hsrc
      have hrec : (st.apply eff).recreated_pending eff.stored previous_balance = some p := by
        unfold ledger.recreated_pending
        rw [hblock]
        simp only
        rw [hbal, Nat.add_sub_cancel_left, hacc, hep]
      rw [hrec]
      refine ⟨_, rfl, fun key => ?_⟩
      rw [table_get_put, table_get_del]
      by_cases hk : key = (eff.stored.block.account, eff.stored.block.link)
      · rw [if_pos hk, hk, hp]
      · rw [if_neg hk, if_neg hk]
    | false =>
      simp only [Bool.false_eq_true, if_false]
      exact ⟨_, rfl, fun _ => rfl⟩

/-- The rollback of the block that opened an account restores the state. -/
theorem undo_open_apply (st : ledger) (eff : block_effect)
    (hc : st.consistent) (hv : eff.valid st) (hi : eff.info = none)
    (hnew : table_get st.blocks eff.stored.block.hash = none) :
    ∃ st2, (st.apply eff).undo_open eff.stored = some st2 ∧ st.same st2 := by
  obtain ⟨hacc, _, _, hrecv⟩ := hv
  have hr : eff.stored.sideband.details.is_send = false →
      eff.stored.sideband.details.is_receive = true →
      ∃ p, table_get st.pending (eff.stored.block.account, eff.stored.block.link) = some p ∧
        eff.stored.block.balance = 0 + p.amount := by
    intro h1 h2
    obtain ⟨p, hp, _, hp2⟩ := hrecv h1 h2
    exact ⟨p, hp, by rw [Nat.zero_add]; exact hp2 hi⟩
  obtain ⟨pending, hpend, hsame⟩ := undo_pending_apply st eff 0 hc hnew hr
  unfold ledger.undo_open
  rw [hpend]
  refine ⟨_, rfl, ?_, ?_, hsame, ?_, ?_, fun _ => rfl, ?_, ?_, rfl⟩
  · intro h
    show table_get (table_del (table_put st.blocks eff.stored.block.hash eff.stored)
      eff.stored.block.hash) h = _
    rw [table_get_del, table_get_put]
    by_cases hh : h = eff.stored.block.hash
    · rw [if_pos hh, hh, hnew]
    · rw [if_neg hh, if_neg hh]
  · intro a
    show table_get (table_del (table_put st.accounts eff.stored.block.account eff.account_info)
      eff.stored.block.account) a = _
    rw [table_get_del, table_get_put]
    by_cases ha : a = eff.stored.block.account
    · rw [if_pos ha, ha, hacc, hi]
    · rw [if_neg ha, if_neg ha]
  · intro rep
    show (table_get (weights_sub (eff.weights st.weights) eff.stored.block.representative
      eff.stored.block.balance) rep).getD 0 = (table_get st.weights rep).getD 0
    unfold block_effect.weights
    rw [hi]
    exact weights_add_sub _ _ _ _ (weight_lt st hc _)
  · intro h
    show table_get (table_del (eff.frontiers st.frontiers) eff.stored.block.hash) h = _
    unfold block_effect.frontiers
    rw [hi, table_get_del, table_get_put]
    by_cases hh : h = eff.stored.block.hash
    · rw [if_pos hh, hh]
      cases hf : table_get st.frontiers eff.stored.block.hash with
      | none => rfl
      | some a =>
        have := hc.2.2.1 _ a hf
        rw [hnew] at this
        exact absurd this (by decide)
    · rw [if_neg hh, if_neg hh]
  · show st.block_count + 1 - 1 = st.block_count
    omega
  · show st.account_count + (if eff.info.isNone then 1 else 0) - 1 = st.account_count
    rw [hi]
    show st.account_count + 1 - 1 = st.account_count
    omega

/-- The rollback of the block that followed the head of an account restores
the state. -/
theorem undo_next_apply (st : ledger) (eff : block_effect) (info : account_info)
    (previous : stored_block)
    (hc : st.consistent) (hv : eff.valid st) (hi : eff.info = some info)
    (hprev : table_get st.blocks info.head = some previous)
    (hnew : table_get st.blocks eff.stored.block.hash = none) :
    ∃ st2, (st.apply eff).undo_next eff.stored previous eff.account_info = some st2 ∧
      st.same st2 := by
  obtain ⟨hacc, hprevious, _, hrecv⟩ := hv
  have hp0 : eff.stored.block.previous = info.head := hprevious info hi
  have hacc1 : table_get st.accounts eff.stored.block.account = some info := by rw [hacc, hi]
  obtain ⟨head, hhead, _, hbal, hrep, hcount, hepoch, hfront⟩ := hc.2.1 _ info hacc1
  have hhp : head = previous := Option.some.inj (hhead.symm.trans hprev)
  rw [hhp] at hbal hrep hcount hepoch
  have hne : info.head ≠ eff.stored.block.hash := by
    intro hx
    rw [hx, hnew] at hprev
    exact Option.noConfusion hprev
  have hr : eff.stored.sideband.details.is_send = false →
      eff.stored.sideband.details.is_receive = true →
      ∃ p, table_get st.pending (eff.stored.block.account, eff.stored.block.link) = some p ∧
        eff.stored.block.balance = previous.block.balance + p.amount := by
    intro h1 h2
    obtain ⟨p, hp, hp2, _⟩ := hrecv h1 h2
    exact ⟨p, hp, by rw [hbal]; exact hp2 info hi⟩
  obtain ⟨pending, hpend, hsame⟩ :=
    undo_pending_apply st eff previous.block.balance hc hnew hr
  unfold ledger.undo_next
  rw [hpend]
  refine ⟨_, rfl, ?_, ?_, hsame, ?_, ?_, fun _ => rfl, ?_, ?_, rfl⟩
  · intro h
    show table_get (table_del (table_put st.blocks eff.stored.block.hash eff.stored)
      eff.stored.block.hash) h = _
    rw [table_get_del, table_get_put]
    by_cases hh : h = eff.stored.block.hash
    · rw [if_pos hh, hh, hnew]
    · rw [if_neg hh, if_neg hh]
  · intro a
    show table_get (table_put
      (table_put st.accounts eff.stored.block.account eff.account_info)
      eff.stored.block.account
      { head := eff.stored.block.previous, open_block := eff.account_info.open_block,
        balance := previous.block.balance, representative := previous.block.representative,
        block_count := previous.sideband.height, epoch := previous.sideband.epoch }) a = _
    rw [table_get_put, table_get_put]
    by_cases ha : a = eff.stored.block.account
    · rw [if_pos ha, ha, hacc1, hp0, hbal, hrep, hcount, hepoch]
      unfold block_effect.account_info
      rw [hi]
    · rw [if_neg ha, if_neg ha]
  · intro rep
    show (table_get (weights_add
      (weights_sub (eff.weights st.weights) eff.stored.block.representative
        eff.stored.block.balance)
      previous.block.representative previous.block.balance) rep).getD 0 =
        (table_get st.weights rep).getD 0
    unfold block_effect.weights
    rw [hi, hrep, hbal]
    show (table_get (weights_add
      (weights_sub
        (weights_add (weights_sub st.weights info.representative info.balance)
          eff.stored.block.representative eff.stored.block.balance)
        eff.stored.block.representative eff.stored.block.balance)
      info.representative info.balance) rep).getD 0 = (table_get st.weights rep).getD 0
    rw [weight_add_congr (weights_sub st.weights info.representative info.balance) _
      info.representative info.balance
      (fun r => weights_add_sub _ _ r _ (weight_sub_lt _ _ _ _ (weight_lt st hc _)))]
    exact weights_sub_add _ _ _ _ (weight_lt st hc _)
  · intro h
    show table_get (table_put (table_del (eff.frontiers st.frontiers) eff.stored.block.hash)
      eff.stored.block.previous eff.stored.block.account) h = _
    unfold block_effect.frontiers
    rw [hi, hp0, table_get_put, table_get_del, table_get_put, table_get_del]
    by_cases hh : h = info.head
    · rw [if_pos hh, hh, hfront]
    · rw [if_neg hh, if_neg hh]
      by_cases hh2 : h = eff.stored.block.hash
      · rw [if_pos hh2, hh2]
        cases hf : table_get st.frontiers eff.stored.block.hash with
        | none => rfl
        | some a =>
          have := hc.2.2.1 _ a hf
          rw [hnew] at this
          exact absurd this (by decide)
      · rw [if_neg hh2, if_neg hh2]
  · show st.block_count + 1 - 1 = st.block_count
    omega
  · show st.account_count + (if eff.info.isNone then 1 else 0) = st.account_count
    rw [hi]
    rfl

/-- The rollback of the block just applied restores the state. -/
theorem rollback_apply (st : ledger) (eff : block_effect) (fuel : Nat)
    (hc : st.consistent) (hv : eff.valid st)
    (hnew : table_get st.blocks eff.stored.block.hash = none)
    (hcem : (st.apply eff).cemented eff.stored = false) :
    ∃ st2, (st.apply eff).rollback (fuel + 1) eff.stored.block.hash = some st2 ∧
      st.same st2 := by
  have hb : table_get (st.apply eff).blocks eff.stored.block.hash = some eff.stored := by
    show table_get (table_put st.blocks eff.stored.block.hash eff.stored)
      eff.stored.block.hash = _
    rw [table_get_put, if_pos rfl]
  have ha : table_get (st.apply eff).accounts eff.stored.block.account =
      some eff.account_info := by
    show table_get (table_put st.accounts eff.stored.block.account eff.account_info)
      eff.stored.block.account = _
    rw [table_get_put, if_pos rfl]
  have hhead : eff.account_info.head = eff.stored.block.hash := rfl
  have hrcv : (st.apply eff).received eff.stored = false := by
    unfold ledger.received
    cases hs : eff.stored.sideband.details.is_send with
    | false => rfl
    | true =>
      have hpend : (st.apply eff).pending = eff.pending st.pending := rfl
      rw [hpend]
      unfold block_effect.pending
      rw [hs, if_pos rfl, table_get_put, if_pos rfl]
      rfl
  have hundo : ∃ st2, (st.apply eff).undo_head eff.stored eff.account_info = some st2 ∧
      st.same st2 := by
    unfold ledger.undo_head
    cases hi : eff.info with
    | none =>
      rw [if_pos (hv.2.2.1 hi)]
      exact undo_open_apply st eff hc hv hi hnew
    | some info =>
      have hacc1 : table_get st.accounts eff.stored.block.account = some info := by
        rw [hv.1, hi]
      obtain ⟨previous, hprev, _⟩ := hc.2.1 _ info hacc1
      have hp0 : eff.stored.block.previous = info.head := hv.2.1 info hi
      have hne0 : info.head ≠ 0 := by
        intro hx
        rw [hx, hc.1] at hprev
        exact Option.noConfusion hprev
      have hne : info.head ≠ eff.stored.block.hash := by
        intro hx
        rw [hx, hnew] at hprev
        exact Option.noConfusion hprev
      have hprev1 : table_get (st.apply eff).blocks eff.stored.block.previous =
          some previous := by
        show table_get (table_put st.blocks eff.stored.block.hash eff.stored)
          eff.stored.block.previous = _
        rw [table_get_put, hp0, if_neg hne, hprev]
      rw [if_neg (by rw [hp0]; exact hne0), hprev1]
      exact undo_next_apply st eff info previous hc hv hi hprev hnew
  obtain ⟨st2, h1, h2⟩ := hundo
  refine ⟨st2, ?_, h2⟩
  rw [ledger.rollback]
  simp only [hb, hcem, ha, hhead, hrcv, h1, Bool.false_eq_true, if_false, if_true]

theorem table_get_single {κ β : Type} [DecidableEq κ] (k k2 : κ) (v x : β)
    (h : table_get [(k, v)] k2 = some x) : k2 = k ∧ x = v := by
  unfold table_get at h
  by_cases hk : k = k2
  · rw [if_pos hk] at h
    exact ⟨hk.symm, (Option.some.inj h).symm⟩
  · rw [if_neg hk] at h
    exact Option.noConfusion h

/-- The genesis ledger satisfies the invariants of the data model. -/
theorem genesis_consistent : genesis_ledger.consistent := by
  refine ⟨by decide, ?_, ?_, ?_, ?_⟩
  · intro a info h
    obtain ⟨ha, hi⟩ := table_get_single _ _ _ _ h
    rw [ha, hi]
    exact ⟨⟨⟨ledger_block_type.open, 1, 0, 1, 1, 1000, 1, 0⟩, ⟨1, 0, ⟨false, false, false⟩⟩⟩,
      by decide, by decide⟩
  · intro h a hf
    obtain ⟨hh, _⟩ := table_get_single _ _ _ _ hf
    rw [hh]
    decide
  · intro d h p hp
    exact Option.noConfusion hp
  · intro a w hw
    obtain ⟨_, hw2⟩ := table_get_single _ _ _ _ hw
    rw [hw2]
    decide

/-- The invariants of the data model hold after a block in progress whose
hash is not zero. -/
theorem apply_consistent (st : ledger) (eff : block_effect)
    (hc : st.consistent) (hv : eff.valid st)
    (hnew : table_get st.blocks eff.stored.block.hash = none)
    (h0 : eff.stored.block.hash ≠ 0) : (st.apply eff).consistent := by
  obtain ⟨hc1, hc2, hc3, hc4, hc5⟩ := hc
  have hblocks : ∀ h, table_get (st.apply eff).blocks h =
      if h = eff.stored.block.hash then some eff.stored else table_get st.blocks h :=
    fun h => table_get_put _ _ _ _
  have hold : ∀ h sb, table_get st.blocks h = some sb →
      table_get (st.apply eff).blocks h = some sb := by
    intro h sb hsb
    rw [hblocks, if_neg]
    · exact hsb
    · intro hx
      rw [hx, hnew] at hsb
      exact Option.noConfusion hsb
  refine ⟨?_, ?_, ?_, ?_, ?_⟩
  · rw [hblocks, if_neg (fun hx => h0 hx.symm)]
    exact hc1
  · intro a info ha
    have hacc : table_get (st.apply eff).accounts a =
        if a = eff.stored.block.account then some eff.account_info
        else table_get st.accounts a := table_get_put _ _ _ _
    rw [hacc] at ha
    have hfr : (st.apply eff).frontiers = eff.frontiers st.frontiers := rfl
    by_cases hx : a = eff.stored.block.account
    · rw [if_pos hx] at ha
      have hi : info = eff.account_info := (Option.some.inj ha).symm
      rw [hi, hx]
      refine ⟨eff.stored, ?_, rfl, rfl, rfl, rfl, rfl, ?_⟩
      · rw [hblocks]
        exact if_pos rfl
      · rw [hfr]
        unfold block_effect.frontiers
        rw [table_get_put]
        exact if_pos rfl
    · rw [if_neg hx] at ha
      obtain ⟨head, hhead, h1, h2, h3, h4, h5, h6⟩ := hc2 a info ha
      refine ⟨head, hold _ _ hhead, h1, h2, h3, h4, h5, ?_⟩
      have hne : info.head ≠ eff.stored.block.hash := by
        intro hy
        rw [hy, hnew] at hhead
        exact Option.noConfusion hhead
      rw [hfr]
      unfold block_effect.frontiers
      rw [table_get_put, if_neg hne]
      cases hi : eff.info with
      | none => exact h6
      | some info0 =>
        show table_get (table_del st.frontiers info0.head) info.head = some a
        rw [table_get_del, if_neg]
        · exact h6
        · intro hy
          have hacc0 : table_get st.accounts eff.stored.block.account = some info0 := by
            rw [hv.1, hi]
          obtain ⟨head0, hhead0, h10, _⟩ := hc2 _ info0 hacc0
          rw [← hy, hhead] at hhead0
          have hh : head = head0 := Option.some.inj hhead0
          rw [hh] at h1
          exact hx (h1.symm.trans h10)
  · intro h a hf
    rw [hblocks]
    by_cases hx : h = eff.stored.block.hash
    · rw [if_pos hx]
      rfl
    · rw [if_neg hx]
      have hfr : (st.apply eff).frontiers = eff.frontiers st.frontiers := rfl
      rw [hfr] at hf
      unfold block_effect.frontiers at hf
      rw [table_get_put, if_neg hx] at hf
      cases hi : eff.info with
      | none =>
        rw [hi] at hf
        exact hc3 h a hf
      | some info0 =>
        rw [hi] at hf
        have hf2 : table_get (table_del st.frontiers info0.head) h = some a := hf
        rw [table_get_del] at hf2
        by_cases hy : h = info0.head
        · rw [if_pos hy] at hf2
          exact Option.noConfusion hf2
        · rw [if_neg hy] at hf2
          exact hc3 h a hf2
  · intro d h p hp
    have hpe : (st.apply eff).pending = eff.pending st.pending := rfl
    rw [hpe] at hp
    unfold block_effect.pending at hp
    cases hs : eff.stored.sideband.details.is_send with
    | true =>
      rw [hs, if_pos rfl, table_get_put] at hp
      by_cases hk : (d, h) = (eff.stored.block.link, eff.stored.block.hash)
      · rw [if_pos hk] at hp
        have hh : h = eff.stored.block.hash := (Prod.mk.inj hk).2
        refine ⟨eff.stored, ?_, ?_, ?_⟩
        · rw [hblocks, if_pos hh]
        · rw [← Option.some.inj hp]
        · rw [← Option.some.inj hp]
      · rw [if_neg hk] at hp
        obtain ⟨source, hsrc, hrest⟩ := hc4 d h p hp
        exact ⟨source, hold _ _ hsrc, hrest⟩
    | false =>
      rw [hs] at hp
      simp only [Bool.false_eq_true, if_false] at hp
      cases hr : eff.stored.sideband.details.is_receive with
      | true =>
        rw [hr, if_pos rfl, table_get_del] at hp
        by_cases hk : (d, h) = (eff.stored.block.account, eff.stored.block.link)
        · rw [if_pos hk] at hp
          exact Option.noConfusion hp
        · rw [if_neg hk] at hp
          obtain ⟨source, hsrc, hrest⟩ := hc4 d h p hp
          exact ⟨source, hold _ _ hsrc, hrest⟩
      | false =>
        rw [hr] at hp
        simp only [Bool.false_eq_true, if_false] at hp
        obtain ⟨source, hsrc, hrest⟩ := hc4 d h p hp
        exact ⟨source, hold _ _ hsrc, hrest⟩
  · intro a w hw
    have hM : 0 < uint128_modulus := by unfold uint128_modulus; omega
    have hwe : (st.apply eff).weights = eff.weights st.weights := rfl
    rw [hwe] at hw
    unfold block_effect.weights weights_add at hw
    rw [table_get_put] at hw
    by_cases hx : a = eff.stored.block.representative
    · rw [if_pos hx] at hw
      rw [← Option.some.inj hw]
      exact Nat.mod_lt _ hM
    · rw [if_neg hx] at hw
      cases hi : eff.info with
      | none =>
        rw [hi] at hw
        exact hc5 a w hw
      | some info0 =>
        rw [hi] at hw
        have hw2 : table_get (weights_sub st.weights info0.representative info0.balance) a =
            some w := hw
        unfold weights_sub at hw2
        rw [table_get_put] at hw2
        by_cases hy : a = info0.representative
        · rw [if_pos hy] at hw2
          rw [← Option.some.inj hw2]
          exact Nat.mod_lt _ hM
        · rw [if_neg hy] at hw2
          exact hc5 a w hw2

/-- The invariants of the data model hold after `process` returns `progress`
for a block whose hash is not zero. -/
theorem process_consistent (k : ledger_constants) (st st1 : ledger) (b : ledger_block)
    (hc : st.consistent) (h0 : b.hash ≠ 0)
    (hp : st.process k b = (process_result.progress, st1)) : st1.consistent := by
  obtain ⟨eff, h1, hv, hh, hnew⟩ := process_progress k st st1 b hp
  rw [h1]
  rw [← hh] at hnew h0
  exact apply_consistent st eff hc hv hnew h0

/-- C26: rollback undoes process.  For every ledger state that satisfies the
invariants of the data model and every block for which `process` returns
`progress` and which is not cemented afterwards, `rollback` of the hash of the
block succeeds, with any positive bound on the number of steps, and the state
it returns holds the same data as the state before `process`: blocks, account
infos (heads, balances, representatives), pending entries, representative
weights, frontiers, confirmation heights and the counters. -/
theorem rollback_undoes_process (k : ledger_constants) (st st1 : ledger) (b : ledger_block)
    (fuel : Nat) (hc : st.consistent)
    (hp : st.process k b = (process_result.progress, st1))
    (hnc : ∀ sb, table_get st1.blocks b.hash = some sb → st1.cemented sb = false) :
    ∃ st2, st1.rollback (fuel + 1) b.hash = some st2 ∧ st.same st2 := by
  obtain ⟨eff, h1, hv, hh, hnew⟩ := process_progress k st st1 b hp
  rw [← hh] at hnew hnc ⊢
  rw [h1] at hnc ⊢
  have hb : table_get (st.apply eff).blocks eff.stored.block.hash = some eff.stored := by
    show table_get (table_put st.blocks eff.stored.block.hash eff.stored)
      eff.stored.block.hash = _
    rw [table_get_put, if_pos rfl]
  exact rollback_apply st eff fuel hc hv hnew (hnc eff.stored hb)

/-- Witness of C26 on the genesis ledger: the state send of hash 5 that moves
100 from the genesis account to account 4 and names representative 7. -/
theorem rollback_undoes_process_witness :
    genesis_ledger.consistent ∧
      (genesis_ledger.process sample_constants
        ⟨ledger_block_type.state, 5, 1, 1, 7, 900, 4, 0⟩).1 = process_result.progress ∧
      ∃ st2, (genesis_ledger.process sample_constants
          ⟨ledger_block_type.state, 5, 1, 1, 7, 900, 4, 0⟩).2.rollback 1 5 = some st2 ∧
        genesis_ledger.same st2 :=
  ⟨genesis_consistent, by decide,
    rollback_undoes_process sample_constants genesis_ledger _
      ⟨ledger_block_type.state, 5, 1, 1, 7, 900, 4, 0⟩ 0 genesis_consistent
      (Prod.ext (by decide) rfl)
      (fun sb h => by
        have h1 : table_get (genesis_ledger.process sample_constants
            ⟨ledger_block_type.state, 5, 1, 1, 7, 900, 4, 0⟩).2.blocks 5 =
            some ⟨⟨ledger_block_type.state, 5, 1, 1, 7, 900, 4, 0⟩,
              ⟨2, 0, ⟨true, false, false⟩⟩⟩ := by decide
        rw [h1] at h
        cases h
        decide)⟩

end nano
